import Mathlib

/-! Block cache and inode extent map of the Pintos file system

A shallow embedding of `filesys/cache.c` and of the offset translation and
growth routines of `filesys/inode.c`.

* A sector payload is a list of bytes; `memcpy` of `BLOCK_SECTOR_SIZE` bytes
  is a copy of the whole payload.
* The content of the block device `fs_device` is a map from sector numbers to
  payloads and is carried inside the cache state, because the cache is the only
  component that touches it. The number of sectors of the device is a
  parameter of `inode_read_at`, where a read past the end of the device
  stops the kernel.
* In the sequential embedding locks are not modelled: every operation runs to
  completion before the next one starts. The section on two concurrent
  writers models the locks of `cache_write` and the interleaving of its steps.
* `block_sector_t` and `size_t` are 32-bit unsigned, `off_t` is a 32-bit
  signed integer; they are embedded as `Nat` / `Int`, with the wrap-around
  written out where the source relies on it.
-/

namespace Pintos

/-! ## Data model -/

/-- Contents of one sector: `BLOCK_SECTOR_SIZE` bytes. -/
abbrev SectorData := List Nat

/-- Sector size in bytes (`BLOCK_SECTOR_SIZE`). -/
def BLOCK_SECTOR_SIZE : Nat := 512

/-- Number of slots of the cache (`#define CACHE_SIZE 64`). -/
def CACHE_SIZE : Nat := 64

/-- An all-zero sector, the value of a zero-initialised static buffer. -/
def zeroSector : SectorData := List.replicate 512 0

/-- The `struct cache_entry` of cache.c, without its lock and list element. -/
structure cache_entry where
  data : SectorData
  dirty : Bool
  valid : Bool
  sector : Nat

/-- The cache state: the static array `blocks`, the length of `clock_list`
(`list_size (&clock_list)`), the global `clock_hand`, and the device. -/
structure Cache where
  blocks : Nat → cache_entry
  size : Nat
  clock_hand : Nat
  dev : Nat → SectorData

/-- Assignment to `blocks[i]`. -/
def setBlock (blocks : Nat → cache_entry) (i : Nat) (e : cache_entry) : Nat → cache_entry :=
  fun j => if j = i then e else blocks j

/-- The device after `block_write (fs_device, s, d)`. -/
def block_write (dev : Nat → SectorData) (s : Nat) (d : SectorData) : Nat → SectorData :=
  fun t => if t = s then d else dev t

/-- State after `cache_init`: the statics are zero-initialised, the list is
empty, and the device holds `dev`. -/
def cache_init (dev : Nat → SectorData) : Cache :=
  { blocks := fun _ => { data := zeroSector, dirty := false, valid := false, sector := 0 }
    size := 0
    clock_hand := 0
    dev := dev }

/-- The lookup loop shared by `cache_read` and `cache_write`:
`for (; i < size; i++) if (blocks[i].sector == sector) ...`; the first
matching index, if any. -/
def cache_lookup (c : Cache) (sector : Nat) : Option Nat :=
  (List.range c.size).find? (fun i => (c.blocks i).sector == sector)

/-- The victim loop of cache.c, entered with `idx = clock_hand`, `j = 0` and
`n = CACHE_SIZE` iterations left:
`idx = (idx + j) % CACHE_SIZE; if (!valid) { valid = 1; break; } valid = 0;`.
Returns the slot array and the final `idx`. -/
def clock_scan (blocks : Nat → cache_entry) (idx j : Nat) : Nat → (Nat → cache_entry) × Nat
  | 0 => (blocks, idx)
  | n + 1 =>
    let idx1 := (idx + j) % CACHE_SIZE
    if (blocks idx1).valid = false then
      (setBlock blocks idx1 { blocks idx1 with valid := true }, idx1)
    else
      clock_scan (setBlock blocks idx1 { blocks idx1 with valid := false }) idx1 (j + 1) n

/-- The function `cache_read (sector, buffer)`: the new state and the bytes
copied into `buffer`. -/
def cache_read (c : Cache) (sector : Nat) : Cache × SectorData :=
  match cache_lookup c sector with
  | some i => (c, (c.blocks i).data)
  | none =>
    if c.size < CACHE_SIZE then
      let d := c.dev sector
      ({ c with
          blocks := setBlock c.blocks c.size
            { c.blocks c.size with dirty := false, valid := false, sector := sector, data := d }
          size := c.size + 1 }, d)
    else
      let r := clock_scan c.blocks c.clock_hand 0 CACHE_SIZE
      let block := r.1 r.2
      let dev1 := if block.dirty then block_write c.dev block.sector block.data else c.dev
      let d := dev1 sector
      ({ blocks := setBlock r.1 r.2 { block with sector := sector, dirty := false, data := d }
         size := c.size
         clock_hand := r.2
         dev := dev1 }, d)

/-- The function `cache_write (sector, buffer)`. -/
def cache_write (c : Cache) (sector : Nat) (buffer : SectorData) : Cache :=
  match cache_lookup c sector with
  | some i => { c with blocks := setBlock c.blocks i { c.blocks i with dirty := true, data := buffer } }
  | none =>
    if c.size < CACHE_SIZE then
      { c with
          blocks := setBlock c.blocks c.size
            { c.blocks c.size with dirty := true, sector := sector, data := buffer }
          size := c.size + 1 }
    else
      let r := clock_scan c.blocks c.clock_hand 0 CACHE_SIZE
      let block := r.1 r.2
      let dev1 := if block.dirty then block_write c.dev block.sector block.data else c.dev
      { blocks := setBlock r.1 r.2 { block with sector := sector, dirty := true, data := buffer }
        size := c.size
        clock_hand := r.2
        dev := dev1 }

/-- One iteration of the loop of `cache_flush` at index `i`. -/
def flush_step (c : Cache) (i : Nat) : Cache :=
  if (c.blocks i).dirty then
    { c with
        dev := block_write c.dev (c.blocks i).sector (c.blocks i).data
        blocks := setBlock c.blocks i { c.blocks i with dirty := false } }
  else c

/-- The first `n` iterations of the loop of `cache_flush`. -/
def flush_upto (c : Cache) (n : Nat) : Cache :=
  (List.range n).foldl flush_step c

/-- The function `cache_flush`: `for (i = 0; i < size; i++)`. -/
def cache_flush (c : Cache) : Cache :=
  flush_upto c c.size

/-- Cache states reachable from `cache_init` by sequential calls. -/
inductive Reachable : Cache → Prop
  | init (dev : Nat → SectorData) : Reachable (cache_init dev)
  | read (c : Cache) (s : Nat) : Reachable c → Reachable (cache_read c s).1
  | write (c : Cache) (s : Nat) (d : SectorData) : Reachable c → Reachable (cache_write c s d)
  | flush (c : Cache) : Reachable c → Reachable (cache_flush c)

/-- A call of the cache interface. -/
inductive CacheOp where
  | read (sector : Nat)
  | write (sector : Nat) (buffer : SectorData)
  | flush

/-- Runs a sequence of calls on the cache, collecting what each `cache_read` returned. -/
def runCache (c : Cache) : List CacheOp → Cache × List SectorData
  | [] => (c, [])
  | CacheOp.read s :: ops =>
    let r := runCache (cache_read c s).1 ops
    (r.1, (cache_read c s).2 :: r.2)
  | CacheOp.write s d :: ops => runCache (cache_write c s d) ops
  | CacheOp.flush :: ops => runCache (cache_flush c) ops

/-- The specification's reference object, a plain sector-to-bytes map: a read
returns the map's value, a write updates it, a flush does nothing. -/
def runMap (m : Nat → SectorData) : List CacheOp → (Nat → SectorData) × List SectorData
  | [] => (m, [])
  | CacheOp.read s :: ops =>
    let r := runMap m ops
    (r.1, m s :: r.2)
  | CacheOp.write s d :: ops => runMap (block_write m s d) ops
  | CacheOp.flush :: ops => runMap m ops

/-! ## On-disk inode: layout -/

/-- Number of direct pointers (`#define DIRECT_SIZE 122`). -/
def DIRECT_SIZE : Nat := 122

/-- The value `-1` converted to `block_sector_t`: the "no data" result of
`byte_to_sector`. -/
def NO_SECTOR : Nat := ((-1 : Int) % 4294967296).toNat

/-- Byte `i` of a sector buffer. -/
def getByte (d : SectorData) (i : Nat) : Nat := d.getD i 0 % 256

/-- The 32-bit little-endian word at word index `k` of a sector buffer, the
way a `block_sector_t[128]` overlay reads it. -/
def getWord (d : SectorData) (k : Nat) : Nat :=
  getByte d (4 * k) + 256 * getByte d (4 * k + 1) + 65536 * getByte d (4 * k + 2)
    + 16777216 * getByte d (4 * k + 3)

/-- The four bytes of a 32-bit word, little-endian. -/
def wordBytes (w : Nat) : List Nat :=
  [w % 256, w / 256 % 256, w / 65536 % 256, w / 16777216 % 256]

/-- A 32-bit word read as a signed `off_t`. -/
def toInt32 (w : Nat) : Int :=
  if w < 2147483648 then (w : Int) else (w : Int) - 4294967296

/-- A signed `off_t` stored as a 32-bit word. -/
def ofInt32 (x : Int) : Nat := (x % 4294967296).toNat

/-- The `struct inode_disk` of inode.c: exactly one sector. -/
structure inode_disk where
  direct : List Nat
  indirect : Nat
  doubly_indirect : Nat
  directory : Bool
  parent_node : Nat
  length : Int
  magic : Nat

/-- The `struct indirect_block`: `block_ptrs[128]`. -/
abbrev indirect_block := List Nat

/-- The cast `(struct inode_disk *) buf`: words 0..121 are `direct`, word 122
`indirect`, word 123 `doubly_indirect`, byte 496 `directory`, word 125
`parent_node`, word 126 `length`, word 127 `magic`. -/
def decode_inode (d : SectorData) : inode_disk :=
  { direct := (List.range DIRECT_SIZE).map (getWord d)
    indirect := getWord d 122
    doubly_indirect := getWord d 123
    directory := getByte d 496 != 0
    parent_node := getWord d 125
    length := toInt32 (getWord d 126)
    magic := getWord d 127 }

/-- The bytes of a `struct inode_disk` as `cache_write` copies them (padding
after `directory` is zero, as left by `calloc`). -/
def encode_inode (data : inode_disk) : SectorData :=
  (List.range DIRECT_SIZE).flatMap (fun k => wordBytes (data.direct.getD k 0))
    ++ wordBytes data.indirect ++ wordBytes data.doubly_indirect
    ++ [if data.directory then 1 else 0, 0, 0, 0]
    ++ wordBytes data.parent_node ++ wordBytes (ofInt32 data.length) ++ wordBytes data.magic

/-- A sector buffer read as a `struct indirect_block`. -/
def decode_indirect (d : SectorData) : indirect_block :=
  (List.range 128).map (getWord d)

/-- The bytes of a `struct indirect_block`. -/
def encode_indirect (b : indirect_block) : SectorData :=
  (List.range 128).flatMap (fun k => wordBytes (b.getD k 0))

/-- The macro `bytes_to_sectors`: `DIV_ROUND_UP (size, BLOCK_SECTOR_SIZE)`,
that is `(size + 512 - 1) / 512` in `int` arithmetic (truncating division),
converted to `size_t`. -/
def bytes_to_sectors (size : Int) : Nat :=
  (Int.tdiv (size + 511) 512 % 4294967296).toNat

/-- The in-memory `struct inode`, without its list element. -/
structure inode where
  sector : Nat
  open_cnt : Int
  removed : Bool
  deny_write_cnt : Int

/-! ## Offset translation -/

/-- The function `byte_to_sector (inode, pos)`: the cache after the reads it
makes and the sector it returns. -/
def byte_to_sector (c : Cache) (ino : inode) (pos : Int) : Cache × Nat :=
  let r0 := cache_read c ino.sector
  let data := decode_inode r0.2
  if pos < data.length ∧ pos ≥ 0 then
    let idx := Int.tdiv pos 512
    if idx < 122 then
      (r0.1, data.direct.getD idx.toNat 0)
    else if idx < 122 + 128 then
      let r1 := cache_read r0.1 data.indirect
      (r1.1, getWord r1.2 (idx - 122).toNat)
    else if idx < 122 + 128 * 128 then
      let idx2 := idx - (122 + 128)
      let r1 := cache_read r0.1 data.doubly_indirect
      let sector := getWord r1.2 (Int.tdiv idx2 128).toNat
      let r2 := cache_read r1.1 sector
      (r2.1, getWord r2.2 (Int.tmod idx2 128).toNat)
    else
      (r0.1, NO_SECTOR)
  else
    (r0.1, NO_SECTOR)

/-! ## Free map -/

/-- Modelled from the spec: the free-space allocator (`free-map.c` is not among
the sources). "Allocator contract: `allocate(count) -> first_sector | failure`":
a bitmap over `size` sectors, where a bit set means in use. -/
structure FreeMap where
  used : Nat → Bool
  size : Nat

/-- Modelled from the spec: `free_map_allocate (1, &sector)`, the only count
inode.c asks for: the first free sector is marked used and returned; `none`
is the failure result, which leaves the map and `*sector` alone. -/
def free_map_allocate (fm : FreeMap) : Option (Nat × FreeMap) :=
  match (List.range fm.size).find? (fun i => !fm.used i) with
  | none => none
  | some i => some (i, { fm with used := fun j => if j = i then true else fm.used j })

/-- The state inode.c works on: the cache (with the device) and the free map. -/
structure FsState where
  cache : Cache
  fm : FreeMap

/-! ## Growth -/

/-- The allocation loop that inode.c writes three times (over `data->direct`
in `inode_extend`, over `inode_indirect->block_ptrs` in `inode_extend`, and in
`indirect_blocker`): starting at index `i`, for `n` iterations,
`if (!free_map_allocate (1, &ptrs[i])) return false; cache_write (ptrs[i], buf);`
with `buf` a zeroed static buffer. Returns the state, the pointer array and
whether every allocation succeeded. A store at an index outside the list
is not represented. -/
def alloc_loop (s : FsState) (ptrs : List Nat) (i : Int) : Nat → FsState × List Nat × Bool
  | 0 => (s, ptrs, true)
  | n + 1 =>
    match free_map_allocate s.fm with
    | none => (s, ptrs, false)
    | some (sec, fm1) =>
      alloc_loop { cache := cache_write s.cache sec zeroSector, fm := fm1 }
        (if 0 ≤ i then ptrs.set i.toNat sec else ptrs) (i + 1) n

/-- The function `indirect_blocker (block, start, stop)`:
`for (int i = start; i <= stop; i++)`. -/
def indirect_blocker (s : FsState) (block : indirect_block) (start stop : Int) :
    FsState × indirect_block × Bool :=
  alloc_loop s block start (stop + 1 - start).toNat

/-- Intermediate result of `inode_extend`: state, record, the local `cur`, and
`ok = false` when the function has already executed `return false`. -/
structure ExtendStep where
  st : FsState
  data : inode_disk
  cur : Nat
  ok : Bool

/-- The block `if (cur < DIRECT_SIZE) { ... }` of `inode_extend`. -/
def extend_direct (s : FsState) (data : inode_disk) (cur new : Nat) : ExtendStep :=
  if cur < DIRECT_SIZE then
    let lim := if new < DIRECT_SIZE then new else DIRECT_SIZE
    let r := alloc_loop s data.direct cur (lim - cur)
    { st := r.1, data := { data with direct := r.2.1 }, cur := DIRECT_SIZE, ok := r.2.2 }
  else
    { st := s, data := data, cur := cur, ok := true }

/-- The block `if (cur < DIRECT_SIZE + 128 && new > DIRECT_SIZE) { ... }` of
`inode_extend`. Here `cur >= DIRECT_SIZE` (the previous block either set it or
was skipped because of it), so `cur - DIRECT_SIZE` does not wrap. -/
def extend_indirect (s : FsState) (data : inode_disk) (cur new : Nat) : ExtendStep :=
  if cur < DIRECT_SIZE + 128 ∧ new > DIRECT_SIZE then
    let rd := cache_read s.cache data.indirect
    let lim := if new ≥ DIRECT_SIZE + 128 then 128 else new - DIRECT_SIZE
    let r := alloc_loop { s with cache := rd.1 } (decode_indirect rd.2)
      ((cur - DIRECT_SIZE : Nat) : Int) (lim - (cur - DIRECT_SIZE))
    if r.2.2 then
      { st := { r.1 with cache := cache_write r.1.cache data.indirect (encode_indirect r.2.1) }
        data := data, cur := DIRECT_SIZE + 128, ok := true }
    else
      { st := r.1, data := data, cur := cur, ok := false }
  else
    { st := s, data := data, cur := cur, ok := true }

/-- The loop `for (off_t i = mini; i <= maxi; i++)` of `inode_extend` over the
children of the double-indirect block, with `n` iterations left. -/
def extend_children (doubly : indirect_block) (cur new : Nat) (mini maxi : Int) :
    FsState → Int → Nat → FsState × Bool
  | s, _, 0 => (s, true)
  | s, i, n + 1 =>
    let min : Int := if i = mini then (((cur - DIRECT_SIZE + 128) % 128 : Nat) : Int) else 0
    let max : Int := if i = maxi then (((new - DIRECT_SIZE + 128) % 128 : Nat) : Int) - 1 else 128
    let child := doubly.getD i.toNat 0
    let rd := cache_read s.cache child
    let r := indirect_blocker { s with cache := rd.1 } (decode_indirect rd.2) min max
    if r.2.2 then
      extend_children doubly cur new mini maxi
        { r.1 with cache := cache_write r.1.cache child (encode_indirect r.2.1) } (i + 1) n
    else
      (r.1, false)

/-- The block
`if (cur < DIRECT_SIZE + 128 + 128 * 128 && new > DIRECT_SIZE + 128) { ... }`
of `inode_extend`. Here `cur >= DIRECT_SIZE + 128` and `new > DIRECT_SIZE`, so
the `size_t` subtractions do not wrap. -/
def extend_doubly (s : FsState) (data : inode_disk) (cur new : Nat) : ExtendStep :=
  if cur < DIRECT_SIZE + 128 + 128 * 128 ∧ new > DIRECT_SIZE + 128 then
    let mini : Int := (((cur - DIRECT_SIZE + 128) / 128 : Nat) : Int)
    let maxi : Int := (((new - DIRECT_SIZE + 128) / 128 : Nat) : Int) - 1
    let rd := cache_read s.cache data.doubly_indirect
    let r := indirect_blocker { s with cache := rd.1 } (decode_indirect rd.2) mini maxi
    if r.2.2 then
      let r2 := extend_children r.2.1 cur new mini maxi r.1 mini (maxi + 1 - mini).toNat
      if r2.2 then
        { st := { r2.1 with
                    cache := cache_write r2.1.cache data.doubly_indirect (encode_indirect r.2.1) }
          data := data, cur := cur, ok := true }
      else
        { st := r2.1, data := data, cur := cur, ok := false }
    else
      { st := r.1, data := data, cur := cur, ok := false }
  else
    { st := s, data := data, cur := cur, ok := true }

/-- The function `inode_extend (data, length)`: the state, the record `*data`
and the returned flag. -/
def inode_extend (s : FsState) (data : inode_disk) (length : Int) :
    FsState × inode_disk × Bool :=
  let cur := bytes_to_sectors data.length
  let new := bytes_to_sectors length
  if new < cur then (s, data, false)
  else if new = cur then (s, data, true)
  else if length > (((DIRECT_SIZE + 128 + 128 * DIRECT_SIZE) * BLOCK_SECTOR_SIZE : Nat) : Int)
      ∨ length < data.length then (s, data, false)
  else
    let r1 := extend_direct s data cur new
    if r1.ok then
      let r2 := extend_indirect r1.st r1.data r1.cur new
      if r2.ok then
        let r3 := extend_doubly r2.st r2.data r2.cur new
        if r3.ok then
          (r3.st, { r3.data with length := length }, true)
        else (r3.st, r3.data, false)
      else (r2.st, r2.data, false)
    else (r1.st, r1.data, false)

/-! ## Creation -/

/-- The function `fm_allo (data)`: allocates the single-indirect and the
double-indirect index sector and zeroes each. -/
def fm_allo (s : FsState) (data : inode_disk) : FsState × inode_disk × Bool :=
  match free_map_allocate s.fm with
  | none => (s, data, false)
  | some (a, fm1) =>
    let s1 : FsState := { cache := cache_write s.cache a zeroSector, fm := fm1 }
    let data1 := { data with indirect := a }
    match free_map_allocate s1.fm with
    | none => (s1, data1, false)
    | some (b, fm2) =>
      ({ cache := cache_write s1.cache b zeroSector, fm := fm2 },
       { data1 with doubly_indirect := b }, true)

/-- The record `calloc` returns in `inode_create`, after `directory` and
`magic` are set. -/
def fresh_inode_disk (isdir : Bool) : inode_disk :=
  { direct := List.replicate DIRECT_SIZE 0, indirect := 0, doubly_indirect := 0
    directory := isdir, parent_node := 0, length := 0, magic := 1229868868 }

/-- The function `inode_create (sector, length, isdir)`; `calloc_ok` tells
whether `calloc` returned a record. `success = fm_allo (..) && inode_extend (..)`,
and the record is written to `sector` whatever `success` is. -/
def inode_create (s : FsState) (sector : Nat) (length : Int) (isdir : Bool)
    (calloc_ok : Bool) : FsState × Bool :=
  if calloc_ok then
    let r1 := fm_allo s (fresh_inode_disk isdir)
    if r1.2.2 then
      let r2 := inode_extend r1.1 r1.2.1 length
      ({ r2.1 with cache := cache_write r2.1.cache sector (encode_inode r2.2.1) }, r2.2.2)
    else
      ({ r1.1 with cache := cache_write r1.1.cache sector (encode_inode r1.2.1) }, false)
  else (s, false)

/-! ## Deallocation -/

/-- Modelled from the spec: `free_map_release (sector, cnt)` of the allocator
contract "`release(sector, count)`" (`free-map.c` is not among the sources):
the `cnt` sectors starting at `sector` become free. -/
def free_map_release (fm : FreeMap) (sector cnt : Nat) : FreeMap :=
  { fm with used := fun j => if sector ≤ j ∧ j < sector + cnt then false else fm.used j }

/-- A call of `fm_release`, as inode.c makes it: either with a pointer array
(`data->direct`, `block_ptrs`) or with a sector number (`data->indirect`,
`data->doubly_indirect`), and a count. -/
inductive ReleaseCall where
  | ptrs (a : List Nat) (cnt : Nat)
  | sector (s : Nat) (cnt : Nat)

/-- Modelled from the spec: `fm_release` is not among the sources; following
"`release(sector, count)`", a call with a pointer array returns each of its
first `cnt` sectors to the allocator, and a call with a sector number
returns the `cnt` sectors starting there. -/
def fm_release (fm : FreeMap) : ReleaseCall → FreeMap
  | ReleaseCall.ptrs a cnt => (a.take cnt).foldl (fun m x => free_map_release m x 1) fm
  | ReleaseCall.sector x cnt => free_map_release fm x cnt

/-- The statement `left -= n` on a `size_t`. -/
def size_sub (left n : Nat) : Nat := (left + 4294967296 - n) % 4294967296

/-- The loop `for (off_t i = 0; i < 128; i++)` of `inode_dealloc` over the
children of the double-indirect block, with `n` iterations left; `calls` are
the `fm_release` calls made so far. -/
def dealloc_children (data : inode_disk) (doubly : indirect_block) :
    Nat → Nat → Cache → Nat → List ReleaseCall → Cache × List ReleaseCall
  | _, 0, c, _, calls => (c, calls)
  | i, n + 1, c, left, calls =>
    let r := cache_read c (doubly.getD i 0)
    let calls1 := calls ++ [ReleaseCall.ptrs (decode_indirect r.2) 128]
    let left1 := size_sub left 128
    if left1 = 0 then
      (r.1, calls1 ++ [ReleaseCall.sector data.doubly_indirect 128])
    else
      dealloc_children data doubly (i + 1) n r.1 left1
        (calls1 ++ [ReleaseCall.ptrs doubly 128])

/-- The block `if (cur > DIRECT_SIZE + 128 + 128) { ... }` of `inode_dealloc`
and the final `return true`. -/
def dealloc_doubly (data : inode_disk) (cur : Nat) (c : Cache) (left : Nat)
    (calls : List ReleaseCall) : Cache × List ReleaseCall :=
  if cur > DIRECT_SIZE + 128 + 128 then
    let r := cache_read c data.doubly_indirect
    dealloc_children data (decode_indirect r.2) 0 128 r.1 left calls
  else (c, calls)

/-- The function `inode_dealloc (inode)`: the cache after its reads and the
`fm_release` calls it makes, in order (it always returns true). The test
`left <= 0` on the `size_t` variable `left` is `left == 0`. -/
def inode_dealloc (c : Cache) (ino : inode) : Cache × List ReleaseCall :=
  let r0 := cache_read c ino.sector
  let data := decode_inode r0.2
  let cur := bytes_to_sectors data.length
  let calls0 := [ReleaseCall.ptrs data.direct DIRECT_SIZE]
  let left0 := size_sub cur DIRECT_SIZE
  if left0 = 0 then (r0.1, calls0)
  else if cur > DIRECT_SIZE + 128 then
    let r1 := cache_read r0.1 data.indirect
    let calls1 := calls0 ++ [ReleaseCall.ptrs (decode_indirect r1.2) 128]
    let left1 := size_sub left0 128
    if left1 = 0 then (r1.1, calls1 ++ [ReleaseCall.sector data.indirect 128])
    else dealloc_doubly data cur r1.1 left1 calls1
  else dealloc_doubly data cur r0.1 left0 calls0

/-! ## Handles -/

/-- The list `open_inodes` together with the `struct inode` objects that
`malloc` has handed out: `heap p` is the object at address `p`, `none` when
there is none (a null or freed pointer). -/
structure Registry where
  heap : Nat → Option inode
  open_inodes : List Nat

/-- Assignment to the object at address `p`. -/
def setHandle (heap : Nat → Option inode) (p : Nat) (h : Option inode) : Nat → Option inode :=
  fun q => if q = p then h else heap q

/-- The function `inode_init`: `list_init (&open_inodes)`. -/
def inode_init (heap : Nat → Option inode) : Registry :=
  { heap := heap, open_inodes := [] }

/-- The search loop of `inode_open`: the first handle on `open_inodes` whose
`sector` is the requested one. -/
def find_open (reg : Registry) (sector : Nat) : Option Nat :=
  reg.open_inodes.find? (fun p =>
    match reg.heap p with
    | some h => h.sector == sector
    | none => false)

/-- The function `inode_reopen (inode)`: `if (inode != NULL) inode->open_cnt++`. -/
def inode_reopen (reg : Registry) (p : Nat) : Registry :=
  match reg.heap p with
  | some h => { reg with heap := setHandle reg.heap p (some { h with open_cnt := h.open_cnt + 1 }) }
  | none => reg

/-- The function `inode_open (sector)`; `m` is what `malloc` returns when it
is called (`none` for a null pointer). Returns the state and the handle. -/
def inode_open (fs : FsState) (reg : Registry) (sector : Nat) (m : Option Nat) :
    FsState × Registry × Option Nat :=
  match find_open reg sector with
  | some p => (fs, inode_reopen reg p, some p)
  | none =>
    match m with
    | none => (fs, reg, none)
    | some p =>
      ({ fs with cache := (cache_read fs.cache sector).1 },
       { heap := setHandle reg.heap p
           (some { sector := sector, open_cnt := 1, removed := false, deny_write_cnt := 0 })
         open_inodes := p :: reg.open_inodes },
       some p)

/-- The function `inode_remove (inode)`. -/
def inode_remove (reg : Registry) (p : Nat) : Registry :=
  match reg.heap p with
  | some h => { reg with heap := setHandle reg.heap p (some { h with removed := true }) }
  | none => reg

/-- The function `inode_close (inode)`. -/
def inode_close (fs : FsState) (reg : Registry) (p : Nat) : FsState × Registry :=
  match reg.heap p with
  | none => (fs, reg)
  | some h =>
    if h.open_cnt - 1 = 0 then
      let reg1 : Registry :=
        { heap := setHandle reg.heap p none, open_inodes := reg.open_inodes.erase p }
      if h.removed then
        let fm1 := free_map_release fs.fm h.sector 1
        let d := inode_dealloc fs.cache { h with open_cnt := h.open_cnt - 1 }
        ({ cache := d.1, fm := d.2.foldl fm_release fm1 }, reg1)
      else (fs, reg1)
    else
      (fs, { reg with heap := setHandle reg.heap p (some { h with open_cnt := h.open_cnt - 1 }) })

/-- The function `inode_deny_write (inode)`; `none` when the assertion
`deny_write_cnt <= open_cnt` fails. -/
def inode_deny_write (reg : Registry) (p : Nat) : Option Registry :=
  match reg.heap p with
  | none => none
  | some h =>
    if h.deny_write_cnt + 1 ≤ h.open_cnt then
      some { reg with
        heap := setHandle reg.heap p (some { h with deny_write_cnt := h.deny_write_cnt + 1 }) }
    else none

/-- The function `inode_allow_write (inode)`; `none` when one of the
assertions `deny_write_cnt > 0`, `deny_write_cnt <= open_cnt` fails. -/
def inode_allow_write (reg : Registry) (p : Nat) : Option Registry :=
  match reg.heap p with
  | none => none
  | some h =>
    if h.deny_write_cnt > 0 ∧ h.deny_write_cnt ≤ h.open_cnt then
      some { reg with
        heap := setHandle reg.heap p (some { h with deny_write_cnt := h.deny_write_cnt - 1 }) }
    else none

/-- States reachable from `inode_init` by sequential calls on live handles
(`malloc` returning a null pointer or an unused address). `closable h` is what
a caller must know of a handle before it calls `inode_close` on it. -/
inductive HandleReach (closable : inode → Prop) : FsState × Registry → Prop
  | init (fs : FsState) : HandleReach closable (fs, inode_init (fun _ => none))
  | openh (st : FsState × Registry) (sector : Nat) (m : Option Nat) :
      HandleReach closable st → (∀ p, m = some p → st.2.heap p = none) →
      HandleReach closable
        ((inode_open st.1 st.2 sector m).1, (inode_open st.1 st.2 sector m).2.1)
  | reopen (st : FsState × Registry) (p : Nat) (h : inode) :
      HandleReach closable st → st.2.heap p = some h →
      HandleReach closable (st.1, inode_reopen st.2 p)
  | remove (st : FsState × Registry) (p : Nat) (h : inode) :
      HandleReach closable st → st.2.heap p = some h →
      HandleReach closable (st.1, inode_remove st.2 p)
  | close (st : FsState × Registry) (p : Nat) (h : inode) :
      HandleReach closable st → st.2.heap p = some h → closable h →
      HandleReach closable (inode_close st.1 st.2 p)
  | deny (st : FsState × Registry) (p : Nat) (reg : Registry) :
      HandleReach closable st → inode_deny_write st.2 p = some reg →
      HandleReach closable (st.1, reg)
  | allow (st : FsState × Registry) (p : Nat) (reg : Registry) :
      HandleReach closable st → inode_allow_write st.2 p = some reg →
      HandleReach closable (st.1, reg)

/-! ## Reading and writing -/

/-- The function `inode_length (inode)`. -/
def inode_length (c : Cache) (ino : inode) : Cache × Int :=
  let r := cache_read c ino.sector
  (r.1, (decode_inode r.2).length)

/-- Modelled from the spec: the call `cache_read (sector_idx, ..)` of
`inode_read_at` on a device of `dsize` sectors. The block layer (`block.c`) is not
among the sources; the device is "a fixed-size block device" and a failed device
access "is treated as fatal to the operation in progress (the original design
aborts rather than propagating a soft error)". A resident sector is copied from
its slot without touching the device. Otherwise `cache_read` fetches the sector
with `block_read (fs_device, sector, ..)`, which stops the kernel for a sector
number that is not below the size of the device: `none`, the call does not
return. -/
def cache_read_dev (dsize : Nat) (c : Cache) (sector : Nat) : Option (Cache × SectorData) :=
  match cache_lookup c sector with
  | some _ => some (cache_read c sector)
  | none => if sector < dsize then some (cache_read c sector) else none

/-- The loop of `inode_read_at` on a device of `dsize` sectors, with `fuel`
iterations left; `out` are the bytes copied to the caller's buffer so far (so
`bytes_read` is its length). The bounce buffer is taken to be allocated. The
sector that `byte_to_sector` returned is handed to `cache_read` as it is; the
result is `none` when that read stops the kernel. -/
def read_loop (dsize : Nat) (ino : inode) :
    Nat → Cache → List Nat → Int → Int → Option (Cache × List Nat)
  | 0, c, out, _, _ => some (c, out)
  | fuel + 1, c, out, size, offset =>
    if size > 0 then
      let r1 := byte_to_sector c ino offset
      let sector_ofs := Int.tmod offset 512
      let r2 := inode_length r1.1 ino
      let inode_left := r2.2 - offset
      let sector_left := 512 - sector_ofs
      let min_left := if inode_left < sector_left then inode_left else sector_left
      let chunk_size := if size < min_left then size else min_left
      if chunk_size ≤ 0 then some (r2.1, out)
      else
        match cache_read_dev dsize r2.1 r1.2 with
        | none => none
        | some r3 =>
          let bytes :=
            if sector_ofs = 0 ∧ chunk_size = 512 then (List.range 512).map (getByte r3.2)
            else (List.range chunk_size.toNat).map (fun k => getByte r3.2 (sector_ofs.toNat + k))
          read_loop dsize ino fuel r3.1 (out ++ bytes) (size - chunk_size) (offset + chunk_size)
    else some (c, out)

/-- The function `inode_read_at (inode, buffer, size, offset)` on a device of
`dsize` sectors: the cache and the bytes read, or `none` when the call does not
return; the number returned is the length of that list. Every iteration that
does not leave the loop consumes at least one byte of `size`, so `size`
iterations are enough. -/
def inode_read_at (dsize : Nat) (c : Cache) (ino : inode) (size offset : Int) :
    Option (Cache × List Nat) :=
  read_loop dsize ino size.toNat c [] size offset

/-- The loop of `inode_write_at` with `fuel` iterations left; `written` is
`bytes_written`. The bounce buffer is taken to be allocated. -/
def write_loop (ino : inode) (buffer : List Nat) : Nat → Cache → Int → Int → Int → Cache × Int
  | 0, c, written, _, _ => (c, written)
  | fuel + 1, c, written, size, offset =>
    if size > 0 then
      let r1 := byte_to_sector c ino offset
      let sector_ofs := Int.tmod offset 512
      let r2 := inode_length r1.1 ino
      let inode_left := r2.2 - offset
      let sector_left := 512 - sector_ofs
      let min_left := if inode_left < sector_left then inode_left else sector_left
      let chunk_size := if size < min_left then size else min_left
      if chunk_size ≤ 0 then (r2.1, written)
      else if sector_ofs = 0 ∧ chunk_size = 512 then
        let c3 := cache_write r2.1 r1.2
          ((List.range 512).map (fun k => buffer.getD (written.toNat + k) 0))
        write_loop ino buffer fuel c3 (written + chunk_size) (size - chunk_size)
          (offset + chunk_size)
      else
        let r3 :=
          if sector_ofs > 0 ∨ chunk_size < sector_left then cache_read r2.1 r1.2
          else (r2.1, zeroSector)
        let bounce := (List.range 512).map (fun (k : Nat) =>
          if sector_ofs ≤ (k : Int) ∧ (k : Int) < sector_ofs + chunk_size then
            buffer.getD (written + (k : Int) - sector_ofs).toNat 0
          else getByte r3.2 k)
        let c3 := cache_write r3.1 r1.2 bounce
        write_loop ino buffer fuel c3 (written + chunk_size) (size - chunk_size)
          (offset + chunk_size)
    else (c, written)

/-- The function `inode_write_at (inode, buffer, size, offset)`: the state
and the number of bytes written. The record is written back as
`encode_inode` lays it out. -/
def inode_write_at (s : FsState) (ino : inode) (buffer : List Nat) (size offset : Int) :
    FsState × Int :=
  if ino.deny_write_cnt ≠ 0 then (s, 0)
  else
    let r0 := cache_read s.cache ino.sector
    let data := decode_inode r0.2
    let r1 := byte_to_sector r0.1 ino (offset + size - 1)
    if r1.2 = NO_SECTOR then
      let e := inode_extend { s with cache := r1.1 } data (offset + size)
      if e.2.2 then
        let c2 := cache_write e.1.cache ino.sector
          (encode_inode { e.2.1 with length := offset + size })
        let w := write_loop ino buffer size.toNat c2 0 size offset
        ({ e.1 with cache := w.1 }, w.2)
      else (e.1, 0)
    else
      let w := write_loop ino buffer size.toNat r1.1 0 size offset
      ({ s with cache := w.1 }, w.2)

/-! ## Sample inodes -/

/-- A sample record: a 600-byte file on direct sectors 20 and 21. -/
def rec600 : inode_disk :=
  { direct := [20, 21] ++ List.replicate 120 0, indirect := 11, doubly_indirect := 12
    directory := false, parent_node := 1, length := 600, magic := 1229868868 }

/-- A sample record: an empty file. -/
def rec0 : inode_disk :=
  { direct := List.replicate 122 0, indirect := 11, doubly_indirect := 12
    directory := false, parent_node := 1, length := 0, magic := 1229868868 }

/-- A sample record whose length field is the largest length the three tiers
can address, `(122 + 128 + 128 * 128) * 512` bytes. -/
def recMax : inode_disk :=
  { direct := List.replicate 122 30, indirect := 11, doubly_indirect := 12
    directory := false, parent_node := 1, length := 8516608, magic := 1229868868 }

/-- A device holding `rec600` in sector 7 and `recMax` in sector 8. -/
def inodeDev : Nat → SectorData :=
  fun s => if s = 7 then encode_inode rec600 else if s = 8 then encode_inode recMax else zeroSector

/-- Handle for the inode in sector 7. -/
def ino7 : inode := { sector := 7, open_cnt := 1, removed := false, deny_write_cnt := 0 }

/-- A sample free map: 64 sectors, the first 32 in use. -/
def sampleFm : FreeMap := { used := fun i => decide (i < 32), size := 64 }

/-- A sample file-system state. -/
def sampleFs : FsState := { cache := cache_init inodeDev, fm := sampleFm }

/-- A sample record: a 100-byte file on direct sector 20. -/
def rec100 : inode_disk :=
  { direct := [20] ++ List.replicate 121 0, indirect := 11, doubly_indirect := 12
    directory := false, parent_node := 1, length := 100, magic := 1229868868 }

/-- A sample record: a file of 250 sectors (128000 bytes), which fills the
direct and the single-indirect tier; its index sectors are 11 and 12. -/
def rec250 : inode_disk :=
  { direct := (List.range 122).map (fun k => 100 + k), indirect := 11, doubly_indirect := 12
    directory := false, parent_node := 1, length := 128000, magic := 1229868868 }

/-- A device holding `rec250` in sector 5; its double-indirect block, sector
12, is all zero as `fm_allo` left it; sector 0 starts with the word 9, and
sector 9 holds the byte 255 everywhere. -/
def dev250 : Nat → SectorData :=
  fun s => if s = 5 then encode_inode rec250
    else if s = 0 then wordBytes 9 ++ List.replicate 508 0
    else if s = 9 then List.replicate 512 255
    else zeroSector

/-- Handle for the inode in sector 5. -/
def ino5 : inode := { sector := 5, open_cnt := 1, removed := false, deny_write_cnt := 0 }

/-- A sample state around the 250-sector file. -/
def fs250 : FsState := { cache := cache_init dev250, fm := sampleFm }

/-- A sample free map with exactly three free sectors, 61, 62 and 63. -/
def tightFm : FreeMap := { used := fun i => decide (i < 61), size := 64 }

/-- A sample state with three free sectors. -/
def tightFs : FsState := { cache := cache_init inodeDev, fm := tightFm }

/-- The sample state after the first free sector, 32, has been allocated for
an inode. -/
def fsAfterAlloc : FsState :=
  match free_map_allocate sampleFs.fm with
  | some r => { sampleFs with fm := r.2 }
  | none => sampleFs

/-- The sample state after `inode_create (32, 0, false)`. -/
def fsCreated : FsState := (inode_create fsAfterAlloc 32 0 false true).1

/-- The registry after `inode_init` and `inode_open (32)`, with the handle at
address 1000. -/
def regOpened : FsState × Registry :=
  let r := inode_open fsCreated (inode_init (fun _ => none)) 32 (some 1000)
  (r.1, r.2.1)

/-- The state after `inode_remove` and the final `inode_close` of that handle. -/
def regClosed : FsState × Registry :=
  inode_close regOpened.1 (inode_remove regOpened.2 1000) 1000

/-- The state after `inode_init` and `inode_open (7)`, with the handle at
address 1000. -/
def hOpen : FsState × Registry :=
  ((inode_open sampleFs (inode_init (fun _ => none)) 7 (some 1000)).1,
   (inode_open sampleFs (inode_init (fun _ => none)) 7 (some 1000)).2.1)

/-- Then `inode_open (8)`, with the handle at address 1001: two handles. -/
def hTwo : FsState × Registry :=
  ((inode_open hOpen.1 hOpen.2 8 (some 1001)).1, (inode_open hOpen.1 hOpen.2 8 (some 1001)).2.1)

/-- After `hOpen`, an `inode_reopen` of the handle: open count 2. -/
def hReopen : FsState × Registry := (hOpen.1, inode_reopen hOpen.2 1000)

/-- Then a first `inode_deny_write`: deny-write count 1. -/
def hDeny1 : FsState × Registry :=
  (hReopen.1, (inode_deny_write hReopen.2 1000).getD hReopen.2)

/-- Then a second `inode_deny_write`: deny-write count 2, open count 2. -/
def hDeny2 : FsState × Registry :=
  (hDeny1.1, (inode_deny_write hDeny1.2 1000).getD hDeny1.2)

/-- Then an `inode_close`: open count 1, deny-write count still 2. -/
def hDenyClosed : FsState × Registry := inode_close hDeny2.1 hDeny2.2 1000

/-- After `hDeny1` (open count 2, deny-write count 1), an `inode_close`. -/
def hProtoClosed : FsState × Registry := inode_close hDeny1.1 hDeny1.2 1000

/-- The closes that respect the protocol stated at `inode_allow_write` ("must
be called once by each inode opener who has called `inode_deny_write ()` on the
inode, before closing the inode"): the closing opener holds no denial, so
the deny-write count is below the open count; a close of the last
reference, after which the handle no longer exists, is admitted too. -/
def closeAllowed (x : inode) : Prop := x.deny_write_cnt < x.open_cnt ∨ x.open_cnt = 1

/-! ## Block cache: auxiliary definitions for the proofs -/

/-- The value the cache currently associates with a sector: the buffer of the
slot holding it, or the device content when no slot holds it. -/
def cache_view (c : Cache) (s : Nat) : SectorData :=
  match cache_lookup c s with
  | some i => (c.blocks i).data
  | none => c.dev s

/-- Representation invariant of the cache. -/
structure CacheInv (c : Cache) : Prop where
  size_le : c.size ≤ CACHE_SIZE
  uniq : ∀ i j, i < c.size → j < c.size →
    (c.blocks i).sector = (c.blocks j).sector → i = j
  clean : ∀ i, i < c.size → (c.blocks i).dirty = false →
    (c.blocks i).data = c.dev (c.blocks i).sector

/-- Nothing was released between two states of the free map: same size,
and every sector in use before is still in use. -/
def FmLe (fm fm' : FreeMap) : Prop :=
  fm'.size = fm.size ∧ ∀ j, fm.used j = true → fm'.used j = true

/-- Representation invariant of the handle registry: the list has no
repeated address, the live objects are exactly the listed ones, every open
count is at least 1, and no two handles have the same sector. -/
structure RegInv (reg : Registry) : Prop where
  nodup : reg.open_inodes.Nodup
  live : ∀ p, p ∈ reg.open_inodes ↔ ∃ x, reg.heap p = some x
  cnt : ∀ p x, reg.heap p = some x → 1 ≤ x.open_cnt
  uniq : ∀ p q x y, reg.heap p = some x → reg.heap q = some y → x.sector = y.sector → p = q

/-- A sample device: sector `s` holds the single byte `s`. -/
def sampleDev : Nat → SectorData := fun s => [s]

/-- A sample run: two writes to distinct sectors. -/
def twoWrites : List CacheOp := [CacheOp.write 5 [1], CacheOp.write 9 [2]]

/-- A sample run filling the cache: writes to the 64 sectors `0 .. 63`. -/
def fillWrites : List CacheOp := (List.range 64).map (fun s => CacheOp.write s [s + 1])

/-- The cache after the two sample writes. -/
def twoCache : Cache := (runCache (cache_init sampleDev) twoWrites).1

/-- The cache after the 64 sample writes: every slot is resident and dirty. -/
def fullCache : Cache := (runCache (cache_init sampleDev) fillWrites).1

/-! ## Auxiliary definitions: the clock, and files seen through the cache -/

/-- The slots the victim loop examines, in order, when entered with `idx`, `j`
and `n` iterations left: the recurrence `idx = (idx + j) % CACHE_SIZE` of
cache.c, without the early exit. -/
def probe (idx j : Nat) : Nat → List Nat
  | 0 => []
  | n + 1 => (idx + j) % CACHE_SIZE :: probe ((idx + j) % CACHE_SIZE) (j + 1) n

/-- In a reachable cache at most one slot has its `valid` flag set, the one
under the clock hand, and the hand is a slot index. -/
structure ClockInv (c : Cache) : Prop where
  hand_lt : c.clock_hand < CACHE_SIZE
  only_hand : ∀ i, (c.blocks i).valid = true → i = c.clock_hand

/-- A sample record: a file of 379 sectors (194048 bytes) the way growth
leaves it: entries 0 and 1 of its double-indirect block (sector 12) are
never filled. -/
def rec379 : inode_disk :=
  { direct := (List.range 122).map (fun k => 100 + k), indirect := 11, doubly_indirect := 12
    directory := false, parent_node := 1, length := 194048, magic := 1229868868 }

/-- A device holding `rec379` in sector 6; sector 12 is all zero; sector 0
starts with the word 9, and sector 9 holds the byte 255 everywhere. -/
def dev379 : Nat → SectorData :=
  fun s => if s = 6 then encode_inode rec379
    else if s = 0 then wordBytes 9 ++ List.replicate 508 0
    else if s = 9 then List.replicate 512 255
    else zeroSector

/-- Handle for the inode in sector 6, writes allowed. -/
def ino6 : inode := { sector := 6, open_cnt := 1, removed := false, deny_write_cnt := 0 }

/-- A sample state around the 379-sector file. -/
def fs379 : FsState := { cache := cache_init dev379, fm := sampleFm }

/-- Handle for the inode in sector 7 with writes denied once. -/
def ino7denied : inode := { sector := 7, open_cnt := 1, removed := false, deny_write_cnt := 1 }

/-- The `n`-th triangular number, the sum of the steps `0, 1, ..., n` that the
victim loop has added to its index after `n + 1` iterations. -/
def tri : Nat → Nat
  | 0 => 0
  | n + 1 => tri n + (n + 1)

/-- The full cache after one more write, to sector 100: the hand rests on slot 0,
whose flag is now set. -/
def evictedCache : Cache := cache_write fullCache 100 [7]

/-- The free sectors of the map, in increasing order. -/
def freeList (fm : FreeMap) : List Nat := (List.range fm.size).filter (fun i => !fm.used i)

/-- A sample free map with room: 256 sectors, the first 32 in use. -/
def roomyFm : FreeMap := { used := fun i => decide (i < 32), size := 256 }

/-- A sample state holding the 250-sector record `rec250` in sector 5, with 224
free sectors. -/
def fsRoomy : FsState := { cache := cache_init dev250, fm := roomyFm }

/-- The offset translation of `byte_to_sector`, read off a sector-to-bytes
map instead of the cache. -/
def sector_of (v : Nat → SectorData) (isec : Nat) (pos : Int) : Nat :=
  if pos < (decode_inode (v isec)).length ∧ pos ≥ 0 then
    if Int.tdiv pos 512 < 122 then
      (decode_inode (v isec)).direct.getD (Int.tdiv pos 512).toNat 0
    else if Int.tdiv pos 512 < 122 + 128 then
      getWord (v (decode_inode (v isec)).indirect) (Int.tdiv pos 512 - 122).toNat
    else if Int.tdiv pos 512 < 122 + 128 * 128 then
      getWord (v (getWord (v (decode_inode (v isec)).doubly_indirect)
          (Int.tdiv (Int.tdiv pos 512 - (122 + 128)) 128).toNat))
        (Int.tmod (Int.tdiv pos 512 - (122 + 128)) 128).toNat
    else NO_SECTOR
  else NO_SECTOR

/-- The byte of the file at position `pos`, as the offset translation finds it
in a sector-to-bytes map. -/
def file_byte (v : Nat → SectorData) (isec : Nat) (pos : Int) : Nat :=
  getByte (v (sector_of v isec pos)) (Int.tmod pos 512).toNat

/-- Handle for the inode in sector 3, writes allowed. -/
def ino3 : inode := { sector := 3, open_cnt := 1, removed := false, deny_write_cnt := 0 }

/-- A sample payload of 600 bytes. -/
def payload600 : List Nat := (List.range 600).map (fun i => i % 251)

/-- The sample state after an empty inode has been created in sector 3. -/
def fsFresh : FsState := (inode_create sampleFs 3 0 false true).1

/-- The state after `payload600` has been written to that inode at offset 0. -/
def fsWritten : FsState := (inode_write_at fsFresh ino3 payload600 (payload600.length : Int) 0).1

/-! ## Two concurrent writers: an interleaving model of `cache_write`

The sequential embedding above runs every call to completion. Here two threads
execute `cache_write` on the same sector at the same time: the locks
`clock_lock` and `blocks[i].lox` are explicit, a thread that asks for a held lock
waits, `memcpy` copies one byte per step, and a schedule says which thread makes
the next step. The statements a thread executes between two lock operations
while it holds `clock_lock` read and write only `sector`, `valid`, the list and
`clock_hand`, which no thread touches without that lock, and the `dirty` flag of a
slot that is not yet on the list; they form one step. -/

/-- The branch of `cache_write` a call is in: the sector was found in a slot,
a free slot was taken, or a victim was chosen. -/
inductive WPath where
  | hit
  | fresh
  | evict
deriving DecidableEq

/-- Program points of a thread inside `cache_write (sector, buffer)`, one before
each lock operation and one before each byte that `memcpy` copies:
`start` is before `lock_acquire (&clock_lock)`; `lookup` before the lookup
loop; `acquire p i` before `lock_acquire (&block->lox)` with `block = &blocks[i]`;
`release p i` before `lock_release (&clock_lock)`; `mark p i old` before the
statements between that release and `memcpy`; `copy i k` inside `memcpy` with `k`
bytes copied, and at `k = 512` before `lock_release (&block->lox)`; `done` after
the `return`. -/
inductive WPc where
  | start
  | lookup
  | acquire (p : WPath) (i : Nat)
  | release (p : WPath) (i : Nat)
  | mark (p : WPath) (i : Nat) (old : Nat)
  | copy (i k : Nat)
  | done
deriving DecidableEq

/-- The cache shared by two threads, the holders of `clock_lock` and of each
`blocks[i].lox`, and the program point of each thread. -/
structure CState where
  cache : Cache
  clock_lock : Option Bool
  lox : Nat → Option Bool
  pc : Bool → WPc

/-- Assignment to the program point of thread `t`. -/
def setPc (pc : Bool → WPc) (t : Bool) (x : WPc) : Bool → WPc :=
  fun u => if u = t then x else pc u

/-- Assignment to the holder of `blocks[i].lox`. -/
def setLox (lox : Nat → Option Bool) (i : Nat) (h : Option Bool) : Nat → Option Bool :=
  fun j => if j = i then h else lox j

/-- One step of thread `t` inside `cache_write (S, buf t)`; `none` when the
thread waits for a lock or has returned. The statements a thread executes
between two lock operations while it holds `clock_lock` form one step; `memcpy`
copies one byte per step. -/
def wstep (S : Nat) (buf : Bool → SectorData) (t : Bool) (st : CState) : Option CState :=
  match st.pc t with
  | WPc.start =>
    if st.clock_lock = none then
      some { st with clock_lock := some t, pc := setPc st.pc t WPc.lookup }
    else none
  | WPc.lookup =>
    match cache_lookup st.cache S with
    | some i => some { st with pc := setPc st.pc t (WPc.acquire WPath.hit i) }
    | none =>
      if st.cache.size < CACHE_SIZE then
        some { st with
          cache := { st.cache with
            blocks := setBlock st.cache.blocks st.cache.size
              { st.cache.blocks st.cache.size with dirty := true, sector := S }
            size := st.cache.size + 1 }
          pc := setPc st.pc t (WPc.acquire WPath.fresh st.cache.size) }
      else
        some { st with
          cache := { st.cache with
            blocks := (clock_scan st.cache.blocks st.cache.clock_hand 0 CACHE_SIZE).1
            clock_hand := (clock_scan st.cache.blocks st.cache.clock_hand 0 CACHE_SIZE).2 }
          pc := setPc st.pc t (WPc.acquire WPath.evict
            (clock_scan st.cache.blocks st.cache.clock_hand 0 CACHE_SIZE).2) }
  | WPc.acquire p i =>
    if st.lox i = none then
      some { st with lox := setLox st.lox i (some t), pc := setPc st.pc t (WPc.release p i) }
    else none
  | WPc.release WPath.hit i =>
    some { st with clock_lock := none, pc := setPc st.pc t (WPc.mark WPath.hit i 0) }
  | WPc.release WPath.fresh i =>
    some { st with clock_lock := none, pc := setPc st.pc t (WPc.copy i 0) }
  | WPc.release WPath.evict i =>
    some { st with
      cache := { st.cache with
        blocks := setBlock st.cache.blocks i { st.cache.blocks i with sector := S } }
      clock_lock := none
      pc := setPc st.pc t (WPc.mark WPath.evict i (st.cache.blocks i).sector) }
  | WPc.mark WPath.evict i old =>
    some { st with
      cache := { st.cache with
        blocks := setBlock st.cache.blocks i { st.cache.blocks i with dirty := true }
        dev := if (st.cache.blocks i).dirty then
            block_write st.cache.dev old (st.cache.blocks i).data
          else st.cache.dev }
      pc := setPc st.pc t (WPc.copy i 0) }
  | WPc.mark _ i _ =>
    some { st with
      cache := { st.cache with
        blocks := setBlock st.cache.blocks i { st.cache.blocks i with dirty := true } }
      pc := setPc st.pc t (WPc.copy i 0) }
  | WPc.copy i k =>
    if k < BLOCK_SECTOR_SIZE then
      some { st with
        cache := { st.cache with
          blocks := setBlock st.cache.blocks i
            { st.cache.blocks i with data := (st.cache.blocks i).data.set k ((buf t).getD k 0) } }
        pc := setPc st.pc t (WPc.copy i (k + 1)) }
    else
      some { st with lox := setLox st.lox i none, pc := setPc st.pc t WPc.done }
  | WPc.done => none

/-- The scheduler lets thread `t` run: it makes its step, or nothing happens
when it waits or has returned. -/
def wexec (S : Nat) (buf : Bool → SectorData) (st : CState) (t : Bool) : CState :=
  match wstep S buf t st with
  | some st1 => st1
  | none => st

/-- An interleaving: the threads run in the order the schedule lists them. -/
def runThreads (S : Nat) (buf : Bool → SectorData) (sched : List Bool) (st : CState) : CState :=
  sched.foldl (wexec S buf) st

/-- Both threads are about to call `cache_write` and no lock is held. -/
def twoWriters (c : Cache) : CState :=
  { cache := c, clock_lock := none, lox := fun _ => none, pc := fun _ => WPc.start }

/-- Thread `false` writes `A`, thread `true` writes `B`. -/
def payloads (A B : SectorData) : Bool → SectorData := fun t => if t then B else A

/-- Whether a thread at this program point holds `clock_lock`. -/
def holdsClock : WPc → Bool
  | WPc.lookup => true
  | WPc.acquire _ _ => true
  | WPc.release _ _ => true
  | _ => false

/-- The slot whose `lox` a thread at this program point holds. -/
def slotOf : WPc → Option Nat
  | WPc.release _ i => some i
  | WPc.mark _ i _ => some i
  | WPc.copy i _ => some i
  | _ => none

/-- The slot a thread has chosen, once the slot's `sector` field is the
sector the thread writes. -/
def target : WPc → Option Nat
  | WPc.acquire WPath.evict _ => none
  | WPc.release WPath.evict _ => none
  | WPc.acquire _ i => some i
  | WPc.release _ i => some i
  | WPc.mark _ i _ => some i
  | WPc.copy i _ => some i
  | _ => none

/-- The victim a thread has chosen and not yet re-pointed. -/
def victim : WPc → Option Nat
  | WPc.acquire WPath.evict i => some i
  | WPc.release WPath.evict i => some i
  | _ => none

/-- Invariant of two threads writing sector `S`: the locks are held by the
threads whose program points say so; a chosen slot holds `S`; a thread inside
`memcpy` has copied a prefix of its buffer; and once a thread has returned,
the slot of `S` holds its whole buffer unless the other thread has locked the
slot since, or has returned after writing its own whole buffer. -/
structure WInv (S : Nat) (buf : Bool → SectorData) (st : CState) : Prop where
  size_le : st.cache.size ≤ CACHE_SIZE
  uniq : ∀ i j, i < st.cache.size → j < st.cache.size →
    (st.cache.blocks i).sector = (st.cache.blocks j).sector → i = j
  dlen : ∀ i, (st.cache.blocks i).data.length = 512
  blen : ∀ t, (buf t).length = 512
  clock : ∀ t, st.clock_lock = some t ↔ holdsClock (st.pc t) = true
  slot : ∀ t i, st.lox i = some t ↔ slotOf (st.pc t) = some i
  tgt : ∀ t i, target (st.pc t) = some i →
    i < st.cache.size ∧ (st.cache.blocks i).sector = S
  vic : ∀ t i, victim (st.pc t) = some i →
    i < st.cache.size ∧ ¬ st.cache.size < CACHE_SIZE ∧
    ∀ j, j < st.cache.size → (st.cache.blocks j).sector ≠ S
  cpy : ∀ t i k, st.pc t = WPc.copy i k →
    k ≤ 512 ∧ (st.cache.blocks i).data.take k = (buf t).take k
  fin : ∀ t, st.pc t = WPc.done →
    ∃ i, i < st.cache.size ∧ (st.cache.blocks i).sector = S ∧
      ((st.cache.blocks i).data = buf t ∨ slotOf (st.pc (!t)) = some i ∨
       (st.pc (!t) = WPc.done ∧ (st.cache.blocks i).data = buf (!t)))

/-- The schedule that lets one thread run from its call to its return. -/
def soloSched (t : Bool) : List Bool := [t, t, t, t] ++ List.replicate 514 t

/-- A schedule in which the calls overlap: thread `false` runs up to `memcpy`;
thread `true` calls, finds the slot and waits for its lock; `false` copies and
returns; then `true` copies and returns. -/
def overlapSched : List Bool :=
  [false, false, false, false] ++ ([true, true, true] ++
    (List.replicate 514 false ++ ([true, true] ++ List.replicate 514 true)))

/-- The number of iterations the victim loop of cache.c executes, that is, the
number of slots it examines, when entered with `idx`, `j` and `n` iterations
left; it follows `clock_scan` step by step. -/
def clock_scan_count (blocks : Nat → cache_entry) (idx j : Nat) : Nat → Nat
  | 0 => 0
  | n + 1 =>
    let idx1 := (idx + j) % CACHE_SIZE
    if (blocks idx1).valid = false then 1
    else 1 + clock_scan_count (setBlock blocks idx1 { blocks idx1 with valid := false }) idx1 (j + 1) n

/-- The life of a file: `inode_create (sector, L, false)`, then `inode_open
(sector)` with the handle at address `p`, `inode_remove`, and the final
`inode_close`. -/
def createRemoveClose (s : FsState) (sector : Nat) (L : Int) (p : Nat) : FsState × Registry :=
  inode_close
    (inode_open (inode_create s sector L false true).1 (inode_init (fun _ => none)) sector
      (some p)).1
    (inode_remove
      (inode_open (inode_create s sector L false true).1 (inode_init (fun _ => none)) sector
        (some p)).2.1 p) p

/-- The number of `free_map_allocate` calls the block `if (cur < DIRECT_SIZE)`
of `inode_extend` makes when none of them fails: the iterations of its loop
`for (i = cur; i < s; i++)`. -/
def direct_demand (cur new : Nat) : Nat :=
  if cur < DIRECT_SIZE then (if new < DIRECT_SIZE then new else DIRECT_SIZE) - cur else 0

/-- The number of `free_map_allocate` calls the single-indirect block of
`inode_extend` makes when none of them fails: the iterations of its loop
`for (i = cur - DIRECT_SIZE; i < s; i++)`. -/
def indirect_demand (cur new : Nat) : Nat :=
  if cur < DIRECT_SIZE + 128 ∧ new > DIRECT_SIZE then
    (if new ≥ DIRECT_SIZE + 128 then 128 else new - DIRECT_SIZE) - (cur - DIRECT_SIZE)
  else 0

/-- The number of `free_map_allocate` calls the child loop of `inode_extend`
makes from index `i` on, with `n` iterations left, when none of them fails:
the call `indirect_blocker (indirect_block, min, max)` of each iteration makes
`max + 1 - min`. -/
def children_demand (cur new : Nat) (mini maxi : Int) : Int → Nat → Nat
  | _, 0 => 0
  | i, n + 1 =>
    let min : Int := if i = mini then (((cur - DIRECT_SIZE + 128) % 128 : Nat) : Int) else 0
    let max : Int := if i = maxi then (((new - DIRECT_SIZE + 128) % 128 : Nat) : Int) - 1 else 128
    (max + 1 - min).toNat + children_demand cur new mini maxi (i + 1) n

/-- The number of `free_map_allocate` calls the double-indirect block of
`inode_extend` makes when none of them fails: `maxi + 1 - mini` in
`indirect_blocker (doubly_indirect, mini, maxi)`, then those of the child loop. -/
def doubly_demand (cur new : Nat) : Nat :=
  if cur < DIRECT_SIZE + 128 + 128 * 128 ∧ new > DIRECT_SIZE + 128 then
    let mini : Int := (((cur - DIRECT_SIZE + 128) / 128 : Nat) : Int)
    let maxi : Int := (((new - DIRECT_SIZE + 128) / 128 : Nat) : Int) - 1
    (maxi + 1 - mini).toNat + children_demand cur new mini maxi mini (maxi + 1 - mini).toNat
  else 0

/-- The number of `free_map_allocate` calls a call of `inode_extend` that grows
a record from `cur` to `new` sectors makes when none of them fails: those of
its three blocks, each entered with the value the block before it left in the
local `cur`. -/
def extend_demand (cur new : Nat) : Nat :=
  let cur1 := if cur < DIRECT_SIZE then DIRECT_SIZE else cur
  let cur2 := if cur1 < DIRECT_SIZE + 128 ∧ new > DIRECT_SIZE then DIRECT_SIZE + 128 else cur1
  direct_demand cur new + indirect_demand cur1 new + doubly_demand cur2 new

/-- A step that asks the allocator for `d` sectors, one at a time, and stops at
the first failure: with at least `d` free sectors it succeeds and takes the
first `d`; with fewer it reports failure after taking every free sector. -/
def Consumes (fm fm' : FreeMap) (ok : Bool) (d : Nat) : Prop :=
  (d ≤ (freeList fm).length → ok = true ∧ freeList fm' = (freeList fm).drop d) ∧
  ((freeList fm).length < d → ok = false ∧ freeList fm' = [])

/-- A sample record: a file of 122 sectors (62464 bytes), which fills the
direct tier; its index sectors are 11 and 12. -/
def rec122 : inode_disk :=
  { direct := (List.range 122).map (fun k => 100 + k), indirect := 11, doubly_indirect := 12
    directory := false, parent_node := 1, length := 62464, magic := 1229868868 }

/-- Shutdown and restart: `filesys_done` calls `cache_flush`, and after the next
start the cache is the one `cache_init` leaves, over the device as the flush
left it. -/
def cache_restart (c : Cache) : Cache := cache_init (cache_flush c).dev

/-- Every sector resident in the cache has a number below `B`. -/
def ResidentBelow (c : Cache) (B : Nat) : Prop := ∀ i, i < c.size → (c.blocks i).sector < B

/-- A sample state on a fresh device of 1024 sectors: every sector is zero,
and only sector 0 is in use. -/
def fsZero : FsState :=
  { cache := cache_init (fun _ => zeroSector)
    fm := { used := fun i => decide (i < 1), size := 1024 } }

/-- Handle for the inode in sector 0. -/
def ino0 : inode := { sector := 0, open_cnt := 1, removed := false, deny_write_cnt := 0 }

/-! ## Block cache: lemmas -/

theorem setBlock_same (b : Nat → cache_entry) (i : Nat) (e : cache_entry) :
    setBlock b i e i = e := by
  simp [setBlock]

theorem setBlock_other (b : Nat → cache_entry) (i j : Nat) (e : cache_entry) (h : j ≠ i) :
    setBlock b i e j = b j := by
  simp [setBlock, h]

theorem cache_lookup_none_iff (c : Cache) (s : Nat) :
    cache_lookup c s = none ↔ ∀ i, i < c.size → (c.blocks i).sector ≠ s := by
  simp [cache_lookup, List.find?_eq_none]

theorem cache_lookup_some (c : Cache) (s i : Nat) (h : cache_lookup c s = some i) :
    i < c.size ∧ (c.blocks i).sector = s := by
  unfold cache_lookup at h
  have h1 := List.mem_of_find?_eq_some h
  have h2 := List.find?_some h
  simp at h1 h2
  exact ⟨h1, h2⟩

theorem cache_lookup_of_slot (c : Cache) (s i : Nat)
    (hu : ∀ i j, i < c.size → j < c.size → (c.blocks i).sector = (c.blocks j).sector → i = j)
    (hi : i < c.size) (hs : (c.blocks i).sector = s) : cache_lookup c s = some i := by
  cases h : cache_lookup c s with
  | none => exact absurd hs ((cache_lookup_none_iff c s).1 h i hi)
  | some j =>
    obtain ⟨hj, hjs⟩ := cache_lookup_some c s j h
    rw [hu j i hj hi (hjs.trans hs.symm)]

theorem cache_view_slot (c : Cache) (s i : Nat)
    (hu : ∀ i j, i < c.size → j < c.size → (c.blocks i).sector = (c.blocks j).sector → i = j)
    (hi : i < c.size) (hs : (c.blocks i).sector = s) : cache_view c s = (c.blocks i).data := by
  simp [cache_view, cache_lookup_of_slot c s i hu hi hs]

theorem cache_view_none (c : Cache) (s : Nat)
    (h : ∀ i, i < c.size → (c.blocks i).sector ≠ s) : cache_view c s = c.dev s := by
  simp [cache_view, (cache_lookup_none_iff c s).2 h]

theorem clock_scan_fields (n : Nat) : ∀ (b : Nat → cache_entry) (idx j i : Nat),
    ((clock_scan b idx j n).1 i).sector = (b i).sector ∧
    ((clock_scan b idx j n).1 i).data = (b i).data ∧
    ((clock_scan b idx j n).1 i).dirty = (b i).dirty := by
  induction n with
  | zero => intro b idx j i; simp [clock_scan]
  | succ n ih =>
    intro b idx j i
    unfold clock_scan
    by_cases hv : (b ((idx + j) % CACHE_SIZE)).valid = false
    · simp only [hv, if_true]
      by_cases hi : i = (idx + j) % CACHE_SIZE
      · subst hi; simp [setBlock]
      · simp [setBlock, hi]
    · simp only [hv, if_false]
      obtain ⟨h1, h2, h3⟩ := ih (setBlock b ((idx + j) % CACHE_SIZE)
        { b ((idx + j) % CACHE_SIZE) with valid := false }) ((idx + j) % CACHE_SIZE) (j + 1) i
      refine ⟨h1.trans ?_, h2.trans ?_, h3.trans ?_⟩ <;>
      · by_cases hi : i = (idx + j) % CACHE_SIZE
        · subst hi; simp [setBlock]
        · simp [setBlock, hi]

theorem clock_scan_idx_lt (n : Nat) : ∀ (b : Nat → cache_entry) (idx j : Nat),
    (idx < CACHE_SIZE ∨ 0 < n) → (clock_scan b idx j n).2 < CACHE_SIZE := by
  induction n with
  | zero => intro b idx j h; simpa [clock_scan] using h
  | succ n ih =>
    intro b idx j _
    unfold clock_scan
    have hlt : (idx + j) % CACHE_SIZE < CACHE_SIZE := Nat.mod_lt _ (by decide)
    by_cases hv : (b ((idx + j) % CACHE_SIZE)).valid = false
    · simp only [hv, if_true]; exact hlt
    · simp only [hv, if_false]; exact ih _ _ _ (Or.inl hlt)

theorem block_write_same (dev : Nat → SectorData) (s : Nat) (d : SectorData) :
    block_write dev s d s = d := by
  simp [block_write]

theorem block_write_other (dev : Nat → SectorData) (s t : Nat) (d : SectorData) (h : t ≠ s) :
    block_write dev s d t = dev t := by
  simp [block_write, h]

/-- The common shape of every state change made by `cache_read` and
`cache_write`: one slot `v` (resident, or the next free one) ends up holding
sector `S` with buffer `D`; every other resident slot is untouched; the device
changes at most at the sector slot `v` held before, where it receives the
slot's old buffer. -/
theorem slot_update_spec (c c' : Cache) (hc : CacheInv c) (S : Nat) (D : SectorData) (v : Nat)
    (hsz : (c'.size = c.size ∧ v < c.size) ∨
      (c'.size = c.size + 1 ∧ v = c.size ∧ c.size < CACHE_SIZE))
    (hsec : ∀ i, i < c.size → i ≠ v → (c'.blocks i).sector = (c.blocks i).sector)
    (hdat : ∀ i, i < c.size → i ≠ v → (c'.blocks i).data = (c.blocks i).data)
    (hdir : ∀ i, i < c.size → i ≠ v → (c'.blocks i).dirty = (c.blocks i).dirty)
    (hvS : (c'.blocks v).sector = S) (hvD : (c'.blocks v).data = D)
    (hS : ∀ i, i < c.size → i ≠ v → (c.blocks i).sector ≠ S)
    (hdev : ∀ T, (v < c.size → T ≠ (c.blocks v).sector) → c'.dev T = c.dev T)
    (hold : v < c.size → (c.blocks v).sector ≠ S →
      c'.dev (c.blocks v).sector = (c.blocks v).data)
    (hcl : (c'.blocks v).dirty = false → D = c'.dev S) :
    CacheInv c' ∧ ∀ T, cache_view c' T = if T = S then D else cache_view c T := by
  have hv' : v < c'.size := by
    rcases hsz with ⟨h1, h2⟩ | ⟨h1, h2, _⟩ <;> omega
  have hlt : ∀ i, i < c'.size → i ≠ v → i < c.size := by
    intro i hi hiv
    rcases hsz with ⟨h1, h2⟩ | ⟨h1, h2, _⟩ <;> omega
  have hge : ∀ i, i < c.size → i < c'.size := by
    intro i hi
    rcases hsz with ⟨h1, h2⟩ | ⟨h1, h2, _⟩ <;> omega
  have huniq : ∀ i j, i < c'.size → j < c'.size →
      (c'.blocks i).sector = (c'.blocks j).sector → i = j := by
    intro i j hi hj h
    by_cases hiv : i = v
    · by_cases hjv : j = v
      · rw [hiv, hjv]
      · rw [hiv, hvS, hsec j (hlt j hj hjv) hjv] at h
        exact absurd h.symm (hS j (hlt j hj hjv) hjv)
    · by_cases hjv : j = v
      · rw [hjv, hvS, hsec i (hlt i hi hiv) hiv] at h
        exact absurd h (hS i (hlt i hi hiv) hiv)
      · rw [hsec i (hlt i hi hiv) hiv, hsec j (hlt j hj hjv) hjv] at h
        exact hc.uniq i j (hlt i hi hiv) (hlt j hj hjv) h
  have hsize : c'.size ≤ CACHE_SIZE := by
    have := hc.size_le
    rcases hsz with ⟨h1, h2⟩ | ⟨h1, h2, h3⟩ <;> omega
  refine ⟨⟨hsize, huniq, ?_⟩, ?_⟩
  · intro i hi hd
    by_cases hiv : i = v
    · subst hiv
      rw [hvD, hvS]; exact hcl hd
    · have hic := hlt i hi hiv
      rw [hsec i hic hiv, hdat i hic hiv]
      rw [hdir i hic hiv] at hd
      rw [hdev _ (fun hvc h => hiv (hc.uniq i v hic hvc h))]
      exact hc.clean i hic hd
  · intro T
    by_cases hT : T = S
    · subst hT
      rw [if_pos rfl, cache_view_slot c' T v huniq hv' hvS, hvD]
    · rw [if_neg hT]
      by_cases hres : ∃ i, i < c.size ∧ (c.blocks i).sector = T
      · obtain ⟨i, hi, hiT⟩ := hres
        rw [cache_view_slot c T i hc.uniq hi hiT]
        by_cases hiv : i = v
        · subst hiv
          have hnone : ∀ j, j < c'.size → (c'.blocks j).sector ≠ T := by
            intro j hj
            by_cases hji : j = i
            · rw [hji, hvS]; exact Ne.symm hT
            · rw [hsec j (hlt j hj hji) hji, ← hiT]
              exact fun h => hji (hc.uniq j i (hlt j hj hji) hi h)
          rw [cache_view_none c' T hnone, ← hiT]
          exact hold hi (by rw [hiT]; exact hT)
        · rw [cache_view_slot c' T i huniq (hge i hi) (by rw [hsec i hi hiv]; exact hiT)]
          exact hdat i hi hiv
      · have hnone : ∀ i, i < c.size → (c.blocks i).sector ≠ T := by
          intro i hi h; exact hres ⟨i, hi, h⟩
        have hnone' : ∀ j, j < c'.size → (c'.blocks j).sector ≠ T := by
          intro j hj
          by_cases hjv : j = v
          · rw [hjv, hvS]; exact Ne.symm hT
          · rw [hsec j (hlt j hj hjv) hjv]; exact hnone j (hlt j hj hjv)
        rw [cache_view_none c T hnone, cache_view_none c' T hnone']
        exact hdev T (fun hvc => Ne.symm (hnone v hvc))

theorem victim_lt (c : Cache) (hfull : ¬ c.size < CACHE_SIZE) :
    (clock_scan c.blocks c.clock_hand 0 CACHE_SIZE).2 < c.size := by
  have h1 := clock_scan_idx_lt CACHE_SIZE c.blocks c.clock_hand 0 (Or.inr (by decide))
  omega

theorem cache_write_spec (c : Cache) (hc : CacheInv c) (S : Nat) (D : SectorData) :
    CacheInv (cache_write c S D) ∧
    ∀ T, cache_view (cache_write c S D) T = if T = S then D else cache_view c T := by
  unfold cache_write
  cases h : cache_lookup c S with
  | some i =>
    obtain ⟨hi, hiS⟩ := cache_lookup_some c S i h
    refine slot_update_spec c _ hc S D i (Or.inl ⟨rfl, hi⟩) ?_ ?_ ?_ ?_ ?_ ?_ ?_ ?_ ?_
    · intro j _ hj; simp [setBlock, hj]
    · intro j _ hj; simp [setBlock, hj]
    · intro j _ hj; simp [setBlock, hj]
    · simp [setBlock, hiS]
    · simp [setBlock]
    · intro j hj hji hjS
      exact hji (hc.uniq j i hj hi (hjS.trans hiS.symm))
    · intro T _; rfl
    · intro _ hne; exact absurd hiS hne
    · simp [setBlock]
  | none =>
    have hnone := (cache_lookup_none_iff c S).1 h
    by_cases hlt : c.size < CACHE_SIZE
    · simp only [hlt, if_true]
      refine slot_update_spec c _ hc S D c.size (Or.inr ⟨rfl, rfl, hlt⟩) ?_ ?_ ?_ ?_ ?_ ?_ ?_ ?_ ?_
      · intro j _ hj; simp [setBlock, hj]
      · intro j _ hj; simp [setBlock, hj]
      · intro j _ hj; simp [setBlock, hj]
      · simp [setBlock]
      · simp [setBlock]
      · intro j hj _; exact hnone j hj
      · intro T _; rfl
      · intro hcontra; exact absurd hcontra (lt_irrefl _)
      · simp [setBlock]
    · simp only [hlt, if_false]
      have hv := victim_lt c hlt
      have hf := clock_scan_fields CACHE_SIZE c.blocks c.clock_hand 0
      refine slot_update_spec c _ hc S D (clock_scan c.blocks c.clock_hand 0 CACHE_SIZE).2
        (Or.inl ⟨rfl, hv⟩) ?_ ?_ ?_ ?_ ?_ ?_ ?_ ?_ ?_
      · intro j _ hj; simp [setBlock, hj, (hf j).1]
      · intro j _ hj; simp [setBlock, hj, (hf j).2.1]
      · intro j _ hj; simp [setBlock, hj, (hf j).2.2]
      · simp [setBlock]
      · simp [setBlock]
      · intro j hj _; exact hnone j hj
      · intro T hT
        have hT := hT hv
        simp only [(hf _).1, (hf _).2.1, (hf _).2.2]
        split
        · exact block_write_other _ _ _ _ hT
        · rfl
      · intro _ _
        simp only [(hf _).1, (hf _).2.1, (hf _).2.2]
        split
        · exact block_write_same _ _ _
        · rename_i hd
          exact (hc.clean _ hv (by simpa using hd)).symm
      · simp [setBlock]

theorem cache_read_spec (c : Cache) (hc : CacheInv c) (S : Nat) :
    (cache_read c S).2 = cache_view c S ∧ CacheInv (cache_read c S).1 ∧
    ∀ T, cache_view (cache_read c S).1 T = cache_view c T := by
  cases h : cache_lookup c S with
  | some i =>
    have h1 : cache_read c S = (c, (c.blocks i).data) := by simp [cache_read, h]
    rw [h1]
    refine ⟨?_, hc, fun T => rfl⟩
    simp [cache_view, h]
  | none =>
    have hnone := (cache_lookup_none_iff c S).1 h
    have hview : cache_view c S = c.dev S := cache_view_none c S hnone
    by_cases hlt : c.size < CACHE_SIZE
    · have key := slot_update_spec c (cache_read c S).1 hc S (c.dev S) c.size
        (Or.inr ⟨by simp [cache_read, h, hlt], rfl, hlt⟩)
        (by intro j _ hj; simp [cache_read, h, hlt, setBlock, hj])
        (by intro j _ hj; simp [cache_read, h, hlt, setBlock, hj])
        (by intro j _ hj; simp [cache_read, h, hlt, setBlock, hj])
        (by simp [cache_read, h, hlt, setBlock])
        (by simp [cache_read, h, hlt, setBlock])
        (by intro j hj _; exact hnone j hj)
        (by intro T _; simp [cache_read, h, hlt])
        (by intro hcontra; exact absurd hcontra (lt_irrefl _))
        (by intro _; simp [cache_read, h, hlt])
      refine ⟨?_, key.1, fun T => ?_⟩
      · rw [hview]; simp [cache_read, h, hlt]
      · rw [key.2 T]
        by_cases hT : T = S
        · rw [if_pos hT, hT, hview]
        · rw [if_neg hT]
    · have hv := victim_lt c hlt
      have hf := clock_scan_fields CACHE_SIZE c.blocks c.clock_hand 0
      have hold : (c.blocks (clock_scan c.blocks c.clock_hand 0 CACHE_SIZE).2).sector ≠ S :=
        hnone _ hv
      have hdevS : (if ((clock_scan c.blocks c.clock_hand 0 CACHE_SIZE).1
            (clock_scan c.blocks c.clock_hand 0 CACHE_SIZE).2).dirty = true then
          block_write c.dev
            ((clock_scan c.blocks c.clock_hand 0 CACHE_SIZE).1
              (clock_scan c.blocks c.clock_hand 0 CACHE_SIZE).2).sector
            ((clock_scan c.blocks c.clock_hand 0 CACHE_SIZE).1
              (clock_scan c.blocks c.clock_hand 0 CACHE_SIZE).2).data
          else c.dev) S = c.dev S := by
        split
        · rw [(hf _).1]; exact block_write_other _ _ _ _ (Ne.symm hold)
        · rfl
      have key := slot_update_spec c (cache_read c S).1 hc S (c.dev S)
        (clock_scan c.blocks c.clock_hand 0 CACHE_SIZE).2
        (Or.inl ⟨by simp [cache_read, h, hlt], hv⟩)
        (by intro j _ hj; simp [cache_read, h, hlt, setBlock, hj, (hf j).1])
        (by intro j _ hj; simp [cache_read, h, hlt, setBlock, hj, (hf j).2.1])
        (by intro j _ hj; simp [cache_read, h, hlt, setBlock, hj, (hf j).2.2])
        (by simp [cache_read, h, hlt, setBlock])
        (by simp only [cache_read, h, hlt, if_false, setBlock, if_true]; exact hdevS)
        (by intro j hj _; exact hnone j hj)
        (by
          intro T hT
          have hT := hT hv
          simp only [cache_read, h, hlt, if_false, (hf _).1, (hf _).2.1, (hf _).2.2]
          split
          · exact block_write_other _ _ _ _ hT
          · rfl)
        (by
          intro _ _
          simp only [cache_read, h, hlt, if_false, (hf _).1, (hf _).2.1, (hf _).2.2]
          split
          · exact block_write_same _ _ _
          · rename_i hd
            exact (hc.clean _ hv (by simpa using hd)).symm)
        (by
          intro _
          simp only [cache_read, h, hlt, if_false]
          exact hdevS.symm)
      refine ⟨?_, key.1, fun T => ?_⟩
      · rw [hview]
        simp only [cache_read, h, hlt, if_false]
        exact hdevS
      · rw [key.2 T]
        by_cases hT : T = S
        · rw [if_pos hT, hT, hview]
        · rw [if_neg hT]

theorem flush_upto_succ (c : Cache) (n : Nat) :
    flush_upto c (n + 1) = flush_step (flush_upto c n) n := by
  simp [flush_upto, List.range_succ, List.foldl_append]

/-- What the first `n` iterations of the flush loop do to the slot array. -/
theorem flush_upto_blocks (c : Cache) (n : Nat) :
    (flush_upto c n).size = c.size ∧
    ∀ i, ((flush_upto c n).blocks i).sector = (c.blocks i).sector ∧
      ((flush_upto c n).blocks i).data = (c.blocks i).data ∧
      ((flush_upto c n).blocks i).dirty = (if i < n then false else (c.blocks i).dirty) := by
  induction n with
  | zero => simp [flush_upto]
  | succ n ih =>
    obtain ⟨hsz, hb⟩ := ih
    rw [flush_upto_succ]
    unfold flush_step
    by_cases hd : ((flush_upto c n).blocks n).dirty = true
    · simp only [hd, if_true]
      refine ⟨hsz, fun i => ?_⟩
      by_cases hi : i = n
      · subst hi
        simp [setBlock, (hb i).1, (hb i).2.1]
      · obtain ⟨h1, h2, h3⟩ := hb i
        simp only [setBlock, hi, if_false, h1, h2, h3, true_and]
        by_cases hlt : i < n
        · simp [hlt, Nat.lt_succ_of_lt hlt]
        · have : ¬ i < n + 1 := by omega
          simp [hlt, this]
    · rw [if_neg hd]
      refine ⟨hsz, fun i => ?_⟩
      obtain ⟨h1, h2, h3⟩ := hb i
      refine ⟨h1, h2, ?_⟩
      by_cases hi : i = n
      · subst hi
        simp at hd
        simp [hd]
      · rw [h3]
        by_cases hlt : i < n
        · simp [hlt, Nat.lt_succ_of_lt hlt]
        · have : ¬ i < n + 1 := by omega
          simp [hlt, this]

/-- What the first `n` iterations of the flush loop do to the device. -/
theorem flush_upto_dev (c : Cache) (hc : CacheInv c) (n : Nat) (hn : n ≤ c.size) :
    (∀ i, i < n → (flush_upto c n).dev (c.blocks i).sector = (c.blocks i).data) ∧
    (∀ T, (∀ i, i < n → (c.blocks i).sector ≠ T) → (flush_upto c n).dev T = c.dev T) := by
  induction n with
  | zero => simp [flush_upto]
  | succ n ih =>
    obtain ⟨ih1, ih2⟩ := ih (Nat.le_of_succ_le hn)
    have hnlt : n < c.size := hn
    obtain ⟨_, hb⟩ := flush_upto_blocks c n
    obtain ⟨hs, hdt, hdr⟩ := hb n
    simp only [lt_irrefl, if_false] at hdr
    have hfresh : ∀ i, i < n → (c.blocks i).sector ≠ (c.blocks n).sector := by
      intro i hi h
      have := hc.uniq i n (by omega) hnlt h
      omega
    rw [flush_upto_succ]
    unfold flush_step
    by_cases hd : ((flush_upto c n).blocks n).dirty = true
    · simp only [hd, if_true, hs, hdt]
      constructor
      · intro i hi
        by_cases hin : i = n
        · subst hin; exact block_write_same _ _ _
        · have hi' : i < n := by omega
          rw [block_write_other _ _ _ _ (hfresh i hi')]
          exact ih1 i hi'
      · intro T hT
        rw [block_write_other _ _ _ _ (Ne.symm (hT n (Nat.lt_succ_self n)))]
        exact ih2 T (fun i hi => hT i (Nat.lt_succ_of_lt hi))
    · rw [if_neg hd]
      constructor
      · intro i hi
        by_cases hin : i = n
        · subst hin
          rw [ih2 _ hfresh]
          rw [hdr] at hd
          exact (hc.clean i hnlt (by simpa using hd)).symm
        · exact ih1 i (by omega)
      · intro T hT
        exact ih2 T (fun i hi => hT i (Nat.lt_succ_of_lt hi))

theorem cache_flush_spec (c : Cache) (hc : CacheInv c) :
    CacheInv (cache_flush c) ∧
    (∀ T, cache_view (cache_flush c) T = cache_view c T) ∧
    (∀ T, (cache_flush c).dev T = cache_view c T) := by
  obtain ⟨hsz, hb⟩ := flush_upto_blocks c c.size
  obtain ⟨hd1, hd2⟩ := flush_upto_dev c hc c.size (le_refl _)
  have huniq : ∀ i j, i < (cache_flush c).size → j < (cache_flush c).size →
      ((cache_flush c).blocks i).sector = ((cache_flush c).blocks j).sector → i = j := by
    intro i j hi hj h
    unfold cache_flush at hi hj h
    rw [hsz] at hi hj
    rw [(hb i).1, (hb j).1] at h
    exact hc.uniq i j hi hj h
  have hdev : ∀ T, (cache_flush c).dev T = cache_view c T := by
    intro T
    by_cases hres : ∃ i, i < c.size ∧ (c.blocks i).sector = T
    · obtain ⟨i, hi, hiT⟩ := hres
      rw [cache_view_slot c T i hc.uniq hi hiT, ← hiT]
      exact hd1 i hi
    · have hnone : ∀ i, i < c.size → (c.blocks i).sector ≠ T := by
        intro i hi h; exact hres ⟨i, hi, h⟩
      rw [cache_view_none c T hnone]
      exact hd2 T hnone
  refine ⟨⟨?_, huniq, ?_⟩, ?_, hdev⟩
  · unfold cache_flush; rw [hsz]; exact hc.size_le
  · intro i hi _
    have hi' : i < c.size := by unfold cache_flush at hi; rw [hsz] at hi; exact hi
    rw [hdev]
    have h1 : ((cache_flush c).blocks i).sector = (c.blocks i).sector := (hb i).1
    have h2 : ((cache_flush c).blocks i).data = (c.blocks i).data := (hb i).2.1
    rw [h1, h2]
    exact (cache_view_slot c _ i hc.uniq hi' rfl).symm
  · intro T
    by_cases hres : ∃ i, i < c.size ∧ (c.blocks i).sector = T
    · obtain ⟨i, hi, hiT⟩ := hres
      have hi' : i < (cache_flush c).size := by unfold cache_flush; rw [hsz]; exact hi
      have h1 : ((cache_flush c).blocks i).sector = T := by
        rw [← hiT]; exact (hb i).1
      rw [cache_view_slot c T i hc.uniq hi hiT, cache_view_slot _ T i huniq hi' h1]
      exact (hb i).2.1
    · have hnone : ∀ i, i < c.size → (c.blocks i).sector ≠ T := by
        intro i hi h; exact hres ⟨i, hi, h⟩
      have hnone' : ∀ i, i < (cache_flush c).size → ((cache_flush c).blocks i).sector ≠ T := by
        intro i hi
        unfold cache_flush at hi ⊢
        rw [hsz] at hi
        rw [(hb i).1]; exact hnone i hi
      rw [cache_view_none _ T hnone', cache_view_none c T hnone]
      exact hd2 T hnone

theorem cache_init_inv (dev : Nat → SectorData) : CacheInv (cache_init dev) := by
  refine ⟨by simp [cache_init], ?_, ?_⟩ <;>
  · intro i
    simp [cache_init]

theorem reachable_inv (c : Cache) (h : Reachable c) : CacheInv c := by
  induction h with
  | init dev => exact cache_init_inv dev
  | read c s _ ih => exact (cache_read_spec c ih s).2.1
  | write c s d _ ih => exact (cache_write_spec c ih s d).1
  | flush c _ ih => exact (cache_flush_spec c ih).1

theorem reachable_run (c : Cache) (h : Reachable c) (ops : List CacheOp) :
    Reachable (runCache c ops).1 := by
  induction ops generalizing c with
  | nil => exact h
  | cons op ops ih =>
    cases op with
    | read s => exact ih _ (Reachable.read c s h)
    | write s d => exact ih _ (Reachable.write c s d h)
    | flush => exact ih _ (Reachable.flush c h)

theorem cache_view_init (dev : Nat → SectorData) : cache_view (cache_init dev) = dev := by
  funext T
  exact cache_view_none _ T (by intro i hi; simp [cache_init] at hi)

theorem cache_view_write (c : Cache) (hc : CacheInv c) (S : Nat) (D : SectorData) :
    cache_view (cache_write c S D) = block_write (cache_view c) S D := by
  funext T
  rw [(cache_write_spec c hc S D).2 T]
  rfl

theorem runCache_refines (ops : List CacheOp) : ∀ (c : Cache), CacheInv c →
    (runCache c ops).2 = (runMap (cache_view c) ops).2 := by
  induction ops with
  | nil => intro c _; rfl
  | cons op ops ih =>
    intro c hc
    cases op with
    | read s =>
      obtain ⟨h1, h2, h3⟩ := cache_read_spec c hc s
      have hv : cache_view (cache_read c s).1 = cache_view c := funext h3
      simp only [runCache, runMap]
      rw [ih _ h2, hv, h1]
    | write s d =>
      simp only [runCache, runMap]
      rw [ih _ (cache_write_spec c hc s d).1, cache_view_write c hc]
    | flush =>
      obtain ⟨h1, h2, _⟩ := cache_flush_spec c hc
      have hv : cache_view (cache_flush c) = cache_view c := funext h2
      simp only [runCache, runMap]
      rw [ih _ h1, hv]

/-! ## Block cache: the claims -/

/-- C1. Capacity independence: from `cache_init` on any device content, for
any finite sequence of `cache_read` / `cache_write` / `cache_flush` calls
(over any number of distinct sectors), the values returned by the reads are
exactly those returned by a plain sector-to-bytes map started at the device
content: each read returns the latest earlier write to that sector, or the
initial device content. -/
theorem cache_refines_map (dev : Nat → SectorData) (ops : List CacheOp) :
    (runCache (cache_init dev) ops).2 = (runMap dev ops).2 := by
  rw [runCache_refines ops _ (cache_init_inv dev), cache_view_init]

/-- C2. Write-then-read round trip: in every reachable cache state,
`cache_write (S, D)` immediately followed by `cache_read (S)` returns `D`,
on every path of the write (hit, free slot, eviction). -/
theorem cache_write_read (c : Cache) (h : Reachable c) (S : Nat) (D : SectorData) :
    (cache_read (cache_write c S D) S).2 = D := by
  have hw := cache_write_spec c (reachable_inv c h) S D
  rw [(cache_read_spec _ hw.1 S).1, hw.2 S, if_pos rfl]

/-- Witness of C2 on the eviction path: the cache is full and sector 100 is
not resident. -/
theorem cache_write_read_witness :
    Reachable fullCache ∧ (cache_read (cache_write fullCache 100 [7]) 100).2 = [7] :=
  ⟨reachable_run _ (Reachable.init sampleDev) fillWrites,
   cache_write_read fullCache (reachable_run _ (Reachable.init sampleDev) fillWrites) 100 [7]⟩

/-- C3. Slot-directory invariant: in every reachable cache state two
different resident slots hold different sector ids. -/
theorem resident_sectors_distinct (c : Cache) (h : Reachable c) (i j : Nat)
    (hi : i < c.size) (hj : j < c.size) (hij : i ≠ j) :
    (c.blocks i).sector ≠ (c.blocks j).sector :=
  fun hs => hij ((reachable_inv c h).uniq i j hi hj hs)

/-- Witness of C3: slots 0 and 1 after two writes. -/
theorem resident_sectors_distinct_witness :
    Reachable twoCache ∧ 0 < twoCache.size ∧ 1 < twoCache.size ∧ (0 : Nat) ≠ 1 ∧
    (twoCache.blocks 0).sector ≠ (twoCache.blocks 1).sector :=
  ⟨reachable_run _ (Reachable.init sampleDev) twoWrites, by decide, by decide, by decide,
   resident_sectors_distinct twoCache (reachable_run _ (Reachable.init sampleDev) twoWrites)
     0 1 (by decide) (by decide) (by decide)⟩

/-- C4. After `cache_flush` no resident slot has its dirty flag set; this
holds from every cache state, reachable or not. -/
theorem cache_flush_no_dirty (c : Cache) (i : Nat)
    (hi : i < (cache_flush c).size) : ((cache_flush c).blocks i).dirty = false := by
  obtain ⟨hsz, hb⟩ := flush_upto_blocks c c.size
  have hi' : i < c.size := by unfold cache_flush at hi; rw [hsz] at hi; exact hi
  have h3 : ((cache_flush c).blocks i).dirty = if i < c.size then false else (c.blocks i).dirty :=
    (hb i).2.2
  rw [h3, if_pos hi']

/-- Witness of C4: slot 1 after two writes, which is dirty before the flush. -/
theorem cache_flush_no_dirty_witness :
    1 < (cache_flush twoCache).size ∧ (twoCache.blocks 1).dirty = true ∧
    ((cache_flush twoCache).blocks 1).dirty = false :=
  ⟨by decide, by decide, cache_flush_no_dirty twoCache 1 (by decide)⟩

/-- C5. Flush is a durability checkpoint: after `cache_flush`, started in
any reachable cache state, the device holds for every sector the value
`cache_read` returns for it, and that value is the one `cache_read` returned
before the flush. -/
theorem cache_flush_checkpoint (c : Cache) (h : Reachable c) (S : Nat) :
    (cache_flush c).dev S = (cache_read (cache_flush c) S).2 ∧
    (cache_read (cache_flush c) S).2 = (cache_read c S).2 := by
  have hc := reachable_inv c h
  obtain ⟨h1, h2, h3⟩ := cache_flush_spec c hc
  rw [(cache_read_spec _ h1 S).1, (cache_read_spec c hc S).1, h2 S, h3 S]
  exact ⟨rfl, rfl⟩

/-- Witness of C5: sector 9 after two writes. -/
theorem cache_flush_checkpoint_witness :
    Reachable twoCache ∧
    ((cache_flush twoCache).dev 9 = (cache_read (cache_flush twoCache) 9).2 ∧
     (cache_read (cache_flush twoCache) 9).2 = (cache_read twoCache 9).2) :=
  ⟨reachable_run _ (Reachable.init sampleDev) twoWrites,
   cache_flush_checkpoint twoCache (reachable_run _ (Reachable.init sampleDev) twoWrites) 9⟩

/-- C6, amended. Single eviction with write-back: in a reachable state whose
64 slots are all resident, an access (`cache_read` or `cache_write`) to a
sector `S` that is not resident re-points exactly one slot `v`: afterwards slot
`v` holds `S`, the other 63 slots keep their sector and buffer, and the cache
is still full; if slot `v` was dirty then, when the access has returned, the
device holds its old buffer at its old sector (the code writes it back after
it has re-pointed the slot, not before); and a later `cache_read` of the
evicted sector returns that old buffer, which is also what a read just before
the access returned. -/
theorem single_eviction (c : Cache) (h : Reachable c) (hfull : c.size = CACHE_SIZE)
    (S : Nat) (hS : cache_lookup c S = none) (D : SectorData) :
    ∃ v, v < CACHE_SIZE ∧ (c.blocks v).sector ≠ S ∧
      (cache_read c (c.blocks v).sector).2 = (c.blocks v).data ∧
      ((cache_read c S).1.size = CACHE_SIZE ∧
       ((cache_read c S).1.blocks v).sector = S ∧
       (∀ i, i < CACHE_SIZE → i ≠ v →
          ((cache_read c S).1.blocks i).sector = (c.blocks i).sector ∧
          ((cache_read c S).1.blocks i).data = (c.blocks i).data) ∧
       ((c.blocks v).dirty = true →
          (cache_read c S).1.dev (c.blocks v).sector = (c.blocks v).data) ∧
       (cache_read (cache_read c S).1 (c.blocks v).sector).2 = (c.blocks v).data) ∧
      ((cache_write c S D).size = CACHE_SIZE ∧
       ((cache_write c S D).blocks v).sector = S ∧
       (∀ i, i < CACHE_SIZE → i ≠ v →
          ((cache_write c S D).blocks i).sector = (c.blocks i).sector ∧
          ((cache_write c S D).blocks i).data = (c.blocks i).data) ∧
       ((c.blocks v).dirty = true →
          (cache_write c S D).dev (c.blocks v).sector = (c.blocks v).data) ∧
       (cache_read (cache_write c S D) (c.blocks v).sector).2 = (c.blocks v).data) := by
  have hc := reachable_inv c h
  have hlt : ¬ c.size < CACHE_SIZE := by omega
  have hv := victim_lt c hlt
  have hf := clock_scan_fields CACHE_SIZE c.blocks c.clock_hand 0
  have hnone := (cache_lookup_none_iff c S).1 hS
  have hold := hnone _ hv
  have hviewold : cache_view c (c.blocks (clock_scan c.blocks c.clock_hand 0 CACHE_SIZE).2).sector
      = (c.blocks (clock_scan c.blocks c.clock_hand 0 CACHE_SIZE).2).data :=
    cache_view_slot c _ _ hc.uniq hv rfl
  obtain ⟨hr1, hr2, hr3⟩ := cache_read_spec c hc S
  obtain ⟨hw1, hw2⟩ := cache_write_spec c hc S D
  refine ⟨(clock_scan c.blocks c.clock_hand 0 CACHE_SIZE).2, by omega, hold, ?_, ?_, ?_⟩
  · rw [(cache_read_spec c hc _).1, hviewold]
  · refine ⟨?_, ?_, ?_, ?_, ?_⟩
    · simp [cache_read, hS, hlt, hfull]
    · simp [cache_read, hS, hlt, setBlock]
    · intro i _ hi
      simp [cache_read, hS, hlt, setBlock, hi, (hf i).1, (hf i).2.1]
    · intro hd
      simp [cache_read, hS, hlt, (hf _).1, (hf _).2.1, (hf _).2.2, hd, block_write]
    · rw [(cache_read_spec _ hr2 _).1, hr3, hviewold]
  · refine ⟨?_, ?_, ?_, ?_, ?_⟩
    · simp [cache_write, hS, hlt, hfull]
    · simp [cache_write, hS, hlt, setBlock]
    · intro i _ hi
      simp [cache_write, hS, hlt, setBlock, hi, (hf i).1, (hf i).2.1]
    · intro hd
      simp [cache_write, hS, hlt, (hf _).1, (hf _).2.1, (hf _).2.2, hd, block_write]
    · rw [(cache_read_spec _ hw1 _).1, hw2, if_neg hold, hviewold]

set_option maxRecDepth 100000 in
/-- Witness of C6, amended: the cache filled by writes to sectors 0..63, then
an access to sector 100. -/
theorem single_eviction_witness :
    Reachable fullCache ∧ fullCache.size = CACHE_SIZE ∧ cache_lookup fullCache 100 = none ∧
    ∃ v, v < CACHE_SIZE ∧ (fullCache.blocks v).sector ≠ 100 ∧
      (cache_read fullCache (fullCache.blocks v).sector).2 = (fullCache.blocks v).data ∧
      ((cache_read fullCache 100).1.size = CACHE_SIZE ∧
       ((cache_read fullCache 100).1.blocks v).sector = 100 ∧
       (∀ i, i < CACHE_SIZE → i ≠ v →
          ((cache_read fullCache 100).1.blocks i).sector = (fullCache.blocks i).sector ∧
          ((cache_read fullCache 100).1.blocks i).data = (fullCache.blocks i).data) ∧
       ((fullCache.blocks v).dirty = true →
          (cache_read fullCache 100).1.dev (fullCache.blocks v).sector = (fullCache.blocks v).data) ∧
       (cache_read (cache_read fullCache 100).1 (fullCache.blocks v).sector).2
          = (fullCache.blocks v).data) ∧
      ((cache_write fullCache 100 [7]).size = CACHE_SIZE ∧
       ((cache_write fullCache 100 [7]).blocks v).sector = 100 ∧
       (∀ i, i < CACHE_SIZE → i ≠ v →
          ((cache_write fullCache 100 [7]).blocks i).sector = (fullCache.blocks i).sector ∧
          ((cache_write fullCache 100 [7]).blocks i).data = (fullCache.blocks i).data) ∧
       ((fullCache.blocks v).dirty = true →
          (cache_write fullCache 100 [7]).dev (fullCache.blocks v).sector
            = (fullCache.blocks v).data) ∧
       (cache_read (cache_write fullCache 100 [7]) (fullCache.blocks v).sector).2
          = (fullCache.blocks v).data) :=
  ⟨reachable_run _ (Reachable.init sampleDev) fillWrites, by decide, by decide,
   single_eviction fullCache (reachable_run _ (Reachable.init sampleDev) fillWrites)
     (by decide) 100 (by decide) [7]⟩

set_option maxRecDepth 100000 in
/-- Counterexample to C6 as stated (the write-back does not precede the
re-pointing): in the cache filled by writes to the sectors 0..63, slot 0 holds
sector 0 with the dirty buffer `[1]` while the device still holds `[0]` there.
A thread calls `cache_write (100, ..)`. After its first four steps (it takes
`clock_lock`, chooses slot 0 as victim, takes the slot's lock, executes
`block->sector = sector` and releases `clock_lock`) slot 0 is already re-pointed
at sector 100, `clock_lock` is free, and the device still holds `[0]` at sector
0: the dirty buffer has not been written back. Only the fifth step, the
statement `if (block->dirty == 1) block_write (fs_device, old, block->data)`,
writes it. -/
theorem repoint_precedes_write_back :
    (fullCache.blocks 0).sector = 0 ∧ (fullCache.blocks 0).dirty = true ∧
    (fullCache.blocks 0).data = [1] ∧ fullCache.dev 0 = [0] ∧
    cache_lookup fullCache 100 = none ∧
    ((runThreads 100 (payloads [7] [8]) [false, false, false, false]
        (twoWriters fullCache)).cache.blocks 0).sector = 100 ∧
    (runThreads 100 (payloads [7] [8]) [false, false, false, false]
        (twoWriters fullCache)).clock_lock = none ∧
    (runThreads 100 (payloads [7] [8]) [false, false, false, false]
        (twoWriters fullCache)).pc false = WPc.mark WPath.evict 0 0 ∧
    (runThreads 100 (payloads [7] [8]) [false, false, false, false]
        (twoWriters fullCache)).cache.dev 0 = [0] ∧
    (runThreads 100 (payloads [7] [8]) [false, false, false, false, false]
        (twoWriters fullCache)).cache.dev 0 = [1] := by
  refine ⟨by decide, by decide, by decide, by decide, by decide, by decide, by decide,
    by decide, by decide, by decide⟩

/-! ## Offset translation: the three tiers -/

/-- C7. Offsets outside the file are not allocated: for every cache state,
every inode and every offset `pos` with `pos < 0` or `pos >=` the length of
the record read from the inode's sector, `byte_to_sector` returns `-1` as
`block_sector_t` (4294967295), and it has read nothing but the inode's own
sector. -/
theorem byte_to_sector_outside (c : Cache) (ino : inode) (pos : Int)
    (h : pos < 0 ∨ pos ≥ (decode_inode (cache_read c ino.sector).2).length) :
    byte_to_sector c ino pos = ((cache_read c ino.sector).1, NO_SECTOR) ∧
    NO_SECTOR = 4294967295 := by
  refine ⟨?_, by decide⟩
  unfold byte_to_sector
  have hcond : ¬ (pos < (decode_inode (cache_read c ino.sector).2).length ∧ pos ≥ 0) := by
    rintro ⟨h1, h2⟩
    rcases h with h | h <;> omega
  simp only [hcond, if_false]

set_option maxRecDepth 100000 in
/-- Witness of C7: the 600-byte inode in sector 7, at offset 600 (the first
offset past the end). -/
theorem byte_to_sector_outside_witness :
    ((600 : Int) < 0 ∨
      (600 : Int) ≥ (decode_inode (cache_read (cache_init inodeDev) ino7.sector).2).length) ∧
    (byte_to_sector (cache_init inodeDev) ino7 600
        = ((cache_read (cache_init inodeDev) ino7.sector).1, NO_SECTOR) ∧
     NO_SECTOR = 4294967295) :=
  ⟨Or.inr (by decide),
   byte_to_sector_outside (cache_init inodeDev) ino7 600 (Or.inr (by decide))⟩

/-- C9, as the code behaves: when the target length is smaller than the
current length and needs fewer sectors, `inode_extend` returns false; when it
is smaller but needs the same number of sectors, `inode_extend` returns true
(the test `new == cur` comes before the test `length < data->length`). In
both cases the record, the allocator and the cache are unchanged. -/
theorem inode_extend_shrink (s : FsState) (data : inode_disk) (length : Int)
    (hlt : length < data.length) :
    (bytes_to_sectors length < bytes_to_sectors data.length →
      inode_extend s data length = (s, data, false)) ∧
    (bytes_to_sectors length = bytes_to_sectors data.length →
      inode_extend s data length = (s, data, true)) ∧
    (bytes_to_sectors data.length < bytes_to_sectors length →
      inode_extend s data length = (s, data, false)) := by
  refine ⟨fun h => ?_, fun h => ?_, fun h => ?_⟩
  · unfold inode_extend
    simp [h]
  · unfold inode_extend
    simp [h]
  · have h1 : ¬ bytes_to_sectors length < bytes_to_sectors data.length := by omega
    have h2 : ¬ bytes_to_sectors length = bytes_to_sectors data.length := by omega
    unfold inode_extend
    simp [h1, h2, hlt]

/-- The failing input of C9: current length 600, target 513; both need two
sectors and `inode_extend` returns true. -/
theorem inode_extend_shrink_witness :
    (513 : Int) < rec600.length ∧ bytes_to_sectors 513 = bytes_to_sectors rec600.length ∧
    inode_extend sampleFs rec600 513 = (sampleFs, rec600, true) :=
  ⟨by decide, by decide,
   (inode_extend_shrink sampleFs rec600 513 (by decide)).2.1 (by decide)⟩

/-- C10, as the code behaves: for a record of length 0, `inode_extend` to
`(122 + 128 + 128 * 128) * 512 = 8516608` bytes returns false without
allocating anything, because the limit tested is
`(DIRECT_SIZE + 128 + 128 * DIRECT_SIZE) * 512 = 8123392`; a target one
sector larger, 8517120 bytes, returns false as well. -/
theorem inode_extend_max_rejected (s : FsState) (data : inode_disk) (h0 : data.length = 0) :
    inode_extend s data 8516608 = (s, data, false) ∧
    inode_extend s data 8517120 = (s, data, false) ∧
    (8516608 : Int) = (122 + 128 + 128 * 128) * 512 ∧ (8517120 : Int) = 8516608 + 512 := by
  have hcur : bytes_to_sectors data.length = 0 := by rw [h0]; decide
  have hn1 : bytes_to_sectors 8516608 = 16634 := by decide
  have hn2 : bytes_to_sectors 8517120 = 16635 := by decide
  refine ⟨?_, ?_, by decide, by decide⟩
  · unfold inode_extend
    simp [hcur, hn1, DIRECT_SIZE, BLOCK_SECTOR_SIZE]
  · unfold inode_extend
    simp [hcur, hn2, DIRECT_SIZE, BLOCK_SECTOR_SIZE]

/-- The failing input of C10: the empty record `rec0`. -/
theorem inode_extend_max_rejected_witness :
    rec0.length = 0 ∧
    (inode_extend sampleFs rec0 8516608 = (sampleFs, rec0, false) ∧
     inode_extend sampleFs rec0 8517120 = (sampleFs, rec0, false) ∧
     (8516608 : Int) = (122 + 128 + 128 * 128) * 512 ∧ (8517120 : Int) = 8516608 + 512) :=
  ⟨rfl, inode_extend_max_rejected sampleFs rec0 rfl⟩

/-! ## Growth: lemmas -/

theorem alloc_loop_zero (s : FsState) (ptrs : List Nat) (i : Int) :
    alloc_loop s ptrs i 0 = (s, ptrs, true) := rfl

theorem extend_children_zero (doubly : indirect_block) (cur new : Nat) (mini maxi : Int)
    (s : FsState) (i : Int) : extend_children doubly cur new mini maxi s i 0 = (s, true) := by
  simp [extend_children]

/-- Growth inside block indices 250 .. 377: the double-indirect block of
`inode_extend` computes `mini = 2` and `maxi = 1`, so both of its loops are
empty and it allocates nothing. -/
theorem extend_doubly_noalloc (s : FsState) (data : inode_disk) (cur new : Nat)
    (hcur : 250 ≤ cur) (hlt : cur < new) (hnew : new ≤ 377) :
    (extend_doubly s data cur new).ok = true ∧ (extend_doubly s data cur new).st.fm = s.fm ∧
    (extend_doubly s data cur new).data = data := by
  have hc : cur < DIRECT_SIZE + 128 + 128 * 128 ∧ new > DIRECT_SIZE + 128 := by
    simp only [DIRECT_SIZE]; omega
  have hmini : (cur - DIRECT_SIZE + 128) / 128 = 2 := by
    simp only [DIRECT_SIZE]; omega
  have hmaxi : (new - DIRECT_SIZE + 128) / 128 = 2 := by
    simp only [DIRECT_SIZE]; omega
  unfold extend_doubly
  simp only [hc, and_self, if_true, hmini, hmaxi, indirect_blocker]
  norm_num [alloc_loop_zero, extend_children_zero]

theorem extend_direct_skip (s : FsState) (data : inode_disk) (cur new : Nat)
    (h : DIRECT_SIZE ≤ cur) :
    extend_direct s data cur new = { st := s, data := data, cur := cur, ok := true } := by
  have h1 : ¬ cur < DIRECT_SIZE := by omega
  simp [extend_direct, h1]

theorem extend_indirect_skip (s : FsState) (data : inode_disk) (cur new : Nat)
    (h : DIRECT_SIZE + 128 ≤ cur) :
    extend_indirect s data cur new = { st := s, data := data, cur := cur, ok := true } := by
  have h1 : ¬ cur < DIRECT_SIZE + 128 := by omega
  simp [extend_indirect, h1]

theorem FmLe_refl (fm : FreeMap) : FmLe fm fm := ⟨rfl, fun _ h => h⟩

theorem FmLe_trans (a b c : FreeMap) (h1 : FmLe a b) (h2 : FmLe b c) : FmLe a c :=
  ⟨h2.1.trans h1.1, fun j h => h2.2 j (h1.2 j h)⟩

theorem free_map_allocate_le (fm fm' : FreeMap) (i : Nat)
    (h : free_map_allocate fm = some (i, fm')) : FmLe fm fm' := by
  unfold free_map_allocate at h
  split at h
  · exact absurd h (by simp)
  · simp only [Option.some.injEq, Prod.mk.injEq] at h
    obtain ⟨_, h2⟩ := h
    subst h2
    refine ⟨rfl, fun j hj => ?_⟩
    simp only
    split
    · rfl
    · exact hj

/-- The allocation loop releases nothing; when it reports failure, the free
map it leaves is the one on which `free_map_allocate` failed. -/
theorem alloc_loop_le (n : Nat) : ∀ (s : FsState) (ptrs : List Nat) (i : Int),
    FmLe s.fm (alloc_loop s ptrs i n).1.fm ∧
    ((alloc_loop s ptrs i n).2.2 = false → free_map_allocate (alloc_loop s ptrs i n).1.fm = none) := by
  induction n with
  | zero => intro s ptrs i; simp [alloc_loop, FmLe_refl]
  | succ n ih =>
    intro s ptrs i
    unfold alloc_loop
    cases h : free_map_allocate s.fm with
    | none => simp [FmLe_refl, h]
    | some r =>
      obtain ⟨sec, fm1⟩ := r
      simp only
      have h1 := free_map_allocate_le s.fm fm1 sec h
      obtain ⟨h2, h3⟩ := ih { cache := cache_write s.cache sec zeroSector, fm := fm1 }
        (if 0 ≤ i then ptrs.set i.toNat sec else ptrs) (i + 1)
      exact ⟨FmLe_trans _ _ _ h1 h2, h3⟩

theorem extend_direct_le (s : FsState) (data : inode_disk) (cur new : Nat) :
    FmLe s.fm (extend_direct s data cur new).st.fm ∧
    (extend_direct s data cur new).data.length = data.length ∧
    ((extend_direct s data cur new).ok = false →
      free_map_allocate (extend_direct s data cur new).st.fm = none) := by
  unfold extend_direct
  split
  · simp only
    obtain ⟨h1, h2⟩ := alloc_loop_le ((if new < DIRECT_SIZE then new else DIRECT_SIZE) - cur)
      s data.direct cur
    exact ⟨h1, trivial, h2⟩
  · simp [FmLe_refl]

theorem indirect_blocker_le (s : FsState) (block : indirect_block) (start stop : Int) :
    FmLe s.fm (indirect_blocker s block start stop).1.fm ∧
    ((indirect_blocker s block start stop).2.2 = false →
      free_map_allocate (indirect_blocker s block start stop).1.fm = none) :=
  alloc_loop_le _ s block start

set_option maxRecDepth 10000 in
theorem extend_indirect_le (s : FsState) (data : inode_disk) (cur new : Nat) :
    FmLe s.fm (extend_indirect s data cur new).st.fm ∧
    (extend_indirect s data cur new).data.length = data.length ∧
    ((extend_indirect s data cur new).ok = false →
      free_map_allocate (extend_indirect s data cur new).st.fm = none) := by
  unfold extend_indirect
  lift_lets
  intro rd lim r
  have hr : FmLe s.fm r.1.fm ∧ (r.2.2 = false → free_map_allocate r.1.fm = none) :=
    alloc_loop_le (lim - (cur - DIRECT_SIZE)) { s with cache := rd.1 } (decode_indirect rd.2)
      ((cur - DIRECT_SIZE : Nat) : Int)
  split
  · split
    · exact ⟨hr.1, rfl, fun h => absurd h (by simp)⟩
    · rename_i hf
      exact ⟨hr.1, rfl, fun _ => hr.2 (by simpa using hf)⟩
  · exact ⟨FmLe_refl _, rfl, fun h => absurd h (by simp)⟩

theorem extend_children_succ (doubly : indirect_block) (cur new : Nat) (mini maxi : Int)
    (s : FsState) (i : Int) (n : Nat) :
    extend_children doubly cur new mini maxi s i (n + 1) =
      (let mn : Int := if i = mini then (((cur - DIRECT_SIZE + 128) % 128 : Nat) : Int) else 0
       let mx : Int :=
         if i = maxi then (((new - DIRECT_SIZE + 128) % 128 : Nat) : Int) - 1 else 128
       let child := doubly.getD i.toNat 0
       let rd := cache_read s.cache child
       let r := indirect_blocker { s with cache := rd.1 } (decode_indirect rd.2) mn mx
       if r.2.2 then
         extend_children doubly cur new mini maxi
           { r.1 with cache := cache_write r.1.cache child (encode_indirect r.2.1) } (i + 1) n
       else (r.1, false)) := rfl

theorem extend_children_le (doubly : indirect_block) (cur new : Nat) (mini maxi : Int)
    (n : Nat) : ∀ (s : FsState) (i : Int),
    FmLe s.fm (extend_children doubly cur new mini maxi s i n).1.fm ∧
    ((extend_children doubly cur new mini maxi s i n).2 = false →
      free_map_allocate (extend_children doubly cur new mini maxi s i n).1.fm = none) := by
  induction n with
  | zero => intro s i; simp [extend_children, FmLe_refl]
  | succ n ih =>
    intro s i
    rw [extend_children_succ]
    lift_lets
    intro mn mx child rd r
    have hr : FmLe s.fm r.1.fm ∧ (r.2.2 = false → free_map_allocate r.1.fm = none) :=
      indirect_blocker_le { s with cache := rd.1 } (decode_indirect rd.2) mn mx
    split
    · obtain ⟨h3, h4⟩ := ih
        { r.1 with cache := cache_write r.1.cache child (encode_indirect r.2.1) } (i + 1)
      exact ⟨FmLe_trans _ _ _ hr.1 h3, h4⟩
    · rename_i hf
      exact ⟨hr.1, fun _ => hr.2 (by simpa using hf)⟩

theorem extend_doubly_le (s : FsState) (data : inode_disk) (cur new : Nat) :
    FmLe s.fm (extend_doubly s data cur new).st.fm ∧
    (extend_doubly s data cur new).data.length = data.length ∧
    ((extend_doubly s data cur new).ok = false →
      free_map_allocate (extend_doubly s data cur new).st.fm = none) := by
  unfold extend_doubly
  lift_lets
  intro mini maxi rd r r2
  have hr : FmLe s.fm r.1.fm ∧ (r.2.2 = false → free_map_allocate r.1.fm = none) :=
    indirect_blocker_le { s with cache := rd.1 } (decode_indirect rd.2) mini maxi
  have hr2 : FmLe r.1.fm r2.1.fm ∧ (r2.2 = false → free_map_allocate r2.1.fm = none) :=
    extend_children_le r.2.1 cur new mini maxi _ r.1 mini
  split
  · split
    · split
      · exact ⟨FmLe_trans _ _ _ hr.1 hr2.1, rfl, fun h => absurd h (by simp)⟩
      · rename_i hf
        exact ⟨FmLe_trans _ _ _ hr.1 hr2.1, rfl, fun _ => hr2.2 (by simpa using hf)⟩
    · rename_i hf
      exact ⟨hr.1, rfl, fun _ => hr.2 (by simpa using hf)⟩
  · exact ⟨FmLe_refl _, rfl, fun h => absurd h (by simp)⟩

/-! ## Growth: the claims -/

/-- C11, as the code behaves: when the target length needs as many sectors
as the current length, `inode_extend` returns true and leaves the whole
record, its length field included, as it was (the `return true` of
`new == cur` comes before `data->length = length`); when the sector counts
differ and `inode_extend` returns true, the length field is the target. -/
theorem inode_extend_length (s : FsState) (data : inode_disk) (length : Int) :
    (bytes_to_sectors length = bytes_to_sectors data.length →
      inode_extend s data length = (s, data, true)) ∧
    (bytes_to_sectors length ≠ bytes_to_sectors data.length →
      (inode_extend s data length).2.2 = true →
      (inode_extend s data length).2.1.length = length) := by
  refine ⟨fun h => ?_, fun hne hok => ?_⟩
  · unfold inode_extend
    simp [h]
  · unfold inode_extend at hok ⊢
    simp only [hne, if_false] at hok ⊢
    split_ifs at hok ⊢
    simp_all

/-- The failing input of C11: current length 100, target 200; the call
returns true and the length field is still 100. -/
theorem inode_extend_length_witness :
    rec100.length ≤ 200 ∧ bytes_to_sectors 200 = bytes_to_sectors rec100.length ∧
    (inode_extend sampleFs rec100 200).2.2 = true ∧
    (inode_extend sampleFs rec100 200).2.1.length = 100 :=
  ⟨by decide, by decide,
   by rw [(inode_extend_length sampleFs rec100 200).1 (by decide)],
   by rw [(inode_extend_length sampleFs rec100 200).1 (by decide)]; rfl⟩

/-- C12, as the code behaves: growth from `cur` to `new` sectors with
`250 <= cur < new <= 377` (for instance from 250 to 251 sectors) succeeds and
records the new length, but allocates no sector: the free map and the
direct pointers are unchanged, so the file keeps the data sectors it had
while `ceil (length / 512)` has grown. -/
theorem inode_extend_doubly_allocates_nothing (s : FsState) (data : inode_disk) (length : Int)
    (hcur : 250 ≤ bytes_to_sectors data.length)
    (hlt : bytes_to_sectors data.length < bytes_to_sectors length)
    (hnew : bytes_to_sectors length ≤ 377)
    (hmax : length ≤ 8123392) (hge : data.length ≤ length) :
    (inode_extend s data length).2.2 = true ∧
    (inode_extend s data length).2.1.length = length ∧
    (inode_extend s data length).2.1.direct = data.direct ∧
    (inode_extend s data length).1.fm = s.fm := by
  have h1 : ¬ bytes_to_sectors length < bytes_to_sectors data.length := by omega
  have h2 : ¬ bytes_to_sectors length = bytes_to_sectors data.length := by omega
  have h3 : ¬ (length > (((DIRECT_SIZE + 128 + 128 * DIRECT_SIZE) * BLOCK_SECTOR_SIZE : Nat) : Int)
      ∨ length < data.length) := by
    simp only [DIRECT_SIZE, BLOCK_SECTOR_SIZE]
    push_cast
    omega
  have hd := extend_direct_skip s data (bytes_to_sectors data.length) (bytes_to_sectors length)
    (by simp only [DIRECT_SIZE]; omega)
  have hi := extend_indirect_skip s data (bytes_to_sectors data.length) (bytes_to_sectors length)
    (by simp only [DIRECT_SIZE]; omega)
  obtain ⟨e1, e2, e3⟩ := extend_doubly_noalloc s data (bytes_to_sectors data.length)
    (bytes_to_sectors length) hcur hlt hnew
  unfold inode_extend
  simp only [h1, h2, h3, if_false, hd, hi, if_true, e1, e2, e3, and_self]

set_option maxRecDepth 100000 in
/-- The failing input of C12: the 250-sector file `rec250` grown to 128512
bytes, which is 251 sectors. -/
theorem inode_extend_doubly_allocates_nothing_witness :
    bytes_to_sectors rec250.length = 250 ∧ bytes_to_sectors 128512 = 251 ∧
    ((inode_extend fs250 rec250 128512).2.2 = true ∧
     (inode_extend fs250 rec250 128512).2.1.length = 128512 ∧
     (inode_extend fs250 rec250 128512).2.1.direct = rec250.direct ∧
     (inode_extend fs250 rec250 128512).1.fm = fs250.fm) :=
  ⟨by decide, by decide,
   inode_extend_doubly_allocates_nothing fs250 rec250 128512 (by decide) (by decide)
     (by decide) (by decide) (by decide)⟩

/-- If `free_map_allocate` fails after `k` iterations of the allocation loop
have succeeded, the loop of `n > k` iterations stops there and reports
failure, keeping what the `k` iterations did. -/
theorem alloc_loop_fail_at (k : Nat) : ∀ (s : FsState) (ptrs : List Nat) (i : Int) (n : Nat),
    k < n → (alloc_loop s ptrs i k).2.2 = true →
    free_map_allocate (alloc_loop s ptrs i k).1.fm = none →
    alloc_loop s ptrs i n = ((alloc_loop s ptrs i k).1, (alloc_loop s ptrs i k).2.1, false) := by
  induction k with
  | zero =>
    intro s ptrs i n hn _ hfail
    obtain ⟨m, rfl⟩ : ∃ m, n = m + 1 := ⟨n - 1, by omega⟩
    simp only [alloc_loop_zero] at hfail ⊢
    simp [alloc_loop, hfail]
  | succ k ih =>
    intro s ptrs i n hn hok hfail
    obtain ⟨m, rfl⟩ : ∃ m, n = m + 1 := ⟨n - 1, by omega⟩
    unfold alloc_loop at hok hfail ⊢
    cases h : free_map_allocate s.fm with
    | none => simp [h] at hok
    | some r =>
      obtain ⟨sec, fm1⟩ := r
      simp only [h] at hok hfail ⊢
      exact ih _ _ _ m (by omega) hok hfail

/-- What every call of `inode_extend` satisfies: it releases nothing; a
false return leaves the length field alone; and a false return on a request
that passed the argument checks comes from a failed `free_map_allocate`,
whose free map is the one returned. -/
theorem inode_extend_le (s : FsState) (data : inode_disk) (length : Int) :
    FmLe s.fm (inode_extend s data length).1.fm ∧
    ((inode_extend s data length).2.2 = false →
      (inode_extend s data length).2.1.length = data.length) ∧
    ((inode_extend s data length).2.2 = false →
      bytes_to_sectors data.length < bytes_to_sectors length →
      length ≤ 8123392 → data.length ≤ length →
      free_map_allocate (inode_extend s data length).1.fm = none) := by
  unfold inode_extend
  lift_lets
  intro cur new r1 r2 r3
  have h1 : FmLe s.fm r1.st.fm ∧ r1.data.length = data.length ∧
      (r1.ok = false → free_map_allocate r1.st.fm = none) := extend_direct_le s data cur new
  have h2 : FmLe r1.st.fm r2.st.fm ∧ r2.data.length = r1.data.length ∧
      (r2.ok = false → free_map_allocate r2.st.fm = none) :=
    extend_indirect_le r1.st r1.data r1.cur new
  have h3 : FmLe r2.st.fm r3.st.fm ∧ r3.data.length = r2.data.length ∧
      (r3.ok = false → free_map_allocate r3.st.fm = none) :=
    extend_doubly_le r2.st r2.data r2.cur new
  split
  · rename_i hlt
    exact ⟨FmLe_refl _, fun _ => rfl, fun _ hgt => absurd hlt (by omega)⟩
  · split
    · exact ⟨FmLe_refl _, fun _ => rfl, fun h => absurd h (by simp)⟩
    · split
      · rename_i hbad
        refine ⟨FmLe_refl _, fun _ => rfl, fun _ _ hmax hge => ?_⟩
        exfalso
        simp only [DIRECT_SIZE, BLOCK_SECTOR_SIZE] at hbad
        push_cast at hbad
        omega
      · split
        · split
          · split
            · exact ⟨FmLe_trans _ _ _ h1.1 (FmLe_trans _ _ _ h2.1 h3.1),
                fun h => absurd h (by simp), fun h => absurd h (by simp)⟩
            · rename_i hf
              exact ⟨FmLe_trans _ _ _ h1.1 (FmLe_trans _ _ _ h2.1 h3.1),
                fun _ => h3.2.1.trans (h2.2.1.trans h1.2.1),
                fun _ _ _ _ => h3.2.2 (by simpa using hf)⟩
          · rename_i hf
            exact ⟨FmLe_trans _ _ _ h1.1 h2.1, fun _ => h2.2.1.trans h1.2.1,
              fun _ _ _ _ => h2.2.2 (by simpa using hf)⟩
        · rename_i hf
          exact ⟨h1.1, fun _ => h1.2.1, fun _ _ _ _ => h1.2.2 (by simpa using hf)⟩

set_option maxRecDepth 100000 in
/-- C13, at a failing input: the file in sector 5 has 250 sectors (128000
bytes). Writing one byte at offset 128511 grows it to 128512 bytes (251
sectors) and returns 1; no sector is allocated. Reading the byte at offset
128000, which lies between the old and the new length and was not
written, returns 255 (the device has 4096 sectors): block 250 is translated
through entry 0 of the double-indirect block, which the growth never filled,
so the read lands in sector 9. -/
theorem growth_reads_stale_sector :
    (inode_length fs250.cache ino5).2 = 128000 ∧
    (inode_write_at fs250 ino5 [1] 1 128511).2 = 1 ∧
    (inode_length (inode_write_at fs250 ino5 [1] 1 128511).1.cache ino5).2 = 128512 ∧
    (List.range 64).map (inode_write_at fs250 ino5 [1] 1 128511).1.fm.used
      = (List.range 64).map fs250.fm.used ∧
    (byte_to_sector (inode_write_at fs250 ino5 [1] 1 128511).1.cache ino5 128000).2 = 9 ∧
    (inode_read_at 4096 (inode_write_at fs250 ino5 [1] 1 128511).1.cache ino5 1 128000).map
      Prod.snd = some [255] := by
  decide

/-- C15, as the code behaves: for every inode whose length needs at most
250 sectors (length 0 and every length of the direct and single-indirect
tiers), `inode_dealloc` reads the inode sector and makes exactly one release
call, `fm_release (data->direct, DIRECT_SIZE)`; it makes no call for the
single-indirect or the double-indirect index sector. -/
theorem inode_dealloc_small (c : Cache) (ino : inode)
    (h : bytes_to_sectors (decode_inode (cache_read c ino.sector).2).length ≤ 250) :
    inode_dealloc c ino =
      ((cache_read c ino.sector).1,
       [ReleaseCall.ptrs (decode_inode (cache_read c ino.sector).2).direct DIRECT_SIZE]) := by
  unfold inode_dealloc
  lift_lets
  intro r0 data cur calls0 left0 r1 calls1 left1
  have hcur : cur ≤ 250 := h
  have h1 : ¬ cur > DIRECT_SIZE + 128 := by simp only [DIRECT_SIZE]; omega
  have h2 : ¬ cur > DIRECT_SIZE + 128 + 128 := by simp only [DIRECT_SIZE]; omega
  split
  · rfl
  · simp only [h1, if_false, dealloc_doubly, h2]

set_option maxRecDepth 100000 in
/-- The failing input of C15: the empty file created in sector 32, whose
index sectors are 33 and 34; after the release call of `inode_dealloc` both
are still in use. -/
theorem inode_dealloc_small_witness :
    bytes_to_sectors (decode_inode (cache_read fsCreated.cache 32).2).length ≤ 250 ∧
    (decode_inode (cache_read fsCreated.cache 32).2).length = 0 ∧
    (decode_inode (cache_read fsCreated.cache 32).2).indirect = 33 ∧
    (decode_inode (cache_read fsCreated.cache 32).2).doubly_indirect = 34 ∧
    inode_dealloc fsCreated.cache
        { sector := 32, open_cnt := 0, removed := true, deny_write_cnt := 0 } =
      ((cache_read fsCreated.cache 32).1,
       [ReleaseCall.ptrs (decode_inode (cache_read fsCreated.cache 32).2).direct DIRECT_SIZE]) ∧
    (fm_release fsCreated.fm
      (ReleaseCall.ptrs (decode_inode (cache_read fsCreated.cache 32).2).direct
        DIRECT_SIZE)).used 33 = true ∧
    (fm_release fsCreated.fm
      (ReleaseCall.ptrs (decode_inode (cache_read fsCreated.cache 32).2).direct
        DIRECT_SIZE)).used 34 = true :=
  ⟨by decide, by decide, by decide, by decide,
   inode_dealloc_small fsCreated.cache
     { sector := 32, open_cnt := 0, removed := true, deny_write_cnt := 0 } (by decide),
   by decide, by decide⟩

set_option maxRecDepth 100000 in
/-- C16, at a failing input with `L = 0`: sectors 32, 33 and 34 are free in
the sample free map. Allocating the inode sector gives 32;
`inode_create (32, 0, false)` succeeds and takes 33 and 34 for the index
blocks; `inode_open`, `inode_remove` and the final `inode_close` unregister the
handle and release sector 32, but 33 and 34 are still in use. -/
theorem create_remove_close_leaks :
    (free_map_allocate sampleFs.fm).map Prod.fst = some 32 ∧
    sampleFs.fm.used 32 = false ∧ sampleFs.fm.used 33 = false ∧ sampleFs.fm.used 34 = false ∧
    (inode_create fsAfterAlloc 32 0 false true).2 = true ∧
    (inode_open fsCreated (inode_init (fun _ => none)) 32 (some 1000)).2.2 = some 1000 ∧
    regClosed.2.open_inodes = [] ∧
    regClosed.1.fm.used 32 = false ∧
    regClosed.1.fm.used 33 = true ∧ regClosed.1.fm.used 34 = true := by
  decide

/-! ## Handles: lemmas -/

theorem setHandle_same (heap : Nat → Option inode) (p : Nat) (x : Option inode) :
    setHandle heap p x p = x := by
  simp [setHandle]

theorem setHandle_other (heap : Nat → Option inode) (p q : Nat) (x : Option inode)
    (h : q ≠ p) : setHandle heap p x q = heap q := by
  simp [setHandle, h]

theorem find_open_some (reg : Registry) (s p : Nat) (h : find_open reg s = some p) :
    p ∈ reg.open_inodes ∧ ∃ x, reg.heap p = some x ∧ x.sector = s := by
  unfold find_open at h
  have h1 := List.mem_of_find?_eq_some h
  have h2 := List.find?_some h
  refine ⟨h1, ?_⟩
  cases hp : reg.heap p with
  | none => simp [hp] at h2
  | some x =>
    refine ⟨x, rfl, ?_⟩
    simpa [hp] using h2

theorem find_open_none (reg : Registry) (s : Nat) (h : find_open reg s = none) :
    ∀ q, q ∈ reg.open_inodes → ∀ x, reg.heap q = some x → x.sector ≠ s := by
  intro q hq x hx
  unfold find_open at h
  have h1 := List.find?_eq_none.1 h q hq
  simpa [hx] using h1

theorem find_open_of_registered (reg : Registry) (s : Nat)
    (h : ∃ q, q ∈ reg.open_inodes ∧ ∃ x, reg.heap q = some x ∧ x.sector = s) :
    ∃ p, find_open reg s = some p := by
  cases hf : find_open reg s with
  | some p => exact ⟨p, rfl⟩
  | none =>
    obtain ⟨q, hq, x, hx, hs⟩ := h
    exact absurd hs (find_open_none reg s hf q hq x hx)

/-- Replacing a live handle by one with the same sector and a positive open
count keeps the registry invariant. -/
theorem RegInv_update (reg : Registry) (hr : RegInv reg) (p : Nat) (x y : inode)
    (hx : reg.heap p = some x) (hs : y.sector = x.sector) (hc : 1 ≤ y.open_cnt) :
    RegInv { reg with heap := setHandle reg.heap p (some y) } := by
  refine ⟨hr.nodup, ?_, ?_, ?_⟩
  · intro q
    by_cases hq : q = p
    · subst hq
      simp only [setHandle_same]
      exact ⟨fun _ => ⟨y, rfl⟩, fun _ => (hr.live q).2 ⟨x, hx⟩⟩
    · simp only [setHandle_other _ _ _ _ hq]
      exact hr.live q
  · intro q z hz
    by_cases hq : q = p
    · subst hq
      simp only [setHandle_same, Option.some.injEq] at hz
      subst hz
      exact hc
    · simp only [setHandle_other _ _ _ _ hq] at hz
      exact hr.cnt q z hz
  · intro q1 q2 z1 z2 h1 h2 hsec
    by_cases hq1 : q1 = p
    · by_cases hq2 : q2 = p
      · rw [hq1, hq2]
      · subst hq1
        simp only [setHandle_same, Option.some.injEq] at h1
        simp only [setHandle_other _ _ _ _ hq2] at h2
        subst h1
        exact hr.uniq q1 q2 x z2 hx h2 (hs.symm.trans hsec)
    · by_cases hq2 : q2 = p
      · subst hq2
        simp only [setHandle_same, Option.some.injEq] at h2
        simp only [setHandle_other _ _ _ _ hq1] at h1
        subst h2
        exact hr.uniq q1 q2 z1 x h1 hx (hsec.trans hs)
      · simp only [setHandle_other _ _ _ _ hq1] at h1
        simp only [setHandle_other _ _ _ _ hq2] at h2
        exact hr.uniq q1 q2 z1 z2 h1 h2 hsec

theorem inode_reopen_inv (reg : Registry) (hr : RegInv reg) (p : Nat) :
    RegInv (inode_reopen reg p) := by
  unfold inode_reopen
  cases hx : reg.heap p with
  | none => exact hr
  | some x =>
    exact RegInv_update reg hr p x _ hx rfl (by have := hr.cnt p x hx; simp only; omega)

theorem inode_remove_inv (reg : Registry) (hr : RegInv reg) (p : Nat) :
    RegInv (inode_remove reg p) := by
  unfold inode_remove
  cases hx : reg.heap p with
  | none => exact hr
  | some x => exact RegInv_update reg hr p x _ hx rfl (hr.cnt p x hx)

theorem inode_deny_write_inv (reg reg' : Registry) (hr : RegInv reg) (p : Nat)
    (h : inode_deny_write reg p = some reg') : RegInv reg' := by
  unfold inode_deny_write at h
  cases hx : reg.heap p with
  | none => simp [hx] at h
  | some x =>
    simp only [hx] at h
    split at h
    · simp only [Option.some.injEq] at h
      subst h
      exact RegInv_update reg hr p x _ hx rfl (hr.cnt p x hx)
    · exact absurd h (by simp)

theorem inode_allow_write_inv (reg reg' : Registry) (hr : RegInv reg) (p : Nat)
    (h : inode_allow_write reg p = some reg') : RegInv reg' := by
  unfold inode_allow_write at h
  cases hx : reg.heap p with
  | none => simp [hx] at h
  | some x =>
    simp only [hx] at h
    split at h
    · simp only [Option.some.injEq] at h
      subst h
      exact RegInv_update reg hr p x _ hx rfl (hr.cnt p x hx)
    · exact absurd h (by simp)

theorem inode_open_inv (fs : FsState) (reg : Registry) (hr : RegInv reg) (s : Nat)
    (m : Option Nat) (hm : ∀ p, m = some p → reg.heap p = none) :
    RegInv (inode_open fs reg s m).2.1 := by
  unfold inode_open
  cases hf : find_open reg s with
  | some p => exact inode_reopen_inv reg hr p
  | none =>
    cases m with
    | none => exact hr
    | some a =>
      have ha : reg.heap a = none := hm a rfl
      have hnotin : a ∉ reg.open_inodes := by
        intro hmem
        obtain ⟨x, hx⟩ := (hr.live a).1 hmem
        rw [ha] at hx
        exact absurd hx (by simp)
      have hnone := find_open_none reg s hf
      refine ⟨List.nodup_cons.2 ⟨hnotin, hr.nodup⟩, ?_, ?_, ?_⟩
      · intro q
        by_cases hq : q = a
        · subst hq
          simp [setHandle_same]
        · simp only [setHandle_other _ _ _ _ hq, List.mem_cons, hq, false_or]
          exact hr.live q
      · intro q z hz
        by_cases hq : q = a
        · subst hq
          simp only [setHandle_same, Option.some.injEq] at hz
          subst hz
          exact le_refl _
        · simp only [setHandle_other _ _ _ _ hq] at hz
          exact hr.cnt q z hz
      · intro q1 q2 z1 z2 h1 h2 hsec
        by_cases hq1 : q1 = a
        · by_cases hq2 : q2 = a
          · rw [hq1, hq2]
          · subst hq1
            simp only [setHandle_same, Option.some.injEq] at h1
            simp only [setHandle_other _ _ _ _ hq2] at h2
            subst h1
            exact absurd hsec.symm (hnone q2 ((hr.live q2).2 ⟨z2, h2⟩) z2 h2)
        · by_cases hq2 : q2 = a
          · subst hq2
            simp only [setHandle_same, Option.some.injEq] at h2
            simp only [setHandle_other _ _ _ _ hq1] at h1
            subst h2
            exact absurd hsec (hnone q1 ((hr.live q1).2 ⟨z1, h1⟩) z1 h1)
          · simp only [setHandle_other _ _ _ _ hq1] at h1
            simp only [setHandle_other _ _ _ _ hq2] at h2
            exact hr.uniq q1 q2 z1 z2 h1 h2 hsec

theorem inode_close_inv (fs : FsState) (reg : Registry) (hr : RegInv reg) (p : Nat) :
    RegInv (inode_close fs reg p).2 := by
  unfold inode_close
  cases hx : reg.heap p with
  | none => exact hr
  | some x =>
    simp only
    by_cases h0 : x.open_cnt - 1 = 0
    · have hfree : RegInv (Registry.mk (setHandle reg.heap p none) (reg.open_inodes.erase p)) := by
        refine ⟨hr.nodup.erase p, ?_, ?_, ?_⟩
        · intro q
          rw [hr.nodup.mem_erase_iff]
          by_cases hq : q = p
          · subst hq
            simp [setHandle_same]
          · simp only [setHandle_other _ _ _ _ hq, ne_eq, hq, not_false_eq_true, true_and]
            exact hr.live q
        · intro q z hz
          by_cases hq : q = p
          · subst hq
            simp [setHandle_same] at hz
          · simp only [setHandle_other _ _ _ _ hq] at hz
            exact hr.cnt q z hz
        · intro q1 q2 z1 z2 h1 h2 hsec
          by_cases hq1 : q1 = p
          · subst hq1
            simp [setHandle_same] at h1
          · by_cases hq2 : q2 = p
            · subst hq2
              simp [setHandle_same] at h2
            · simp only [setHandle_other _ _ _ _ hq1] at h1
              simp only [setHandle_other _ _ _ _ hq2] at h2
              exact hr.uniq q1 q2 z1 z2 h1 h2 hsec
      simp only [h0, if_true]
      split
      · exact hfree
      · exact hfree
    · simp only [h0, if_false]
      exact RegInv_update reg hr p x _ hx rfl (by
        have := hr.cnt p x hx
        simp only
        omega)

theorem handle_reach_inv (closable : inode → Prop) (st : FsState × Registry)
    (h : HandleReach closable st) : RegInv st.2 := by
  induction h with
  | init fs =>
    refine ⟨List.nodup_nil, ?_, ?_, ?_⟩
    · intro p; simp [inode_init]
    · intro p x hx; simp [inode_init] at hx
    · intro p q x y hx; simp [inode_init] at hx
  | openh st s m _ hm ih => exact inode_open_inv st.1 st.2 ih s m hm
  | reopen st p x _ _ ih => exact inode_reopen_inv st.2 ih p
  | remove st p x _ _ ih => exact inode_remove_inv st.2 ih p
  | close st p x _ _ _ ih => exact inode_close_inv st.1 st.2 ih p
  | deny st p reg _ hd ih => exact inode_deny_write_inv st.2 reg ih p hd
  | allow st p reg _ ha ih => exact inode_allow_write_inv st.2 reg ih p ha

theorem hOpen_reach (closable : inode → Prop) : HandleReach closable hOpen :=
  HandleReach.openh (sampleFs, inode_init (fun _ => none)) 7 (some 1000)
    (HandleReach.init sampleFs) (fun _ _ => rfl)

theorem hTwo_reach (closable : inode → Prop) : HandleReach closable hTwo :=
  HandleReach.openh hOpen 8 (some 1001) (hOpen_reach closable)
    (fun p hp => by
      have h1 : p = 1001 := by injection hp with h; exact h.symm
      subst h1
      rfl)

theorem hReopen_reach (closable : inode → Prop) : HandleReach closable hReopen :=
  HandleReach.reopen hOpen 1000 _ (hOpen_reach closable) rfl

theorem hDeny1_reach (closable : inode → Prop) : HandleReach closable hDeny1 :=
  HandleReach.deny hReopen 1000 hDeny1.2 (hReopen_reach closable) rfl

theorem hDeny2_reach (closable : inode → Prop) : HandleReach closable hDeny2 :=
  HandleReach.deny hDeny1 1000 hDeny2.2 (hDeny1_reach closable) rfl

theorem free_map_release_used (fm : FreeMap) (s c j : Nat)
    (h : (free_map_release fm s c).used j = true) : fm.used j = true := by
  unfold free_map_release at h
  simp only at h
  split at h
  · exact absurd h (by simp)
  · exact h

theorem free_map_release_fold_used (l : List Nat) : ∀ (fm : FreeMap) (j : Nat),
    (l.foldl (fun m x => free_map_release m x 1) fm).used j = true → fm.used j = true := by
  induction l with
  | nil => intro fm j h; exact h
  | cons a l ih =>
    intro fm j h
    exact free_map_release_used fm a 1 j (ih _ j h)

theorem fm_release_used (fm : FreeMap) (r : ReleaseCall) (j : Nat)
    (h : (fm_release fm r).used j = true) : fm.used j = true := by
  cases r with
  | ptrs a cnt => exact free_map_release_fold_used _ fm j h
  | sector x cnt => exact free_map_release_used fm x cnt j h

theorem fm_release_fold_used (l : List ReleaseCall) : ∀ (fm : FreeMap) (j : Nat),
    (l.foldl fm_release fm).used j = true → fm.used j = true := by
  induction l with
  | nil => intro fm j h; exact h
  | cons a l ih =>
    intro fm j h
    exact fm_release_used fm a j (ih _ j h)

theorem released_stays_free (l : List ReleaseCall) (fm : FreeMap) (s : Nat) :
    (l.foldl fm_release (free_map_release fm s 1)).used s = false := by
  apply Bool.eq_false_iff.2
  intro hu
  have h2 := fm_release_fold_used l (free_map_release fm s 1) s hu
  simp [free_map_release] at h2

theorem hDenyClosed_reach : HandleReach (fun _ => True) hDenyClosed :=
  HandleReach.close hDeny2 1000 _ (hDeny2_reach _) rfl trivial

theorem hProtoClosed_reach : HandleReach closeAllowed hProtoClosed :=
  HandleReach.close hDeny1 1000
    { sector := 7, open_cnt := 2, removed := false, deny_write_cnt := 1 }
    (hDeny1_reach _) rfl (Or.inl (by decide))

/-- Replacing a handle by one within the bound keeps the deny-write bound. -/
theorem deny_bound_update (heap : Nat → Option inode) (p : Nat) (y : inode)
    (hinv : ∀ q z, heap q = some z → z.deny_write_cnt ≤ z.open_cnt)
    (hy : y.deny_write_cnt ≤ y.open_cnt) :
    ∀ q z, setHandle heap p (some y) q = some z → z.deny_write_cnt ≤ z.open_cnt := by
  intro q z hz
  by_cases hq : q = p
  · subst hq
    simp only [setHandle_same, Option.some.injEq] at hz
    subst hz
    exact hy
  · simp only [setHandle_other _ _ _ _ hq] at hz
    exact hinv q z hz

theorem deny_bound_free (heap : Nat → Option inode) (p : Nat)
    (hinv : ∀ q z, heap q = some z → z.deny_write_cnt ≤ z.open_cnt) :
    ∀ q z, setHandle heap p none q = some z → z.deny_write_cnt ≤ z.open_cnt := by
  intro q z hz
  by_cases hq : q = p
  · subst hq
    simp [setHandle_same] at hz
  · simp only [setHandle_other _ _ _ _ hq] at hz
    exact hinv q z hz

theorem deny_bound_reopen (reg : Registry) (p : Nat)
    (hinv : ∀ q z, reg.heap q = some z → z.deny_write_cnt ≤ z.open_cnt) :
    ∀ q z, (inode_reopen reg p).heap q = some z → z.deny_write_cnt ≤ z.open_cnt := by
  unfold inode_reopen
  cases hx : reg.heap p with
  | none => exact hinv
  | some x =>
    exact deny_bound_update reg.heap p _ hinv (by
      have := hinv p x hx
      simp only
      omega)

theorem deny_bound_reach (st : FsState × Registry) (h : HandleReach closeAllowed st) :
    ∀ q z, st.2.heap q = some z → z.deny_write_cnt ≤ z.open_cnt := by
  induction h with
  | init fs => intro q z hz; simp [inode_init] at hz
  | openh st s m _ _ ih =>
    unfold inode_open
    cases hf : find_open st.2 s with
    | some p => exact deny_bound_reopen st.2 p ih
    | none =>
      cases m with
      | none => exact ih
      | some a => exact deny_bound_update st.2.heap a _ ih (by simp)
  | reopen st p x _ _ ih => exact deny_bound_reopen st.2 p ih
  | remove st p x _ hx ih =>
    unfold inode_remove
    rw [hx]
    exact deny_bound_update st.2.heap p _ ih (ih p x hx)
  | close st p x _ hx hc ih =>
    unfold inode_close
    rw [hx]
    simp only
    have hb := ih p x hx
    by_cases h0 : x.open_cnt - 1 = 0
    · simp only [h0, if_true]
      split
      · exact deny_bound_free st.2.heap p ih
      · exact deny_bound_free st.2.heap p ih
    · simp only [h0, if_false]
      refine deny_bound_update st.2.heap p _ ih ?_
      simp only
      rcases hc with hc | hc
      · omega
      · exact absurd (by omega) h0
  | deny st p reg _ hd ih =>
    unfold inode_deny_write at hd
    cases hx : st.2.heap p with
    | none => simp [hx] at hd
    | some x =>
      simp only [hx] at hd
      split at hd
      · rename_i hle
        simp only [Option.some.injEq] at hd
        subst hd
        exact deny_bound_update st.2.heap p _ ih hle
      · exact absurd hd (by simp)
  | allow st p reg _ ha ih =>
    unfold inode_allow_write at ha
    cases hx : st.2.heap p with
    | none => simp [hx] at ha
    | some x =>
      simp only [hx] at ha
      split at ha
      · rename_i hle
        simp only [Option.some.injEq] at ha
        subst ha
        refine deny_bound_update st.2.heap p _ ih ?_
        simp only
        omega
      · exact absurd ha (by simp)

/-! ## Handles: the claims -/

/-- C17. Open shares or creates, in every registry state: if a handle for
sector `s` is registered, `inode_open (s)` returns a registered handle for `s`
(the first on the list, the only one when handles are unique), with its
open count increased by 1 and its other fields unchanged, and leaves the
list, every other handle and the file system state as they were; if none is
registered and `malloc` returns an unused address `a`, it returns `a`, whose
handle has sector `s`, open count 1, removed false and deny-write count 0,
puts `a` at the front of the list and changes no other handle. -/
theorem inode_open_shares_or_creates (fs : FsState) (reg : Registry) (s : Nat)
    (m : Option Nat) :
    ((∃ q, q ∈ reg.open_inodes ∧ ∃ x, reg.heap q = some x ∧ x.sector = s) →
      ∃ p x, p ∈ reg.open_inodes ∧ reg.heap p = some x ∧ x.sector = s ∧
        (inode_open fs reg s m).2.2 = some p ∧
        (inode_open fs reg s m).1 = fs ∧
        (inode_open fs reg s m).2.1.heap p = some { x with open_cnt := x.open_cnt + 1 } ∧
        (∀ q, q ≠ p → (inode_open fs reg s m).2.1.heap q = reg.heap q) ∧
        (inode_open fs reg s m).2.1.open_inodes = reg.open_inodes) ∧
    ((∀ q, q ∈ reg.open_inodes → ∀ x, reg.heap q = some x → x.sector ≠ s) →
      ∀ a, m = some a → reg.heap a = none →
        (inode_open fs reg s m).2.2 = some a ∧
        (inode_open fs reg s m).2.1.heap a
          = some { sector := s, open_cnt := 1, removed := false, deny_write_cnt := 0 } ∧
        (∀ q, q ≠ a → (inode_open fs reg s m).2.1.heap q = reg.heap q) ∧
        (inode_open fs reg s m).2.1.open_inodes = a :: reg.open_inodes) := by
  constructor
  · intro hreg
    obtain ⟨p, hp⟩ := find_open_of_registered reg s hreg
    obtain ⟨hmem, x, hx, hs⟩ := find_open_some reg s p hp
    refine ⟨p, x, hmem, hx, hs, ?_, ?_, ?_, ?_, ?_⟩
    · simp [inode_open, hp]
    · simp [inode_open, hp]
    · simp [inode_open, hp, inode_reopen, hx, setHandle]
    · intro q hq
      simp [inode_open, hp, inode_reopen, hx, setHandle, hq]
    · simp [inode_open, hp, inode_reopen, hx]
  · intro hnone a hm _
    have hf : find_open reg s = none := by
      cases hf : find_open reg s with
      | none => rfl
      | some p =>
        obtain ⟨hmem, x, hx, hs⟩ := find_open_some reg s p hf
        exact absurd hs (hnone p hmem x hx)
    subst hm
    refine ⟨?_, ?_, ?_, ?_⟩
    · simp [inode_open, hf]
    · simp [inode_open, hf, setHandle]
    · intro q hq
      simp [inode_open, hf, setHandle, hq]
    · simp [inode_open, hf]

/-- Witness of C17: `inode_open (8)` on the registry that holds a handle for
sector 7 creates the handle at the address `malloc` returned, 1001; a
second `inode_open (7)` shares the handle at 1000. -/
theorem inode_open_shares_or_creates_witness :
    (∃ p x, p ∈ hTwo.2.open_inodes ∧ hTwo.2.heap p = some x ∧ x.sector = 7 ∧
        (inode_open hTwo.1 hTwo.2 7 (some 1002)).2.2 = some p ∧
        (inode_open hTwo.1 hTwo.2 7 (some 1002)).1 = hTwo.1 ∧
        (inode_open hTwo.1 hTwo.2 7 (some 1002)).2.1.heap p
          = some { x with open_cnt := x.open_cnt + 1 } ∧
        (∀ q, q ≠ p → (inode_open hTwo.1 hTwo.2 7 (some 1002)).2.1.heap q = hTwo.2.heap q) ∧
        (inode_open hTwo.1 hTwo.2 7 (some 1002)).2.1.open_inodes = hTwo.2.open_inodes) ∧
    ((inode_open hOpen.1 hOpen.2 8 (some 1001)).2.2 = some 1001 ∧
     (inode_open hOpen.1 hOpen.2 8 (some 1001)).2.1.heap 1001
        = some { sector := 8, open_cnt := 1, removed := false, deny_write_cnt := 0 } ∧
     (∀ q, q ≠ 1001 → (inode_open hOpen.1 hOpen.2 8 (some 1001)).2.1.heap q = hOpen.2.heap q) ∧
     (inode_open hOpen.1 hOpen.2 8 (some 1001)).2.1.open_inodes = 1001 :: hOpen.2.open_inodes) :=
  ⟨(inode_open_shares_or_creates hTwo.1 hTwo.2 7 (some 1002)).1
      ⟨1000, by decide, _, rfl, rfl⟩,
   (inode_open_shares_or_creates hOpen.1 hOpen.2 8 (some 1001)).2
      (by
        intro q hq x hx
        have hq1 : q = 1000 := by simpa [hOpen, inode_open, find_open, inode_init] using hq
        subst hq1
        have hx1 : x = { sector := 7, open_cnt := 1, removed := false, deny_write_cnt := 0 } := by
          have h2 : hOpen.2.heap 1000
              = some { sector := 7, open_cnt := 1, removed := false, deny_write_cnt := 0 } := rfl
          rw [h2] at hx
          injection hx with hx
          exact hx.symm
        subst hx1
        decide)
      1001 rfl rfl⟩

/-- C18. One handle per sector: in every state reachable from `inode_init`
through `inode_open`, `inode_reopen`, `inode_remove` and `inode_close` (and
also `inode_deny_write` and `inode_allow_write`) on live handles, two different
registered handles have different sector ids, and every registered handle
exists and has open count at least 1. -/
theorem one_handle_per_sector (closable : inode → Prop) (st : FsState × Registry)
    (h : HandleReach closable st) :
    (∀ p q x y, p ∈ st.2.open_inodes → q ∈ st.2.open_inodes →
      st.2.heap p = some x → st.2.heap q = some y → p ≠ q → x.sector ≠ y.sector) ∧
    (∀ p, p ∈ st.2.open_inodes → ∃ x, st.2.heap p = some x ∧ 1 ≤ x.open_cnt) := by
  have hr := handle_reach_inv closable st h
  constructor
  · intro p q x y _ _ hx hy hpq hs
    exact hpq (hr.uniq p q x y hx hy hs)
  · intro p hp
    obtain ⟨x, hx⟩ := (hr.live p).1 hp
    exact ⟨x, hx, hr.cnt p x hx⟩

/-- Witness of C18: the registry with handles for sectors 7 and 8. -/
theorem one_handle_per_sector_witness :
    HandleReach (fun _ => True) hTwo ∧
    ((∀ p q x y, p ∈ hTwo.2.open_inodes → q ∈ hTwo.2.open_inodes →
      hTwo.2.heap p = some x → hTwo.2.heap q = some y → p ≠ q → x.sector ≠ y.sector) ∧
     (∀ p, p ∈ hTwo.2.open_inodes → ∃ x, hTwo.2.heap p = some x ∧ 1 ≤ x.open_cnt)) ∧
    hTwo.2.open_inodes = [1001, 1000] :=
  ⟨hTwo_reach _, one_handle_per_sector (fun _ => True) hTwo (hTwo_reach _), by decide⟩

/-- Deferral to the last close, for every live handle `x` at address `p`:
`inode_remove` only sets `removed`; `inode_close` with open count above 1 only
decrements the count, leaving the list and the file system state (free map
and cache) as they were, whatever `removed` is; `inode_close` with open count 1
frees the object and takes it off the list, and it leaves the file system
state alone when `removed` is false, while when `removed` is true it releases
the inode's sector and then applies the release calls of `inode_dealloc`. -/
theorem close_defers_release (fs : FsState) (reg : Registry) (p : Nat) (x : inode)
    (hx : reg.heap p = some x) (hn : reg.open_inodes.Nodup) :
    inode_remove reg p
      = { reg with heap := setHandle reg.heap p (some { x with removed := true }) } ∧
    (1 < x.open_cnt →
      inode_close fs reg p
        = (fs, { reg with
              heap := setHandle reg.heap p (some { x with open_cnt := x.open_cnt - 1 }) })) ∧
    (x.open_cnt = 1 →
      (inode_close fs reg p).2
          = Registry.mk (setHandle reg.heap p none) (reg.open_inodes.erase p) ∧
      p ∉ (inode_close fs reg p).2.open_inodes ∧
      (inode_close fs reg p).2.heap p = none ∧
      (x.removed = false → (inode_close fs reg p).1 = fs) ∧
      (x.removed = true →
        (inode_close fs reg p).1
          = { cache := (inode_dealloc fs.cache { x with open_cnt := x.open_cnt - 1 }).1
              fm := (inode_dealloc fs.cache { x with open_cnt := x.open_cnt - 1 }).2.foldl
                fm_release (free_map_release fs.fm x.sector 1) } ∧
        (inode_close fs reg p).1.fm.used x.sector = false)) := by
  refine ⟨?_, ?_, ?_⟩
  · simp [inode_remove, hx]
  · intro hgt
    have h0 : ¬ x.open_cnt - 1 = 0 := by omega
    simp [inode_close, hx, h0]
  · intro h1
    have h0 : x.open_cnt - 1 = 0 := by omega
    have hreg : (inode_close fs reg p).2
        = Registry.mk (setHandle reg.heap p none) (reg.open_inodes.erase p) := by
      unfold inode_close
      simp only [hx, h0, if_true]
      split <;> rfl
    refine ⟨hreg, ?_, ?_, ?_, ?_⟩
    · rw [hreg]
      exact fun hmem => ((hn.mem_erase_iff).1 hmem).1 rfl
    · rw [hreg]
      exact setHandle_same _ _ _
    · intro hrm
      simp [inode_close, hx, h0, hrm]
    · intro hrm
      have hfs : (inode_close fs reg p).1
          = { cache := (inode_dealloc fs.cache { x with open_cnt := x.open_cnt - 1 }).1
              fm := (inode_dealloc fs.cache { x with open_cnt := x.open_cnt - 1 }).2.foldl
                fm_release (free_map_release fs.fm x.sector 1) } := by
        simp [inode_close, hx, h0, hrm]
      have hfm : (inode_close fs reg p).1.fm
          = (inode_dealloc fs.cache { x with open_cnt := x.open_cnt - 1 }).2.foldl
              fm_release (free_map_release fs.fm x.sector 1) := by
        simp [inode_close, hx, h0, hrm]
      have h3 := released_stays_free
        (inode_dealloc fs.cache { x with open_cnt := x.open_cnt - 1 }).2 fs.fm x.sector
      refine ⟨hfs, ?_⟩
      rw [hfm]
      exact h3

/-- C20 as stated fails: after `inode_open`, `inode_reopen`, two
`inode_deny_write` (both assertions pass, 1 <= 2 and 2 <= 2) and one
`inode_close`, the handle has open count 1 and deny-write count 2. -/
theorem deny_write_bound_fails :
    ¬ (∀ st, HandleReach (fun _ => True) st →
        ∀ p x, st.2.heap p = some x → x.deny_write_cnt ≤ x.open_cnt) := by
  intro h
  have h1 := h hDenyClosed hDenyClosed_reach 1000
    { sector := 7, open_cnt := 1, removed := false, deny_write_cnt := 2 } rfl
  exact absurd h1 (by decide)

/-- C20, amended: in every state reachable through `inode_open`,
`inode_reopen`, `inode_remove`, `inode_deny_write` and `inode_allow_write` (with
their assertions passing) and through `inode_close` calls made while the
handle's deny-write count is below its open count or its open count is 1,
no handle's deny-write count exceeds its open count. -/
theorem deny_write_bound (st : FsState × Registry) (h : HandleReach closeAllowed st)
    (p : Nat) (x : inode) (hx : st.2.heap p = some x) :
    x.deny_write_cnt ≤ x.open_cnt :=
  deny_bound_reach st h p x hx

/-- Witness of the amended C20: open, reopen, deny, then a close made with
deny-write count 1 below open count 2; the handle is left with both at 1. -/
theorem deny_write_bound_witness :
    HandleReach closeAllowed hProtoClosed ∧
    hProtoClosed.2.heap 1000
      = some { sector := 7, open_cnt := 1, removed := false, deny_write_cnt := 1 } ∧
    (1 : Int) ≤ 1 :=
  ⟨hProtoClosed_reach, rfl,
   deny_write_bound hProtoClosed hProtoClosed_reach 1000
     { sector := 7, open_cnt := 1, removed := false, deny_write_cnt := 1 } rfl⟩

/-! ## Reading and writing: the claims -/

/-- C21. Denied writes do nothing: for every handle whose deny-write count
is greater than zero, and every state, buffer, size and offset,
`inode_write_at` returns 0 and returns the state it was given: the cache, the
device and the free map are unchanged, hence the file's length and every
byte of it. -/
theorem inode_write_at_denied (s : FsState) (ino : inode) (buffer : List Nat)
    (size offset : Int) (h : 0 < ino.deny_write_cnt) :
    inode_write_at s ino buffer size offset = (s, 0) := by
  have h1 : ino.deny_write_cnt ≠ 0 := by omega
  simp [inode_write_at, h1]

/-- Witness of C21: a three-byte write at offset 598 through a handle with
deny-write count 1. -/
theorem inode_write_at_denied_witness :
    0 < ino7denied.deny_write_cnt ∧
    inode_write_at sampleFs ino7denied [1, 2, 3] 3 598 = (sampleFs, 0) :=
  ⟨by decide, inode_write_at_denied sampleFs ino7denied [1, 2, 3] 3 598 (by decide)⟩

set_option maxRecDepth 100000 in
/-- C23, at a failing input: the file in sector 6 has 379 sectors. Its blocks
250 and 378 are both translated through entries 0 and 1 of the
double-indirect block, which growth never fills, and land in the same
sector 9. Writing the single byte 7 at offset 193536 (block 378) returns 1,
and the byte at offset 128000 (block 250), which is below the length and
outside the written range, reads 255 before the call and 7 after it (the
device has 4096 sectors). -/
theorem partial_write_changes_other_block :
    (inode_length fs379.cache ino6).2 = 194048 ∧
    (inode_read_at 4096 fs379.cache ino6 1 128000).map Prod.snd = some [255] ∧
    (inode_write_at fs379 ino6 [7] 1 193536).2 = 1 ∧
    (inode_length (inode_write_at fs379 ino6 [7] 1 193536).1.cache ino6).2 = 194048 ∧
    (inode_read_at 4096 (inode_write_at fs379 ino6 [7] 1 193536).1.cache ino6 1 128000).map
      Prod.snd = some [7] ∧
    (byte_to_sector fs379.cache ino6 128000).2 = 9 ∧
    (byte_to_sector fs379.cache ino6 193536).2 = 9 := by
  decide

/-! ## The clock: lemmas -/

theorem flush_upto_clock (c : Cache) (n : Nat) :
    (flush_upto c n).clock_hand = c.clock_hand ∧
    ∀ i, ((flush_upto c n).blocks i).valid = (c.blocks i).valid := by
  induction n with
  | zero => simp [flush_upto]
  | succ n ih =>
    obtain ⟨h1, h2⟩ := ih
    rw [flush_upto_succ]
    unfold flush_step
    split
    · refine ⟨h1, fun i => ?_⟩
      by_cases hi : i = n
      · subst hi; simp [setBlock, h2]
      · simp [setBlock, hi, h2]
    · exact ⟨h1, h2⟩

/-- The victim loop when the slot under the hand has its flag unset: that
slot is the victim and no flag is cleared. -/
theorem clock_scan_hand_unset (blocks : Nat → cache_entry) (h n : Nat) (hh : h < CACHE_SIZE)
    (hv : (blocks h).valid = false) :
    clock_scan blocks h 0 (n + 1) = (setBlock blocks h { blocks h with valid := true }, h) := by
  have e : (h + 0) % CACHE_SIZE = h := by simp [Nat.mod_eq_of_lt hh]
  unfold clock_scan
  simp only [e, hv, if_true]

/-- The victim loop when only the slot under the hand has its flag set: the
flag is cleared and the next slot is the victim. -/
theorem clock_scan_hand_set (blocks : Nat → cache_entry) (h n : Nat) (hh : h < CACHE_SIZE)
    (hv : (blocks h).valid = true) (honly : ∀ i, (blocks i).valid = true → i = h) :
    clock_scan blocks h 0 (n + 2) =
      (setBlock (setBlock blocks h { blocks h with valid := false }) ((h + 1) % CACHE_SIZE)
        { setBlock blocks h { blocks h with valid := false } ((h + 1) % CACHE_SIZE) with
          valid := true }, (h + 1) % CACHE_SIZE) := by
  have e : (h + 0) % CACHE_SIZE = h := by simp [Nat.mod_eq_of_lt hh]
  have hne : (h + 1) % CACHE_SIZE ≠ h := by
    simp only [CACHE_SIZE] at hh ⊢
    omega
  have hnext : (setBlock blocks h { blocks h with valid := false }
      ((h + 1) % CACHE_SIZE)).valid = false := by
    rw [setBlock_other _ _ _ _ hne]
    cases hx : (blocks ((h + 1) % CACHE_SIZE)).valid with
    | false => rfl
    | true => exact absurd (honly _ hx) hne
  rw [clock_scan]
  simp only [e, hv, Bool.true_eq_false, if_false]
  rw [clock_scan]
  simp only [zero_add, hnext, if_true]

theorem clock_scan_inv (c : Cache) (hc : ClockInv c) :
    (clock_scan c.blocks c.clock_hand 0 CACHE_SIZE).2 < CACHE_SIZE ∧
    ∀ i, ((clock_scan c.blocks c.clock_hand 0 CACHE_SIZE).1 i).valid = true →
      i = (clock_scan c.blocks c.clock_hand 0 CACHE_SIZE).2 := by
  have hlt : (c.clock_hand + 1) % CACHE_SIZE < CACHE_SIZE := Nat.mod_lt _ (by decide)
  cases hv : (c.blocks c.clock_hand).valid with
  | false =>
    have e : CACHE_SIZE = 63 + 1 := rfl
    rw [e, clock_scan_hand_unset c.blocks c.clock_hand 63 hc.hand_lt hv]
    refine ⟨hc.hand_lt, fun i hi => ?_⟩
    by_cases hih : i = c.clock_hand
    · exact hih
    · simp only [setBlock_other _ _ _ _ hih] at hi
      exact hc.only_hand i hi
  | true =>
    have e : CACHE_SIZE = 62 + 2 := rfl
    have e2 : (c.clock_hand + 1) % (62 + 2) = (c.clock_hand + 1) % CACHE_SIZE := rfl
    rw [e, clock_scan_hand_set c.blocks c.clock_hand 62 hc.hand_lt hv hc.only_hand]
    refine ⟨hlt, fun i hi => ?_⟩
    by_cases hiv : i = (c.clock_hand + 1) % CACHE_SIZE
    · exact hiv
    · simp only [setBlock_other _ _ _ _ hiv] at hi
      by_cases hih : i = c.clock_hand
      · subst hih
        simp only [setBlock_same] at hi
        exact absurd hi (by simp)
      · simp only [setBlock_other _ _ _ _ hih] at hi
        exact absurd (hc.only_hand i hi) hih

theorem cache_read_clock_inv (c : Cache) (hc : ClockInv c) (S : Nat) :
    ClockInv (cache_read c S).1 := by
  unfold cache_read
  cases h : cache_lookup c S with
  | some i => exact hc
  | none =>
    simp only
    split
    · refine ⟨hc.hand_lt, fun i hi => ?_⟩
      by_cases his : i = c.size
      · subst his
        simp [setBlock] at hi
      · simp only [setBlock_other _ _ _ _ his] at hi
        exact hc.only_hand i hi
    · obtain ⟨h1, h2⟩ := clock_scan_inv c hc
      refine ⟨h1, fun i hi => ?_⟩
      by_cases hiv : i = (clock_scan c.blocks c.clock_hand 0 CACHE_SIZE).2
      · exact hiv
      · simp only [setBlock_other _ _ _ _ hiv] at hi
        exact h2 i hi

theorem cache_write_clock_inv (c : Cache) (hc : ClockInv c) (S : Nat) (D : SectorData) :
    ClockInv (cache_write c S D) := by
  unfold cache_write
  cases h : cache_lookup c S with
  | some i =>
    refine ⟨hc.hand_lt, fun j hj => ?_⟩
    by_cases hji : j = i
    · rw [hji] at hj ⊢
      simp only [setBlock_same] at hj
      exact hc.only_hand i hj
    · simp only [setBlock_other _ _ _ _ hji] at hj
      exact hc.only_hand j hj
  | none =>
    simp only
    split
    · refine ⟨hc.hand_lt, fun i hi => ?_⟩
      by_cases his : i = c.size
      · rw [his] at hi ⊢
        simp only [setBlock_same] at hi
        exact hc.only_hand c.size hi
      · simp only [setBlock_other _ _ _ _ his] at hi
        exact hc.only_hand i hi
    · obtain ⟨h1, h2⟩ := clock_scan_inv c hc
      refine ⟨h1, fun i hi => ?_⟩
      by_cases hiv : i = (clock_scan c.blocks c.clock_hand 0 CACHE_SIZE).2
      · exact hiv
      · simp only [setBlock_other _ _ _ _ hiv] at hi
        exact h2 i hi

theorem reachable_clock_inv (c : Cache) (h : Reachable c) : ClockInv c := by
  induction h with
  | init dev => exact ⟨by simp [cache_init, CACHE_SIZE], fun i hi => by simp [cache_init] at hi⟩
  | read c s _ ih => exact cache_read_clock_inv c ih s
  | write c s d _ ih => exact cache_write_clock_inv c ih s d
  | flush c _ ih =>
    obtain ⟨h1, h2⟩ := flush_upto_clock c c.size
    refine ⟨?_, fun i hi => ?_⟩
    · show (flush_upto c c.size).clock_hand < CACHE_SIZE
      rw [h1]; exact ih.hand_lt
    · show i = (flush_upto c c.size).clock_hand
      rw [h1]
      exact ih.only_hand i (by rw [← h2 i]; exact hi)

/-- What an eviction by `cache_read` does with the result of the victim loop. -/
theorem evict_read_facts (c : Cache) (hfull : ¬ c.size < CACHE_SIZE) (S : Nat)
    (hS : cache_lookup c S = none) :
    (cache_read c S).1.clock_hand = (clock_scan c.blocks c.clock_hand 0 CACHE_SIZE).2 ∧
    ((cache_read c S).1.blocks (clock_scan c.blocks c.clock_hand 0 CACHE_SIZE).2).sector = S ∧
    ∀ i, ((cache_read c S).1.blocks i).valid
      = ((clock_scan c.blocks c.clock_hand 0 CACHE_SIZE).1 i).valid := by
  refine ⟨?_, ?_, fun i => ?_⟩
  · simp [cache_read, hS, hfull]
  · simp [cache_read, hS, hfull, setBlock]
  · by_cases hi : i = (clock_scan c.blocks c.clock_hand 0 CACHE_SIZE).2
    · simp [cache_read, hS, hfull, setBlock, hi]
    · simp [cache_read, hS, hfull, setBlock, hi]

/-- What an eviction by `cache_write` does with the result of the victim loop. -/
theorem evict_write_facts (c : Cache) (hfull : ¬ c.size < CACHE_SIZE) (S : Nat)
    (hS : cache_lookup c S = none) (D : SectorData) :
    (cache_write c S D).clock_hand = (clock_scan c.blocks c.clock_hand 0 CACHE_SIZE).2 ∧
    ((cache_write c S D).blocks (clock_scan c.blocks c.clock_hand 0 CACHE_SIZE).2).sector = S ∧
    ∀ i, ((cache_write c S D).blocks i).valid
      = ((clock_scan c.blocks c.clock_hand 0 CACHE_SIZE).1 i).valid := by
  refine ⟨?_, ?_, fun i => ?_⟩
  · simp [cache_write, hS, hfull]
  · simp [cache_write, hS, hfull, setBlock]
  · by_cases hi : i = (clock_scan c.blocks c.clock_hand 0 CACHE_SIZE).2
    · simp [cache_write, hS, hfull, setBlock, hi]
    · simp [cache_write, hS, hfull, setBlock, hi]

/-- The victim loop on a cache with the clock invariant: the victim is `k`
slots after the hand with `k` at most 1; its flag was unset and is set; the
slots before it in cyclic order had their flag set and have it cleared;
every other flag is unchanged. -/
theorem clock_scan_cyclic (c : Cache) (hc : ClockInv c) :
    ∃ k, k < CACHE_SIZE ∧
      (clock_scan c.blocks c.clock_hand 0 CACHE_SIZE).2 = (c.clock_hand + k) % CACHE_SIZE ∧
      (c.blocks ((c.clock_hand + k) % CACHE_SIZE)).valid = false ∧
      (∀ t, t < k → (c.blocks ((c.clock_hand + t) % CACHE_SIZE)).valid = true) ∧
      ((clock_scan c.blocks c.clock_hand 0 CACHE_SIZE).1
        ((c.clock_hand + k) % CACHE_SIZE)).valid = true ∧
      (∀ t, t < k → ((clock_scan c.blocks c.clock_hand 0 CACHE_SIZE).1
        ((c.clock_hand + t) % CACHE_SIZE)).valid = false) ∧
      (∀ i, i ≠ (c.clock_hand + k) % CACHE_SIZE →
        (∀ t, t < k → i ≠ (c.clock_hand + t) % CACHE_SIZE) →
        ((clock_scan c.blocks c.clock_hand 0 CACHE_SIZE).1 i).valid = (c.blocks i).valid) := by
  have e0 : (c.clock_hand + 0) % CACHE_SIZE = c.clock_hand := by
    simp [Nat.mod_eq_of_lt hc.hand_lt]
  cases hv : (c.blocks c.clock_hand).valid with
  | false =>
    have e : CACHE_SIZE = 63 + 1 := rfl
    have hs := clock_scan_hand_unset c.blocks c.clock_hand 63 hc.hand_lt hv
    rw [← e] at hs
    refine ⟨0, by decide, ?_, ?_, ?_, ?_, ?_, ?_⟩
    · rw [hs, e0]
    · rw [e0]; exact hv
    · intro t ht; exact absurd ht (by omega)
    · rw [hs, e0]; simp [setBlock]
    · intro t ht; exact absurd ht (by omega)
    · intro i hi _
      rw [e0] at hi
      rw [hs]
      simp [setBlock, hi]
  | true =>
    have e : CACHE_SIZE = 62 + 2 := rfl
    have hs := clock_scan_hand_set c.blocks c.clock_hand 62 hc.hand_lt hv hc.only_hand
    rw [← e] at hs
    have hne : (c.clock_hand + 1) % CACHE_SIZE ≠ c.clock_hand := by
      have := hc.hand_lt
      simp only [CACHE_SIZE] at this ⊢
      omega
    have hnext : (c.blocks ((c.clock_hand + 1) % CACHE_SIZE)).valid = false := by
      cases hx : (c.blocks ((c.clock_hand + 1) % CACHE_SIZE)).valid with
      | false => rfl
      | true => exact absurd (hc.only_hand _ hx) hne
    refine ⟨1, by decide, ?_, hnext, ?_, ?_, ?_, ?_⟩
    · rw [hs]
    · intro t ht
      have ht0 : t = 0 := by omega
      rw [ht0, e0]; exact hv
    · rw [hs]; simp [setBlock]
    · intro t ht
      have ht0 : t = 0 := by omega
      rw [ht0, e0, hs]
      simp [setBlock, Ne.symm hne]
    · intro i hi hpass
      have hi0 : i ≠ c.clock_hand := by
        have := hpass 0 (by decide)
        rwa [e0] at this
      rw [hs]
      simp [setBlock, hi, hi0]

/-! ## The clock: the claims -/

/-- C26. Second-chance victim choice: on every eviction in a reachable
cache (cache full, requested sector `S` not resident) with clock hand `h`,
the slot re-pointed at `S` by `cache_read` or `cache_write` is the first slot
in the cyclic order `h, h+1, h+2, ...` (mod 64) whose flag is unset; the
slots passed over before it had their flag set and have it cleared; no
other slot's flag is cleared, and the victim's own flag gets set. -/
theorem second_chance_victim (c : Cache) (h : Reachable c) (hfull : ¬ c.size < CACHE_SIZE)
    (S : Nat) (hS : cache_lookup c S = none) (D : SectorData) :
    ∃ k, k < CACHE_SIZE ∧
      (c.blocks ((c.clock_hand + k) % CACHE_SIZE)).valid = false ∧
      (∀ t, t < k → (c.blocks ((c.clock_hand + t) % CACHE_SIZE)).valid = true) ∧
      (((cache_read c S).1.blocks ((c.clock_hand + k) % CACHE_SIZE)).sector = S ∧
       ((cache_read c S).1.blocks ((c.clock_hand + k) % CACHE_SIZE)).valid = true ∧
       (∀ t, t < k →
          ((cache_read c S).1.blocks ((c.clock_hand + t) % CACHE_SIZE)).valid = false) ∧
       (∀ i, i ≠ (c.clock_hand + k) % CACHE_SIZE →
          (∀ t, t < k → i ≠ (c.clock_hand + t) % CACHE_SIZE) →
          ((cache_read c S).1.blocks i).valid = (c.blocks i).valid)) ∧
      (((cache_write c S D).blocks ((c.clock_hand + k) % CACHE_SIZE)).sector = S ∧
       ((cache_write c S D).blocks ((c.clock_hand + k) % CACHE_SIZE)).valid = true ∧
       (∀ t, t < k →
          ((cache_write c S D).blocks ((c.clock_hand + t) % CACHE_SIZE)).valid = false) ∧
       (∀ i, i ≠ (c.clock_hand + k) % CACHE_SIZE →
          (∀ t, t < k → i ≠ (c.clock_hand + t) % CACHE_SIZE) →
          ((cache_write c S D).blocks i).valid = (c.blocks i).valid)) := by
  obtain ⟨k, hk, hv, h1, h2, h3, h4, h5⟩ := clock_scan_cyclic c (reachable_clock_inv c h)
  obtain ⟨_, r2, r3⟩ := evict_read_facts c hfull S hS
  obtain ⟨_, w2, w3⟩ := evict_write_facts c hfull S hS D
  rw [hv] at r2 w2
  refine ⟨k, hk, h1, h2, ⟨r2, ?_, ?_, ?_⟩, ⟨w2, ?_, ?_, ?_⟩⟩
  · rw [r3]; exact h3
  · intro t ht; rw [r3]; exact h4 t ht
  · intro i hi hp; rw [r3]; exact h5 i hi hp
  · rw [w3]; exact h3
  · intro t ht; rw [w3]; exact h4 t ht
  · intro i hi hp; rw [w3]; exact h5 i hi hp


set_option maxRecDepth 100000 in
/-- Witness of C26: in the full cache after one eviction the hand rests on a
slot whose flag is set, and the next eviction takes the slot after it. -/
theorem second_chance_victim_witness :
    Reachable evictedCache ∧ ¬ evictedCache.size < CACHE_SIZE ∧
    cache_lookup evictedCache 101 = none ∧
    ∃ k, k < CACHE_SIZE ∧
      (evictedCache.blocks ((evictedCache.clock_hand + k) % CACHE_SIZE)).valid = false ∧
      (∀ t, t < k →
        (evictedCache.blocks ((evictedCache.clock_hand + t) % CACHE_SIZE)).valid = true) ∧
      (((cache_read evictedCache 101).1.blocks
          ((evictedCache.clock_hand + k) % CACHE_SIZE)).sector = 101 ∧
       ((cache_read evictedCache 101).1.blocks
          ((evictedCache.clock_hand + k) % CACHE_SIZE)).valid = true ∧
       (∀ t, t < k → ((cache_read evictedCache 101).1.blocks
          ((evictedCache.clock_hand + t) % CACHE_SIZE)).valid = false) ∧
       (∀ i, i ≠ (evictedCache.clock_hand + k) % CACHE_SIZE →
          (∀ t, t < k → i ≠ (evictedCache.clock_hand + t) % CACHE_SIZE) →
          ((cache_read evictedCache 101).1.blocks i).valid = (evictedCache.blocks i).valid)) ∧
      (((cache_write evictedCache 101 [8]).blocks
          ((evictedCache.clock_hand + k) % CACHE_SIZE)).sector = 101 ∧
       ((cache_write evictedCache 101 [8]).blocks
          ((evictedCache.clock_hand + k) % CACHE_SIZE)).valid = true ∧
       (∀ t, t < k → ((cache_write evictedCache 101 [8]).blocks
          ((evictedCache.clock_hand + t) % CACHE_SIZE)).valid = false) ∧
       (∀ i, i ≠ (evictedCache.clock_hand + k) % CACHE_SIZE →
          (∀ t, t < k → i ≠ (evictedCache.clock_hand + t) % CACHE_SIZE) →
          ((cache_write evictedCache 101 [8]).blocks i).valid = (evictedCache.blocks i).valid)) :=
  ⟨Reachable.write _ 100 [7] (reachable_run _ (Reachable.init sampleDev) fillWrites),
   by decide, by decide,
   second_chance_victim evictedCache
     (Reachable.write _ 100 [7] (reachable_run _ (Reachable.init sampleDev) fillWrites))
     (by decide) 101 (by decide) [8]⟩

theorem clock_scan_count_le (n : Nat) : ∀ (blocks : Nat → cache_entry) (idx j : Nat),
    clock_scan_count blocks idx j n ≤ n := by
  induction n with
  | zero => intro blocks idx j; simp [clock_scan_count]
  | succ n ih =>
    intro blocks idx j
    rw [clock_scan_count]
    split
    · omega
    · exact Nat.le_trans (Nat.add_le_add_left (ih _ _ _) 1) (by omega)

/-- The count when the slot under the hand has its flag unset. -/
theorem clock_scan_count_unset (blocks : Nat → cache_entry) (h n : Nat) (hh : h < CACHE_SIZE)
    (hv : (blocks h).valid = false) : clock_scan_count blocks h 0 (n + 1) = 1 := by
  have e : (h + 0) % CACHE_SIZE = h := by simp [Nat.mod_eq_of_lt hh]
  rw [clock_scan_count]
  simp only [e, hv, if_true]

/-- The count when only the slot under the hand has its flag set. -/
theorem clock_scan_count_set (blocks : Nat → cache_entry) (h n : Nat) (hh : h < CACHE_SIZE)
    (hv : (blocks h).valid = true) (honly : ∀ i, (blocks i).valid = true → i = h) :
    clock_scan_count blocks h 0 (n + 2) = 2 := by
  have e : (h + 0) % CACHE_SIZE = h := by simp [Nat.mod_eq_of_lt hh]
  have hne : (h + 1) % CACHE_SIZE ≠ h := by
    simp only [CACHE_SIZE] at hh ⊢
    omega
  have hnext : (setBlock blocks h { blocks h with valid := false }
      ((h + 1) % CACHE_SIZE)).valid = false := by
    rw [setBlock_other _ _ _ _ hne]
    cases hx : (blocks ((h + 1) % CACHE_SIZE)).valid with
    | false => rfl
    | true => exact absurd (honly _ hx) hne
  rw [clock_scan_count]
  simp only [e, hv, Bool.true_eq_false, if_false]
  rw [clock_scan_count]
  simp only [zero_add, hnext, if_true]

/-- With the clock invariant the victim loop examines one slot when the flag
under the hand is unset and two when it is set. -/
theorem clock_scan_count_two (c : Cache) (hc : ClockInv c) :
    clock_scan_count c.blocks c.clock_hand 0 CACHE_SIZE ≤ 2 := by
  cases hv : (c.blocks c.clock_hand).valid with
  | false =>
    have e : CACHE_SIZE = 63 + 1 := rfl
    rw [e, clock_scan_count_unset c.blocks c.clock_hand 63 hc.hand_lt hv]
    decide
  | true =>
    have e : CACHE_SIZE = 62 + 2 := rfl
    rw [e, clock_scan_count_set c.blocks c.clock_hand 62 hc.hand_lt hv hc.only_hand]

set_option maxRecDepth 100000 in
/-- Counterexample to C27 as stated: in the cache filled by writes to the
sectors 0..63 the hand is 0 and no flag is set; `cache_read (100)` evicts slot
0, and afterwards the hand is 0, the victim's own index, not
`(0 + 1) % 64 = 1`; the same holds for `cache_write (100, ..)`. -/
theorem clock_hand_not_advanced :
    Reachable fullCache ∧ fullCache.size = CACHE_SIZE ∧ cache_lookup fullCache 100 = none ∧
    (fullCache.blocks 0).sector = 0 ∧
    ((cache_read fullCache 100).1.blocks 0).sector = 100 ∧
    (cache_read fullCache 100).1.clock_hand = 0 ∧
    (cache_read fullCache 100).1.clock_hand ≠ (0 + 1) % 64 ∧
    ((cache_write fullCache 100 [7]).blocks 0).sector = 100 ∧
    (cache_write fullCache 100 [7]).clock_hand = 0 ∧
    (cache_write fullCache 100 [7]).clock_hand ≠ (0 + 1) % 64 :=
  ⟨reachable_run _ (Reachable.init sampleDev) fillWrites, by decide, by decide, by decide,
   by decide, by decide, by decide, by decide, by decide, by decide⟩

/-- C27, amended. The hand after an eviction: in every reachable full cache,
after `cache_read` or `cache_write` has evicted a slot for the sector `S`, the
clock hand is the index `v` of the slot that now holds `S`, the victim itself
(both functions assign `clock_hand = idx`), and so differs from
`(v + 1) % 64`; the victim's flag is set, so that the next scan passes over
it; and the scan that chose the victim examined at most 2 slots, hence at
most `2 * 64`. -/
theorem clock_hand_on_victim (c : Cache) (h : Reachable c) (hfull : c.size = CACHE_SIZE)
    (S : Nat) (hS : cache_lookup c S = none) (D : SectorData) :
    (∀ v, v < CACHE_SIZE → ((cache_read c S).1.blocks v).sector = S →
      (cache_read c S).1.clock_hand = v ∧
      (cache_read c S).1.clock_hand ≠ (v + 1) % CACHE_SIZE ∧
      ((cache_read c S).1.blocks v).valid = true) ∧
    (∀ v, v < CACHE_SIZE → ((cache_write c S D).blocks v).sector = S →
      (cache_write c S D).clock_hand = v ∧
      (cache_write c S D).clock_hand ≠ (v + 1) % CACHE_SIZE ∧
      ((cache_write c S D).blocks v).valid = true) ∧
    clock_scan_count c.blocks c.clock_hand 0 CACHE_SIZE ≤ 2 ∧
    clock_scan_count c.blocks c.clock_hand 0 CACHE_SIZE ≤ 2 * CACHE_SIZE := by
  have hlt : ¬ c.size < CACHE_SIZE := by omega
  have hv := victim_lt c hlt
  rw [hfull] at hv
  obtain ⟨r1, r2, r3⟩ := evict_read_facts c hlt S hS
  obtain ⟨w1, w2, w3⟩ := evict_write_facts c hlt S hS D
  obtain ⟨k, _, hk, _, _, hset, _, _⟩ := clock_scan_cyclic c (reachable_clock_inv c h)
  have hrs : (cache_read c S).1.size = CACHE_SIZE := by simp [cache_read, hS, hlt, hfull]
  have hws : (cache_write c S D).size = CACHE_SIZE := by simp [cache_write, hS, hlt, hfull]
  have hri := reachable_inv _ (Reachable.read c S h)
  have hwi := reachable_inv _ (Reachable.write c S D h)
  have hcnt := clock_scan_count_two c (reachable_clock_inv c h)
  refine ⟨?_, ?_, hcnt, ?_⟩
  · intro v hvlt hvs
    have e : (cache_read c S).1.clock_hand = v := by
      rw [r1]
      exact hri.uniq _ _ (by rw [hrs]; exact hv) (by rw [hrs]; exact hvlt) (by rw [r2, hvs])
    refine ⟨e, ?_, ?_⟩
    · rw [e]
      simp only [CACHE_SIZE] at hvlt ⊢
      omega
    · rw [r3, ← e, r1, hk]; exact hset
  · intro v hvlt hvs
    have e : (cache_write c S D).clock_hand = v := by
      rw [w1]
      exact hwi.uniq _ _ (by rw [hws]; exact hv) (by rw [hws]; exact hvlt) (by rw [w2, hvs])
    refine ⟨e, ?_, ?_⟩
    · rw [e]
      simp only [CACHE_SIZE] at hvlt ⊢
      omega
    · rw [w3, ← e, w1, hk]; exact hset
  · simp only [CACHE_SIZE] at hcnt ⊢
    omega

set_option maxRecDepth 100000 in
/-- Witness of C27, amended: the full cache, sector 100; slot 0 is the victim,
the hand stays on 0, and one slot was examined. -/
theorem clock_hand_on_victim_witness :
    Reachable fullCache ∧ fullCache.size = CACHE_SIZE ∧ cache_lookup fullCache 100 = none ∧
    ((∀ v, v < CACHE_SIZE → ((cache_read fullCache 100).1.blocks v).sector = 100 →
      (cache_read fullCache 100).1.clock_hand = v ∧
      (cache_read fullCache 100).1.clock_hand ≠ (v + 1) % CACHE_SIZE ∧
      ((cache_read fullCache 100).1.blocks v).valid = true) ∧
    (∀ v, v < CACHE_SIZE → ((cache_write fullCache 100 [7]).blocks v).sector = 100 →
      (cache_write fullCache 100 [7]).clock_hand = v ∧
      (cache_write fullCache 100 [7]).clock_hand ≠ (v + 1) % CACHE_SIZE ∧
      ((cache_write fullCache 100 [7]).blocks v).valid = true) ∧
    clock_scan_count fullCache.blocks fullCache.clock_hand 0 CACHE_SIZE ≤ 2 ∧
    clock_scan_count fullCache.blocks fullCache.clock_hand 0 CACHE_SIZE ≤ 2 * CACHE_SIZE) :=
  ⟨reachable_run _ (Reachable.init sampleDev) fillWrites, by decide, by decide,
   clock_hand_on_victim fullCache (reachable_run _ (Reachable.init sampleDev) fillWrites)
     (by decide) 100 (by decide) [7]⟩


/-! ## The probe sequence of the victim loop -/

theorem tri_double (n : Nat) : 2 * tri n = n * (n + 1) := by
  induction n with
  | zero => rfl
  | succ n ih => simp only [tri]; rw [Nat.mul_add, ih]; ring

theorem tri_closed (n : Nat) : tri n = n * (n + 1) / 2 := by
  have := tri_double n
  omega

/-- Closed form of the probe sequence started with step `j`. -/
theorem probe_closed (n : Nat) : ∀ idx j,
    probe idx j n
      = (List.range n).map (fun t => (idx + (t + 1) * j + tri t) % CACHE_SIZE) := by
  induction n with
  | zero => intro idx j; rfl
  | succ n ih =>
    intro idx j
    rw [probe, ih, List.range_succ_eq_map, List.map_cons, List.map_map]
    congr 1
    · simp [tri]
    · apply List.map_congr_left
      intro t _
      simp only [Function.comp, tri, CACHE_SIZE]
      have e : (idx + j) % 64 + (t + 1) * (j + 1) + tri t
          = (idx + j) % 64 + ((t + 1) * j + (t + 1) + tri t) := by ring
      have e2 : idx + (t + 1 + 1) * j + (tri t + (t + 1))
          = (idx + j) + ((t + 1) * j + (t + 1) + tri t) := by ring
      rw [e, e2]
      omega

theorem probe_tri (h : Nat) :
    probe h 0 CACHE_SIZE = (List.range CACHE_SIZE).map (fun t => (h + tri t) % CACHE_SIZE) := by
  rw [probe_closed]
  apply List.map_congr_left
  intro t _
  simp

set_option maxRecDepth 100000 in
theorem tri_nodup : ((List.range CACHE_SIZE).map (fun t => tri t % CACHE_SIZE)).Nodup := by
  decide

set_option maxRecDepth 100000 in
theorem tri_onto : ∀ i, i < CACHE_SIZE →
    i ∈ (List.range CACHE_SIZE).map (fun t => tri t % CACHE_SIZE) := by
  decide

theorem probe_nodup (h : Nat) : (probe h 0 CACHE_SIZE).Nodup := by
  rw [probe_tri]
  apply List.Nodup.map_on _ (List.nodup_range _)
  intro x hx y hy hxy
  apply List.inj_on_of_nodup_map tri_nodup hx hy
  simp only [CACHE_SIZE] at hxy ⊢
  omega

theorem probe_onto (h : Nat) (i : Nat) (hi : i < CACHE_SIZE) : i ∈ probe h 0 CACHE_SIZE := by
  rw [probe_tri]
  have hm : (i + CACHE_SIZE - h % CACHE_SIZE) % CACHE_SIZE < CACHE_SIZE :=
    Nat.mod_lt _ (by decide)
  obtain ⟨t, ht, hte⟩ := List.mem_map.1 (tri_onto _ hm)
  refine List.mem_map.2 ⟨t, ht, ?_⟩
  simp only [CACHE_SIZE] at hte hi ⊢
  omega

/-- The victim loop follows the probe sequence: either it stops on a probed
slot whose flag was unset, or every probed slot had its flag set. -/
theorem clock_scan_probe (n : Nat) : ∀ (blocks : Nat → cache_entry) (idx j : Nat),
    (probe idx j n).Nodup →
    ((clock_scan blocks idx j n).2 ∈ probe idx j n ∧
      (blocks (clock_scan blocks idx j n).2).valid = false) ∨
    (∀ i, i ∈ probe idx j n → (blocks i).valid = true) := by
  induction n with
  | zero => intro blocks idx j _; right; intro i hi; simp [probe] at hi
  | succ n ih =>
    intro blocks idx j hnd
    rw [probe] at hnd ⊢
    obtain ⟨hnot, hnd'⟩ := List.nodup_cons.1 hnd
    cases hv : (blocks ((idx + j) % CACHE_SIZE)).valid with
    | false =>
      left
      have e : clock_scan blocks idx j (n + 1)
          = (setBlock blocks ((idx + j) % CACHE_SIZE)
              { blocks ((idx + j) % CACHE_SIZE) with valid := true },
             (idx + j) % CACHE_SIZE) := by
        simp [clock_scan, hv]
      rw [e]
      exact ⟨List.mem_cons_self _ _, hv⟩
    | true =>
      have e : clock_scan blocks idx j (n + 1)
          = clock_scan (setBlock blocks ((idx + j) % CACHE_SIZE)
              { blocks ((idx + j) % CACHE_SIZE) with valid := false })
              ((idx + j) % CACHE_SIZE) (j + 1) n := by
        simp [clock_scan, hv]
      rw [e]
      have hother : ∀ i, i ∈ probe ((idx + j) % CACHE_SIZE) (j + 1) n →
          (setBlock blocks ((idx + j) % CACHE_SIZE)
              { blocks ((idx + j) % CACHE_SIZE) with valid := false } i) = blocks i := by
        intro i hi
        have hne : i ≠ (idx + j) % CACHE_SIZE := fun he => hnot (he ▸ hi)
        simp [setBlock, hne]
      rcases ih (setBlock blocks ((idx + j) % CACHE_SIZE)
              { blocks ((idx + j) % CACHE_SIZE) with valid := false })
              ((idx + j) % CACHE_SIZE) (j + 1) hnd' with ⟨hm, hf⟩ | hall
      · left
        rw [hother _ hm] at hf
        exact ⟨List.mem_cons_of_mem _ hm, hf⟩
      · right
        intro i hi
        rcases List.mem_cons.1 hi with he | ht
        · rw [he]; exact hv
        · have := hall i ht
          rwa [hother i ht] at this


/-- C28. The eviction scan reaches every slot: for every clock hand `h` (in
0..63 or not) the slots examined by the victim loop, `probe h 0 64`, are
`(h + j (j + 1) / 2) % 64` for `j = 0 .. 63`, and this sequence visits each of
the 64 slots exactly once; so whenever some slot has its flag unset at the
start of an eviction, the victim chosen by `cache_read` and `cache_write` is a
slot whose flag was unset. -/
theorem probe_visits_every_slot (h : Nat) :
    probe h 0 CACHE_SIZE
      = (List.range CACHE_SIZE).map (fun j => (h + j * (j + 1) / 2) % CACHE_SIZE) ∧
    (probe h 0 CACHE_SIZE).Nodup ∧
    (∀ i, i < CACHE_SIZE → i ∈ probe h 0 CACHE_SIZE) ∧
    (∀ (c : Cache) (S : Nat) (D : SectorData), c.clock_hand = h → ¬ c.size < CACHE_SIZE →
      cache_lookup c S = none → (∃ i, i < CACHE_SIZE ∧ (c.blocks i).valid = false) →
      (clock_scan c.blocks h 0 CACHE_SIZE).2 ∈ probe h 0 CACHE_SIZE ∧
      (c.blocks (clock_scan c.blocks h 0 CACHE_SIZE).2).valid = false ∧
      ((cache_read c S).1.blocks (clock_scan c.blocks h 0 CACHE_SIZE).2).sector = S ∧
      ((cache_write c S D).blocks (clock_scan c.blocks h 0 CACHE_SIZE).2).sector = S) := by
  refine ⟨?_, probe_nodup h, probe_onto h, ?_⟩
  · rw [probe_tri]
    apply List.map_congr_left
    intro t _
    simp only [tri_closed]
  · intro c S D hch hfull hS hex
    obtain ⟨i, hi, hiv⟩ := hex
    obtain ⟨_, r2, _⟩ := evict_read_facts c hfull S hS
    obtain ⟨_, w2, _⟩ := evict_write_facts c hfull S hS D
    rw [hch] at r2 w2
    rcases clock_scan_probe CACHE_SIZE c.blocks h 0 (probe_nodup h) with ⟨hm, hf⟩ | hall
    · exact ⟨hm, hf, r2, w2⟩
    · have := hall i (probe_onto h i hi)
      rw [hiv] at this
      exact absurd this (by decide)

/-! ## Growth when the free map has room: lemmas -/

theorem freeList_nodup (fm : FreeMap) : (freeList fm).Nodup :=
  (List.nodup_range _).filter _

theorem freeList_mem (fm : FreeMap) (x : Nat) :
    x ∈ freeList fm ↔ x < fm.size ∧ fm.used x = false := by
  simp [freeList]

/-- First fit: `free_map_allocate` hands out the head of the list of free
sectors and leaves its tail free. -/
theorem free_map_allocate_spec (fm : FreeMap) (a : Nat) (rest : List Nat)
    (h : freeList fm = a :: rest) :
    ∃ fm', free_map_allocate fm = some (a, fm') ∧ freeList fm' = rest ∧ fm'.size = fm.size ∧
      ∀ j, fm'.used j = (decide (j = a) || fm.used j) := by
  have hf : (List.range fm.size).find? (fun i => !fm.used i) = some a := by
    rw [← List.filter_head?]
    unfold freeList at h
    rw [h]; rfl
  refine ⟨{ fm with used := fun j => if j = a then true else fm.used j }, ?_, ?_, rfl, ?_⟩
  · simp [free_map_allocate, hf]
  · have hnd := freeList_nodup fm
    rw [h] at hnd
    have hnot := (List.nodup_cons.1 hnd).1
    have e : freeList { fm with used := fun j => if j = a then true else fm.used j }
        = (freeList fm).filter (fun j => decide (j ≠ a)) := by
      unfold freeList
      rw [List.filter_filter]
      apply List.filter_congr
      intro x _
      by_cases hx : x = a <;> simp [hx]
    rw [e, h]
    rw [List.filter_cons]
    simp only [ne_eq, not_true_eq_false, decide_False, Bool.false_eq_true, if_false]
    apply List.filter_eq_self.2
    intro x hx
    have : x ≠ a := fun he => hnot (he ▸ hx)
    simp [this]
  · intro j
    by_cases hj : j = a <;> simp [hj]

theorem free_map_allocate_none (fm : FreeMap) (h : freeList fm = []) :
    free_map_allocate fm = none := by
  have hf : (List.range fm.size).find? (fun i => !fm.used i) = none := by
    rw [← List.filter_head?]
    unfold freeList at h
    rw [h]; rfl
  simp [free_map_allocate, hf]
theorem getD_set_nat (l : List Nat) (i j a : Nat) :
    (l.set i a).getD j 0 = if j = i ∧ i < l.length then a else l.getD j 0 := by
  simp only [List.getD_eq_getElem?_getD, List.getElem?_set]
  by_cases hj : j = i
  · subst hj
    by_cases hl : j < l.length
    · simp [hl]
    · simp [hl, List.getElem?_eq_none (Nat.le_of_not_lt hl)]
  · have : ¬ i = j := fun h => hj h.symm
    simp [hj, this]

/-- The allocation loop when enough sectors are free: it succeeds, takes the
first `n` free sectors in order, stores them at the indices `i0 ..` that lie
inside the array, and zeroes them through the cache. -/
theorem alloc_loop_spec (n : Nat) : ∀ (s : FsState) (ptrs : List Nat) (i0 : Nat),
    CacheInv s.cache → n ≤ (freeList s.fm).length →
    (alloc_loop s ptrs (i0 : Int) n).2.2 = true ∧
    CacheInv (alloc_loop s ptrs (i0 : Int) n).1.cache ∧
    freeList (alloc_loop s ptrs (i0 : Int) n).1.fm = (freeList s.fm).drop n ∧
    (alloc_loop s ptrs (i0 : Int) n).1.fm.size = s.fm.size ∧
    (∀ j, (alloc_loop s ptrs (i0 : Int) n).1.fm.used j
      = (decide (j ∈ (freeList s.fm).take n) || s.fm.used j)) ∧
    (∀ T, cache_view (alloc_loop s ptrs (i0 : Int) n).1.cache T
      = if T ∈ (freeList s.fm).take n then zeroSector else cache_view s.cache T) ∧
    (alloc_loop s ptrs (i0 : Int) n).2.1.length = ptrs.length ∧
    (∀ j, (alloc_loop s ptrs (i0 : Int) n).2.1.getD j 0
      = if i0 ≤ j ∧ j < i0 + n ∧ j < ptrs.length then (freeList s.fm).getD (j - i0) 0
        else ptrs.getD j 0) := by
  induction n with
  | zero =>
    intro s ptrs i0 hc _
    rw [alloc_loop_zero]
    refine ⟨rfl, hc, by simp, rfl, by simp, by simp, rfl, ?_⟩
    intro j
    have : ¬ (i0 ≤ j ∧ j < i0 + 0 ∧ j < ptrs.length) := by omega
    simp only [this, if_false]
  | succ n ih =>
    intro s ptrs i0 hc hn
    obtain ⟨a, rest, hfl⟩ : ∃ a rest, freeList s.fm = a :: rest := by
      cases hl : freeList s.fm with
      | nil => rw [hl] at hn; simp at hn
      | cons a rest => exact ⟨a, rest, rfl⟩
    obtain ⟨fm1, ha, hrest, hsz, hused⟩ := free_map_allocate_spec s.fm a rest hfl
    have hstep : alloc_loop s ptrs (i0 : Int) (n + 1)
        = alloc_loop { cache := cache_write s.cache a zeroSector, fm := fm1 }
            (ptrs.set i0 a) ((i0 + 1 : Nat) : Int) n := by
      rw [alloc_loop]
      simp only [ha]
      have h0 : (0 : Int) ≤ (i0 : Int) := Int.ofNat_nonneg _
      simp only [h0, if_true, Int.toNat_ofNat]
      rfl
    obtain ⟨hw1, hw2⟩ := cache_write_spec s.cache hc a zeroSector
    have hn' : n ≤ (freeList (FsState.mk (cache_write s.cache a zeroSector) fm1).fm).length := by
      show n ≤ (freeList fm1).length
      rw [hrest]; rw [hfl] at hn; simpa using hn
    obtain ⟨i1, i2, i3, i4, i5, i6, i7, i8⟩ :=
      ih (FsState.mk (cache_write s.cache a zeroSector) fm1) (ptrs.set i0 a) (i0 + 1) hw1 hn'
    rw [hstep]
    change freeList (alloc_loop _ _ _ n).1.fm = (freeList fm1).drop n at i3
    change (alloc_loop _ _ _ n).1.fm.size = fm1.size at i4
    change ∀ j, (alloc_loop _ _ _ n).1.fm.used j
      = (decide (j ∈ (freeList fm1).take n) || fm1.used j) at i5
    change ∀ T, cache_view (alloc_loop _ _ _ n).1.cache T
      = if T ∈ (freeList fm1).take n then zeroSector
        else cache_view (cache_write s.cache a zeroSector) T at i6
    change ∀ j, (alloc_loop _ _ _ n).2.1.getD j 0
      = if i0 + 1 ≤ j ∧ j < i0 + 1 + n ∧ j < (ptrs.set i0 a).length
        then (freeList fm1).getD (j - (i0 + 1)) 0 else (ptrs.set i0 a).getD j 0 at i8
    rw [hrest] at i3 i5 i6 i8
    rw [hfl]
    refine ⟨i1, i2, ?_, ?_, ?_, ?_, ?_, ?_⟩
    · rw [i3]; rfl
    · rw [i4, hsz]
    · intro j
      rw [i5, hused]
      by_cases hj : j = a
      · simp [hj]
      · simp [hj, List.take_succ_cons]
    · intro T
      rw [i6, hw2]
      by_cases hT : T = a
      · simp [hT, List.take_succ_cons]
      · simp [hT, List.take_succ_cons]
    · rw [i7, List.length_set]
    · intro j
      rw [i8, List.length_set, getD_set_nat]
      by_cases hj : j = i0
      · subst hj
        by_cases hl : j < ptrs.length
        · have c1 : ¬ (j + 1 ≤ j ∧ j < j + 1 + n ∧ j < ptrs.length) := by omega
          have c2 : j ≤ j ∧ j < j + (n + 1) ∧ j < ptrs.length := ⟨le_refl _, by omega, hl⟩
          simp [c1, c2, hl]
        · have c1 : ¬ (j + 1 ≤ j ∧ j < j + 1 + n ∧ j < ptrs.length) := by omega
          have c2 : ¬ (j ≤ j ∧ j < j + (n + 1) ∧ j < ptrs.length) := by omega
          simp [c1, c2, hl]
      · by_cases hc1 : i0 + 1 ≤ j ∧ j < i0 + 1 + n ∧ j < ptrs.length
        · have c2 : i0 ≤ j ∧ j < i0 + (n + 1) ∧ j < ptrs.length := by omega
          obtain ⟨m, hm⟩ : ∃ m, j - i0 = m + 1 := ⟨j - i0 - 1, by omega⟩
          have hm' : j - (i0 + 1) = m := by omega
          simp only [hc1, c2, and_self, if_true, hm, hm']
          simp [List.getD_eq_getElem?_getD]
        · have c2 : ¬ (i0 ≤ j ∧ j < i0 + (n + 1) ∧ j < ptrs.length) := by omega
          simp [hc1, c2, hj]

/-- A call of `indirect_blocker` from index `start` to `stop` inclusive when
enough sectors are free: it takes `stop + 1 - start` sectors. -/
theorem indirect_blocker_spec (s : FsState) (block : indirect_block) (start n : Nat)
    (hc : CacheInv s.cache) (hn : n ≤ (freeList s.fm).length) :
    (indirect_blocker s block (start : Int) ((start + n : Nat) - 1 : Int)).2.2 = true ∧
    CacheInv (indirect_blocker s block (start : Int) ((start + n : Nat) - 1 : Int)).1.cache ∧
    freeList (indirect_blocker s block (start : Int) ((start + n : Nat) - 1 : Int)).1.fm
      = (freeList s.fm).drop n ∧
    (indirect_blocker s block (start : Int) ((start + n : Nat) - 1 : Int)).2.1.length
      = block.length := by
  have e : ((((start + n : Nat) : Int) - 1) + 1 - (start : Int)).toNat = n := by
    push_cast
    omega
  unfold indirect_blocker
  rw [e]
  obtain ⟨h1, h2, h3, _, _, _, h7, _⟩ := alloc_loop_spec n s block start hc hn
  exact ⟨h1, h2, h3, h7⟩

/-- One iteration of the child loop whose call of `indirect_blocker` succeeds. -/
theorem extend_children_step (doubly : indirect_block) (cur new : Nat) (mini maxi : Int)
    (s : FsState) (i : Int) (n : Nat) (mn mx : Int)
    (hmn : (if i = mini then (((cur - DIRECT_SIZE + 128) % 128 : Nat) : Int) else 0) = mn)
    (hmx : (if i = maxi then (((new - DIRECT_SIZE + 128) % 128 : Nat) : Int) - 1 else 128) = mx)
    (r : FsState × indirect_block × Bool)
    (hr : indirect_blocker { s with cache := (cache_read s.cache (doubly.getD i.toNat 0)).1 }
      (decode_indirect (cache_read s.cache (doubly.getD i.toNat 0)).2) mn mx = r)
    (hok : r.2.2 = true) :
    extend_children doubly cur new mini maxi s i (n + 1)
      = extend_children doubly cur new mini maxi
          (FsState.mk (cache_write r.1.cache (doubly.getD i.toNat 0) (encode_indirect r.2.1))
            r.1.fm) (i + 1) n := by
  subst hmn hmx hr
  rw [extend_children_succ]
  simp only [hok, if_true]

/-- The double-indirect block of `inode_extend` when both of its loops succeed. -/
theorem extend_doubly_step (s : FsState) (data : inode_disk) (cur new : Nat)
    (hcond : cur < DIRECT_SIZE + 128 + 128 * 128 ∧ new > DIRECT_SIZE + 128) (mini maxi : Int)
    (hmini : (((cur - DIRECT_SIZE + 128) / 128 : Nat) : Int) = mini)
    (hmaxi : (((new - DIRECT_SIZE + 128) / 128 : Nat) : Int) - 1 = maxi)
    (r : FsState × indirect_block × Bool)
    (hr : indirect_blocker { s with cache := (cache_read s.cache data.doubly_indirect).1 }
      (decode_indirect (cache_read s.cache data.doubly_indirect).2) mini maxi = r)
    (hok : r.2.2 = true) (r2 : FsState × Bool)
    (hr2 : extend_children r.2.1 cur new mini maxi r.1 mini (maxi + 1 - mini).toNat = r2)
    (hok2 : r2.2 = true) :
    extend_doubly s data cur new
      = { st := { r2.1 with
                    cache := cache_write r2.1.cache data.doubly_indirect (encode_indirect r.2.1) }
          data := data, cur := cur, ok := true } := by
  subst hmini hmaxi hr hr2
  unfold extend_doubly
  simp only [hcond, and_self, if_true, hok, hok2]

/-- The double-indirect block of `inode_extend` on the way from 250 to 506
sectors: two entries of the top block, then 129 sectors for the child at
entry 2 (indices 0 to 128 inclusive), then none for the child at entry 3. -/
theorem extend_doubly_overrun (s : FsState) (data : inode_disk)
    (hc : CacheInv s.cache) (hfree : 131 ≤ (freeList s.fm).length) :
    (extend_doubly s data 250 506).ok = true ∧
    freeList (extend_doubly s data 250 506).st.fm = (freeList s.fm).drop 131 := by
  obtain ⟨_, hc1, _⟩ := cache_read_spec s.cache hc data.doubly_indirect
  obtain ⟨t1, t2, t3, _⟩ := indirect_blocker_spec
    { s with cache := (cache_read s.cache data.doubly_indirect).1 }
    (decode_indirect (cache_read s.cache data.doubly_indirect).2) 2 2 hc1
    (by show 2 ≤ (freeList s.fm).length; omega)
  change freeList _ = (freeList s.fm).drop 2 at t3
  generalize hr : indirect_blocker { s with cache := (cache_read s.cache data.doubly_indirect).1 }
    (decode_indirect (cache_read s.cache data.doubly_indirect).2) ((2 : Nat) : Int)
      (((2 + 2 : Nat) : Int) - 1) = r at t1 t2 t3
  -- first child: indices 0 .. 128
  obtain ⟨_, hc2, _⟩ := cache_read_spec r.1.cache t2 (r.2.1.getD (2 : Int).toNat 0)
  obtain ⟨u1, u2, u3, _⟩ := indirect_blocker_spec
    { r.1 with cache := (cache_read r.1.cache (r.2.1.getD (2 : Int).toNat 0)).1 }
    (decode_indirect (cache_read r.1.cache (r.2.1.getD (2 : Int).toNat 0)).2) 0 129 hc2
    (by show 129 ≤ (freeList r.1.fm).length; rw [t3, List.length_drop]; omega)
  change freeList _ = (freeList r.1.fm).drop 129 at u3
  generalize hq : indirect_blocker
    { r.1 with cache := (cache_read r.1.cache (r.2.1.getD (2 : Int).toNat 0)).1 }
    (decode_indirect (cache_read r.1.cache (r.2.1.getD (2 : Int).toNat 0)).2) ((0 : Nat) : Int)
      (((0 + 129 : Nat) : Int) - 1) = q at u1 u2 u3
  have e1 := extend_children_step r.2.1 250 506 2 3 r.1 2 1 ((0 : Nat) : Int)
    (((0 + 129 : Nat) : Int) - 1) rfl (by norm_num [DIRECT_SIZE]) q hq u1
  -- second child: indices 0 .. -1
  have hb : ∀ (st : FsState) (blk : indirect_block),
      indirect_blocker st blk 0 (-1) = (st, blk, true) := by
    intro st blk
    unfold indirect_blocker
    norm_num [alloc_loop_zero]
  have e2 := extend_children_step r.2.1 250 506 2 3
    (FsState.mk (cache_write q.1.cache (r.2.1.getD (2 : Int).toNat 0) (encode_indirect q.2.1))
      q.1.fm) (2 + 1) 0 0 (-1) rfl (by norm_num [DIRECT_SIZE]) _ (hb _ _) rfl
  rw [extend_children_zero] at e2
  rw [e2] at e1
  have e3 := extend_doubly_step s data 250 506 (by simp [DIRECT_SIZE]) 2 3 rfl rfl r hr t1 _ e1 rfl
  rw [e3]
  refine ⟨rfl, ?_⟩
  show freeList q.1.fm = _
  rw [u3, t3, List.drop_drop]
theorem bytes_to_sectors_of_range (x : Int) (k : Nat) (hk : k < 4194304)
    (h1 : 512 * (k : Int) - 512 < x) (h2 : x ≤ 512 * (k : Int)) (h0 : 0 ≤ x) :
    bytes_to_sectors x = k := by
  unfold bytes_to_sectors
  rw [Int.tdiv_eq_ediv (by omega) (by decide)]
  omega

/-! ## Growth: the index-block bounds -/

/-- C29. The child loop of `inode_extend` passes `max = 128` to
`indirect_blocker` for every child but the last, and `indirect_blocker` runs
to `stop` inclusive: a call from 0 to 128 on a 128-entry block takes 129
sectors from the free map, one for the index 128 that the block does not have.
Growing a file of 250 sectors to 506 sectors makes that call: it succeeds and
takes 131 sectors, 2 for entries 2 and 3 of the double-indirect block, 129 for
the child at entry 2, and none for the child at entry 3. -/
theorem inode_extend_child_overrun (s : FsState) (data : inode_disk) (length : Int)
    (hc : CacheInv s.cache) (hd1 : 127488 < data.length) (hd2 : data.length ≤ 128000)
    (hl1 : 258560 < length) (hl2 : length ≤ 259072)
    (hfree : 131 ≤ (freeList s.fm).length) :
    (bytes_to_sectors data.length = 250 ∧ bytes_to_sectors length = 506) ∧
    ((inode_extend s data length).2.2 = true ∧
     freeList (inode_extend s data length).1.fm = (freeList s.fm).drop 131) ∧
    (∀ (st : FsState) (block : indirect_block), CacheInv st.cache → block.length = 128 →
      129 ≤ (freeList st.fm).length →
      (indirect_blocker st block 0 128).2.2 = true ∧
      (indirect_blocker st block 0 128).2.1.length = 128 ∧
      freeList (indirect_blocker st block 0 128).1.fm = (freeList st.fm).drop 129) := by
  have hcur : bytes_to_sectors data.length = 250 :=
    bytes_to_sectors_of_range data.length 250 (by decide) (by omega) (by omega) (by omega)
  have hnew : bytes_to_sectors length = 506 :=
    bytes_to_sectors_of_range length 506 (by decide) (by omega) (by omega) (by omega)
  refine ⟨⟨hcur, hnew⟩, ?_, ?_⟩
  · have h1 : ¬ (506 : Nat) < 250 := by decide
    have h2 : ¬ (506 : Nat) = 250 := by decide
    have h3 : ¬ (length > (((DIRECT_SIZE + 128 + 128 * DIRECT_SIZE) * BLOCK_SECTOR_SIZE : Nat) : Int)
        ∨ length < data.length) := by
      simp only [DIRECT_SIZE, BLOCK_SECTOR_SIZE]
      push_cast
      omega
    have hd := extend_direct_skip s data 250 506 (by simp [DIRECT_SIZE])
    have hi := extend_indirect_skip s data 250 506 (by simp [DIRECT_SIZE])
    obtain ⟨e1, e2⟩ := extend_doubly_overrun s data hc hfree
    unfold inode_extend
    simp only [hcur, hnew, h1, h2, h3, if_false, hd, hi, if_true, e1, e2, and_self]
  · intro st block hst hlen hroom
    obtain ⟨h1, _, h3, h4⟩ := indirect_blocker_spec st block 0 129 hst hroom
    exact ⟨h1, h4.trans hlen, h3⟩

set_option maxRecDepth 100000 in
/-- The failing input of C29: the 250-sector record `rec250` grown to 259072
bytes, which is 506 sectors, with 224 sectors free. -/
theorem inode_extend_child_overrun_witness :
    CacheInv fsRoomy.cache ∧ 127488 < rec250.length ∧ rec250.length ≤ 128000 ∧
    131 ≤ (freeList fsRoomy.fm).length ∧
    ((bytes_to_sectors rec250.length = 250 ∧ bytes_to_sectors 259072 = 506) ∧
    ((inode_extend fsRoomy rec250 259072).2.2 = true ∧
     freeList (inode_extend fsRoomy rec250 259072).1.fm = (freeList fsRoomy.fm).drop 131) ∧
    (∀ (st : FsState) (block : indirect_block), CacheInv st.cache → block.length = 128 →
      129 ≤ (freeList st.fm).length →
      (indirect_blocker st block 0 128).2.2 = true ∧
      (indirect_blocker st block 0 128).2.1.length = 128 ∧
      freeList (indirect_blocker st block 0 128).1.fm = (freeList st.fm).drop 129)) :=
  ⟨cache_init_inv dev250, by decide, by decide, by decide,
   inode_extend_child_overrun fsRoomy rec250 259072 (cache_init_inv dev250) (by decide)
     (by decide) (by decide) (by decide) (by decide)⟩

/-! ## On-disk layout: lemmas -/

theorem getByte_nil (i : Nat) : getByte [] i = 0 := by simp [getByte]

theorem getByte_cons4 (a b c d : Nat) (r : List Nat) (i : Nat) :
    getByte (a :: b :: c :: d :: r) (i + 4) = getByte r i := by
  simp [getByte, List.getD_eq_getElem?_getD]

/-- Word `k` of a buffer laid out as consecutive little-endian words. -/
theorem getWord_flatMap (ws : List Nat) : ∀ k,
    getWord (ws.flatMap wordBytes) k = ws.getD k 0 % 4294967296 := by
  induction ws with
  | nil => intro k; simp [getWord, getByte]
  | cons w rest ih =>
    intro k
    cases k with
    | zero =>
      simp only [List.flatMap_cons, wordBytes, getWord, getByte]
      simp only [List.cons_append, List.nil_append, Nat.mul_zero, Nat.zero_add,
        List.getD_cons_zero, List.getD_cons_succ]
      omega
    | succ k =>
      have e := ih k
      simp only [List.flatMap_cons, wordBytes, getWord] at e ⊢
      simp only [List.cons_append, List.nil_append]
      have e1 : 4 * k + 4 + 1 = (4 * k + 1) + 4 := by ring
      have e2 : 4 * k + 4 + 2 = (4 * k + 2) + 4 := by ring
      have e3 : 4 * k + 4 + 3 = (4 * k + 3) + 4 := by ring
      have e0 : 4 * (k + 1) = 4 * k + 4 := by ring
      simp only [e0]
      rw [e1, e2, e3, getByte_cons4, getByte_cons4, getByte_cons4, getByte_cons4, e]
      simp [List.getD_eq_getElem?_getD]

theorem encode_indirect_eq (b : indirect_block) :
    encode_indirect b = ((List.range 128).map (fun k => b.getD k 0)).flatMap wordBytes := by
  simp [encode_indirect, List.flatMap_map]

theorem getD_map_range (f : Nat → Nat) (n k : Nat) :
    ((List.range n).map f).getD k 0 = if k < n then f k else 0 := by
  by_cases h : k < n
  · simp [List.getD_eq_getElem?_getD, h]
  · rw [List.getD_eq_default _ _ (by simp; omega)]
    simp [h]

/-- Reading back entry `k` of an index block that was written out. -/
theorem getWord_encode_indirect (b : indirect_block) (k : Nat) (hk : k < 128) :
    getWord (encode_indirect b) k = b.getD k 0 % 4294967296 := by
  rw [encode_indirect_eq, getWord_flatMap, getD_map_range]
  simp [hk]

theorem getByte_zeroSector (i : Nat) : getByte zeroSector i = 0 := by
  unfold getByte zeroSector
  rw [List.getD_eq_getElem?_getD, List.getElem?_replicate]
  split <;> rfl

theorem getWord_zeroSector (k : Nat) : getWord zeroSector k = 0 := by
  simp [getWord, getByte_zeroSector]

/-- The words of an on-disk inode, in layout order. -/
theorem encode_inode_eq (d : inode_disk) :
    encode_inode d = ((List.range DIRECT_SIZE).map (fun k => d.direct.getD k 0)
      ++ [d.indirect, d.doubly_indirect, if d.directory then 1 else 0, d.parent_node,
          ofInt32 d.length, d.magic]).flatMap wordBytes := by
  cases hdir : d.directory <;>
    simp [encode_inode, List.flatMap_map, List.flatMap_append, hdir, wordBytes]

theorem inode_words_tail (d : inode_disk) (l : List Nat) (i : Nat) :
    ((List.range DIRECT_SIZE).map (fun k => d.direct.getD k 0) ++ l).getD (122 + i) 0
      = l.getD i 0 := by
  rw [List.getD_append_right _ _ _ _ (by simp [DIRECT_SIZE])]
  simp [DIRECT_SIZE]

theorem getWord_encode_inode (d : inode_disk) (k : Nat) :
    getWord (encode_inode d) k
      = ((List.range DIRECT_SIZE).map (fun k => d.direct.getD k 0)
          ++ [d.indirect, d.doubly_indirect, if d.directory then 1 else 0, d.parent_node,
              ofInt32 d.length, d.magic]).getD k 0 % 4294967296 := by
  rw [encode_inode_eq, getWord_flatMap]

/-- The direct pointers read back from a record that was written out. -/
theorem decode_encode_direct (d : inode_disk) (j : Nat) (hj : j < 122) :
    (decode_inode (encode_inode d)).direct.getD j 0 = d.direct.getD j 0 % 4294967296 := by
  simp only [decode_inode]
  rw [getD_map_range]
  have hj' : j < DIRECT_SIZE := hj
  simp only [hj', if_true]
  rw [getWord_encode_inode]
  simp [List.getD_eq_getElem?_getD, List.getElem?_append, hj']

theorem decode_encode_indirect (d : inode_disk) :
    (decode_inode (encode_inode d)).indirect = d.indirect % 4294967296 := by
  simp only [decode_inode]
  rw [getWord_encode_inode, inode_words_tail d _ 0]
  rfl

theorem decode_encode_doubly (d : inode_disk) :
    (decode_inode (encode_inode d)).doubly_indirect = d.doubly_indirect % 4294967296 := by
  simp only [decode_inode]
  rw [getWord_encode_inode, inode_words_tail d _ 1]
  rfl

theorem decode_encode_length (d : inode_disk) (h0 : 0 ≤ d.length) (h1 : d.length < 2147483648) :
    (decode_inode (encode_inode d)).length = d.length := by
  simp only [decode_inode]
  rw [getWord_encode_inode, inode_words_tail d _ 4]
  have e : [d.indirect, d.doubly_indirect, if d.directory then 1 else 0, d.parent_node,
              ofInt32 d.length, d.magic].getD 4 0 = ofInt32 d.length := rfl
  rw [e]
  unfold ofInt32 toInt32
  have e2 : (d.length % 4294967296).toNat % 4294967296 = d.length.toNat := by omega
  rw [e2]
  have e3 : d.length.toNat < 2147483648 := by omega
  simp only [e3, if_true]
  omega

/-! ## Reading: lemmas -/

/-- The result of `byte_to_sector` is the translation read off the cache view,
and the reads it makes leave the view as it was. -/
theorem byte_to_sector_view (c : Cache) (hc : CacheInv c) (ino : inode) (pos : Int) :
    (byte_to_sector c ino pos).2 = sector_of (cache_view c) ino.sector pos ∧
    CacheInv (byte_to_sector c ino pos).1 ∧
    ∀ T, cache_view (byte_to_sector c ino pos).1 T = cache_view c T := by
  obtain ⟨h1, hc1, hv1⟩ := cache_read_spec c hc ino.sector
  unfold byte_to_sector sector_of
  simp only [h1]
  by_cases hcond : pos < (decode_inode (cache_view c ino.sector)).length ∧ pos ≥ 0
  · simp only [hcond, and_self, if_true]
    by_cases hd : Int.tdiv pos 512 < 122
    · simp only [hd, if_true]
      exact ⟨trivial, hc1, hv1⟩
    · simp only [hd, if_false]
      by_cases hi : Int.tdiv pos 512 < 122 + 128
      · simp only [hi, if_true]
        obtain ⟨h2, hc2, hv2⟩ := cache_read_spec _ hc1
          (decode_inode (cache_view c ino.sector)).indirect
        refine ⟨by rw [h2, hv1], hc2, fun T => by rw [hv2, hv1]⟩
      · simp only [hi, if_false]
        by_cases hb : Int.tdiv pos 512 < 122 + 128 * 128
        · simp only [hb, if_true]
          obtain ⟨h2, hc2, hv2⟩ := cache_read_spec _ hc1
            (decode_inode (cache_view c ino.sector)).doubly_indirect
          obtain ⟨h3, hc3, hv3⟩ := cache_read_spec _ hc2
            (getWord (cache_read (cache_read c ino.sector).1
                (decode_inode (cache_view c ino.sector)).doubly_indirect).2
              (Int.tdiv (Int.tdiv pos 512 - (122 + 128)) 128).toNat)
          refine ⟨?_, hc3, fun T => by rw [hv3, hv2, hv1]⟩
          rw [h3, hv2, hv1, h2, hv1]
        · simp only [hb, if_false]
          exact ⟨trivial, hc1, hv1⟩
  · simp only [hcond, if_false]
    exact ⟨trivial, hc1, hv1⟩

theorem inode_length_view (c : Cache) (hc : CacheInv c) (ino : inode) :
    (inode_length c ino).2 = (decode_inode (cache_view c ino.sector)).length ∧
    CacheInv (inode_length c ino).1 ∧
    ∀ T, cache_view (inode_length c ino).1 T = cache_view c T := by
  obtain ⟨h1, hc1, hv1⟩ := cache_read_spec c hc ino.sector
  unfold inode_length
  simp only [h1]
  exact ⟨trivial, hc1, hv1⟩

/-- Inside one sector the translation does not change. -/
theorem sector_of_same_block (v : Nat → SectorData) (isec : Nat) (pos : Int) (k : Nat)
    (h0 : 0 ≤ pos) (hk : (k : Int) < 512 - pos % 512)
    (hlen : pos + k < (decode_inode (v isec)).length) :
    sector_of v isec (pos + k) = sector_of v isec pos := by
  have e : Int.tdiv (pos + k) 512 = Int.tdiv pos 512 := by
    rw [Int.tdiv_eq_ediv (by omega) (by decide), Int.tdiv_eq_ediv h0 (by decide)]
    omega
  have c1 : pos + k < (decode_inode (v isec)).length ∧ pos + k ≥ 0 := ⟨hlen, by omega⟩
  have c2 : pos < (decode_inode (v isec)).length ∧ pos ≥ 0 := ⟨by omega, h0⟩
  unfold sector_of
  simp only [c1, c2, and_self, if_true, e]

theorem cache_read_dev_some (dsize : Nat) (c : Cache) (S : Nat) (h : S < dsize) :
    cache_read_dev dsize c S = some (cache_read c S) := by
  unfold cache_read_dev
  split
  · rfl
  · rw [if_pos h]

theorem cache_read_dev_none (dsize : Nat) (c : Cache) (S : Nat)
    (hres : cache_lookup c S = none) (h : dsize ≤ S) : cache_read_dev dsize c S = none := by
  unfold cache_read_dev
  rw [hres]
  have h1 : ¬ S < dsize := by omega
  simp only [h1, if_false]

theorem read_loop_succ (dsize : Nat) (ino : inode) (fuel : Nat) (c : Cache) (out : List Nat)
    (size offset : Int) :
    read_loop dsize ino (fuel + 1) c out size offset =
      (if size > 0 then
        let r1 := byte_to_sector c ino offset
        let sector_ofs := Int.tmod offset 512
        let r2 := inode_length r1.1 ino
        let inode_left := r2.2 - offset
        let sector_left := 512 - sector_ofs
        let min_left := if inode_left < sector_left then inode_left else sector_left
        let chunk_size := if size < min_left then size else min_left
        if chunk_size ≤ 0 then some (r2.1, out)
        else
          match cache_read_dev dsize r2.1 r1.2 with
          | none => none
          | some r3 =>
            let bytes :=
              if sector_ofs = 0 ∧ chunk_size = 512 then (List.range 512).map (getByte r3.2)
              else (List.range chunk_size.toNat).map (fun k => getByte r3.2 (sector_ofs.toNat + k))
            read_loop dsize ino fuel r3.1 (out ++ bytes) (size - chunk_size) (offset + chunk_size)
      else some (c, out)) := rfl

/-- The loop of `inode_read_at` when every position it reads translates to a
sector of the device: it returns, with the bytes of the positions
`offset, offset + 1, ...` up to `size` bytes or the end of the file, whichever
comes first, and leaves the cache view as it was. -/
theorem read_loop_spec (dsize : Nat) (ino : inode) (fuel : Nat) : ∀ (c : Cache) (out : List Nat)
    (size offset : Int), CacheInv c → 0 ≤ offset → size.toNat ≤ fuel →
    (∀ pos, offset ≤ pos → pos < offset + size →
      pos < (decode_inode (cache_view c ino.sector)).length →
      sector_of (cache_view c) ino.sector pos < dsize) →
    ∃ c', read_loop dsize ino fuel c out size offset
        = some (c', out ++ (List.range
          (min size (max 0 ((decode_inode (cache_view c ino.sector)).length - offset))).toNat).map
          (fun (k : Nat) => file_byte (cache_view c) ino.sector (offset + (k : Int)))) ∧
      CacheInv c' ∧ ∀ T, cache_view c' T = cache_view c T := by
  induction fuel with
  | zero =>
    intro c out size offset hc _ hf _
    have e : (min size (max 0 ((decode_inode (cache_view c ino.sector)).length - offset))).toNat
        = 0 := by omega
    rw [e]
    exact ⟨c, by simp [read_loop], hc, fun _ => rfl⟩
  | succ fuel ih =>
    intro c out size offset hc ho hf hdev
    rw [read_loop_succ]
    by_cases hs : size > 0
    · simp only [hs, if_true]
      obtain ⟨b1, bc1, bv1⟩ := byte_to_sector_view c hc ino offset
      obtain ⟨l1, lc1, lv1⟩ := inode_length_view (byte_to_sector c ino offset).1 bc1 ino
      rw [bv1] at l1
      have hsofs : Int.tmod offset 512 = offset % 512 := Int.tmod_eq_emod ho (by decide)
      simp only [b1, l1, hsofs]
      generalize hlen : (decode_inode (cache_view c ino.sector)).length = len at hdev ⊢
      generalize hch : (if size <
          (if len - offset < 512 - offset % 512 then len - offset else 512 - offset % 512)
          then size
          else if len - offset < 512 - offset % 512 then len - offset else 512 - offset % 512)
        = chunk
      have hchunk : chunk = min size (min (len - offset) (512 - offset % 512)) := by
        rw [← hch]
        split_ifs <;> omega
      by_cases hle : chunk ≤ 0
      · simp only [hle, if_true]
        have e : (min size (max 0 (len - offset))).toNat = 0 := by omega
        rw [e]
        exact ⟨_, by simp, lc1, fun T => by rw [lv1, bv1]⟩
      · simp only [hle, if_false]
        have hdevS : sector_of (cache_view c) ino.sector offset < dsize :=
          hdev offset (le_refl _) (by omega) (by omega)
        rw [cache_read_dev_some dsize _ _ hdevS]
        simp only []
        obtain ⟨r3, rc3, rv3⟩ := cache_read_spec (inode_length (byte_to_sector c ino offset).1 ino).1
          lc1 (sector_of (cache_view c) ino.sector offset)
        rw [lv1, bv1] at r3
        have hview : cache_view (cache_read (inode_length (byte_to_sector c ino offset).1 ino).1
            (sector_of (cache_view c) ino.sector offset)).1 = cache_view c := by
          funext T
          rw [rv3, lv1, bv1]
        obtain ⟨c', i3, i1, i2⟩ := ih (cache_read (inode_length (byte_to_sector c ino offset).1 ino).1
            (sector_of (cache_view c) ino.sector offset)).1
          (out ++ (if offset % 512 = 0 ∧ chunk = 512 then
              (List.range 512).map (getByte (cache_read
                (inode_length (byte_to_sector c ino offset).1 ino).1
                (sector_of (cache_view c) ino.sector offset)).2)
            else (List.range chunk.toNat).map (fun k => getByte (cache_read
                (inode_length (byte_to_sector c ino offset).1 ino).1
                (sector_of (cache_view c) ino.sector offset)).2 ((offset % 512).toNat + k))))
          (size - chunk) (offset + chunk) rc3 (by omega) (by omega)
          (by
            rw [hview, hlen]
            intro pos hp1 hp2 hp3
            exact hdev pos (by omega) (by omega) hp3)
        rw [hview] at i2 i3
        rw [hlen] at i3
        refine ⟨c', ?_, i1, fun T => by rw [i2]⟩
        rw [i3, r3, List.append_assoc]
        have hbytes : (if offset % 512 = 0 ∧ chunk = 512 then
              (List.range 512).map (getByte (cache_view c (sector_of (cache_view c) ino.sector offset)))
            else (List.range chunk.toNat).map (fun k => getByte
                (cache_view c (sector_of (cache_view c) ino.sector offset))
                ((offset % 512).toNat + k)))
            = (List.range chunk.toNat).map
                (fun (k : Nat) => file_byte (cache_view c) ino.sector (offset + (k : Int))) := by
          have hmain : (List.range chunk.toNat).map (fun k => getByte
                (cache_view c (sector_of (cache_view c) ino.sector offset))
                ((offset % 512).toNat + k))
              = (List.range chunk.toNat).map
                (fun (k : Nat) => file_byte (cache_view c) ino.sector (offset + (k : Int))) := by
            apply List.map_congr_left
            intro k hk
            have hk' : k < chunk.toNat := List.mem_range.1 hk
            unfold file_byte
            have e : ((offset + (k : Int)) % 512).toNat = (offset % 512).toNat + k := by omega
            rw [sector_of_same_block _ _ offset k ho (by omega) (by rw [hlen]; omega),
              Int.tmod_eq_emod (by omega) (by decide), e]
          by_cases hfull : offset % 512 = 0 ∧ chunk = 512
          · rw [if_pos hfull, ← hmain, hfull.1, hfull.2]
            simp
          · rw [if_neg hfull]
            exact hmain
        rw [hbytes]
        have hm : (min size (max 0 (len - offset))).toNat
            = chunk.toNat + (min (size - chunk) (max 0 (len - (offset + chunk)))).toNat := by
          omega
        rw [hm, List.range_add, List.map_append, List.map_map]
        have ht : List.map ((fun (k : Nat) => file_byte (cache_view c) ino.sector
              (offset + (k : Int))) ∘ fun x => chunk.toNat + x)
              (List.range (min (size - chunk) (max 0 (len - (offset + chunk)))).toNat)
            = List.map (fun (k : Nat) => file_byte (cache_view c) ino.sector
              (offset + chunk + (k : Int)))
              (List.range (min (size - chunk) (max 0 (len - (offset + chunk)))).toNat) := by
          apply List.map_congr_left
          intro k _
          simp only [Function.comp]
          have e : offset + ((chunk.toNat + k : Nat) : Int) = offset + chunk + (k : Int) := by
            push_cast
            omega
          rw [e]
        rw [ht]
    · simp only [hs, if_false]
      have e : (min size (max 0 ((decode_inode (cache_view c ino.sector)).length - offset))).toNat
          = 0 := by omega
      rw [e]
      exact ⟨c, by simp, hc, fun _ => rfl⟩

/-- Reads that stay on the device: for every handle, every `offset >= 0` and
every `size >= 0`, on a cache satisfying its representation invariant, when
every position of the request inside the file translates to a sector of the
device, `inode_read_at` returns `min (size, max (0, length - offset))` bytes,
where `length` is what `inode_length` reports; byte `k` of the result is the
file's byte at position `offset + k`, which lies before the end of the file;
and the cache view of every sector, hence the file's length and contents, is
unchanged. -/
theorem inode_read_at_on_device (dsize : Nat) (c : Cache) (hc : CacheInv c) (ino : inode)
    (size offset : Int) (hs : 0 ≤ size) (ho : 0 ≤ offset)
    (hdev : ∀ pos, offset ≤ pos → pos < offset + size →
      pos < (decode_inode (cache_view c ino.sector)).length →
      sector_of (cache_view c) ino.sector pos < dsize) :
    ∃ c' bytes, inode_read_at dsize c ino size offset = some (c', bytes) ∧
      (bytes.length : Int) = min size (max 0 ((inode_length c ino).2 - offset)) ∧
      (∀ k, k < bytes.length →
        offset + (k : Int) < (inode_length c ino).2 ∧
        bytes.getD k 0 = file_byte (cache_view c) ino.sector (offset + (k : Int))) ∧
      CacheInv c' ∧ (∀ T, cache_view c' T = cache_view c T) ∧
      (inode_length c' ino).2 = (inode_length c ino).2 := by
  obtain ⟨c', h3, h1, h2⟩ := read_loop_spec dsize ino size.toNat c [] size offset hc ho
    (le_refl _) hdev
  have hview : cache_view c' = cache_view c := funext h2
  have hl := (inode_length_view c hc ino).1
  have hl2 := (inode_length_view c' h1 ino).1
  rw [hview] at hl2
  rw [List.nil_append] at h3
  refine ⟨c', _, h3, ?_, ?_, h1, h2, by rw [hl2, hl]⟩
  · rw [hl, List.length_map, List.length_range]
    omega
  · intro k hk
    rw [List.length_map, List.length_range] at hk
    rw [hl]
    refine ⟨by omega, ?_⟩
    rw [getD_map_range]
    simp [hk]

/-! ## Creation and growth in the first two tiers: lemmas -/

theorem getD_drop_nat (l : List Nat) (n j : Nat) : (l.drop n).getD j 0 = l.getD (n + j) 0 := by
  simp [List.getD_eq_getElem?_getD, List.getElem?_drop]

theorem getD_mem_take (l : List Nat) (n j : Nat) (hj : j < n) (hl : j < l.length) :
    l.getD j 0 ∈ l.take n := by
  rw [List.getD_eq_getElem _ _ hl]
  exact List.mem_take_iff_getElem.2 ⟨j, by omega, rfl⟩

theorem getD_mem (l : List Nat) (j : Nat) (hl : j < l.length) : l.getD j 0 ∈ l := by
  rw [List.getD_eq_getElem _ _ hl]
  exact List.getElem_mem _

theorem getD_inj_of_nodup (l : List Nat) (hnd : l.Nodup) (i j : Nat) (hi : i < l.length)
    (hj : j < l.length) (h : l.getD i 0 = l.getD j 0) : i = j := by
  rw [List.getD_eq_getElem _ _ hi, List.getD_eq_getElem _ _ hj] at h
  exact (List.Nodup.getElem_inj_iff hnd).1 h

theorem freeList_lt (fm : FreeMap) (j : Nat) (hj : j < (freeList fm).length) :
    (freeList fm).getD j 0 < fm.size :=
  ((freeList_mem fm _).1 (getD_mem _ j hj)).1

/-- The function `fm_allo` when two sectors are free: the index sectors are the
first two free sectors, and both are zeroed. -/
theorem fm_allo_spec (s : FsState) (data : inode_disk) (hc : CacheInv s.cache)
    (h2 : 2 ≤ (freeList s.fm).length) :
    (fm_allo s data).2.2 = true ∧
    (fm_allo s data).2.1 = { data with indirect := (freeList s.fm).getD 0 0,
                                        doubly_indirect := (freeList s.fm).getD 1 0 } ∧
    CacheInv (fm_allo s data).1.cache ∧
    freeList (fm_allo s data).1.fm = (freeList s.fm).drop 2 ∧
    (fm_allo s data).1.fm.size = s.fm.size ∧
    (∀ j, (fm_allo s data).1.fm.used j
      = (decide (j ∈ (freeList s.fm).take 2) || s.fm.used j)) ∧
    (∀ T, cache_view (fm_allo s data).1.cache T
      = if T ∈ (freeList s.fm).take 2 then zeroSector else cache_view s.cache T) := by
  obtain ⟨a, b, rest, hfl⟩ : ∃ a b rest, freeList s.fm = a :: b :: rest := by
    cases hl : freeList s.fm with
    | nil => rw [hl] at h2; simp at h2
    | cons a t =>
      cases t with
      | nil => rw [hl] at h2; simp at h2
      | cons b rest => exact ⟨a, b, rest, rfl⟩
  obtain ⟨fm1, ha, hr1, hs1, hu1⟩ := free_map_allocate_spec s.fm a (b :: rest) hfl
  obtain ⟨fm2, hb, hr2, hs2, hu2⟩ := free_map_allocate_spec fm1 b rest hr1
  obtain ⟨w1, v1⟩ := cache_write_spec s.cache hc a zeroSector
  obtain ⟨w2, v2⟩ := cache_write_spec _ w1 b zeroSector
  have e : fm_allo s data
      = (FsState.mk (cache_write (cache_write s.cache a zeroSector) b zeroSector) fm2,
         { data with indirect := a, doubly_indirect := b }, true) := by
    unfold fm_allo
    simp only [ha, hb]
  rw [e, hfl]
  refine ⟨rfl, rfl, w2, ?_, ?_, ?_, ?_⟩
  · exact hr2
  · show fm2.size = _
    rw [hs2, hs1]
  · intro j
    show fm2.used j = _
    rw [hu2, hu1]
    by_cases h1 : j = a <;> by_cases h2 : j = b <;> simp [h1, h2]
  · intro T
    show cache_view (cache_write (cache_write s.cache a zeroSector) b zeroSector) T = _
    rw [v2, v1]
    by_cases h1 : T = a <;> by_cases h2 : T = b <;> simp [h1, h2]

theorem extend_direct_run (s : FsState) (data : inode_disk) (cur new : Nat)
    (h : cur < DIRECT_SIZE) (lim : Nat)
    (hlim : (if new < DIRECT_SIZE then new else DIRECT_SIZE) = lim)
    (r : FsState × List Nat × Bool)
    (hr : alloc_loop s data.direct (cur : Int) (lim - cur) = r) :
    extend_direct s data cur new
      = { st := r.1, data := { data with direct := r.2.1 }, cur := DIRECT_SIZE, ok := r.2.2 } := by
  subst hlim hr
  simp [extend_direct, h]

theorem extend_indirect_run (s : FsState) (data : inode_disk) (cur new : Nat)
    (h : cur < DIRECT_SIZE + 128 ∧ new > DIRECT_SIZE) (lim : Nat)
    (hlim : (if new ≥ DIRECT_SIZE + 128 then 128 else new - DIRECT_SIZE) = lim)
    (i0 n : Nat) (hi : cur - DIRECT_SIZE = i0) (hn : lim - (cur - DIRECT_SIZE) = n)
    (r : FsState × List Nat × Bool)
    (hr : alloc_loop { s with cache := (cache_read s.cache data.indirect).1 }
      (decode_indirect (cache_read s.cache data.indirect).2) (i0 : Int) n = r)
    (hok : r.2.2 = true) :
    extend_indirect s data cur new
      = { st := FsState.mk (cache_write r.1.cache data.indirect (encode_indirect r.2.1)) r.1.fm
          data := data, cur := DIRECT_SIZE + 128, ok := true } := by
  subst hlim hi hn hr
  unfold extend_indirect
  simp only [h, and_self, if_true, hok]

theorem extend_doubly_skip (s : FsState) (data : inode_disk) (cur new : Nat)
    (h : ¬ new > DIRECT_SIZE + 128) :
    extend_doubly s data cur new = { st := s, data := data, cur := cur, ok := true } := by
  unfold extend_doubly
  have hc : ¬ (cur < DIRECT_SIZE + 128 + 128 * 128 ∧ new > DIRECT_SIZE + 128) := fun x => h x.2
  simp only [hc, if_false]

theorem inode_extend_run (s : FsState) (data : inode_disk) (length : Int)
    (h1 : ¬ bytes_to_sectors length < bytes_to_sectors data.length)
    (h2 : ¬ bytes_to_sectors length = bytes_to_sectors data.length)
    (h3 : ¬ (length > (((DIRECT_SIZE + 128 + 128 * DIRECT_SIZE) * BLOCK_SECTOR_SIZE : Nat) : Int)
      ∨ length < data.length))
    (r1 : ExtendStep)
    (hr1 : extend_direct s data (bytes_to_sectors data.length) (bytes_to_sectors length) = r1)
    (ok1 : r1.ok = true) (r2 : ExtendStep)
    (hr2 : extend_indirect r1.st r1.data r1.cur (bytes_to_sectors length) = r2)
    (ok2 : r2.ok = true) (r3 : ExtendStep)
    (hr3 : extend_doubly r2.st r2.data r2.cur (bytes_to_sectors length) = r3)
    (ok3 : r3.ok = true) :
    inode_extend s data length = (r3.st, { r3.data with length := length }, true) := by
  subst hr1 hr2 hr3
  unfold inode_extend
  simp only [h1, h2, h3, if_false, ok1, ok2, ok3, if_true]

theorem extend_indirect_skip_new (s : FsState) (data : inode_disk) (cur new : Nat)
    (h : ¬ new > DIRECT_SIZE) :
    extend_indirect s data cur new = { st := s, data := data, cur := cur, ok := true } := by
  have h1 : ¬ (cur < DIRECT_SIZE + 128 ∧ new > DIRECT_SIZE) := fun x => h x.2
  simp [extend_indirect, h1]

theorem decode_indirect_length (d : SectorData) : (decode_indirect d).length = 128 := by
  simp [decode_indirect]

/-- Growth of an empty record to `k` sectors, `1 <= k <= 250`, when `k` sectors
are free: `inode_extend` succeeds; the direct entries `0 .. min k 122 - 1` and
then the entries `0 .. k - 123` of the single-indirect block receive the first
`k` free sectors in order, and these sectors are zeroed. -/
theorem inode_extend_small (s : FsState) (data : inode_disk) (L : Int) (k : Nat)
    (hc : CacheInv s.cache) (hlen0 : data.length = 0) (hdl : data.direct.length = 122)
    (hk1 : 1 ≤ k) (hk2 : k ≤ 250) (hL1 : 512 * (k : Int) - 512 < L) (hL2 : L ≤ 512 * (k : Int))
    (hfree : k ≤ (freeList s.fm).length) :
    (inode_extend s data L).2.2 = true ∧
    (inode_extend s data L).2.1.length = L ∧
    (inode_extend s data L).2.1.indirect = data.indirect ∧
    (inode_extend s data L).2.1.doubly_indirect = data.doubly_indirect ∧
    (inode_extend s data L).2.1.direct.length = 122 ∧
    (∀ j, (inode_extend s data L).2.1.direct.getD j 0
      = if j < k ∧ j < 122 then (freeList s.fm).getD j 0 else data.direct.getD j 0) ∧
    CacheInv (inode_extend s data L).1.cache ∧
    freeList (inode_extend s data L).1.fm = (freeList s.fm).drop k ∧
    (inode_extend s data L).1.fm.size = s.fm.size ∧
    (∀ j, 122 + j < k → getWord (cache_view (inode_extend s data L).1.cache data.indirect) j
      = (freeList s.fm).getD (122 + j) 0 % 4294967296) ∧
    (∀ T, T ≠ data.indirect → cache_view (inode_extend s data L).1.cache T
      = if T ∈ (freeList s.fm).take k then zeroSector else cache_view s.cache T) ∧
    (k ≤ 122 → ∀ T, cache_view (inode_extend s data L).1.cache T
      = if T ∈ (freeList s.fm).take k then zeroSector else cache_view s.cache T) := by
  have hcur : bytes_to_sectors data.length = 0 := by rw [hlen0]; rfl
  have hnew : bytes_to_sectors L = k :=
    bytes_to_sectors_of_range L k (by omega) hL1 hL2 (by omega)
  have h1 : ¬ bytes_to_sectors L < bytes_to_sectors data.length := by omega
  have h2 : ¬ bytes_to_sectors L = bytes_to_sectors data.length := by omega
  have h3 : ¬ (L > (((DIRECT_SIZE + 128 + 128 * DIRECT_SIZE) * BLOCK_SECTOR_SIZE : Nat) : Int)
      ∨ L < data.length) := by
    simp only [DIRECT_SIZE, BLOCK_SECTOR_SIZE]
    push_cast
    omega
  by_cases hk : k ≤ 122
  · obtain ⟨a1, a2, a3, a4, a5, a6, a7, a8⟩ := alloc_loop_spec k s data.direct 0 hc hfree
    generalize hr : alloc_loop s data.direct ((0 : Nat) : Int) k = r at a1 a2 a3 a4 a5 a6 a7 a8
    have e1 := extend_direct_run s data 0 k (by decide) k
      (by simp only [DIRECT_SIZE]; split <;> omega) r hr
    have e2 := extend_indirect_skip_new r.1 { data with direct := r.2.1 } DIRECT_SIZE k
      (by simp only [DIRECT_SIZE]; omega)
    have e3 := extend_doubly_skip r.1 { data with direct := r.2.1 } DIRECT_SIZE k
      (by simp only [DIRECT_SIZE]; omega)
    rw [← hcur, ← hnew] at e1
    rw [← hnew] at e2 e3
    have e := inode_extend_run s data L h1 h2 h3 _ e1 a1 _ e2 rfl _ e3 rfl
    rw [e]
    refine ⟨rfl, rfl, rfl, rfl, ?_, ?_, a2, a3, a4, ?_, ?_, ?_⟩
    · show r.2.1.length = 122
      rw [a7, hdl]
    · intro j
      show r.2.1.getD j 0 = _
      rw [a8, hdl]
      by_cases hj : j < k
      · have c1 : 0 ≤ j ∧ j < 0 + k ∧ j < 122 := by omega
        have c2 : j < k ∧ j < 122 := by omega
        simp only [c1, c2, and_self, if_true, Nat.sub_zero]
      · have c1 : ¬ (0 ≤ j ∧ j < 0 + k ∧ j < 122) := by omega
        have c2 : ¬ (j < k ∧ j < 122) := by omega
        simp only [c1, c2, if_false]
    · intro j hj
      omega
    · intro T _
      exact a6 T
    · intro _ T
      exact a6 T
  · obtain ⟨a1, a2, a3, a4, a5, a6, a7, a8⟩ :=
      alloc_loop_spec 122 s data.direct 0 hc (by omega)
    generalize hr : alloc_loop s data.direct ((0 : Nat) : Int) 122 = r at a1 a2 a3 a4 a5 a6 a7 a8
    have e1 := extend_direct_run s data 0 k (by decide) 122
      (by simp only [DIRECT_SIZE]; split <;> omega) r hr
    obtain ⟨rd1, rd2, rd3⟩ := cache_read_spec r.1.cache a2 data.indirect
    have hfree2 : k - 122 ≤ (freeList (FsState.mk (cache_read r.1.cache data.indirect).1
        r.1.fm).fm).length := by
      show k - 122 ≤ (freeList r.1.fm).length
      rw [a3, List.length_drop]
      omega
    obtain ⟨b1, b2, b3, b4, b5, b6, b7, b8⟩ := alloc_loop_spec (k - 122)
      (FsState.mk (cache_read r.1.cache data.indirect).1 r.1.fm)
      (decode_indirect (cache_read r.1.cache data.indirect).2) 0 rd2 hfree2
    generalize hq : alloc_loop (FsState.mk (cache_read r.1.cache data.indirect).1 r.1.fm)
      (decode_indirect (cache_read r.1.cache data.indirect).2) ((0 : Nat) : Int) (k - 122) = q
      at b1 b2 b3 b4 b5 b6 b7 b8
    change freeList q.1.fm = (freeList r.1.fm).drop (k - 122) at b3
    change q.1.fm.size = r.1.fm.size at b4
    change ∀ T, cache_view q.1.cache T = if T ∈ (freeList r.1.fm).take (k - 122) then zeroSector
      else cache_view (cache_read r.1.cache data.indirect).1 T at b6
    change ∀ j, q.2.1.getD j 0 = if 0 ≤ j ∧ j < 0 + (k - 122)
      ∧ j < (decode_indirect (cache_read r.1.cache data.indirect).2).length
      then (freeList r.1.fm).getD (j - 0) 0
      else (decode_indirect (cache_read r.1.cache data.indirect).2).getD j 0 at b8
    have e2 := extend_indirect_run r.1 { data with direct := r.2.1 } DIRECT_SIZE k
      (by simp only [DIRECT_SIZE]; omega) (k - 122)
      (by simp only [DIRECT_SIZE]; split <;> omega) 0 (k - 122) (by simp [DIRECT_SIZE])
      (by simp [DIRECT_SIZE]) q hq b1
    have e3 := extend_doubly_skip
      (FsState.mk (cache_write q.1.cache data.indirect (encode_indirect q.2.1)) q.1.fm)
      { data with direct := r.2.1 } (DIRECT_SIZE + 128) k (by simp only [DIRECT_SIZE]; omega)
    rw [← hcur, ← hnew] at e1
    rw [← hnew] at e2 e3
    have e := inode_extend_run s data L h1 h2 h3 _ e1 a1 _ e2 rfl _ e3 rfl
    rw [e]
    obtain ⟨w1, w2⟩ := cache_write_spec q.1.cache b2 data.indirect (encode_indirect q.2.1)
    have htake : ∀ T, T ∈ (freeList s.fm).take k
        ↔ T ∈ (freeList s.fm).take 122 ∨ T ∈ ((freeList s.fm).drop 122).take (k - 122) := by
      intro T
      have e0 : k = 122 + (k - 122) := by omega
      rw [e0, List.take_add, List.mem_append]
      simp
    refine ⟨rfl, rfl, rfl, rfl, ?_, ?_, w1, ?_, ?_, ?_, ?_, ?_⟩
    · show r.2.1.length = 122
      rw [a7, hdl]
    · intro j
      show r.2.1.getD j 0 = _
      rw [a8, hdl]
      by_cases hj : j < 122
      · have c1 : 0 ≤ j ∧ j < 0 + 122 ∧ j < 122 := by omega
        have c2 : j < k ∧ j < 122 := by omega
        simp only [c1, c2, and_self, if_true, Nat.sub_zero]
      · have c1 : ¬ (0 ≤ j ∧ j < 0 + 122 ∧ j < 122) := by omega
        have c2 : ¬ (j < k ∧ j < 122) := by omega
        simp only [c1, c2, if_false]
    · show freeList q.1.fm = _
      rw [b3, a3, List.drop_drop]
      have e0 : 122 + (k - 122) = k := by omega
      rw [e0]
    · show q.1.fm.size = _
      rw [b4, a4]
    · intro j hj
      show getWord (cache_view (cache_write q.1.cache data.indirect (encode_indirect q.2.1))
        data.indirect) j = _
      rw [w2, if_pos rfl, getWord_encode_indirect _ _ (by omega), b8, decode_indirect_length, a3,
        getD_drop_nat]
      have c1 : 0 ≤ j ∧ j < 0 + (k - 122) ∧ j < 128 := by omega
      simp only [c1, and_self, if_true, Nat.sub_zero]
    · intro T hT
      show cache_view (cache_write q.1.cache data.indirect (encode_indirect q.2.1)) T = _
      rw [w2, if_neg hT, b6, rd3, a6, a3]
      by_cases t1 : T ∈ (freeList s.fm).take 122
      · have t3 : T ∈ (freeList s.fm).take k := (htake T).2 (Or.inl t1)
        simp only [t1, t3, if_true, ite_self]
      · by_cases t2 : T ∈ ((freeList s.fm).drop 122).take (k - 122)
        · have t3 : T ∈ (freeList s.fm).take k := (htake T).2 (Or.inr t2)
          simp only [t2, t3, if_true]
        · have t3 : ¬ T ∈ (freeList s.fm).take k := fun h => by
            rcases (htake T).1 h with h | h
            · exact t1 h
            · exact t2 h
          simp only [t1, t2, t3, if_false]
    · intro hk'
      omega

theorem not_mem_freeList_of_used (fm : FreeMap) (x : Nat) (h : fm.used x = true) :
    x ∉ freeList fm := by
  intro hx
  have := ((freeList_mem fm x).1 hx).2
  rw [h] at this
  exact absurd this (by decide)

theorem getD_ne_of_not_mem (l : List Nat) (x j : Nat) (hx : x ∉ l) (hj : j < l.length) :
    l.getD j 0 ≠ x :=
  fun h => hx (h ▸ getD_mem l j hj)

/-- What `inode_create` leaves behind for a file of `k` sectors, `1 <= k <= 250`,
when `k + 2` sectors are free and the inode's own sector is in use: the index
sectors are the first two free sectors, the data sectors the next `k`. -/
theorem inode_create_small (s : FsState) (sector : Nat) (L : Int) (isdir : Bool) (k : Nat)
    (hc : CacheInv s.cache) (hused : s.fm.used sector = true) (hsz : s.fm.size ≤ 4294967296)
    (hk1 : 1 ≤ k) (hk2 : k ≤ 250) (hL1 : 512 * (k : Int) - 512 < L) (hL2 : L ≤ 512 * (k : Int))
    (hfree : k + 2 ≤ (freeList s.fm).length) :
    (inode_create s sector L isdir true).2 = true ∧
    CacheInv (inode_create s sector L isdir true).1.cache ∧
    freeList (inode_create s sector L isdir true).1.fm = (freeList s.fm).drop (k + 2) ∧
    (∃ D : inode_disk,
      cache_view (inode_create s sector L isdir true).1.cache sector = encode_inode D ∧
      D.length = L ∧ D.indirect = (freeList s.fm).getD 0 0 ∧
      D.doubly_indirect = (freeList s.fm).getD 1 0 ∧
      ∀ j, D.direct.getD j 0 = if j < k ∧ j < 122 then (freeList s.fm).getD (2 + j) 0 else 0) ∧
    (∀ j, 122 + j < k →
      getWord (cache_view (inode_create s sector L isdir true).1.cache
        ((freeList s.fm).getD 0 0)) j = (freeList s.fm).getD (124 + j) 0) := by
  obtain ⟨f1, f2, f3, f4, f5, _, f7⟩ := fm_allo_spec s (fresh_inode_disk isdir) hc (by omega)
  generalize hr1 : fm_allo s (fresh_inode_disk isdir) = r1 at f1 f2 f3 f4 f5 f7
  have hlen0 : r1.2.1.length = 0 := by rw [f2]; rfl
  have hdl : r1.2.1.direct.length = 122 := by rw [f2]; simp [fresh_inode_disk, DIRECT_SIZE]
  have hind : r1.2.1.indirect = (freeList s.fm).getD 0 0 := by rw [f2]
  have hdbl : r1.2.1.doubly_indirect = (freeList s.fm).getD 1 0 := by rw [f2]
  have hdir0 : ∀ j, r1.2.1.direct.getD j 0 = 0 := by
    intro j
    rw [f2]
    simp only [fresh_inode_disk]
    by_cases hj : j < DIRECT_SIZE
    · simp [List.getD_eq_getElem?_getD, List.getElem?_replicate, hj]
    · simp [List.getD_eq_getElem?_getD, List.getElem?_replicate, hj]
  obtain ⟨g1, g2, g3, g4, g5, g6, g7, g8, _, g10, g11, _⟩ :=
    inode_extend_small r1.1 r1.2.1 L k f3 hlen0 hdl hk1 hk2 hL1 hL2
      (by rw [f4, List.length_drop]; omega)
  generalize hr2 : inode_extend r1.1 r1.2.1 L = r2 at g1 g2 g3 g4 g5 g6 g7 g8 g10 g11
  have e : inode_create s sector L isdir true
      = (FsState.mk (cache_write r2.1.cache sector (encode_inode r2.2.1)) r2.1.fm, r2.2.2) := by
    unfold inode_create
    simp only [if_true, hr1, f1, hr2]
  obtain ⟨w1, w2⟩ := cache_write_spec r2.1.cache g7 sector (encode_inode r2.2.1)
  have hsec : sector ∉ freeList s.fm := not_mem_freeList_of_used s.fm sector hused
  have h0ne : (freeList s.fm).getD 0 0 ≠ sector :=
    getD_ne_of_not_mem _ _ 0 hsec (by omega)
  rw [e]
  refine ⟨g1, w1, ?_, ⟨r2.2.1, ?_, g2, by rw [g3, hind], by rw [g4, hdbl], ?_⟩, ?_⟩
  · show freeList r2.1.fm = _
    rw [g8, f4, List.drop_drop]
    have e0 : 2 + k = k + 2 := by omega
    rw [e0]
  · show cache_view (cache_write r2.1.cache sector (encode_inode r2.2.1)) sector = _
    rw [w2, if_pos rfl]
  · intro j
    rw [g6, f4, getD_drop_nat, hdir0]
  · intro j hj
    show getWord (cache_view (cache_write r2.1.cache sector (encode_inode r2.2.1))
      ((freeList s.fm).getD 0 0)) j = _
    rw [w2, if_neg h0ne, ← hind, g10 j hj, f4, getD_drop_nat]
    have e0 : 2 + (122 + j) = 124 + j := by omega
    rw [e0]
    exact Nat.mod_eq_of_lt (lt_of_lt_of_le (freeList_lt s.fm _ (by omega)) hsz)
theorem sector_of_direct (v : Nat → SectorData) (isec : Nat) (D : inode_disk) (pos : Int)
    (hv : v isec = encode_inode D) (h0 : 0 ≤ pos) (hlt : pos < D.length)
    (hL : D.length < 2147483648) (hidx : pos / 512 < 122) :
    sector_of v isec pos = D.direct.getD (pos / 512).toNat 0 % 4294967296 := by
  have hlen : (decode_inode (encode_inode D)).length = D.length :=
    decode_encode_length D (by omega) hL
  have e : Int.tdiv pos 512 = pos / 512 := Int.tdiv_eq_ediv h0 (by decide)
  have c1 : pos < D.length ∧ pos ≥ 0 := ⟨hlt, h0⟩
  unfold sector_of
  rw [hv, hlen, e]
  simp only [c1, and_self, if_true, hidx]
  exact decode_encode_direct D _ (by omega)

theorem sector_of_indirect (v : Nat → SectorData) (isec : Nat) (D : inode_disk) (pos : Int)
    (hv : v isec = encode_inode D) (h0 : 0 ≤ pos) (hlt : pos < D.length)
    (hL : D.length < 2147483648) (h122 : 122 ≤ pos / 512) (h250 : pos / 512 < 250) :
    sector_of v isec pos
      = getWord (v (D.indirect % 4294967296)) ((pos / 512).toNat - 122) := by
  have hlen : (decode_inode (encode_inode D)).length = D.length :=
    decode_encode_length D (by omega) hL
  have e : Int.tdiv pos 512 = pos / 512 := Int.tdiv_eq_ediv h0 (by decide)
  have c1 : pos < D.length ∧ pos ≥ 0 := ⟨hlt, h0⟩
  have c2 : ¬ pos / 512 < 122 := by omega
  have c3 : pos / 512 < 122 + 128 := by omega
  have e0 : (pos / 512 - 122).toNat = (pos / 512).toNat - 122 := by omega
  unfold sector_of
  rw [hv, hlen, e]
  simp only [c1, and_self, if_true, c2, if_false, c3, decode_encode_indirect, e0]

/-! ## Creation: growth and translation agree -/

/-- C30. Growth and translation agree in the direct and single-indirect
tiers: for every length `L` with `1 <= L <= 128000`, that is
`1 <= ceil (L / 512) <= 250`, when the inode's sector is in use and
`ceil (L / 512) + 2` sectors are free, `inode_create (sector, L)` succeeds and
takes the first free sectors in order: two index sectors, then the data
sectors. Afterwards `byte_to_sector` maps every offset in `[0, L)` to the
data sector allocated for block index `offset / 512` (direct entries
0..121 first, then single-indirect entries, in allocation order); distinct
block indices map to distinct sectors, none of which is the inode sector or an
index sector. -/
theorem create_translation_agree (s : FsState) (sector : Nat) (L : Int) (isdir : Bool)
    (ino : inode) (hc : CacheInv s.cache) (hino : ino.sector = sector)
    (hused : s.fm.used sector = true) (hsz : s.fm.size ≤ 4294967296)
    (hL1 : 1 ≤ L) (hL2 : L ≤ 128000)
    (hfree : bytes_to_sectors L + 2 ≤ (freeList s.fm).length) :
    (1 ≤ bytes_to_sectors L ∧ bytes_to_sectors L ≤ 250) ∧
    (inode_create s sector L isdir true).2 = true ∧
    freeList (inode_create s sector L isdir true).1.fm
      = (freeList s.fm).drop (bytes_to_sectors L + 2) ∧
    (decode_inode (cache_view (inode_create s sector L isdir true).1.cache sector)).indirect
      = (freeList s.fm).getD 0 0 ∧
    (decode_inode (cache_view (inode_create s sector L isdir true).1.cache sector)).doubly_indirect
      = (freeList s.fm).getD 1 0 ∧
    (∀ j, j < bytes_to_sectors L → j < 122 →
      (decode_inode (cache_view (inode_create s sector L isdir true).1.cache sector)).direct.getD j 0
        = (freeList s.fm).getD (2 + j) 0) ∧
    (∀ j, 122 + j < bytes_to_sectors L →
      getWord (cache_view (inode_create s sector L isdir true).1.cache
        ((freeList s.fm).getD 0 0)) j = (freeList s.fm).getD (2 + (122 + j)) 0) ∧
    (∀ pos, 0 ≤ pos → pos < L →
      (byte_to_sector (inode_create s sector L isdir true).1.cache ino pos).2
        = (freeList s.fm).getD (2 + (pos / 512).toNat) 0) ∧
    (∀ p q, 0 ≤ p → p < L → 0 ≤ q → q < L → p / 512 ≠ q / 512 →
      (byte_to_sector (inode_create s sector L isdir true).1.cache ino p).2
        ≠ (byte_to_sector (inode_create s sector L isdir true).1.cache ino q).2) ∧
    (∀ p, 0 ≤ p → p < L →
      (byte_to_sector (inode_create s sector L isdir true).1.cache ino p).2 ≠ sector ∧
      (byte_to_sector (inode_create s sector L isdir true).1.cache ino p).2
        ≠ (freeList s.fm).getD 0 0 ∧
      (byte_to_sector (inode_create s sector L isdir true).1.cache ino p).2
        ≠ (freeList s.fm).getD 1 0) := by
  obtain ⟨k, hk⟩ : ∃ k, bytes_to_sectors L = k := ⟨_, rfl⟩
  have hkv : k = ((L + 511) / 512).toNat := by
    rw [← hk]
    unfold bytes_to_sectors
    rw [Int.tdiv_eq_ediv (by omega) (by decide)]
    omega
  rw [hk] at hfree ⊢
  have hk1 : 1 ≤ k := by omega
  have hk2 : k ≤ 250 := by omega
  obtain ⟨c1, c2, c3, ⟨D, d1, d2, d3, d4, d5⟩, c5⟩ :=
    inode_create_small s sector L isdir k hc hused hsz hk1 hk2 (by omega) (by omega) hfree
  generalize inode_create s sector L isdir true = r at c1 c2 c3 d1 c5 ⊢
  have hF : ∀ j, j < (freeList s.fm).length → (freeList s.fm).getD j 0 < 4294967296 :=
    fun j hj => lt_of_lt_of_le (freeList_lt s.fm j hj) hsz
  have hsec : sector ∉ freeList s.fm := not_mem_freeList_of_used s.fm sector hused
  have hnd := freeList_nodup s.fm
  have hbts : ∀ pos, 0 ≤ pos → pos < L →
      (byte_to_sector r.1.cache ino pos).2 = (freeList s.fm).getD (2 + (pos / 512).toNat) 0 := by
    intro pos h0 hlt
    rw [(byte_to_sector_view r.1.cache c2 ino pos).1, hino]
    by_cases hidx : pos / 512 < 122
    · rw [sector_of_direct _ _ D pos d1 h0 (by omega) (by omega) hidx, d5]
      have cnd : (pos / 512).toNat < k ∧ (pos / 512).toNat < 122 := by omega
      simp only [cnd, and_self, if_true]
      exact Nat.mod_eq_of_lt (hF _ (by omega))
    · rw [sector_of_indirect _ _ D pos d1 h0 (by omega) (by omega) (by omega) (by omega), d3,
        Nat.mod_eq_of_lt (hF 0 (by omega)), c5 _ (by omega)]
      have e0 : 124 + ((pos / 512).toNat - 122) = 2 + (pos / 512).toNat := by omega
      rw [e0]
  refine ⟨⟨hk1, hk2⟩, c1, c3, ?_, ?_, ?_, ?_, hbts, ?_, ?_⟩
  · rw [d1, decode_encode_indirect, d3]
    exact Nat.mod_eq_of_lt (hF 0 (by omega))
  · rw [d1, decode_encode_doubly, d4]
    exact Nat.mod_eq_of_lt (hF 1 (by omega))
  · intro j hj1 hj2
    rw [d1, decode_encode_direct D j hj2, d5]
    have cnd : j < k ∧ j < 122 := ⟨hj1, hj2⟩
    simp only [cnd, and_self, if_true]
    exact Nat.mod_eq_of_lt (hF _ (by omega))
  · intro j hj
    rw [c5 j hj]
    have e0 : 2 + (122 + j) = 124 + j := by omega
    rw [e0]
  · intro p q hp0 hpL hq0 hqL hne heq
    rw [hbts p hp0 hpL, hbts q hq0 hqL] at heq
    have := getD_inj_of_nodup _ hnd _ _ (by omega) (by omega) heq
    omega
  · intro p hp0 hpL
    rw [hbts p hp0 hpL]
    refine ⟨getD_ne_of_not_mem _ _ _ hsec (by omega), ?_, ?_⟩
    · intro heq
      have := getD_inj_of_nodup _ hnd _ _ (by omega) (by omega) heq
      omega
    · intro heq
      have := getD_inj_of_nodup _ hnd _ _ (by omega) (by omega) heq
      omega

set_option maxRecDepth 100000 in
/-- Witness of C30: a file of 70000 bytes, 137 sectors, created in sector 5 of a
free map with 224 free sectors. -/
theorem create_translation_agree_witness :
    CacheInv fsRoomy.cache ∧ ino5.sector = 5 ∧ fsRoomy.fm.used 5 = true ∧
    fsRoomy.fm.size ≤ 4294967296 ∧ (1 : Int) ≤ 70000 ∧ (70000 : Int) ≤ 128000 ∧
    bytes_to_sectors 70000 + 2 ≤ (freeList fsRoomy.fm).length ∧
    ((1 ≤ bytes_to_sectors 70000 ∧ bytes_to_sectors 70000 ≤ 250) ∧
    (inode_create fsRoomy 5 70000 false true).2 = true ∧
    freeList (inode_create fsRoomy 5 70000 false true).1.fm
      = (freeList fsRoomy.fm).drop (bytes_to_sectors 70000 + 2) ∧
    (decode_inode (cache_view (inode_create fsRoomy 5 70000 false true).1.cache 5)).indirect
      = (freeList fsRoomy.fm).getD 0 0 ∧
    (decode_inode (cache_view (inode_create fsRoomy 5 70000 false true).1.cache 5)).doubly_indirect
      = (freeList fsRoomy.fm).getD 1 0 ∧
    (∀ j, j < bytes_to_sectors 70000 → j < 122 →
      (decode_inode (cache_view (inode_create fsRoomy 5 70000 false true).1.cache 5)).direct.getD j 0
        = (freeList fsRoomy.fm).getD (2 + j) 0) ∧
    (∀ j, 122 + j < bytes_to_sectors 70000 →
      getWord (cache_view (inode_create fsRoomy 5 70000 false true).1.cache
        ((freeList fsRoomy.fm).getD 0 0)) j = (freeList fsRoomy.fm).getD (2 + (122 + j)) 0) ∧
    (∀ pos, 0 ≤ pos → pos < 70000 →
      (byte_to_sector (inode_create fsRoomy 5 70000 false true).1.cache ino5 pos).2
        = (freeList fsRoomy.fm).getD (2 + (pos / 512).toNat) 0) ∧
    (∀ p q, 0 ≤ p → p < 70000 → 0 ≤ q → q < 70000 → p / 512 ≠ q / 512 →
      (byte_to_sector (inode_create fsRoomy 5 70000 false true).1.cache ino5 p).2
        ≠ (byte_to_sector (inode_create fsRoomy 5 70000 false true).1.cache ino5 q).2) ∧
    (∀ p, 0 ≤ p → p < 70000 →
      (byte_to_sector (inode_create fsRoomy 5 70000 false true).1.cache ino5 p).2 ≠ 5 ∧
      (byte_to_sector (inode_create fsRoomy 5 70000 false true).1.cache ino5 p).2
        ≠ (freeList fsRoomy.fm).getD 0 0 ∧
      (byte_to_sector (inode_create fsRoomy 5 70000 false true).1.cache ino5 p).2
        ≠ (freeList fsRoomy.fm).getD 1 0)) :=
  ⟨cache_init_inv dev250, rfl, by decide, by decide, by decide, by decide, by decide,
   create_translation_agree fsRoomy 5 70000 false ino5 (cache_init_inv dev250) rfl (by decide)
     (by decide) (by decide) (by decide) (by decide)⟩

/-! ## Writing in the direct tier: lemmas -/

theorem write_loop_zero (ino : inode) (buffer : List Nat) (c : Cache)
    (written size offset : Int) :
    write_loop ino buffer 0 c written size offset = (c, written) := rfl

theorem write_loop_succ (ino : inode) (buffer : List Nat) (fuel : Nat) (c : Cache)
    (written size offset : Int) :
    write_loop ino buffer (fuel + 1) c written size offset =
      (if size > 0 then
        let r1 := byte_to_sector c ino offset
        let sector_ofs := Int.tmod offset 512
        let r2 := inode_length r1.1 ino
        let inode_left := r2.2 - offset
        let sector_left := 512 - sector_ofs
        let min_left := if inode_left < sector_left then inode_left else sector_left
        let chunk_size := if size < min_left then size else min_left
        if chunk_size ≤ 0 then (r2.1, written)
        else if sector_ofs = 0 ∧ chunk_size = 512 then
          let c3 := cache_write r2.1 r1.2
            ((List.range 512).map (fun k => buffer.getD (written.toNat + k) 0))
          write_loop ino buffer fuel c3 (written + chunk_size) (size - chunk_size)
            (offset + chunk_size)
        else
          let r3 :=
            if sector_ofs > 0 ∨ chunk_size < sector_left then cache_read r2.1 r1.2
            else (r2.1, zeroSector)
          let bounce := (List.range 512).map (fun (k : Nat) =>
            if sector_ofs ≤ (k : Int) ∧ (k : Int) < sector_ofs + chunk_size then
              buffer.getD (written + (k : Int) - sector_ofs).toNat 0
            else getByte r3.2 k)
          let c3 := cache_write r3.1 r1.2 bounce
          write_loop ino buffer fuel c3 (written + chunk_size) (size - chunk_size)
            (offset + chunk_size)
      else (c, written)) := rfl

theorem write_loop_done (ino : inode) (buffer : List Nat) (fuel : Nat) (c : Cache)
    (written size offset : Int) (hs : size ≤ 0) :
    write_loop ino buffer fuel c written size offset = (c, written) := by
  cases fuel with
  | zero => rfl
  | succ fuel =>
    rw [write_loop_succ]
    have : ¬ size > 0 := by omega
    simp only [this, if_false]

/-- One iteration of the loop of `inode_write_at` at the start of block `j0`
of a file of `n` bytes whose block `j0` is the direct sector `sec`: the
sector receives the next bytes of the buffer, and its tail beyond the end of
the file keeps what the sector held. -/
theorem write_loop_step (ino : inode) (buffer : List Nat) (n : Nat) (fuel : Nat) (c : Cache)
    (j0 sec : Nat) (hc : CacheInv c)
    (hlen : (decode_inode (cache_view c ino.sector)).length = n)
    (hsec : sector_of (cache_view c) ino.sector ((512 * j0 : Nat) : Int) = sec)
    (hlt : 512 * j0 < n) :
    ∃ c3, write_loop ino buffer (fuel + 1) c ((512 * j0 : Nat) : Int)
        ((n : Int) - ((512 * j0 : Nat) : Int)) ((512 * j0 : Nat) : Int)
      = write_loop ino buffer fuel c3 ((min (512 * (j0 + 1)) n : Nat) : Int)
          ((n : Int) - ((min (512 * (j0 + 1)) n : Nat) : Int))
          ((min (512 * (j0 + 1)) n : Nat) : Int) ∧
      CacheInv c3 ∧
      ∀ T, cache_view c3 T = if T = sec then
          (List.range 512).map (fun t => if 512 * j0 + t < n then buffer.getD (512 * j0 + t) 0
            else getByte (cache_view c sec) t)
        else cache_view c T := by
  obtain ⟨b1, bc1, bv1⟩ := byte_to_sector_view c hc ino ((512 * j0 : Nat) : Int)
  obtain ⟨l1, lc1, lv1⟩ := inode_length_view
    (byte_to_sector c ino ((512 * j0 : Nat) : Int)).1 bc1 ino
  rw [bv1, hlen] at l1
  rw [hsec] at b1
  have hsofs : Int.tmod ((512 * j0 : Nat) : Int) 512 = 0 := by
    rw [Int.tmod_eq_emod (by omega) (by decide)]
    omega
  have hs : (n : Int) - ((512 * j0 : Nat) : Int) > 0 := by omega
  rw [write_loop_succ]
  simp only [hs, if_true, b1, l1, hsofs]
  by_cases hfull : 512 * j0 + 512 ≤ n
  · have hch : (if (n : Int) - ((512 * j0 : Nat) : Int) <
          (if (n : Int) - ((512 * j0 : Nat) : Int) < 512 - 0 then
            (n : Int) - ((512 * j0 : Nat) : Int) else 512 - 0)
        then (n : Int) - ((512 * j0 : Nat) : Int)
        else if (n : Int) - ((512 * j0 : Nat) : Int) < 512 - 0 then
            (n : Int) - ((512 * j0 : Nat) : Int) else 512 - 0) = 512 := by
      split_ifs <;> omega
    rw [hch]
    have c1 : ¬ ((512 : Int) ≤ 0) := by decide
    simp only [c1, if_false, and_self, if_true]
    obtain ⟨w1, w2⟩ := cache_write_spec
      (inode_length (byte_to_sector c ino ((512 * j0 : Nat) : Int)).1 ino).1 lc1 sec
      ((List.range 512).map (fun k => buffer.getD ((((512 * j0 : Nat) : Int)).toNat + k) 0))
    refine ⟨_, ?_, w1, ?_⟩
    · have e1 : ((512 * j0 : Nat) : Int) + 512 = ((min (512 * (j0 + 1)) n : Nat) : Int) := by
        omega
      have e2 : (n : Int) - ((512 * j0 : Nat) : Int) - 512
          = (n : Int) - ((min (512 * (j0 + 1)) n : Nat) : Int) := by omega
      rw [e1, e2]
    · intro T
      rw [w2, lv1, bv1]
      by_cases hT : T = sec
      · simp only [hT, if_true]
        apply List.map_congr_left
        intro t ht
        have ht' : t < 512 := List.mem_range.1 ht
        have c2 : 512 * j0 + t < n := by omega
        simp only [c2, if_true, Int.toNat_ofNat]
      · simp only [hT, if_false]
  · have hch : (if (n : Int) - ((512 * j0 : Nat) : Int) <
          (if (n : Int) - ((512 * j0 : Nat) : Int) < 512 - 0 then
            (n : Int) - ((512 * j0 : Nat) : Int) else 512 - 0)
        then (n : Int) - ((512 * j0 : Nat) : Int)
        else if (n : Int) - ((512 * j0 : Nat) : Int) < 512 - 0 then
            (n : Int) - ((512 * j0 : Nat) : Int) else 512 - 0)
        = (n : Int) - ((512 * j0 : Nat) : Int) := by
      split_ifs <;> omega
    rw [hch]
    have c1 : ¬ ((n : Int) - ((512 * j0 : Nat) : Int) ≤ 0) := by omega
    have c2 : ¬ ((n : Int) - ((512 * j0 : Nat) : Int) = 512) := by omega
    have c3 : ((0 : Int) > 0 ∨ (n : Int) - ((512 * j0 : Nat) : Int) < 512 - 0) :=
      Or.inr (by omega)
    simp only [c1, if_false, c2, and_false, c3, if_true]
    obtain ⟨r1, rc1, rv1⟩ := cache_read_spec
      (inode_length (byte_to_sector c ino ((512 * j0 : Nat) : Int)).1 ino).1 lc1 sec
    rw [lv1, bv1] at r1
    obtain ⟨w1, w2⟩ := cache_write_spec _ rc1 sec
      ((List.range 512).map (fun (k : Nat) =>
        if (0 : Int) ≤ (k : Int) ∧ (k : Int) < 0 + ((n : Int) - ((512 * j0 : Nat) : Int)) then
          buffer.getD (((512 * j0 : Nat) : Int) + (k : Int) - 0).toNat 0
        else getByte (cache_read
          (inode_length (byte_to_sector c ino ((512 * j0 : Nat) : Int)).1 ino).1 sec).2 k))
    refine ⟨_, ?_, w1, ?_⟩
    · have e1 : ((512 * j0 : Nat) : Int) + ((n : Int) - ((512 * j0 : Nat) : Int))
          = ((min (512 * (j0 + 1)) n : Nat) : Int) := by omega
      have e2 : (n : Int) - ((512 * j0 : Nat) : Int) - ((n : Int) - ((512 * j0 : Nat) : Int))
          = (n : Int) - ((min (512 * (j0 + 1)) n : Nat) : Int) := by omega
      rw [e1, e2]
    · intro T
      rw [w2, rv1, lv1, bv1, r1]
      by_cases hT : T = sec
      · simp only [hT, if_true]
        apply List.map_congr_left
        intro t ht
        by_cases c4 : 512 * j0 + t < n
        · have c5 : (0 : Int) ≤ (t : Int) ∧ (t : Int) < 0 + ((n : Int) - ((512 * j0 : Nat) : Int)) := by
            omega
          have e3 : (((512 * j0 : Nat) : Int) + (t : Int) - 0).toNat = 512 * j0 + t := by omega
          simp only [c4, c5, and_self, if_true, e3]
        · have c5 : ¬ ((0 : Int) ≤ (t : Int) ∧ (t : Int) < 0 + ((n : Int) - ((512 * j0 : Nat) : Int))) := by
            omega
          simp only [c4, c5, if_false]
      · simp only [hT, if_false]
/-- The loop of `inode_write_at` from the start of block `j0` to the end of a
file of `n` bytes that lies in the direct tier, `secs j` being the sector of
block `j`: everything is written, each block's sector receives its bytes of
the buffer, and no other sector changes. -/
theorem write_loop_direct (ino : inode) (buffer : List Nat) (n : Nat) (E : inode_disk)
    (secs : Nat → Nat) (hn : n ≤ 62464) (hEl : E.length = n)
    (hsecs : ∀ j, 512 * j < n → E.direct.getD j 0 % 4294967296 = secs j)
    (hne : ∀ j, 512 * j < n → secs j ≠ ino.sector)
    (hinj : ∀ i j, 512 * i < n → 512 * j < n → secs i = secs j → i = j)
    (fuel : Nat) : ∀ (c : Cache) (j0 : Nat), CacheInv c →
    cache_view c ino.sector = encode_inode E → n - min (512 * j0) n ≤ fuel →
    (write_loop ino buffer fuel c ((min (512 * j0) n : Nat) : Int)
      ((n : Int) - ((min (512 * j0) n : Nat) : Int)) ((min (512 * j0) n : Nat) : Int)).2 = n ∧
    CacheInv (write_loop ino buffer fuel c ((min (512 * j0) n : Nat) : Int)
      ((n : Int) - ((min (512 * j0) n : Nat) : Int)) ((min (512 * j0) n : Nat) : Int)).1 ∧
    (∀ j, j0 ≤ j → 512 * j < n →
      cache_view (write_loop ino buffer fuel c ((min (512 * j0) n : Nat) : Int)
        ((n : Int) - ((min (512 * j0) n : Nat) : Int)) ((min (512 * j0) n : Nat) : Int)).1 (secs j)
      = (List.range 512).map (fun t => if 512 * j + t < n then buffer.getD (512 * j + t) 0
          else getByte (cache_view c (secs j)) t)) ∧
    (∀ T, (∀ j, j0 ≤ j → 512 * j < n → T ≠ secs j) →
      cache_view (write_loop ino buffer fuel c ((min (512 * j0) n : Nat) : Int)
        ((n : Int) - ((min (512 * j0) n : Nat) : Int)) ((min (512 * j0) n : Nat) : Int)).1 T
      = cache_view c T) := by
  induction fuel with
  | zero =>
    intro c j0 hc _ hf
    rw [write_loop_zero]
    refine ⟨by omega, hc, ?_, fun _ _ => rfl⟩
    intro j hj hlt
    omega
  | succ fuel ih =>
    intro c j0 hc hv hf
    by_cases hlt : 512 * j0 < n
    · have hmin : min (512 * j0) n = 512 * j0 := by omega
      rw [hmin]
      have hlen : (decode_inode (cache_view c ino.sector)).length = n := by
        rw [hv, decode_encode_length E (by omega) (by omega), hEl]
      have hsec : sector_of (cache_view c) ino.sector ((512 * j0 : Nat) : Int) = secs j0 := by
        rw [sector_of_direct _ _ E _ hv (by omega) (by omega) (by omega) (by omega)]
        have e0 : (((512 * j0 : Nat) : Int) / 512).toNat = j0 := by omega
        rw [e0]
        exact hsecs j0 hlt
      obtain ⟨c3, hstep, hc3, hv3⟩ := write_loop_step ino buffer n fuel c j0 (secs j0) hc hlen hsec hlt
      rw [hstep]
      have hv3i : cache_view c3 ino.sector = encode_inode E := by
        rw [hv3, if_neg (Ne.symm (hne j0 hlt)), hv]
      obtain ⟨i1, i2, i3, i4⟩ := ih c3 (j0 + 1) hc3 hv3i (by omega)
      refine ⟨i1, i2, ?_, ?_⟩
      · intro j hj hjn
        by_cases hjj : j = j0
        · subst hjj
          rw [i4 (secs j) (fun j' hj' hjn' h => by
            have := hinj j j' hjn hjn' h
            omega), hv3, if_pos rfl]
        · rw [i3 j (by omega) hjn]
          have hne2 : secs j ≠ secs j0 := fun h => hjj (hinj j j0 hjn hlt h)
          rw [hv3 (secs j), if_neg hne2]
      · intro T hT
        rw [i4 T (fun j hj hjn => hT j (by omega) hjn), hv3, if_neg (hT j0 (le_refl _) hlt)]
    · have hmin : min (512 * j0) n = n := by omega
      rw [hmin, write_loop_done _ _ _ _ _ _ _ (by omega)]
      refine ⟨rfl, hc, ?_, fun _ _ => rfl⟩
      intro j hj hjn
      omega

theorem getByte_map_range (f : Nat → Nat) (i : Nat) (hi : i < 512) :
    getByte ((List.range 512).map f) i = f i % 256 := by
  unfold getByte
  rw [getD_map_range]
  simp [hi]

theorem map_getD_range (l : List Nat) : (List.range l.length).map (fun i => l.getD i 0) = l := by
  apply List.ext_getElem
  · simp
  · intro i h1 h2
    simp [List.getD_eq_getElem?_getD, h2]

theorem sector_of_empty (v : Nat → SectorData) (isec : Nat) (D : inode_disk) (pos : Int)
    (hv : v isec = encode_inode D) (hD : D.length = 0) (h0 : 0 ≤ pos) :
    sector_of v isec pos = NO_SECTOR := by
  have hlen : (decode_inode (encode_inode D)).length = 0 := by
    rw [decode_encode_length D (by omega) (by omega), hD]
  have c1 : ¬ (pos < 0 ∧ pos ≥ 0) := by omega
  unfold sector_of
  rw [hv, hlen]
  simp only [c1, if_false]

/-- The function `inode_create` for an empty file: it takes the first two free
sectors as index sectors and writes the record out. -/
theorem inode_create_empty (s : FsState) (sector : Nat) (isdir : Bool)
    (hc : CacheInv s.cache) (h2 : 2 ≤ (freeList s.fm).length) :
    (inode_create s sector 0 isdir true).2 = true ∧
    CacheInv (inode_create s sector 0 isdir true).1.cache ∧
    freeList (inode_create s sector 0 isdir true).1.fm = (freeList s.fm).drop 2 ∧
    (inode_create s sector 0 isdir true).1.fm.size = s.fm.size ∧
    ∃ D : inode_disk,
      cache_view (inode_create s sector 0 isdir true).1.cache sector = encode_inode D ∧
      D.length = 0 ∧ (∀ j, D.direct.getD j 0 = 0) := by
  obtain ⟨f1, f2, f3, f4, f5, _, _⟩ := fm_allo_spec s (fresh_inode_disk isdir) hc h2
  generalize hr1 : fm_allo s (fresh_inode_disk isdir) = r1 at f1 f2 f3 f4 f5
  have hlen0 : r1.2.1.length = 0 := by rw [f2]; rfl
  have hdir0 : ∀ j, r1.2.1.direct.getD j 0 = 0 := by
    intro j
    rw [f2]
    simp only [fresh_inode_disk]
    by_cases hj : j < DIRECT_SIZE
    · simp [List.getD_eq_getElem?_getD, List.getElem?_replicate, hj]
    · simp [List.getD_eq_getElem?_getD, List.getElem?_replicate, hj]
  have hext : inode_extend r1.1 r1.2.1 0 = (r1.1, r1.2.1, true) := by
    have hcur : bytes_to_sectors r1.2.1.length = 0 := by rw [hlen0]; rfl
    have hnew : bytes_to_sectors 0 = 0 := rfl
    unfold inode_extend
    simp [hcur, hnew]
  have e : inode_create s sector 0 isdir true
      = (FsState.mk (cache_write r1.1.cache sector (encode_inode r1.2.1)) r1.1.fm, true) := by
    unfold inode_create
    simp only [if_true, hr1, f1, hext]
  obtain ⟨w1, w2⟩ := cache_write_spec r1.1.cache f3 sector (encode_inode r1.2.1)
  rw [e]
  refine ⟨rfl, w1, f4, f5, r1.2.1, ?_, hlen0, hdir0⟩
  show cache_view (cache_write r1.1.cache sector (encode_inode r1.2.1)) sector = _
  rw [w2, if_pos rfl]

theorem inode_write_at_run (s : FsState) (ino : inode) (buffer : List Nat) (size offset : Int)
    (hdeny : ino.deny_write_cnt = 0)
    (hno : (byte_to_sector (cache_read s.cache ino.sector).1 ino (offset + size - 1)).2
      = NO_SECTOR)
    (e : FsState × inode_disk × Bool)
    (he : inode_extend
      { s with cache := (byte_to_sector (cache_read s.cache ino.sector).1 ino
          (offset + size - 1)).1 }
      (decode_inode (cache_read s.cache ino.sector).2) (offset + size) = e)
    (hok : e.2.2 = true) :
    inode_write_at s ino buffer size offset
      = (FsState.mk (write_loop ino buffer size.toNat
            (cache_write e.1.cache ino.sector (encode_inode { e.2.1 with length := offset + size }))
            0 size offset).1 e.1.fm,
         (write_loop ino buffer size.toNat
            (cache_write e.1.cache ino.sector (encode_inode { e.2.1 with length := offset + size }))
            0 size offset).2) := by
  subst he
  unfold inode_write_at
  have hd : ¬ ino.deny_write_cnt ≠ 0 := by simp [hdeny]
  simp only [hd, if_false, hno, if_true, hok]
/-- A write of `n` bytes, `1 <= n <= 122 * 512`, at offset 0 of an empty file
whose sector is in use, when `ceil (n / 512)` sectors are free: all `n`
bytes are written, the record gets length `n` and the first free sectors as
its direct entries, and block `j` holds the bytes `512 j ..` of the buffer,
followed by zeros. -/
theorem inode_write_at_fresh (s1 : FsState) (ino : inode) (payload : List Nat)
    (D0 : inode_disk) (n k : Nat) (hc : CacheInv s1.cache) (hdeny : ino.deny_write_cnt = 0)
    (hv : cache_view s1.cache ino.sector = encode_inode D0) (hD0l : D0.length = 0)
    (hD0d : ∀ j, D0.direct.getD j 0 = 0) (hsec : ino.sector ∉ freeList s1.fm)
    (hsz : s1.fm.size ≤ 4294967296) (hn1 : 1 ≤ n) (hn2 : n ≤ 62464) (hk : k = (n + 511) / 512)
    (hfree : k ≤ (freeList s1.fm).length) :
    (inode_write_at s1 ino payload (n : Int) 0).2 = n ∧
    CacheInv (inode_write_at s1 ino payload (n : Int) 0).1.cache ∧
    freeList (inode_write_at s1 ino payload (n : Int) 0).1.fm = (freeList s1.fm).drop k ∧
    (∃ E : inode_disk,
      cache_view (inode_write_at s1 ino payload (n : Int) 0).1.cache ino.sector = encode_inode E ∧
      E.length = n ∧
      ∀ j, E.direct.getD j 0 = if j < k then (freeList s1.fm).getD j 0 else 0) ∧
    (∀ j, 512 * j < n →
      cache_view (inode_write_at s1 ino payload (n : Int) 0).1.cache ((freeList s1.fm).getD j 0)
        = (List.range 512).map
            (fun t => if 512 * j + t < n then payload.getD (512 * j + t) 0 else 0)) := by
  obtain ⟨r1, rc1, rv1⟩ := cache_read_spec s1.cache hc ino.sector
  rw [hv] at r1
  obtain ⟨b1, bc1, bv1⟩ := byte_to_sector_view (cache_read s1.cache ino.sector).1 rc1 ino
    ((0 : Int) + (n : Int) - 1)
  have hv1 : cache_view (cache_read s1.cache ino.sector).1 ino.sector = encode_inode D0 := by
    rw [rv1, hv]
  rw [sector_of_empty _ _ D0 _ hv1 hD0l (by omega)] at b1
  have hRl : (decode_inode (encode_inode D0)).length = 0 := by
    rw [decode_encode_length D0 (by omega) (by omega), hD0l]
  have hRd : ∀ j, (decode_inode (encode_inode D0)).direct.getD j 0 = 0 := by
    intro j
    by_cases hj : j < 122
    · rw [decode_encode_direct D0 j hj, hD0d]
    · simp only [decode_inode]
      rw [getD_map_range]
      have : ¬ j < DIRECT_SIZE := hj
      simp only [this, if_false]
  have hRlen : (decode_inode (encode_inode D0)).direct.length = 122 := by
    simp [decode_inode, DIRECT_SIZE]
  have hk1 : 1 ≤ k := by omega
  have hk2 : k ≤ 122 := by omega
  obtain ⟨g1, g2, _, _, _, g6, g7, g8, _, _, _, g12⟩ := inode_extend_small
    (FsState.mk (byte_to_sector (cache_read s1.cache ino.sector).1 ino
      ((0 : Int) + (n : Int) - 1)).1 s1.fm)
    (decode_inode (encode_inode D0)) ((0 : Int) + (n : Int)) k bc1 hRl hRlen hk1 (by omega)
    (by omega) (by omega) hfree
  have g12' := g12 hk2
  generalize he : inode_extend
    (FsState.mk (byte_to_sector (cache_read s1.cache ino.sector).1 ino
      ((0 : Int) + (n : Int) - 1)).1 s1.fm)
    (decode_inode (encode_inode D0)) ((0 : Int) + (n : Int)) = e at g1 g2 g6 g7 g8 g12'
  change freeList e.1.fm = (freeList s1.fm).drop k at g8
  change ∀ j, e.2.1.direct.getD j 0 = if j < k ∧ j < 122 then (freeList s1.fm).getD j 0
    else (decode_inode (encode_inode D0)).direct.getD j 0 at g6
  change ∀ T, cache_view e.1.cache T = if T ∈ (freeList s1.fm).take k then zeroSector
    else cache_view (byte_to_sector (cache_read s1.cache ino.sector).1 ino
      ((0 : Int) + (n : Int) - 1)).1 T at g12'
  have he' : inode_extend
      { s1 with cache := (byte_to_sector (cache_read s1.cache ino.sector).1 ino
          ((0 : Int) + (n : Int) - 1)).1 }
      (decode_inode (cache_read s1.cache ino.sector).2) ((0 : Int) + (n : Int)) = e := by
    rw [r1]
    exact he
  have hrun := inode_write_at_run s1 ino payload (n : Int) 0 hdeny b1 e he' g1
  rw [hrun]
  obtain ⟨w1, w2⟩ := cache_write_spec e.1.cache g7 ino.sector
    (encode_inode { e.2.1 with length := (0 : Int) + (n : Int) })
  have hF : ∀ j, j < (freeList s1.fm).length → (freeList s1.fm).getD j 0 < 4294967296 :=
    fun j hj => lt_of_lt_of_le (freeList_lt s1.fm j hj) hsz
  have hnd := freeList_nodup s1.fm
  have hEd : ∀ j, e.2.1.direct.getD j 0 = if j < k then (freeList s1.fm).getD j 0 else 0 := by
    intro j
    rw [g6, hRd]
    by_cases hj : j < k
    · have c1 : j < k ∧ j < 122 := by omega
      rw [if_pos c1, if_pos hj]
    · have c1 : ¬ (j < k ∧ j < 122) := by omega
      rw [if_neg c1, if_neg hj]
  obtain ⟨l1, l2, l3, l4⟩ := write_loop_direct ino payload n
    { e.2.1 with length := (0 : Int) + (n : Int) } (fun j => (freeList s1.fm).getD j 0) hn2
    (by simp)
    (fun j hj => by
      show e.2.1.direct.getD j 0 % 4294967296 = _
      rw [hEd]
      have c1 : j < k := by omega
      simp only [c1, if_true]
      exact Nat.mod_eq_of_lt (hF j (by omega)))
    (fun j hj => getD_ne_of_not_mem _ _ j hsec (by omega))
    (fun i j hi hj h => getD_inj_of_nodup _ hnd i j (by omega) (by omega) h)
    n (cache_write e.1.cache ino.sector (encode_inode { e.2.1 with length := (0 : Int) + (n : Int) }))
    0 w1 (by rw [w2, if_pos rfl]) (by omega)
  have e0 : ((min (512 * 0) n : Nat) : Int) = 0 := by simp
  rw [e0] at l1 l2 l3 l4
  have e1 : (n : Int) - 0 = (n : Int) := by omega
  rw [e1] at l1 l2 l3 l4
  have e2 : ((n : Int)).toNat = n := Int.toNat_ofNat n
  rw [e2]
  refine ⟨l1, l2, g8, ⟨{ e.2.1 with length := (0 : Int) + (n : Int) }, ?_, by simp, hEd⟩, ?_⟩
  · show cache_view (write_loop ino payload n _ 0 (n : Int) 0).1 ino.sector = _
    rw [l4 ino.sector (fun j _ hj => Ne.symm (getD_ne_of_not_mem _ _ j hsec (by omega))), w2,
      if_pos rfl]
  · intro j hj
    show cache_view (write_loop ino payload n _ 0 (n : Int) 0).1 ((freeList s1.fm).getD j 0) = _
    rw [l3 j (Nat.zero_le _) hj]
    apply List.map_congr_left
    intro t _
    by_cases ht : 512 * j + t < n
    · simp only [ht, if_true]
    · simp only [ht, if_false]
      rw [w2, if_neg (getD_ne_of_not_mem _ _ j hsec (by omega)), g12',
        if_pos (getD_mem_take _ k j (by omega) (by omega))]
      exact getByte_zeroSector t

/-! ## Writing and reading back: the claim -/

/-- C22. Write/read round trip in the direct tier: on a cache satisfying its
representation invariant, create an inode of length 0 in a sector that is in
use, with `ceil (n / 512) + 2` sectors free, and write a payload of `n` bytes,
`1 <= n <= 122 * 512`, at offset 0 through a handle with writes allowed. Then
`inode_write_at` returns `n`, `inode_length` becomes `n`, the direct entries
`0 .. ceil (n / 512) - 1` are the sectors allocated for the data (the free sectors
after the two index sectors, in order) and the other direct entries stay 0,
and `inode_read_at (n, 0)`, on a device with the sectors the free map covers,
returns the payload byte for byte. -/
theorem write_read_round_trip (s : FsState) (sector : Nat) (isdir : Bool) (ino : inode)
    (payload : List Nat) (s1 s2 : FsState)
    (hc : CacheInv s.cache) (hino : ino.sector = sector) (hdeny : ino.deny_write_cnt = 0)
    (hused : s.fm.used sector = true) (hsz : s.fm.size ≤ 4294967296)
    (hn1 : 1 ≤ payload.length) (hn2 : payload.length ≤ 122 * 512)
    (hbytes : ∀ b, b ∈ payload → b < 256)
    (hfree : (payload.length + 511) / 512 + 2 ≤ (freeList s.fm).length)
    (hs1 : s1 = (inode_create s sector 0 isdir true).1)
    (hs2 : s2 = (inode_write_at s1 ino payload (payload.length : Int) 0).1) :
    (inode_create s sector 0 isdir true).2 = true ∧
    (inode_length s1.cache ino).2 = 0 ∧
    (inode_write_at s1 ino payload (payload.length : Int) 0).2 = payload.length ∧
    (inode_length s2.cache ino).2 = payload.length ∧
    (∀ j, j < 122 → (decode_inode (cache_view s2.cache sector)).direct.getD j 0
      = if j < (payload.length + 511) / 512 then (freeList s.fm).getD (2 + j) 0 else 0) ∧
    freeList s2.fm = (freeList s.fm).drop (2 + (payload.length + 511) / 512) ∧
    (inode_read_at s.fm.size s2.cache ino (payload.length : Int) 0).map Prod.snd
      = some payload := by
  obtain ⟨c1, c2, c3, c4, D0, d1, d2, d3⟩ := inode_create_empty s sector isdir hc (by omega)
  rw [← hs1] at c2 c3 c4 d1
  have hsec0 : sector ∉ freeList s.fm := not_mem_freeList_of_used s.fm sector hused
  have hsec : ino.sector ∉ freeList s1.fm := by
    rw [hino, c3]
    exact fun h => hsec0 (List.mem_of_mem_drop h)
  rw [← hino] at d1
  obtain ⟨w1, w2, w3, ⟨E, e1, e2, e3⟩, w5⟩ := inode_write_at_fresh s1 ino payload D0
    payload.length ((payload.length + 511) / 512) c2 hdeny d1 d2 d3 hsec (by rw [c4]; exact hsz)
    hn1 hn2 rfl (by rw [c3, List.length_drop]; omega)
  rw [← hs2] at w2 w3 e1 w5
  have hF : ∀ j, j < (freeList s1.fm).length → (freeList s1.fm).getD j 0 < 4294967296 :=
    fun j hj => lt_of_lt_of_le (freeList_lt s1.fm j hj) (by rw [c4]; exact hsz)
  have hlen1 : (freeList s1.fm).length = (freeList s.fm).length - 2 := by
    rw [c3, List.length_drop]
  have hlenE : (decode_inode (cache_view s2.cache ino.sector)).length = payload.length := by
    rw [e1, decode_encode_length E (by omega) (by omega), e2]
  refine ⟨c1, ?_, w1, ?_, ?_, ?_, ?_⟩
  · rw [(inode_length_view s1.cache c2 ino).1, d1, decode_encode_length D0 (by omega) (by omega),
      d2]
  · rw [(inode_length_view s2.cache w2 ino).1, hlenE]
  · intro j hj
    rw [← hino, e1, decode_encode_direct E j hj, e3]
    by_cases hjk : j < (payload.length + 511) / 512
    · rw [if_pos hjk, if_pos hjk, Nat.mod_eq_of_lt (hF j (by omega)), c3, getD_drop_nat]
    · rw [if_neg hjk, if_neg hjk]
  · rw [w3, c3, List.drop_drop]
  · have hdev : ∀ pos : Int, (0 : Int) ≤ pos → pos < 0 + (payload.length : Int) →
        pos < (decode_inode (cache_view s2.cache ino.sector)).length →
        sector_of (cache_view s2.cache) ino.sector pos < s.fm.size := by
      intro pos hp0 hp1 _
      have hjk : (pos / 512).toNat < (payload.length + 511) / 512 := by omega
      rw [sector_of_direct _ _ E _ e1 (by omega) (by omega) (by omega) (by omega), e3,
        if_pos hjk, Nat.mod_eq_of_lt (hF _ (by omega)), ← c4]
      exact freeList_lt s1.fm _ (by omega)
    obtain ⟨c', h3, _, _⟩ := read_loop_spec s.fm.size ino payload.length s2.cache []
      (payload.length : Int) 0 w2 (le_refl _) (by simp) hdev
    unfold inode_read_at
    rw [Int.toNat_ofNat, h3, hlenE, List.nil_append]
    show some _ = some payload
    congr 1
    have em : (min (payload.length : Int) (max 0 ((payload.length : Int) - 0))).toNat
        = payload.length := by omega
    rw [em]
    have hmap : (List.range payload.length).map
          (fun (k : Nat) => file_byte (cache_view s2.cache) ino.sector ((0 : Int) + (k : Int)))
        = (List.range payload.length).map (fun i => payload.getD i 0) := by
      apply List.map_congr_left
      intro t ht
      have ht' : t < payload.length := List.mem_range.1 ht
      have hj : 512 * (t / 512) < payload.length := by omega
      have hjk : t / 512 < (payload.length + 511) / 512 := by omega
      unfold file_byte
      rw [sector_of_direct _ _ E _ e1 (by omega) (by omega) (by omega) (by omega)]
      have e0 : (((0 : Int) + (t : Int)) / 512).toNat = t / 512 := by omega
      have e4 : (Int.tmod ((0 : Int) + (t : Int)) 512).toNat = t % 512 := by
        rw [Int.tmod_eq_emod (by omega) (by decide)]
        omega
      rw [e0, e4, e3, if_pos hjk, Nat.mod_eq_of_lt (hF _ (by omega)), w5 _ hj,
        getByte_map_range _ _ (Nat.mod_lt _ (by decide))]
      have e5 : 512 * (t / 512) + t % 512 = t := Nat.div_add_mod t 512
      rw [e5, if_pos ht']
      exact Nat.mod_eq_of_lt (hbytes _ (getD_mem payload t ht'))
    rw [hmap, map_getD_range]

set_option maxRecDepth 100000 in
/-- Witness of C22: 600 bytes written to an empty inode created in sector 3;
the file then has length 600 and its two data sectors are 34 and 35. -/
theorem write_read_round_trip_witness :
    CacheInv sampleFs.cache ∧ ino3.sector = 3 ∧ ino3.deny_write_cnt = 0 ∧
    sampleFs.fm.used 3 = true ∧ sampleFs.fm.size ≤ 4294967296 ∧
    1 ≤ payload600.length ∧ payload600.length ≤ 122 * 512 ∧
    (∀ b, b ∈ payload600 → b < 256) ∧
    (payload600.length + 511) / 512 + 2 ≤ (freeList sampleFs.fm).length ∧
    ((inode_create sampleFs 3 0 false true).2 = true ∧
    (inode_length fsFresh.cache ino3).2 = 0 ∧
    (inode_write_at fsFresh ino3 payload600 (payload600.length : Int) 0).2 = payload600.length ∧
    (inode_length fsWritten.cache ino3).2 = payload600.length ∧
    (∀ j, j < 122 → (decode_inode (cache_view fsWritten.cache 3)).direct.getD j 0
      = if j < (payload600.length + 511) / 512 then (freeList sampleFs.fm).getD (2 + j) 0 else 0) ∧
    freeList fsWritten.fm = (freeList sampleFs.fm).drop (2 + (payload600.length + 511) / 512) ∧
    (inode_read_at sampleFs.fm.size fsWritten.cache ino3 (payload600.length : Int) 0).map
      Prod.snd = some payload600) :=
  ⟨cache_init_inv inodeDev, rfl, rfl, by decide, by decide, by decide, by decide, by decide,
   by decide,
   write_read_round_trip sampleFs 3 false ino3 payload600 fsFresh fsWritten
     (cache_init_inv inodeDev) rfl rfl (by decide) (by decide) (by decide) (by decide)
     (by decide) (by decide) rfl rfl⟩

/-! ## Two concurrent writers: lemmas -/

theorem setPc_same (pc : Bool → WPc) (t : Bool) (x : WPc) : setPc pc t x t = x := by
  simp [setPc]

theorem setPc_other (pc : Bool → WPc) (t u : Bool) (x : WPc) (h : u ≠ t) :
    setPc pc t x u = pc u := by
  simp [setPc, h]

theorem setLox_same (lox : Nat → Option Bool) (i : Nat) (h : Option Bool) :
    setLox lox i h i = h := by
  simp [setLox]

theorem setLox_other (lox : Nat → Option Bool) (i j : Nat) (h : Option Bool) (hj : j ≠ i) :
    setLox lox i h j = lox j := by
  simp [setLox, hj]

theorem not_eq_of_ne (t u : Bool) (h : u ≠ t) : u = !t := by
  cases t <;> cases u <;> simp at h ⊢

theorem victim_holdsClock (x : WPc) (i : Nat) (h : victim x = some i) : holdsClock x = true := by
  cases x <;> simp [victim, holdsClock] at h ⊢

/-- Two threads cannot both hold `clock_lock`. -/
theorem clock_exclusive (S : Nat) (buf : Bool → SectorData) (st : CState) (h : WInv S buf st)
    (t u : Bool) (ht : holdsClock (st.pc t) = true) (hu : holdsClock (st.pc u) = true) :
    u = t := by
  have h1 := (h.clock t).2 ht
  have h2 := (h.clock u).2 hu
  rw [h1] at h2
  exact (Option.some.inj h2).symm

/-- Two threads cannot both hold the `lox` of one slot. -/
theorem slot_exclusive (S : Nat) (buf : Bool → SectorData) (st : CState) (h : WInv S buf st)
    (t u : Bool) (i : Nat) (ht : slotOf (st.pc t) = some i) (hu : slotOf (st.pc u) = some i) :
    u = t := by
  have h1 := (h.slot t i).2 ht
  have h2 := (h.slot u i).2 hu
  rw [h1] at h2
  exact (Option.some.inj h2).symm

/-- A step of thread `t` that changes no size, no `sector` and no `data`, after
which the locks are again held by the threads whose program points say so. -/
theorem winv_same_data (S : Nat) (buf : Bool → SectorData) (st st1 : CState) (t : Bool)
    (x : WPc) (h : WInv S buf st) (hpc : st1.pc = setPc st.pc t x)
    (hsz : st1.cache.size = st.cache.size)
    (hsec : ∀ i, (st1.cache.blocks i).sector = (st.cache.blocks i).sector)
    (hdat : ∀ i, (st1.cache.blocks i).data = (st.cache.blocks i).data)
    (hx : st.pc t ≠ WPc.done) (hx1 : x ≠ WPc.done)
    (hclock : ∀ u, st1.clock_lock = some u ↔ holdsClock (st1.pc u) = true)
    (hslot : ∀ u i, st1.lox i = some u ↔ slotOf (st1.pc u) = some i)
    (h2 : ∀ i, slotOf (st.pc t) = some i → slotOf x = some i)
    (h3 : ∀ i, target x = some i → i < st.cache.size ∧ (st.cache.blocks i).sector = S)
    (h4 : ∀ i, victim x = some i → i < st.cache.size ∧ ¬ st.cache.size < CACHE_SIZE ∧
      ∀ j, j < st.cache.size → (st.cache.blocks j).sector ≠ S)
    (h5 : ∀ i k, x = WPc.copy i k →
      k ≤ 512 ∧ (st.cache.blocks i).data.take k = (buf t).take k) :
    WInv S buf st1 := by
  have hpcs : ∀ u, st1.pc u = if u = t then x else st.pc u := by
    intro u; rw [hpc]; rfl
  refine ⟨by rw [hsz]; exact h.size_le, ?_, ?_, h.blen, hclock, hslot, ?_, ?_, ?_, ?_⟩
  · intro i j hi hj hs
    rw [hsz] at hi hj
    rw [hsec, hsec] at hs
    exact h.uniq i j hi hj hs
  · intro i; rw [hdat]; exact h.dlen i
  · intro u i
    rw [hpcs, hsz, hsec]
    by_cases hu : u = t
    · subst hu; simp only [if_true]; exact h3 i
    · simp only [hu, if_false]; exact h.tgt u i
  · intro u i
    rw [hpcs, hsz]
    by_cases hu : u = t
    · subst hu; simp only [if_true]
      intro hv
      obtain ⟨a, b, c⟩ := h4 i hv
      exact ⟨a, b, fun j hj => by rw [hsec]; exact c j hj⟩
    · simp only [hu, if_false]
      intro hv
      obtain ⟨a, b, c⟩ := h.vic u i hv
      exact ⟨a, b, fun j hj => by rw [hsec]; exact c j hj⟩
  · intro u i k
    rw [hpcs, hdat]
    by_cases hu : u = t
    · subst hu; simp only [if_true]; exact h5 i k
    · simp only [hu, if_false]; exact h.cpy u i k
  · intro u
    rw [hpcs]
    by_cases hu : u = t
    · subst hu; simp only [if_true]; intro hd; exact absurd hd hx1
    · simp only [hu, if_false]
      intro hd
      obtain ⟨i, a, b, c⟩ := h.fin u hd
      have hnt : (!u) = t := by cases t <;> cases u <;> simp at hu ⊢
      refine ⟨i, by rw [hsz]; exact a, by rw [hsec]; exact b, ?_⟩
      rw [hdat, hpcs, hnt]
      simp only [if_true]
      rw [hnt] at c
      rcases c with c | c | c
      · exact Or.inl c
      · exact Or.inr (Or.inl (h2 i c))
      · exact absurd c.1 hx

/-- The lock fields after a step of `t` that changes no lock holder and moves
`t` to a program point holding the same locks. -/
theorem locks_kept (S : Nat) (buf : Bool → SectorData) (st st1 : CState) (t : Bool) (x : WPc)
    (h : WInv S buf st) (hpc : st1.pc = setPc st.pc t x)
    (hcl : st1.clock_lock = st.clock_lock) (hlx : st1.lox = st.lox)
    (h1 : holdsClock x = holdsClock (st.pc t)) (h2 : slotOf x = slotOf (st.pc t)) :
    (∀ u, st1.clock_lock = some u ↔ holdsClock (st1.pc u) = true) ∧
    (∀ u i, st1.lox i = some u ↔ slotOf (st1.pc u) = some i) := by
  have hpcs : ∀ u, st1.pc u = if u = t then x else st.pc u := by
    intro u; rw [hpc]; rfl
  constructor
  · intro u
    rw [hcl, hpcs]
    by_cases hu : u = t
    · subst hu; simp only [if_true]; rw [h1]; exact h.clock u
    · simp only [hu, if_false]; exact h.clock u
  · intro u i
    rw [hlx, hpcs]
    by_cases hu : u = t
    · subst hu; simp only [if_true]; rw [h2]; exact h.slot u i
    · simp only [hu, if_false]; exact h.slot u i

/-- The step `lock_acquire (&clock_lock)`. -/
theorem winv_start (S : Nat) (buf : Bool → SectorData) (st : CState) (t : Bool)
    (h : WInv S buf st) (hpc : st.pc t = WPc.start) (hfree : st.clock_lock = none) :
    WInv S buf { st with clock_lock := some t, pc := setPc st.pc t WPc.lookup } := by
  refine winv_same_data S buf st
    (CState.mk st.cache (some t) st.lox (setPc st.pc t WPc.lookup)) t WPc.lookup h rfl rfl
    (fun _ => rfl) (fun _ => rfl) (by rw [hpc]; simp) (by simp) ?_ ?_ ?_ ?_ ?_ ?_
  · intro u
    show some t = some u ↔ holdsClock (setPc st.pc t WPc.lookup u) = true
    by_cases hu : u = t
    · subst hu; simp [setPc_same, holdsClock]
    · rw [setPc_other _ _ _ _ hu]
      have hn : ¬ holdsClock (st.pc u) = true := fun hc => by
        have := (h.clock u).2 hc
        rw [hfree] at this
        exact absurd this (by simp)
      have hne : ¬ some t = some u := fun e => hu (Option.some.inj e).symm
      exact iff_of_false hne hn
  · intro u i
    show st.lox i = some u ↔ slotOf (setPc st.pc t WPc.lookup u) = some i
    by_cases hu : u = t
    · subst hu
      rw [setPc_same]
      have := h.slot u i
      rw [hpc] at this
      simpa [slotOf] using this
    · rw [setPc_other _ _ _ _ hu]; exact h.slot u i
  · intro i hi; rw [hpc] at hi; simp [slotOf] at hi
  · intro i hi; simp [target] at hi
  · intro i hi; simp [victim] at hi
  · intro i k hk; simp at hk

/-- The lookup loop finds the sector in slot `i`. -/
theorem winv_lookup_hit (S : Nat) (buf : Bool → SectorData) (st : CState) (t : Bool) (i : Nat)
    (h : WInv S buf st) (hpc : st.pc t = WPc.lookup) (hl : cache_lookup st.cache S = some i) :
    WInv S buf { st with pc := setPc st.pc t (WPc.acquire WPath.hit i) } := by
  obtain ⟨k1, k2⟩ := locks_kept S buf st
    (CState.mk st.cache st.clock_lock st.lox (setPc st.pc t (WPc.acquire WPath.hit i))) t
    (WPc.acquire WPath.hit i) h rfl rfl rfl (by rw [hpc]; rfl) (by rw [hpc]; rfl)
  refine winv_same_data S buf st
    (CState.mk st.cache st.clock_lock st.lox (setPc st.pc t (WPc.acquire WPath.hit i))) t
    (WPc.acquire WPath.hit i) h rfl rfl
    (fun _ => rfl) (fun _ => rfl) (by rw [hpc]; simp) (by simp) k1 k2 ?_ ?_ ?_ ?_
  · intro j hj; rw [hpc] at hj; simp [slotOf] at hj
  · intro j hj
    simp only [target, Option.some.injEq] at hj
    subst hj
    exact cache_lookup_some st.cache S _ hl
  · intro j hj; simp [victim] at hj
  · intro j k hk; simp at hk

/-- The lookup loop finds nothing, the cache is full, and the victim loop
chooses a slot. -/
theorem winv_lookup_evict (S : Nat) (buf : Bool → SectorData) (st : CState) (t : Bool)
    (h : WInv S buf st) (hpc : st.pc t = WPc.lookup) (hl : cache_lookup st.cache S = none)
    (hfull : ¬ st.cache.size < CACHE_SIZE) :
    WInv S buf { st with
      cache := { st.cache with
        blocks := (clock_scan st.cache.blocks st.cache.clock_hand 0 CACHE_SIZE).1
        clock_hand := (clock_scan st.cache.blocks st.cache.clock_hand 0 CACHE_SIZE).2 }
      pc := setPc st.pc t (WPc.acquire WPath.evict
        (clock_scan st.cache.blocks st.cache.clock_hand 0 CACHE_SIZE).2) } := by
  have hf := clock_scan_fields CACHE_SIZE st.cache.blocks st.cache.clock_hand 0
  obtain ⟨k1, k2⟩ := locks_kept S buf st
    (CState.mk (Cache.mk (clock_scan st.cache.blocks st.cache.clock_hand 0 CACHE_SIZE).1
        st.cache.size (clock_scan st.cache.blocks st.cache.clock_hand 0 CACHE_SIZE).2
        st.cache.dev) st.clock_lock st.lox
      (setPc st.pc t (WPc.acquire WPath.evict
        (clock_scan st.cache.blocks st.cache.clock_hand 0 CACHE_SIZE).2))) t
    (WPc.acquire WPath.evict (clock_scan st.cache.blocks st.cache.clock_hand 0 CACHE_SIZE).2)
    h rfl rfl rfl (by rw [hpc]; rfl) (by rw [hpc]; rfl)
  refine winv_same_data S buf st
    (CState.mk (Cache.mk (clock_scan st.cache.blocks st.cache.clock_hand 0 CACHE_SIZE).1
        st.cache.size (clock_scan st.cache.blocks st.cache.clock_hand 0 CACHE_SIZE).2
        st.cache.dev) st.clock_lock st.lox
      (setPc st.pc t (WPc.acquire WPath.evict
        (clock_scan st.cache.blocks st.cache.clock_hand 0 CACHE_SIZE).2))) t
    (WPc.acquire WPath.evict (clock_scan st.cache.blocks st.cache.clock_hand 0 CACHE_SIZE).2)
    h rfl rfl
    (fun j => (hf j).1) (fun j => (hf j).2.1) (by rw [hpc]; simp) (by simp) k1 k2 ?_ ?_ ?_ ?_
  · intro j hj; rw [hpc] at hj; simp [slotOf] at hj
  · intro j hj; simp [target] at hj
  · intro j hj
    simp only [victim, Option.some.injEq] at hj
    subst hj
    exact ⟨victim_lt st.cache hfull, hfull, (cache_lookup_none_iff st.cache S).1 hl⟩
  · intro j k hk; simp at hk

theorem clock_kept (S : Nat) (buf : Bool → SectorData) (st st1 : CState) (t : Bool) (x : WPc)
    (h : WInv S buf st) (hpc : st1.pc = setPc st.pc t x)
    (hcl : st1.clock_lock = st.clock_lock) (h1 : holdsClock x = holdsClock (st.pc t)) :
    ∀ u, st1.clock_lock = some u ↔ holdsClock (st1.pc u) = true := by
  intro u
  rw [hcl, hpc]
  by_cases hu : u = t
  · subst hu; rw [setPc_same, h1]; exact h.clock u
  · rw [setPc_other _ _ _ _ hu]; exact h.clock u

theorem slot_kept (S : Nat) (buf : Bool → SectorData) (st st1 : CState) (t : Bool) (x : WPc)
    (h : WInv S buf st) (hpc : st1.pc = setPc st.pc t x)
    (hlx : st1.lox = st.lox) (h2 : slotOf x = slotOf (st.pc t)) :
    ∀ u i, st1.lox i = some u ↔ slotOf (st1.pc u) = some i := by
  intro u i
  rw [hlx, hpc]
  by_cases hu : u = t
  · subst hu; rw [setPc_same, h2]; exact h.slot u i
  · rw [setPc_other _ _ _ _ hu]; exact h.slot u i

/-- The lock field after `lock_release (&clock_lock)` by its holder `t`. -/
theorem clock_released (S : Nat) (buf : Bool → SectorData) (st st1 : CState) (t : Bool)
    (x : WPc) (h : WInv S buf st) (hpc : st1.pc = setPc st.pc t x)
    (hcl : st1.clock_lock = none) (hold : holdsClock (st.pc t) = true)
    (hx : holdsClock x = false) :
    ∀ u, st1.clock_lock = some u ↔ holdsClock (st1.pc u) = true := by
  intro u
  rw [hcl, hpc]
  by_cases hu : u = t
  · subst hu
    rw [setPc_same, hx]
    exact iff_of_false (by simp) (by simp)
  · rw [setPc_other _ _ _ _ hu]
    exact iff_of_false (by simp) (fun hc => hu (clock_exclusive S buf st h t u hold hc))

theorem target_release (p : WPath) (i : Nat) :
    target (WPc.release p i) = target (WPc.acquire p i) := by
  cases p <;> rfl

theorem victim_release (p : WPath) (i : Nat) :
    victim (WPc.release p i) = victim (WPc.acquire p i) := by
  cases p <;> rfl

/-- The step `lock_acquire (&block->lox)` on a free lock. -/
theorem winv_acquire (S : Nat) (buf : Bool → SectorData) (st : CState) (t : Bool)
    (p : WPath) (i : Nat) (h : WInv S buf st) (hpc : st.pc t = WPc.acquire p i)
    (hfree : st.lox i = none) :
    WInv S buf { st with lox := setLox st.lox i (some t), pc := setPc st.pc t (WPc.release p i) } := by
  refine winv_same_data S buf st
    (CState.mk st.cache st.clock_lock (setLox st.lox i (some t))
      (setPc st.pc t (WPc.release p i))) t (WPc.release p i) h rfl rfl
    (fun _ => rfl) (fun _ => rfl) (by rw [hpc]; simp) (by simp)
    (clock_kept S buf st _ t (WPc.release p i) h rfl rfl (by rw [hpc]; rfl)) ?_ ?_ ?_ ?_ ?_
  · intro u j
    show setLox st.lox i (some t) j = some u ↔ slotOf (setPc st.pc t (WPc.release p i) u) = some j
    by_cases hu : u = t
    · subst hu
      rw [setPc_same]
      by_cases hj : j = i
      · subst hj; simp [setLox_same, slotOf]
      · rw [setLox_other _ _ _ _ hj]
        have h0 := h.slot u j
        rw [hpc] at h0
        have e1 : ¬ slotOf (WPc.release p i) = some j := by
          simp only [slotOf, Option.some.injEq]
          exact fun e => hj e.symm
        have e2 : ¬ st.lox j = some u := fun e => by
          have := h0.1 e
          simp [slotOf] at this
        exact iff_of_false e2 e1
    · rw [setPc_other _ _ _ _ hu]
      by_cases hj : j = i
      · subst hj
        rw [setLox_same]
        have e1 : ¬ some t = some u := fun e => hu (Option.some.inj e).symm
        have e2 : ¬ slotOf (st.pc u) = some j := fun e => by
          have := (h.slot u j).2 e
          rw [hfree] at this
          exact absurd this (by simp)
        exact iff_of_false e1 e2
      · rw [setLox_other _ _ _ _ hj]; exact h.slot u j
  · intro j hj; rw [hpc] at hj; simp [slotOf] at hj
  · intro j hj
    have := h.tgt t j
    rw [hpc] at this
    rw [target_release] at hj
    exact this hj
  · intro j hj
    have := h.vic t j
    rw [hpc] at this
    rw [victim_release] at hj
    exact this hj
  · intro j k hk; simp at hk

/-- The step `lock_release (&clock_lock)` after a hit. -/
theorem winv_release_hit (S : Nat) (buf : Bool → SectorData) (st : CState) (t : Bool)
    (i : Nat) (h : WInv S buf st) (hpc : st.pc t = WPc.release WPath.hit i) :
    WInv S buf { st with clock_lock := none, pc := setPc st.pc t (WPc.mark WPath.hit i 0) } := by
  refine winv_same_data S buf st
    (CState.mk st.cache none st.lox (setPc st.pc t (WPc.mark WPath.hit i 0))) t
    (WPc.mark WPath.hit i 0) h rfl rfl (fun _ => rfl) (fun _ => rfl) (by rw [hpc]; simp)
    (by simp)
    (clock_released S buf st _ t (WPc.mark WPath.hit i 0) h rfl rfl (by rw [hpc]; rfl) rfl)
    (slot_kept S buf st _ t (WPc.mark WPath.hit i 0) h rfl rfl (by rw [hpc]; rfl))
    ?_ ?_ ?_ ?_
  · intro j hj; rw [hpc] at hj; simpa [slotOf] using hj
  · intro j hj
    have := h.tgt t j
    rw [hpc] at this
    exact this (by simpa [target] using hj)
  · intro j hj; simp [victim] at hj
  · intro j k hk; simp at hk

/-- The step `lock_release (&clock_lock)` after a free slot was taken. -/
theorem winv_release_fresh (S : Nat) (buf : Bool → SectorData) (st : CState) (t : Bool)
    (i : Nat) (h : WInv S buf st) (hpc : st.pc t = WPc.release WPath.fresh i) :
    WInv S buf { st with clock_lock := none, pc := setPc st.pc t (WPc.copy i 0) } := by
  refine winv_same_data S buf st
    (CState.mk st.cache none st.lox (setPc st.pc t (WPc.copy i 0))) t
    (WPc.copy i 0) h rfl rfl (fun _ => rfl) (fun _ => rfl) (by rw [hpc]; simp)
    (by simp)
    (clock_released S buf st _ t (WPc.copy i 0) h rfl rfl (by rw [hpc]; rfl) rfl)
    (slot_kept S buf st _ t (WPc.copy i 0) h rfl rfl (by rw [hpc]; rfl))
    ?_ ?_ ?_ ?_
  · intro j hj; rw [hpc] at hj; simpa [slotOf] using hj
  · intro j hj
    have := h.tgt t j
    rw [hpc] at this
    exact this (by simpa [target] using hj)
  · intro j hj; simp [victim] at hj
  · intro j k hk
    simp only [WPc.copy.injEq] at hk
    rw [← hk.2]
    exact ⟨Nat.zero_le _, by simp⟩

/-- The statements between `lock_release (&clock_lock)` and `memcpy`: the
write-back of a dirty victim, and `block->dirty = 1`. -/
theorem winv_mark (S : Nat) (buf : Bool → SectorData) (st : CState) (t : Bool) (p : WPath)
    (i old : Nat) (dev1 : Nat → SectorData) (h : WInv S buf st)
    (hpc : st.pc t = WPc.mark p i old) :
    WInv S buf { st with
      cache := { st.cache with
        blocks := setBlock st.cache.blocks i { st.cache.blocks i with dirty := true }
        dev := dev1 }
      pc := setPc st.pc t (WPc.copy i 0) } := by
  refine winv_same_data S buf st
    (CState.mk (Cache.mk (setBlock st.cache.blocks i { st.cache.blocks i with dirty := true })
      st.cache.size st.cache.clock_hand dev1) st.clock_lock st.lox
      (setPc st.pc t (WPc.copy i 0))) t
    (WPc.copy i 0) h rfl rfl ?_ ?_ (by rw [hpc]; simp) (by simp)
    (clock_kept S buf st _ t (WPc.copy i 0) h rfl rfl (by rw [hpc]; rfl))
    (slot_kept S buf st _ t (WPc.copy i 0) h rfl rfl (by rw [hpc]; rfl))
    ?_ ?_ ?_ ?_
  · intro j
    show (setBlock st.cache.blocks i { st.cache.blocks i with dirty := true } j).sector = _
    by_cases hj : j = i
    · subst hj; simp [setBlock]
    · simp [setBlock, hj]
  · intro j
    show (setBlock st.cache.blocks i { st.cache.blocks i with dirty := true } j).data = _
    by_cases hj : j = i
    · subst hj; simp [setBlock]
    · simp [setBlock, hj]
  · intro j hj; rw [hpc] at hj; simpa [slotOf] using hj
  · intro j hj
    have := h.tgt t j
    rw [hpc] at this
    exact this (by simpa [target] using hj)
  · intro j hj; simp [victim] at hj
  · intro j k hk
    simp only [WPc.copy.injEq] at hk
    rw [← hk.2]
    exact ⟨Nat.zero_le _, by simp⟩

/-- One more byte of `memcpy`: a copied prefix of `k` bytes becomes one of
`k + 1` bytes. -/
theorem take_succ_set (k : Nat) : ∀ (l b : List Nat), k < l.length → k < b.length →
    l.take k = b.take k → (l.set k (b.getD k 0)).take (k + 1) = b.take (k + 1) := by
  induction k with
  | zero =>
    intro l b hl hb _
    cases l with
    | nil => simp at hl
    | cons a l1 =>
      cases b with
      | nil => simp at hb
      | cons c b1 => simp
  | succ k ih =>
    intro l b hl hb h
    cases l with
    | nil => simp at hl
    | cons a l1 =>
      cases b with
      | nil => simp at hb
      | cons c b1 =>
        simp only [List.take_succ_cons, List.cons.injEq] at h
        simp only [List.set_cons_succ, List.take_succ_cons, List.getD_cons_succ, List.cons.injEq]
        exact ⟨h.1, ih l1 b1 (by simpa using hl) (by simpa using hb) h.2⟩

/-- The lookup loop finds nothing and a free slot is taken for the sector. -/
theorem winv_lookup_fresh (S : Nat) (buf : Bool → SectorData) (st : CState) (t : Bool)
    (h : WInv S buf st) (hpc : st.pc t = WPc.lookup) (hl : cache_lookup st.cache S = none)
    (hroom : st.cache.size < CACHE_SIZE) :
    WInv S buf { st with
      cache := { st.cache with
        blocks := setBlock st.cache.blocks st.cache.size
          { st.cache.blocks st.cache.size with dirty := true, sector := S }
        size := st.cache.size + 1 }
      pc := setPc st.pc t (WPc.acquire WPath.fresh st.cache.size) } := by
  have hnone := (cache_lookup_none_iff st.cache S).1 hl
  have hsec : ∀ j, (setBlock st.cache.blocks st.cache.size
      { st.cache.blocks st.cache.size with dirty := true, sector := S } j).sector
      = if j = st.cache.size then S else (st.cache.blocks j).sector := by
    intro j
    by_cases hj : j = st.cache.size
    · subst hj; simp [setBlock]
    · simp [setBlock, hj]
  have hdat : ∀ j, (setBlock st.cache.blocks st.cache.size
      { st.cache.blocks st.cache.size with dirty := true, sector := S } j).data
      = (st.cache.blocks j).data := by
    intro j
    by_cases hj : j = st.cache.size
    · subst hj; simp [setBlock]
    · simp [setBlock, hj]
  have hold : holdsClock (st.pc t) = true := by rw [hpc]; rfl
  refine ⟨?_, ?_, ?_, h.blen, ?_, ?_, ?_, ?_, ?_, ?_⟩
  · show st.cache.size + 1 ≤ CACHE_SIZE
    omega
  · intro i j hi hj hs
    change i < st.cache.size + 1 at hi
    change j < st.cache.size + 1 at hj
    change (setBlock _ _ _ i).sector = (setBlock _ _ _ j).sector at hs
    rw [hsec, hsec] at hs
    by_cases h1 : i = st.cache.size
    · by_cases h2 : j = st.cache.size
      · omega
      · rw [if_pos h1, if_neg h2] at hs
        exact absurd hs.symm (hnone j (by omega))
    · by_cases h2 : j = st.cache.size
      · rw [if_neg h1, if_pos h2] at hs
        exact absurd hs (hnone i (by omega))
      · rw [if_neg h1, if_neg h2] at hs
        exact h.uniq i j (by omega) (by omega) hs
  · intro j
    show (setBlock _ _ _ j).data.length = 512
    rw [hdat]; exact h.dlen j
  · exact clock_kept S buf st _ t (WPc.acquire WPath.fresh st.cache.size) h rfl rfl
      (by rw [hpc]; rfl)
  · exact slot_kept S buf st _ t (WPc.acquire WPath.fresh st.cache.size) h rfl rfl
      (by rw [hpc]; rfl)
  · intro u i
    show target (setPc st.pc t (WPc.acquire WPath.fresh st.cache.size) u) = some i →
      i < st.cache.size + 1 ∧ (setBlock _ _ _ i).sector = S
    rw [hsec]
    by_cases hu : u = t
    · subst hu
      rw [setPc_same]
      intro hi
      simp only [target, Option.some.injEq] at hi
      subst hi
      simp
    · rw [setPc_other _ _ _ _ hu]
      intro hi
      obtain ⟨a, b⟩ := h.tgt u i hi
      exact absurd b (hnone i a)
  · intro u i
    show victim (setPc st.pc t (WPc.acquire WPath.fresh st.cache.size) u) = some i → _
    by_cases hu : u = t
    · subst hu
      rw [setPc_same]
      intro hi
      simp [victim] at hi
    · rw [setPc_other _ _ _ _ hu]
      intro hi
      exact absurd (clock_exclusive S buf st h t u hold (victim_holdsClock _ i hi)) hu
  · intro u i k
    show setPc st.pc t (WPc.acquire WPath.fresh st.cache.size) u = WPc.copy i k →
      k ≤ 512 ∧ (setBlock _ _ _ i).data.take k = (buf u).take k
    rw [hdat]
    by_cases hu : u = t
    · subst hu
      rw [setPc_same]
      intro hk
      simp at hk
    · rw [setPc_other _ _ _ _ hu]
      exact h.cpy u i k
  · intro u
    show setPc st.pc t (WPc.acquire WPath.fresh st.cache.size) u = WPc.done → _
    by_cases hu : u = t
    · subst hu
      rw [setPc_same]
      intro hk
      simp at hk
    · rw [setPc_other _ _ _ _ hu]
      intro hd
      obtain ⟨i, a, b, _⟩ := h.fin u hd
      exact absurd b (hnone i a)
/-- The victim is re-pointed at the sector and `clock_lock` is released. -/
theorem winv_release_evict (S : Nat) (buf : Bool → SectorData) (st : CState) (t : Bool)
    (i : Nat) (h : WInv S buf st) (hpc : st.pc t = WPc.release WPath.evict i) :
    WInv S buf { st with
      cache := { st.cache with
        blocks := setBlock st.cache.blocks i { st.cache.blocks i with sector := S } }
      clock_lock := none
      pc := setPc st.pc t (WPc.mark WPath.evict i (st.cache.blocks i).sector) } := by
  obtain ⟨hi, _, hnone⟩ := h.vic t i (by rw [hpc]; rfl)
  have hsec : ∀ j, (setBlock st.cache.blocks i { st.cache.blocks i with sector := S } j).sector
      = if j = i then S else (st.cache.blocks j).sector := by
    intro j
    by_cases hj : j = i
    · subst hj; simp [setBlock]
    · simp [setBlock, hj]
  have hdat : ∀ j, (setBlock st.cache.blocks i { st.cache.blocks i with sector := S } j).data
      = (st.cache.blocks j).data := by
    intro j
    by_cases hj : j = i
    · subst hj; simp [setBlock]
    · simp [setBlock, hj]
  have hold : holdsClock (st.pc t) = true := by rw [hpc]; rfl
  refine ⟨h.size_le, ?_, ?_, h.blen, ?_, ?_, ?_, ?_, ?_, ?_⟩
  · intro a b ha hb hs
    change a < st.cache.size at ha
    change b < st.cache.size at hb
    change (setBlock _ _ _ a).sector = (setBlock _ _ _ b).sector at hs
    rw [hsec, hsec] at hs
    by_cases h1 : a = i
    · by_cases h2 : b = i
      · omega
      · rw [if_pos h1, if_neg h2] at hs
        exact absurd hs.symm (hnone b hb)
    · by_cases h2 : b = i
      · rw [if_neg h1, if_pos h2] at hs
        exact absurd hs (hnone a ha)
      · rw [if_neg h1, if_neg h2] at hs
        exact h.uniq a b ha hb hs
  · intro j
    show (setBlock _ _ _ j).data.length = 512
    rw [hdat]; exact h.dlen j
  · exact clock_released S buf st _ t (WPc.mark WPath.evict i (st.cache.blocks i).sector) h rfl
      rfl hold rfl
  · exact slot_kept S buf st _ t (WPc.mark WPath.evict i (st.cache.blocks i).sector) h rfl rfl
      (by rw [hpc]; rfl)
  · intro u j
    show target (setPc st.pc t (WPc.mark WPath.evict i (st.cache.blocks i).sector) u) = some j →
      j < st.cache.size ∧ (setBlock _ _ _ j).sector = S
    rw [hsec]
    by_cases hu : u = t
    · subst hu
      rw [setPc_same]
      intro hj
      simp only [target, Option.some.injEq] at hj
      subst hj
      simp [hi]
    · rw [setPc_other _ _ _ _ hu]
      intro hj
      obtain ⟨a, b⟩ := h.tgt u j hj
      exact absurd b (hnone j a)
  · intro u j
    show victim (setPc st.pc t (WPc.mark WPath.evict i (st.cache.blocks i).sector) u) = some j → _
    by_cases hu : u = t
    · subst hu
      rw [setPc_same]
      intro hj
      simp [victim] at hj
    · rw [setPc_other _ _ _ _ hu]
      intro hj
      exact absurd (clock_exclusive S buf st h t u hold (victim_holdsClock _ j hj)) hu
  · intro u j k
    show setPc st.pc t (WPc.mark WPath.evict i (st.cache.blocks i).sector) u = WPc.copy j k →
      k ≤ 512 ∧ (setBlock _ _ _ j).data.take k = (buf u).take k
    rw [hdat]
    by_cases hu : u = t
    · subst hu
      rw [setPc_same]
      intro hk
      simp at hk
    · rw [setPc_other _ _ _ _ hu]
      exact h.cpy u j k
  · intro u
    show setPc st.pc t (WPc.mark WPath.evict i (st.cache.blocks i).sector) u = WPc.done → _
    by_cases hu : u = t
    · subst hu
      rw [setPc_same]
      intro hk
      simp at hk
    · rw [setPc_other _ _ _ _ hu]
      intro hd
      obtain ⟨j, a, b, _⟩ := h.fin u hd
      exact absurd b (hnone j a)

/-- One byte of `memcpy`. -/
theorem winv_copy (S : Nat) (buf : Bool → SectorData) (st : CState) (t : Bool)
    (i k : Nat) (h : WInv S buf st) (hpc : st.pc t = WPc.copy i k) (hk : k < 512) :
    WInv S buf { st with
      cache := { st.cache with
        blocks := setBlock st.cache.blocks i
          { st.cache.blocks i with data := (st.cache.blocks i).data.set k ((buf t).getD k 0) } }
      pc := setPc st.pc t (WPc.copy i (k + 1)) } := by
  obtain ⟨hi, hS⟩ := h.tgt t i (by rw [hpc]; rfl)
  obtain ⟨_, hpre⟩ := h.cpy t i k hpc
  have hsec : ∀ j, (setBlock st.cache.blocks i
      { st.cache.blocks i with data := (st.cache.blocks i).data.set k ((buf t).getD k 0) }
        j).sector = (st.cache.blocks j).sector := by
    intro j
    by_cases hj : j = i
    · subst hj; simp [setBlock]
    · simp [setBlock, hj]
  have hdat : ∀ j, (setBlock st.cache.blocks i
      { st.cache.blocks i with data := (st.cache.blocks i).data.set k ((buf t).getD k 0) }
        j).data = if j = i then (st.cache.blocks i).data.set k ((buf t).getD k 0)
          else (st.cache.blocks j).data := by
    intro j
    by_cases hj : j = i
    · subst hj; simp [setBlock]
    · simp [setBlock, hj]
  have hslot : slotOf (st.pc t) = some i := by rw [hpc]; rfl
  refine ⟨h.size_le, ?_, ?_, h.blen, ?_, ?_, ?_, ?_, ?_, ?_⟩
  · intro a b ha hb hs
    change (setBlock _ _ _ a).sector = (setBlock _ _ _ b).sector at hs
    rw [hsec, hsec] at hs
    exact h.uniq a b ha hb hs
  · intro j
    show (setBlock _ _ _ j).data.length = 512
    rw [hdat]
    by_cases hj : j = i
    · rw [if_pos hj, List.length_set]; exact h.dlen i
    · rw [if_neg hj]; exact h.dlen j
  · exact clock_kept S buf st _ t (WPc.copy i (k + 1)) h rfl rfl (by rw [hpc]; rfl)
  · exact slot_kept S buf st _ t (WPc.copy i (k + 1)) h rfl rfl (by rw [hpc]; rfl)
  · intro u j
    show target (setPc st.pc t (WPc.copy i (k + 1)) u) = some j →
      j < st.cache.size ∧ (setBlock _ _ _ j).sector = S
    rw [hsec]
    by_cases hu : u = t
    · subst hu
      rw [setPc_same]
      intro hj
      simp only [target, Option.some.injEq] at hj
      subst hj
      exact ⟨hi, hS⟩
    · rw [setPc_other _ _ _ _ hu]
      exact h.tgt u j
  · intro u j
    show victim (setPc st.pc t (WPc.copy i (k + 1)) u) = some j →
      j < st.cache.size ∧ ¬ st.cache.size < CACHE_SIZE ∧
      ∀ a, a < st.cache.size → (setBlock _ _ _ a).sector ≠ S
    by_cases hu : u = t
    · subst hu
      rw [setPc_same]
      intro hj
      simp [victim] at hj
    · rw [setPc_other _ _ _ _ hu]
      intro hj
      obtain ⟨a, b, c⟩ := h.vic u j hj
      exact ⟨a, b, fun x hx => by rw [hsec]; exact c x hx⟩
  · intro u j k1
    show setPc st.pc t (WPc.copy i (k + 1)) u = WPc.copy j k1 →
      k1 ≤ 512 ∧ (setBlock _ _ _ j).data.take k1 = (buf u).take k1
    rw [hdat]
    by_cases hu : u = t
    · subst hu
      rw [setPc_same]
      intro he
      simp only [WPc.copy.injEq] at he
      rw [← he.1, ← he.2, if_pos rfl]
      exact ⟨by omega, take_succ_set k _ _ (by rw [h.dlen]; exact hk)
        (by rw [h.blen]; exact hk) hpre⟩
    · rw [setPc_other _ _ _ _ hu]
      intro he
      have hji : j ≠ i := fun e => by
        subst e
        exact hu (slot_exclusive S buf st h t u j hslot (by rw [he]; rfl))
      rw [if_neg hji]
      exact h.cpy u j k1 he
  · intro u
    show setPc st.pc t (WPc.copy i (k + 1)) u = WPc.done → _
    by_cases hu : u = t
    · subst hu
      rw [setPc_same]
      intro he
      simp at he
    · rw [setPc_other _ _ _ _ hu]
      intro hd
      have hnt : (!u) = t := by cases t <;> cases u <;> simp at hu ⊢
      refine ⟨i, hi, ?_, Or.inr (Or.inl ?_)⟩
      · show (setBlock _ _ _ i).sector = S
        rw [hsec]; exact hS
      · show slotOf (setPc st.pc t (WPc.copy i (k + 1)) (!u)) = some i
        rw [hnt, setPc_same]
        rfl

/-- The step `lock_release (&block->lox)` after `memcpy` has copied 512 bytes. -/
theorem winv_unlock (S : Nat) (buf : Bool → SectorData) (st : CState) (t : Bool)
    (i k : Nat) (h : WInv S buf st) (hpc : st.pc t = WPc.copy i k) (hk : ¬ k < 512) :
    WInv S buf { st with lox := setLox st.lox i none, pc := setPc st.pc t WPc.done } := by
  obtain ⟨hi, hS⟩ := h.tgt t i (by rw [hpc]; rfl)
  obtain ⟨hk2, hpre⟩ := h.cpy t i k hpc
  have hk3 : k = 512 := by omega
  have hdata : (st.cache.blocks i).data = buf t := by
    rw [hk3] at hpre
    rw [List.take_of_length_le (by rw [h.dlen]), List.take_of_length_le (by rw [h.blen])] at hpre
    exact hpre
  have hslot : slotOf (st.pc t) = some i := by rw [hpc]; rfl
  refine ⟨h.size_le, h.uniq, h.dlen, h.blen, ?_, ?_, ?_, ?_, ?_, ?_⟩
  · exact clock_kept S buf st _ t WPc.done h rfl rfl (by rw [hpc]; rfl)
  · intro u j
    show setLox st.lox i none j = some u ↔ slotOf (setPc st.pc t WPc.done u) = some j
    by_cases hu : u = t
    · subst hu
      rw [setPc_same]
      have e1 : ¬ slotOf WPc.done = some j := by simp [slotOf]
      by_cases hj : j = i
      · subst hj
        rw [setLox_same]
        exact iff_of_false (by simp) e1
      · rw [setLox_other _ _ _ _ hj]
        have e2 : ¬ st.lox j = some u := fun e => by
          have := (h.slot u j).1 e
          rw [hslot] at this
          exact hj (Option.some.inj this).symm
        exact iff_of_false e2 e1
    · rw [setPc_other _ _ _ _ hu]
      by_cases hj : j = i
      · subst hj
        rw [setLox_same]
        exact iff_of_false (by simp)
          (fun e => hu (slot_exclusive S buf st h t u j hslot e))
      · rw [setLox_other _ _ _ _ hj]; exact h.slot u j
  · intro u j
    show target (setPc st.pc t WPc.done u) = some j → _
    by_cases hu : u = t
    · subst hu
      rw [setPc_same]
      intro hj
      simp [target] at hj
    · rw [setPc_other _ _ _ _ hu]
      exact h.tgt u j
  · intro u j
    show victim (setPc st.pc t WPc.done u) = some j → _
    by_cases hu : u = t
    · subst hu
      rw [setPc_same]
      intro hj
      simp [victim] at hj
    · rw [setPc_other _ _ _ _ hu]
      exact h.vic u j
  · intro u j k1
    show setPc st.pc t WPc.done u = WPc.copy j k1 → _
    by_cases hu : u = t
    · subst hu
      rw [setPc_same]
      intro he
      simp at he
    · rw [setPc_other _ _ _ _ hu]
      exact h.cpy u j k1
  · intro u
    show setPc st.pc t WPc.done u = WPc.done →
      ∃ j, j < st.cache.size ∧ (st.cache.blocks j).sector = S ∧
        ((st.cache.blocks j).data = buf u ∨
         slotOf (setPc st.pc t WPc.done (!u)) = some j ∨
         (setPc st.pc t WPc.done (!u) = WPc.done ∧ (st.cache.blocks j).data = buf (!u)))
    by_cases hu : u = t
    · subst hu
      intro _
      exact ⟨i, hi, hS, Or.inl hdata⟩
    · rw [setPc_other _ _ _ _ hu]
      intro hd
      have hnt : (!u) = t := by cases t <;> cases u <;> simp at hu ⊢
      refine ⟨i, hi, hS, Or.inr (Or.inr ?_)⟩
      rw [hnt, setPc_same]
      exact ⟨rfl, hdata⟩

/-- Every step of either thread preserves the invariant. -/
theorem wstep_inv (S : Nat) (buf : Bool → SectorData) (t : Bool) (st st1 : CState)
    (h : WInv S buf st) (hs : wstep S buf t st = some st1) : WInv S buf st1 := by
  unfold wstep at hs
  cases hpc : st.pc t with
  | start =>
    rw [hpc] at hs
    simp only at hs
    by_cases hc : st.clock_lock = none
    · rw [if_pos hc] at hs
      injection hs with e
      subst e
      exact winv_start S buf st t h hpc hc
    · rw [if_neg hc] at hs
      exact absurd hs (by simp)
  | lookup =>
    rw [hpc] at hs
    simp only at hs
    cases hl : cache_lookup st.cache S with
    | some i =>
      rw [hl] at hs
      injection hs with e
      subst e
      exact winv_lookup_hit S buf st t i h hpc hl
    | none =>
      rw [hl] at hs
      simp only at hs
      by_cases hc : st.cache.size < CACHE_SIZE
      · rw [if_pos hc] at hs
        injection hs with e
        subst e
        exact winv_lookup_fresh S buf st t h hpc hl hc
      · rw [if_neg hc] at hs
        injection hs with e
        subst e
        exact winv_lookup_evict S buf st t h hpc hl hc
  | acquire p i =>
    rw [hpc] at hs
    simp only at hs
    by_cases hc : st.lox i = none
    · rw [if_pos hc] at hs
      injection hs with e
      subst e
      exact winv_acquire S buf st t p i h hpc hc
    · rw [if_neg hc] at hs
      exact absurd hs (by simp)
  | release p i =>
    rw [hpc] at hs
    cases p with
    | hit =>
      injection hs with e
      subst e
      exact winv_release_hit S buf st t i h hpc
    | fresh =>
      injection hs with e
      subst e
      exact winv_release_fresh S buf st t i h hpc
    | evict =>
      injection hs with e
      subst e
      exact winv_release_evict S buf st t i h hpc
  | mark p i old =>
    rw [hpc] at hs
    cases p with
    | hit =>
      injection hs with e
      subst e
      exact winv_mark S buf st t WPath.hit i old st.cache.dev h hpc
    | fresh =>
      injection hs with e
      subst e
      exact winv_mark S buf st t WPath.fresh i old st.cache.dev h hpc
    | evict =>
      injection hs with e
      subst e
      exact winv_mark S buf st t WPath.evict i old _ h hpc
  | copy i k =>
    rw [hpc] at hs
    simp only at hs
    by_cases hc : k < BLOCK_SECTOR_SIZE
    · rw [if_pos hc] at hs
      injection hs with e
      subst e
      exact winv_copy S buf st t i k h hpc hc
    · rw [if_neg hc] at hs
      injection hs with e
      subst e
      exact winv_unlock S buf st t i k h hpc hc
  | done =>
    rw [hpc] at hs
    exact absurd hs (by simp)

theorem wexec_inv (S : Nat) (buf : Bool → SectorData) (st : CState) (t : Bool)
    (h : WInv S buf st) : WInv S buf (wexec S buf st t) := by
  unfold wexec
  cases hs : wstep S buf t st with
  | none => exact h
  | some st1 => exact wstep_inv S buf t st st1 h hs

/-- The invariant holds along every interleaving. -/
theorem runThreads_inv (S : Nat) (buf : Bool → SectorData) (sched : List Bool) :
    ∀ st, WInv S buf st → WInv S buf (runThreads S buf sched st) := by
  induction sched with
  | nil => intro st h; exact h
  | cons t rest ih =>
    intro st h
    exact ih _ (wexec_inv S buf st t h)

/-- The invariant holds when both threads are about to call `cache_write`. -/
theorem twoWriters_inv (S : Nat) (buf : Bool → SectorData) (c : Cache) (hc : CacheInv c)
    (hlen : ∀ i, (c.blocks i).data.length = 512) (hb : ∀ t, (buf t).length = 512) :
    WInv S buf (twoWriters c) := by
  refine ⟨hc.size_le, hc.uniq, hlen, hb, ?_, ?_, ?_, ?_, ?_, ?_⟩
  · intro t; simp [twoWriters, holdsClock]
  · intro t i; simp [twoWriters, slotOf]
  · intro t i hi; simp [twoWriters, target] at hi
  · intro t i hi; simp [twoWriters, victim] at hi
  · intro t i k hk; simp [twoWriters] at hk
  · intro t hd; simp [twoWriters] at hd

/-! ## Two concurrent writers: progress -/

theorem runThreads_cons (S : Nat) (buf : Bool → SectorData) (t : Bool) (l : List Bool)
    (st : CState) :
    runThreads S buf (t :: l) st = runThreads S buf l (wexec S buf st t) := rfl

theorem runThreads_append (S : Nat) (buf : Bool → SectorData) (l1 l2 : List Bool)
    (st : CState) :
    runThreads S buf (l1 ++ l2) st = runThreads S buf l2 (runThreads S buf l1 st) := by
  simp [runThreads, List.foldl_append]

theorem wexec_done (S : Nat) (buf : Bool → SectorData) (t : Bool) (st : CState)
    (h : st.pc t = WPc.done) : wexec S buf st t = st := by
  simp [wexec, wstep, h]

/-- A thread that has returned does nothing more. -/
theorem run_stutter (S : Nat) (buf : Bool → SectorData) (t : Bool) (m : Nat) :
    ∀ st : CState, st.pc t = WPc.done → runThreads S buf (List.replicate m t) st = st := by
  induction m with
  | zero => intro st _; rfl
  | succ m ih =>
    intro st h
    rw [List.replicate_succ, runThreads_cons, wexec_done S buf t st h]
    exact ih st h

/-- A thread inside `memcpy` that is given enough steps finishes the copy and
releases the slot's lock; nothing else changes hands. -/
theorem copy_run (S : Nat) (buf : Bool → SectorData) (t : Bool) (i : Nat) (m : Nat) :
    ∀ (st : CState) (k : Nat), st.pc t = WPc.copy i k → k ≤ 512 → 513 ≤ m + k →
    (runThreads S buf (List.replicate m t) st).pc t = WPc.done ∧
    (∀ u, u ≠ t → (runThreads S buf (List.replicate m t) st).pc u = st.pc u) ∧
    (runThreads S buf (List.replicate m t) st).clock_lock = st.clock_lock ∧
    (∀ j, (runThreads S buf (List.replicate m t) st).lox j = setLox st.lox i none j) := by
  induction m with
  | zero => intro st k _ h1 h2; omega
  | succ m ih =>
    intro st k hpc h1 h2
    rw [List.replicate_succ, runThreads_cons]
    by_cases hk : k < 512
    · have hk' : k < BLOCK_SECTOR_SIZE := hk
      have e : wexec S buf st t = { st with
          cache := { st.cache with
            blocks := setBlock st.cache.blocks i
              { st.cache.blocks i with
                data := (st.cache.blocks i).data.set k ((buf t).getD k 0) } }
          pc := setPc st.pc t (WPc.copy i (k + 1)) } := by
        simp [wexec, wstep, hpc, hk']
      obtain ⟨a, b, c, d⟩ := ih (wexec S buf st t) (k + 1)
        (by rw [e]; exact setPc_same _ _ _) (by omega) (by omega)
      refine ⟨a, fun u hu => ?_, ?_, ?_⟩
      · rw [b u hu, e]; exact setPc_other _ _ _ _ hu
      · rw [c, e]
      · intro j; rw [d j, e]
    · have hk' : ¬ k < BLOCK_SECTOR_SIZE := hk
      have e : wexec S buf st t
          = { st with lox := setLox st.lox i none, pc := setPc st.pc t WPc.done } := by
        simp [wexec, wstep, hpc, hk']
      rw [e, run_stutter S buf t m _ (setPc_same _ _ _)]
      exact ⟨setPc_same _ _ _, fun u hu => setPc_other _ _ _ _ hu, rfl, fun _ => rfl⟩

/-- The steps of a thread from the call to the start of `memcpy`, when no lock
is held: after four steps it is at `memcpy` or one step before it, it holds the
lock of its slot and nothing else, and the other thread has not moved. -/
theorem enter_run (S : Nat) (buf : Bool → SectorData) (t : Bool) (st : CState)
    (hpc : st.pc t = WPc.start) (hfree : st.clock_lock = none) (hlox : ∀ i, st.lox i = none) :
    ∃ i, ((runThreads S buf [t, t, t, t] st).pc t = WPc.copy i 0 ∨
          ∃ p old, (runThreads S buf [t, t, t, t] st).pc t = WPc.mark p i old) ∧
      (∀ u, u ≠ t → (runThreads S buf [t, t, t, t] st).pc u = st.pc u) ∧
      (runThreads S buf [t, t, t, t] st).clock_lock = none ∧
      (∀ j, (runThreads S buf [t, t, t, t] st).lox j = setLox (fun _ => none) i (some t) j) := by
  have hl : st.lox = fun _ => none := funext hlox
  simp only [runThreads, List.foldl_cons, List.foldl_nil]
  have e1 : wexec S buf st t
      = { st with clock_lock := some t, pc := setPc st.pc t WPc.lookup } := by
    simp [wexec, wstep, hpc, hfree]
  rw [e1]
  cases hlk : cache_lookup st.cache S with
  | some i =>
    refine ⟨i, Or.inr ⟨WPath.hit, 0, ?_⟩, ?_, ?_, ?_⟩ <;>
      simp [wexec, wstep, setPc_same, hlk, hl, setLox, setPc]
    cases t <;> simp
  | none =>
    by_cases hsz : st.cache.size < CACHE_SIZE
    · refine ⟨st.cache.size, Or.inl ?_, ?_, ?_, ?_⟩ <;>
        simp [wexec, wstep, setPc_same, hlk, hl, hsz, setLox, setPc]
      cases t <;> simp
    · refine ⟨(clock_scan st.cache.blocks st.cache.clock_hand 0 CACHE_SIZE).2,
        Or.inr ⟨WPath.evict, ((clock_scan st.cache.blocks st.cache.clock_hand 0 CACHE_SIZE).1
          (clock_scan st.cache.blocks st.cache.clock_hand 0 CACHE_SIZE).2).sector, ?_⟩,
        ?_, ?_, ?_⟩ <;>
        simp [wexec, wstep, setPc_same, hlk, hl, hsz, setLox, setPc]
      cases t <;> simp

/-- From the statements before `memcpy`, or from its start, 514 steps take a
thread to its return; it releases the slot's lock and nothing else changes
hands. -/
theorem finish_run (S : Nat) (buf : Bool → SectorData) (t : Bool) (i : Nat) (st : CState)
    (h : st.pc t = WPc.copy i 0 ∨ ∃ p old, st.pc t = WPc.mark p i old) :
    (runThreads S buf (List.replicate 514 t) st).pc t = WPc.done ∧
    (∀ u, u ≠ t → (runThreads S buf (List.replicate 514 t) st).pc u = st.pc u) ∧
    (runThreads S buf (List.replicate 514 t) st).clock_lock = st.clock_lock ∧
    (∀ j, (runThreads S buf (List.replicate 514 t) st).lox j = setLox st.lox i none j) := by
  rcases h with h | ⟨p, old, h⟩
  · exact copy_run S buf t i 514 st 0 h (by omega) (by omega)
  · have e : List.replicate 514 t = t :: List.replicate 513 t := rfl
    rw [e, runThreads_cons]
    have h1 : (wexec S buf st t).pc t = WPc.copy i 0 := by
      cases p <;> simp [wexec, wstep, h, setPc]
    have h2 : ∀ u, u ≠ t → (wexec S buf st t).pc u = st.pc u := by
      intro u hu
      cases p <;> simp [wexec, wstep, h, setPc, hu]
    have h3 : (wexec S buf st t).clock_lock = st.clock_lock := by
      cases p <;> simp [wexec, wstep, h]
    have h4 : (wexec S buf st t).lox = st.lox := by
      cases p <;> simp [wexec, wstep, h]
    obtain ⟨a, b, c, d⟩ := copy_run S buf t i 513 (wexec S buf st t) 0 h1 (by omega) (by omega)
    refine ⟨a, fun u hu => by rw [b u hu, h2 u hu], by rw [c, h3], fun j => by rw [d j, h4]⟩

/-- A thread that calls `cache_write` while no lock is held returns when it is
given 518 steps, and leaves all locks free. -/
theorem solo_run (S : Nat) (buf : Bool → SectorData) (t : Bool) (st : CState)
    (hpc : st.pc t = WPc.start) (hfree : st.clock_lock = none) (hlox : ∀ i, st.lox i = none) :
    (runThreads S buf (soloSched t) st).pc t = WPc.done ∧
    (∀ u, u ≠ t → (runThreads S buf (soloSched t) st).pc u = st.pc u) ∧
    (runThreads S buf (soloSched t) st).clock_lock = none ∧
    (∀ j, (runThreads S buf (soloSched t) st).lox j = none) := by
  obtain ⟨i, h1, h2, h3, h4⟩ := enter_run S buf t st hpc hfree hlox
  unfold soloSched
  rw [runThreads_append]
  obtain ⟨a, b, c, d⟩ := finish_run S buf t i (runThreads S buf [t, t, t, t] st) h1
  refine ⟨a, fun u hu => by rw [b u hu, h2 u hu], by rw [c, h3], fun j => ?_⟩
  rw [d j]
  by_cases hj : j = i
  · rw [hj, setLox_same]
  · rw [setLox_other _ _ _ _ hj, h4 j, setLox_other _ _ _ _ hj]

/-- Under `overlapSched` both calls return, from every state in which they are
about to start. -/
theorem overlap_run (S : Nat) (buf : Bool → SectorData) (c : Cache) (hc : CacheInv c)
    (hlen : ∀ i, (c.blocks i).data.length = 512) (hb : ∀ t, (buf t).length = 512) :
    ∀ t, (runThreads S buf overlapSched (twoWriters c)).pc t = WPc.done := by
  have hinv0 := twoWriters_inv S buf c hc hlen hb
  obtain ⟨i, h1, h2, h3, h4⟩ := enter_run S buf false (twoWriters c) rfl rfl (fun _ => rfl)
  have hinv4 := runThreads_inv S buf [false, false, false, false] _ hinv0
  unfold overlapSched
  rw [runThreads_append]
  generalize runThreads S buf [false, false, false, false] (twoWriters c) = st4
    at h1 h2 h3 h4 hinv4
  have hpt : st4.pc true = WPc.start := h2 true (by simp)
  have htg : target (st4.pc false) = some i := by
    rcases h1 with h | ⟨p, old, h⟩
    · rw [h]; rfl
    · rw [h]; rfl
  obtain ⟨hi, hS⟩ := hinv4.tgt false i htg
  have hlk : cache_lookup st4.cache S = some i := by
    cases hl : cache_lookup st4.cache S with
    | none => exact absurd hS ((cache_lookup_none_iff st4.cache S).1 hl i hi)
    | some j =>
      obtain ⟨a, b⟩ := cache_lookup_some st4.cache S j hl
      rw [hinv4.uniq j i a hi (by rw [b, hS])]
  have hli : st4.lox i = some false := by rw [h4 i, setLox_same]
  -- thread `true` calls, finds slot `i`, and waits
  have e7 : runThreads S buf [true, true, true] st4
      = { st4 with clock_lock := some true
                   pc := setPc (setPc st4.pc true WPc.lookup) true
                     (WPc.acquire WPath.hit i) } := by
    simp [runThreads, wexec, wstep, hpt, h3, hlk, setPc, hli]
  rw [runThreads_append, e7]
  -- thread `false` copies and returns
  have h1' : (CState.mk st4.cache (some true) st4.lox
      (setPc (setPc st4.pc true WPc.lookup) true (WPc.acquire WPath.hit i))).pc false
        = WPc.copy i 0 ∨ ∃ p old, (CState.mk st4.cache (some true) st4.lox
      (setPc (setPc st4.pc true WPc.lookup) true (WPc.acquire WPath.hit i))).pc false
        = WPc.mark p i old := by
    simpa [setPc] using h1
  obtain ⟨a, b, _, d⟩ := finish_run S buf false i _ h1'
  rw [runThreads_append]
  generalize runThreads S buf (List.replicate 514 false) (CState.mk st4.cache (some true)
    st4.lox (setPc (setPc st4.pc true WPc.lookup) true (WPc.acquire WPath.hit i))) = st8
    at a b d
  have hpt8 : st8.pc true = WPc.acquire WPath.hit i := by
    rw [b true (by simp)]
    simp [setPc]
  have hl8 : st8.lox i = none := by rw [d i, setLox_same]
  -- thread `true` takes the lock, copies and returns
  rw [runThreads_append]
  have e9 : runThreads S buf [true, true] st8
      = { st8 with clock_lock := none
                   lox := setLox st8.lox i (some true)
                   pc := setPc (setPc st8.pc true (WPc.release WPath.hit i)) true
                     (WPc.mark WPath.hit i 0) } := by
    simp [runThreads, wexec, wstep, hpt8, hl8, setPc]
  rw [e9]
  obtain ⟨a2, b2, _, _⟩ := finish_run S buf true i
    (CState.mk st8.cache none (setLox st8.lox i (some true))
      (setPc (setPc st8.pc true (WPc.release WPath.hit i)) true (WPc.mark WPath.hit i 0)))
    (Or.inr ⟨WPath.hit, 0, by simp [setPc]⟩)
  intro t
  cases t with
  | true => exact a2
  | false =>
    rw [b2 false (by simp)]
    simpa [setPc] using a

/-! ## Two concurrent writers: a thread running alone -/

theorem setBlock_setBlock (b : Nat → cache_entry) (i : Nat) (e1 e2 : cache_entry) :
    setBlock (setBlock b i e1) i e2 = setBlock b i e2 := by
  funext j
  by_cases hj : j = i <;> simp [setBlock, hj]

theorem setBlock_self (b : Nat → cache_entry) (i : Nat) : setBlock b i (b i) = b := by
  funext j
  by_cases hj : j = i
  · subst hj; simp [setBlock]
  · simp [setBlock, hj]

/-- The cache after `memcpy` has run to its end: the slot's buffer is the
thread's buffer, everything else is as it was. -/
theorem copy_run_cache (S : Nat) (buf : Bool → SectorData) (t : Bool) (i : Nat)
    (hb : (buf t).length = 512) (m : Nat) :
    ∀ (st : CState) (k : Nat), st.pc t = WPc.copy i k → k ≤ 512 → 513 ≤ m + k →
    (st.cache.blocks i).data.length = 512 →
    (st.cache.blocks i).data.take k = (buf t).take k →
    (runThreads S buf (List.replicate m t) st).cache
      = { st.cache with
          blocks := setBlock st.cache.blocks i { st.cache.blocks i with data := buf t } } := by
  induction m with
  | zero => intro st k _ h1 h2; omega
  | succ m ih =>
    intro st k hpc h1 h2 hl hpre
    rw [List.replicate_succ, runThreads_cons]
    by_cases hk : k < 512
    · have hk' : k < BLOCK_SECTOR_SIZE := hk
      have e : wexec S buf st t = { st with
          cache := { st.cache with
            blocks := setBlock st.cache.blocks i
              { st.cache.blocks i with
                data := (st.cache.blocks i).data.set k ((buf t).getD k 0) } }
          pc := setPc st.pc t (WPc.copy i (k + 1)) } := by
        simp [wexec, wstep, hpc, hk']
      rw [e]
      rw [ih _ (k + 1) (setPc_same _ _ _) (by omega) (by omega)
        (by simp [setBlock, hl])
        (by
          simp only [setBlock, if_true]
          exact take_succ_set k _ _ (by rw [hl]; exact hk) (by rw [hb]; exact hk) hpre)]
      simp [setBlock_setBlock, setBlock]
    · have hk' : ¬ k < BLOCK_SECTOR_SIZE := hk
      have e : wexec S buf st t
          = { st with lox := setLox st.lox i none, pc := setPc st.pc t WPc.done } := by
        simp [wexec, wstep, hpc, hk']
      have hk3 : k = 512 := by omega
      have hdata : (st.cache.blocks i).data = buf t := by
        rw [hk3] at hpre
        rw [List.take_of_length_le (by rw [hl]), List.take_of_length_le (by rw [hb])] at hpre
        exact hpre
      rw [e, run_stutter S buf t m _ (setPc_same _ _ _)]
      have e2 : ({ st.cache.blocks i with data := buf t } : cache_entry) = st.cache.blocks i := by
        rw [← hdata]
      rw [e2, setBlock_self]

/-- Executed alone, the steps of a thread do what `cache_write` does: the step
model and the sequential embedding agree. -/
theorem solo_run_cache (S : Nat) (buf : Bool → SectorData) (t : Bool) (st : CState)
    (hpc : st.pc t = WPc.start) (hfree : st.clock_lock = none) (hlox : ∀ i, st.lox i = none)
    (hdl : ∀ i, (st.cache.blocks i).data.length = 512) (hb : (buf t).length = 512) :
    (runThreads S buf (soloSched t) st).cache = cache_write st.cache S (buf t) := by
  have hl : st.lox = fun _ => none := funext hlox
  have e514 : List.replicate 514 t = t :: List.replicate 513 t := rfl
  unfold soloSched
  rw [runThreads_append]
  cases hlk : cache_lookup st.cache S with
  | some i =>
    have e4 : runThreads S buf [t, t, t, t] st
        = { st with lox := setLox st.lox i (some t)
                    pc := setPc (setPc (setPc (setPc st.pc t WPc.lookup) t
                      (WPc.acquire WPath.hit i)) t (WPc.release WPath.hit i)) t
                      (WPc.mark WPath.hit i 0) } := by
      simp [runThreads, wexec, wstep, hpc, hfree, hlk, hl, setPc]
    rw [e4, e514, runThreads_cons]
    have e5 : wexec S buf (CState.mk st.cache st.clock_lock (setLox st.lox i (some t))
          (setPc (setPc (setPc (setPc st.pc t WPc.lookup) t
            (WPc.acquire WPath.hit i)) t (WPc.release WPath.hit i)) t
            (WPc.mark WPath.hit i 0))) t
        = CState.mk (Cache.mk (setBlock st.cache.blocks i { st.cache.blocks i with dirty := true })
            st.cache.size st.cache.clock_hand st.cache.dev) st.clock_lock
            (setLox st.lox i (some t))
            (setPc (setPc (setPc (setPc (setPc st.pc t WPc.lookup) t
              (WPc.acquire WPath.hit i)) t (WPc.release WPath.hit i)) t
              (WPc.mark WPath.hit i 0)) t (WPc.copy i 0)) := by
      simp [wexec, wstep, setPc]
    rw [e5, copy_run_cache S buf t i hb 513 _ 0 (setPc_same _ _ _) (by omega) (by omega)
      (by simp [setBlock, hdl]) (by simp)]
    simp [cache_write, hlk, setBlock_setBlock, setBlock]
  | none =>
    by_cases hsz : st.cache.size < CACHE_SIZE
    · have e4 : runThreads S buf [t, t, t, t] st
          = CState.mk (Cache.mk (setBlock st.cache.blocks st.cache.size
                { st.cache.blocks st.cache.size with dirty := true, sector := S })
              (st.cache.size + 1) st.cache.clock_hand st.cache.dev) none
              (setLox st.lox st.cache.size (some t))
              (setPc (setPc (setPc (setPc st.pc t WPc.lookup) t
                (WPc.acquire WPath.fresh st.cache.size)) t
                (WPc.release WPath.fresh st.cache.size)) t (WPc.copy st.cache.size 0)) := by
        simp [runThreads, wexec, wstep, hpc, hfree, hlk, hl, hsz, setPc]
      rw [e4, copy_run_cache S buf t st.cache.size hb 514 _ 0 (setPc_same _ _ _) (by omega)
        (by omega) (by simp [setBlock, hdl]) (by simp)]
      simp [cache_write, hlk, hsz, setBlock_setBlock, setBlock]
    · have e4 : runThreads S buf [t, t, t, t] st
          = CState.mk (Cache.mk
              (setBlock (clock_scan st.cache.blocks st.cache.clock_hand 0 CACHE_SIZE).1
                (clock_scan st.cache.blocks st.cache.clock_hand 0 CACHE_SIZE).2
                { (clock_scan st.cache.blocks st.cache.clock_hand 0 CACHE_SIZE).1
                    (clock_scan st.cache.blocks st.cache.clock_hand 0 CACHE_SIZE).2
                  with sector := S })
              st.cache.size (clock_scan st.cache.blocks st.cache.clock_hand 0 CACHE_SIZE).2
              st.cache.dev) none
              (setLox st.lox (clock_scan st.cache.blocks st.cache.clock_hand 0 CACHE_SIZE).2
                (some t))
              (setPc (setPc (setPc (setPc st.pc t WPc.lookup) t
                (WPc.acquire WPath.evict
                  (clock_scan st.cache.blocks st.cache.clock_hand 0 CACHE_SIZE).2)) t
                (WPc.release WPath.evict
                  (clock_scan st.cache.blocks st.cache.clock_hand 0 CACHE_SIZE).2)) t
                (WPc.mark WPath.evict
                  (clock_scan st.cache.blocks st.cache.clock_hand 0 CACHE_SIZE).2
                  ((clock_scan st.cache.blocks st.cache.clock_hand 0 CACHE_SIZE).1
                    (clock_scan st.cache.blocks st.cache.clock_hand 0 CACHE_SIZE).2).sector)) := by
        simp [runThreads, wexec, wstep, hpc, hfree, hlk, hl, hsz, setPc]
      rw [e4, e514, runThreads_cons]
      generalize hr : clock_scan st.cache.blocks st.cache.clock_hand 0 CACHE_SIZE = r
      have hf := clock_scan_fields CACHE_SIZE st.cache.blocks st.cache.clock_hand 0 r.2
      rw [hr] at hf
      have hstep : (wexec S buf (CState.mk (Cache.mk (setBlock r.1 r.2 { r.1 r.2 with sector := S })
            st.cache.size r.2 st.cache.dev) none (setLox st.lox r.2 (some t))
            (setPc (setPc (setPc (setPc st.pc t WPc.lookup) t (WPc.acquire WPath.evict r.2)) t
              (WPc.release WPath.evict r.2)) t
              (WPc.mark WPath.evict r.2 (r.1 r.2).sector))) t)
          = CState.mk (Cache.mk
              (setBlock (setBlock r.1 r.2 { r.1 r.2 with sector := S }) r.2
                { r.1 r.2 with sector := S, dirty := true })
              st.cache.size r.2
              (if (r.1 r.2).dirty then block_write st.cache.dev (r.1 r.2).sector (r.1 r.2).data
                else st.cache.dev)) none (setLox st.lox r.2 (some t))
              (setPc (setPc (setPc (setPc (setPc st.pc t WPc.lookup) t
                (WPc.acquire WPath.evict r.2)) t (WPc.release WPath.evict r.2)) t
                (WPc.mark WPath.evict r.2 (r.1 r.2).sector)) t (WPc.copy r.2 0)) := by
        simp [wexec, wstep, setPc, setBlock]
      rw [hstep, copy_run_cache S buf t r.2 hb 513 _ 0 (setPc_same _ _ _) (by omega) (by omega)
        (by simp [setBlock, hf.2.1, hdl]) (by simp)]
      simp [cache_write, hlk, hsz, hr, setBlock_setBlock, setBlock]

/-! ## Two concurrent writers: the claim -/

/-- C25. Atomic full-sector writes under concurrency: two threads call
`cache_write` on the same sector `S`, one with the 512-byte payload `A` and one
with `B`, from a cache that satisfies its representation invariant and whose
buffers are 512 bytes long. `memcpy` copies byte by byte and the scheduler may
switch threads after every step. Whatever the interleaving, once both calls
have returned exactly one slot holds `S`, and its buffer is `A` in full or `B`
in full, never a mixture. -/
theorem concurrent_writes_not_mixed (c : Cache) (S : Nat) (A B : SectorData)
    (sched : List Bool) (hc : CacheInv c) (hlen : ∀ i, (c.blocks i).data.length = 512)
    (hA : A.length = 512) (hB : B.length = 512)
    (hdone : ∀ t, (runThreads S (payloads A B) sched (twoWriters c)).pc t = WPc.done) :
    ∃ i, i < (runThreads S (payloads A B) sched (twoWriters c)).cache.size ∧
      ((runThreads S (payloads A B) sched (twoWriters c)).cache.blocks i).sector = S ∧
      (∀ j, j < (runThreads S (payloads A B) sched (twoWriters c)).cache.size →
        ((runThreads S (payloads A B) sched (twoWriters c)).cache.blocks j).sector = S →
        j = i) ∧
      (((runThreads S (payloads A B) sched (twoWriters c)).cache.blocks i).data = A ∨
       ((runThreads S (payloads A B) sched (twoWriters c)).cache.blocks i).data = B) := by
  have hb : ∀ t, (payloads A B t).length = 512 := by
    intro t
    cases t
    · exact hA
    · exact hB
  have hinv := runThreads_inv S (payloads A B) sched _
    (twoWriters_inv S (payloads A B) c hc hlen hb)
  generalize runThreads S (payloads A B) sched (twoWriters c) = st at hdone hinv ⊢
  obtain ⟨i, hi, hS, hd⟩ := hinv.fin false (hdone false)
  refine ⟨i, hi, hS, fun j hj hjs => hinv.uniq j i hj hi (by rw [hjs, hS]), ?_⟩
  rcases hd with hd | hd | hd
  · exact Or.inl hd
  · have e : (!false) = true := rfl
    rw [e, hdone true] at hd
    simp [slotOf] at hd
  · exact Or.inr hd.2

/-- Witness of C25: sector 9 written by two threads on an empty cache, under
the schedule `overlapSched`, in which the second thread waits for the slot's
lock while the first one copies. -/
theorem concurrent_writes_not_mixed_witness :
    CacheInv (cache_init sampleDev) ∧
    (∀ i, ((cache_init sampleDev).blocks i).data.length = 512) ∧
    (List.replicate 512 1).length = 512 ∧ (List.replicate 512 2).length = 512 ∧
    (∀ t, (runThreads 9 (payloads (List.replicate 512 1) (List.replicate 512 2)) overlapSched
      (twoWriters (cache_init sampleDev))).pc t = WPc.done) ∧
    ∃ i, i < (runThreads 9 (payloads (List.replicate 512 1) (List.replicate 512 2))
        overlapSched (twoWriters (cache_init sampleDev))).cache.size ∧
      ((runThreads 9 (payloads (List.replicate 512 1) (List.replicate 512 2))
        overlapSched (twoWriters (cache_init sampleDev))).cache.blocks i).sector = 9 ∧
      (∀ j, j < (runThreads 9 (payloads (List.replicate 512 1) (List.replicate 512 2))
          overlapSched (twoWriters (cache_init sampleDev))).cache.size →
        ((runThreads 9 (payloads (List.replicate 512 1) (List.replicate 512 2))
          overlapSched (twoWriters (cache_init sampleDev))).cache.blocks j).sector = 9 →
        j = i) ∧
      (((runThreads 9 (payloads (List.replicate 512 1) (List.replicate 512 2))
          overlapSched (twoWriters (cache_init sampleDev))).cache.blocks i).data
          = List.replicate 512 1 ∨
       ((runThreads 9 (payloads (List.replicate 512 1) (List.replicate 512 2))
          overlapSched (twoWriters (cache_init sampleDev))).cache.blocks i).data
          = List.replicate 512 2) :=
  ⟨cache_init_inv sampleDev, fun _ => List.length_replicate 512 0,
   List.length_replicate 512 1, List.length_replicate 512 2,
   overlap_run 9 (payloads (List.replicate 512 1) (List.replicate 512 2)) (cache_init sampleDev)
     (cache_init_inv sampleDev) (fun _ => List.length_replicate 512 0)
     (fun t => by cases t <;> exact List.length_replicate 512 _),
   concurrent_writes_not_mixed (cache_init sampleDev) 9 (List.replicate 512 1)
     (List.replicate 512 2) overlapSched (cache_init_inv sampleDev)
     (fun _ => List.length_replicate 512 0) (List.length_replicate 512 1)
     (List.length_replicate 512 2)
     (overlap_run 9 (payloads (List.replicate 512 1) (List.replicate 512 2))
       (cache_init sampleDev) (cache_init_inv sampleDev)
       (fun _ => List.length_replicate 512 0)
       (fun t => by cases t <;> exact List.length_replicate 512 _))⟩

/-! ## The last close of a removed file: what is released -/

/-- A release call with a pointer array frees exactly the sectors listed. -/
theorem free_map_release_fold_eq (l : List Nat) : ∀ (fm : FreeMap) (y : Nat),
    (l.foldl (fun m x => free_map_release m x 1) fm).used y
      = if y ∈ l then false else fm.used y := by
  induction l with
  | nil => intro fm y; simp
  | cons a l ih =>
    intro fm y
    rw [List.foldl_cons, ih]
    by_cases h1 : y ∈ l
    · have h2 : y ∈ a :: l := List.mem_cons_of_mem a h1
      rw [if_pos h1, if_pos h2]
    · rw [if_neg h1]
      by_cases h2 : y = a
      · have h3 : a ≤ y ∧ y < a + 1 := by omega
        have h4 : y ∈ a :: l := by rw [h2]; exact List.mem_cons_self a l
        rw [if_pos h4]
        show (if a ≤ y ∧ y < a + 1 then false else fm.used y) = false
        rw [if_pos h3]
      · have h3 : ¬ (a ≤ y ∧ y < a + 1) := by omega
        have h4 : y ∉ a :: l := by
          intro hm
          rcases List.mem_cons.1 hm with h | h
          · exact h2 h
          · exact h1 h
        rw [if_neg h4]
        show (if a ≤ y ∧ y < a + 1 then false else fm.used y) = fm.used y
        rw [if_neg h3]

/-- For an inode of at most 250 sectors `inode_dealloc` reads the inode sector
and makes one release call, with the direct pointers. -/
theorem inode_dealloc_calls_small (c : Cache) (ino : inode)
    (h : bytes_to_sectors (decode_inode (cache_read c ino.sector).2).length ≤ 250) :
    inode_dealloc c ino =
      ((cache_read c ino.sector).1,
       [ReleaseCall.ptrs (decode_inode (cache_read c ino.sector).2).direct DIRECT_SIZE]) := by
  unfold inode_dealloc
  lift_lets
  intro r0 data cur calls0 left0 r1 calls1 left1
  have hcur : cur ≤ 250 := h
  have h1 : ¬ cur > DIRECT_SIZE + 128 := by simp only [DIRECT_SIZE]; omega
  have h2 : ¬ cur > DIRECT_SIZE + 128 + 128 := by simp only [DIRECT_SIZE]; omega
  split
  · rfl
  · simp only [h1, if_false, dealloc_doubly, h2]

/-- The last close of a removed handle whose file has at most 250 sectors:
the free map is the one before the call with the inode's sector and the
sectors in the direct array released, and nothing else. -/
theorem inode_close_small_fm (fs : FsState) (reg : Registry) (p : Nat) (x : inode)
    (hx : reg.heap p = some x) (h1 : x.open_cnt = 1) (hrm : x.removed = true)
    (hcur : bytes_to_sectors (decode_inode (cache_read fs.cache x.sector).2).length ≤ 250)
    (y : Nat) :
    (inode_close fs reg p).1.fm.used y
      = if y ∈ (decode_inode (cache_read fs.cache x.sector).2).direct.take DIRECT_SIZE then false
        else if y = x.sector then false else fs.fm.used y := by
  have h0 : x.open_cnt - 1 = 0 := by omega
  have hfm : (inode_close fs reg p).1.fm
      = (inode_dealloc fs.cache { x with open_cnt := x.open_cnt - 1 }).2.foldl
          fm_release (free_map_release fs.fm x.sector 1) := by
    unfold inode_close
    rw [hx]
    simp only [h0, if_true, hrm]
  have hd := inode_dealloc_calls_small fs.cache { x with open_cnt := x.open_cnt - 1 } hcur
  rw [hfm, hd]
  show (List.foldl (fun m z => free_map_release m z 1) (free_map_release fs.fm x.sector 1)
      ((decode_inode (cache_read fs.cache x.sector).2).direct.take DIRECT_SIZE)).used y = _
  rw [free_map_release_fold_eq]
  by_cases hm : y ∈ (decode_inode (cache_read fs.cache x.sector).2).direct.take DIRECT_SIZE
  · rw [if_pos hm, if_pos hm]
  · rw [if_neg hm, if_neg hm]
    show (if x.sector ≤ y ∧ y < x.sector + 1 then false else fs.fm.used y) = _
    by_cases hy : y = x.sector
    · have h3 : x.sector ≤ y ∧ y < x.sector + 1 := by omega
      rw [if_pos h3, if_pos hy]
    · have h3 : ¬ (x.sector ≤ y ∧ y < x.sector + 1) := by omega
      rw [if_neg h3, if_neg hy]

/-- The free map keeps its size through `inode_create` when two sectors are
free for the index blocks. -/
theorem inode_create_fm_size (s : FsState) (sector : Nat) (L : Int) (isdir : Bool)
    (hc : CacheInv s.cache) (h2 : 2 ≤ (freeList s.fm).length) :
    (inode_create s sector L isdir true).1.fm.size = s.fm.size := by
  obtain ⟨f1, _, _, _, f5, _, _⟩ := fm_allo_spec s (fresh_inode_disk isdir) hc h2
  generalize hr1 : fm_allo s (fresh_inode_disk isdir) = r1 at f1 f5
  have hle : (inode_extend r1.1 r1.2.1 L).1.fm.size = r1.1.fm.size :=
    (inode_extend_le r1.1 r1.2.1 L).1.1
  generalize hr2 : inode_extend r1.1 r1.2.1 L = r2 at hle
  have e : inode_create s sector L isdir true
      = (FsState.mk (cache_write r2.1.cache sector (encode_inode r2.2.1)) r2.1.fm, r2.2.2) := by
    unfold inode_create
    simp only [if_true, hr1, f1, hr2]
  rw [e]
  exact hle.trans f5

/-- A sector handed out by `inode_create` for a file of `k` sectors (one of
the first `k + 2` free sectors) is in use afterwards. -/
theorem inode_create_small_used (s : FsState) (sector : Nat) (L : Int) (isdir : Bool) (k : Nat)
    (hc : CacheInv s.cache) (hused : s.fm.used sector = true) (hsz : s.fm.size ≤ 4294967296)
    (hk1 : 1 ≤ k) (hk2 : k ≤ 250) (hL1 : 512 * (k : Int) - 512 < L) (hL2 : L ≤ 512 * (k : Int))
    (hfree : k + 2 ≤ (freeList s.fm).length) (i : Nat) (hi : i < k + 2) :
    (inode_create s sector L isdir true).1.fm.used ((freeList s.fm).getD i 0) = true := by
  obtain ⟨_, _, c3, _, _⟩ :=
    inode_create_small s sector L isdir k hc hused hsz hk1 hk2 hL1 hL2 hfree
  have hsize := inode_create_fm_size s sector L isdir hc (by omega)
  have hnd := freeList_nodup s.fm
  have hlt : (freeList s.fm).getD i 0 < s.fm.size := freeList_lt s.fm i (by omega)
  have hnot : (freeList s.fm).getD i 0 ∉ freeList (inode_create s sector L isdir true).1.fm := by
    rw [c3]
    intro hmem
    obtain ⟨t, ht, hte⟩ := List.getElem_of_mem hmem
    rw [List.length_drop] at ht
    have h1 : (freeList s.fm).getD (k + 2 + t) 0 = (freeList s.fm).getD i 0 := by
      rw [← getD_drop_nat, List.getD_eq_getElem _ _ (by rw [List.length_drop]; exact ht)]
      exact hte
    have := getD_inj_of_nodup _ hnd _ _ (by omega) (by omega) h1
    omega
  cases hu : (inode_create s sector L isdir true).1.fm.used ((freeList s.fm).getD i 0) with
  | true => rfl
  | false =>
    exact absurd ((freeList_mem _ _).2 ⟨by rw [hsize]; exact hlt, hu⟩) hnot

/-- C19, as the code behaves on its last clause: a file of more than 122 and
at most 250 sectors (`62464 < L <= 128000`) is created in a sector that is in
use, with enough free sectors, then opened, removed and closed. The close
unregisters the handle, releases the inode's own sector and the 122 data
sectors of the direct array. It does not release the file's other sectors:
the two index sectors are still in use, and so is the data sector of every
block of the single-indirect tier (every offset from `122 * 512 = 62464` on),
which was free before the creation and is the sector `byte_to_sector` gives
for that offset. -/
theorem close_keeps_indirect_sectors (s : FsState) (sector : Nat) (L : Int) (p : Nat)
    (ino : inode) (hc : CacheInv s.cache) (hino : ino.sector = sector)
    (hused : s.fm.used sector = true) (hsz : s.fm.size ≤ 4294967296)
    (hL1 : 62464 < L) (hL2 : L ≤ 128000)
    (hfree : bytes_to_sectors L + 2 ≤ (freeList s.fm).length) :
    (122 < bytes_to_sectors L ∧ bytes_to_sectors L ≤ 250) ∧
    (inode_create s sector L false true).2 = true ∧
    (createRemoveClose s sector L p).2.open_inodes = [] ∧
    (createRemoveClose s sector L p).2.heap p = none ∧
    (createRemoveClose s sector L p).1.fm.used sector = false ∧
    (∀ j, j < 122 →
      (createRemoveClose s sector L p).1.fm.used ((freeList s.fm).getD (2 + j) 0) = false) ∧
    (createRemoveClose s sector L p).1.fm.used ((freeList s.fm).getD 0 0) = true ∧
    (createRemoveClose s sector L p).1.fm.used ((freeList s.fm).getD 1 0) = true ∧
    (∀ pos, 62464 ≤ pos → pos < L →
      (byte_to_sector (inode_create s sector L false true).1.cache ino pos).2
        = (freeList s.fm).getD (2 + (pos / 512).toNat) 0 ∧
      s.fm.used ((freeList s.fm).getD (2 + (pos / 512).toNat) 0) = false ∧
      (createRemoveClose s sector L p).1.fm.used
        ((freeList s.fm).getD (2 + (pos / 512).toNat) 0) = true) := by
  obtain ⟨k, hk⟩ : ∃ k, bytes_to_sectors L = k := ⟨_, rfl⟩
  have hkv : k = ((L + 511) / 512).toNat := by
    rw [← hk]
    unfold bytes_to_sectors
    rw [Int.tdiv_eq_ediv (by omega) (by decide)]
    omega
  rw [hk] at hfree ⊢
  have hk1 : 122 < k := by omega
  have hk2 : k ≤ 250 := by omega
  obtain ⟨c1, c2, c3, ⟨D, d1, d2, d3, d4, d5⟩, c5⟩ :=
    inode_create_small s sector L false k hc hused hsz (by omega) hk2 (by omega) (by omega) hfree
  have husedF : ∀ i, i < k + 2 →
      (inode_create s sector L false true).1.fm.used ((freeList s.fm).getD i 0) = true :=
    fun i hi => inode_create_small_used s sector L false k hc hused hsz (by omega) hk2
      (by omega) (by omega) hfree i hi
  have hF : ∀ j, j < (freeList s.fm).length → (freeList s.fm).getD j 0 < 4294967296 :=
    fun j hj => lt_of_lt_of_le (freeList_lt s.fm j hj) hsz
  have hsec : sector ∉ freeList s.fm := not_mem_freeList_of_used s.fm sector hused
  have hnd := freeList_nodup s.fm
  have hbts : ∀ pos, 62464 ≤ pos → pos < L →
      (byte_to_sector (inode_create s sector L false true).1.cache ino pos).2
        = (freeList s.fm).getD (2 + (pos / 512).toNat) 0 := by
    intro pos h0 hlt
    rw [(byte_to_sector_view _ c2 ino pos).1, hino,
      sector_of_indirect _ _ D pos d1 (by omega) (by omega) (by omega) (by omega) (by omega), d3,
      Nat.mod_eq_of_lt (hF 0 (by omega)), c5 _ (by omega)]
    have e0 : 124 + ((pos / 512).toNat - 122) = 2 + (pos / 512).toNat := by omega
    rw [e0]
  generalize hs1 : (inode_create s sector L false true).1 = s1 at c2 d1 husedF hbts
  -- the handle and the registry before the close
  have hclose : createRemoveClose s sector L p
      = inode_close (FsState.mk (cache_read s1.cache sector).1 s1.fm)
          (Registry.mk (setHandle (setHandle (fun _ => none) p
              (some (inode.mk sector 1 false 0))) p (some (inode.mk sector 1 true 0))) [p]) p := by
    unfold createRemoveClose
    rw [hs1]
    simp [inode_open, find_open, inode_init, inode_remove, setHandle]
  obtain ⟨r1, rc1, rv1⟩ := cache_read_spec s1.cache c2 sector
  have hview : (cache_read (cache_read s1.cache sector).1 sector).2 = encode_inode D := by
    rw [(cache_read_spec _ rc1 sector).1, rv1, d1]
  have hlenD : (decode_inode (encode_inode D)).length = L := by
    rw [decode_encode_length D (by omega) (by omega), d2]
  have hx : (Registry.mk (setHandle (setHandle (fun _ => none) p
      (some (inode.mk sector 1 false 0))) p (some (inode.mk sector 1 true 0))) [p]).heap p
      = some (inode.mk sector 1 true 0) := setHandle_same _ _ _
  have hcur : bytes_to_sectors (decode_inode (cache_read
      (FsState.mk (cache_read s1.cache sector).1 s1.fm).cache
      (inode.mk sector 1 true 0).sector).2).length ≤ 250 := by
    show bytes_to_sectors (decode_inode (cache_read (cache_read s1.cache sector).1 sector).2).length
      ≤ 250
    rw [hview, hlenD, hk]
    exact hk2
  have hfm := inode_close_small_fm (FsState.mk (cache_read s1.cache sector).1 s1.fm) _ p
    (inode.mk sector 1 true 0) hx rfl rfl hcur
  change ∀ y, (inode_close _ _ p).1.fm.used y
    = if y ∈ (decode_inode (cache_read (cache_read s1.cache sector).1 sector).2).direct.take
        DIRECT_SIZE then false
      else if y = sector then false else s1.fm.used y at hfm
  rw [hview] at hfm
  rw [← hclose] at hfm
  -- the direct array of the record
  have hmem : ∀ y, y ∈ (decode_inode (encode_inode D)).direct.take DIRECT_SIZE
      ↔ ∃ j, j < 122 ∧ y = (freeList s.fm).getD (2 + j) 0 := by
    intro y
    have hlen : (decode_inode (encode_inode D)).direct.length = 122 := by
      simp [decode_inode, DIRECT_SIZE]
    rw [List.take_of_length_le (by rw [hlen]; decide)]
    constructor
    · intro hy
      obtain ⟨j, hj, hje⟩ := List.getElem_of_mem hy
      rw [hlen] at hj
      refine ⟨j, hj, ?_⟩
      have h1 := decode_encode_direct D j hj
      rw [List.getD_eq_getElem _ _ (by rw [hlen]; exact hj), hje, d5] at h1
      have cnd : j < k ∧ j < 122 := ⟨by omega, hj⟩
      rw [if_pos cnd, Nat.mod_eq_of_lt (hF _ (by omega))] at h1
      exact h1
    · rintro ⟨j, hj, rfl⟩
      have h1 := decode_encode_direct D j hj
      rw [d5] at h1
      have cnd : j < k ∧ j < 122 := ⟨by omega, hj⟩
      rw [if_pos cnd, Nat.mod_eq_of_lt (hF _ (by omega))] at h1
      rw [← h1]
      exact getD_mem _ j (by rw [hlen]; exact hj)
  have hkeep : ∀ i, i < k + 2 → (i < 2 ∨ 124 ≤ i) →
      (createRemoveClose s sector L p).1.fm.used ((freeList s.fm).getD i 0) = true := by
    intro i hi hrange
    rw [hfm]
    have hn1 : (freeList s.fm).getD i 0 ∉ (decode_inode (encode_inode D)).direct.take
        DIRECT_SIZE := by
      rw [hmem]
      rintro ⟨j, hj, hje⟩
      have := getD_inj_of_nodup _ hnd _ _ (by omega) (by omega) hje
      omega
    have hn2 : (freeList s.fm).getD i 0 ≠ sector :=
      getD_ne_of_not_mem _ _ i hsec (by omega)
    rw [if_neg hn1, if_neg hn2]
    exact husedF i hi
  have hreg : (createRemoveClose s sector L p).2 = Registry.mk (setHandle (setHandle
      (setHandle (fun _ => none) p (some (inode.mk sector 1 false 0))) p
      (some (inode.mk sector 1 true 0))) p none) ([p].erase p) := by
    rw [hclose]
    unfold inode_close
    rw [hx]
    simp
  refine ⟨⟨hk1, hk2⟩, c1, ?_, ?_, ?_, ?_, hkeep 0 (by omega) (by omega),
    hkeep 1 (by omega) (by omega), ?_⟩
  · rw [hreg]; simp
  · rw [hreg]; exact setHandle_same _ _ _
  · rw [hfm]
    by_cases h1 : sector ∈ (decode_inode (encode_inode D)).direct.take DIRECT_SIZE
    · rw [if_pos h1]
    · rw [if_neg h1, if_pos rfl]
  · intro j hj
    rw [hfm, if_pos ((hmem _).2 ⟨j, hj, rfl⟩)]
  · intro pos h0 hlt
    refine ⟨hbts pos h0 hlt, ?_, hkeep _ (by omega) (by omega)⟩
    exact ((freeList_mem s.fm _).1 (getD_mem _ _ (by omega))).2

set_option maxRecDepth 100000 in
/-- The failing input of C19: a file of 70000 bytes (137 sectors) created in
sector 5 of a free map whose free sectors are 32..255, then opened at address
1000, removed and closed. Sector 5 and the direct data sectors 34..155 are
released; the index sectors 32 and 33 and the 15 data sectors 156..170 of the
single-indirect tier stay in use. -/
theorem close_keeps_indirect_sectors_witness :
    CacheInv fsRoomy.cache ∧ ino5.sector = 5 ∧ fsRoomy.fm.used 5 = true ∧
    fsRoomy.fm.size ≤ 4294967296 ∧ (62464 : Int) < 70000 ∧ (70000 : Int) ≤ 128000 ∧
    bytes_to_sectors 70000 + 2 ≤ (freeList fsRoomy.fm).length ∧
    bytes_to_sectors 70000 = 137 ∧
    (freeList fsRoomy.fm).getD 0 0 = 32 ∧ (freeList fsRoomy.fm).getD 1 0 = 33 ∧
    (freeList fsRoomy.fm).getD (2 + ((62464 : Int) / 512).toNat) 0 = 156 ∧
    (freeList fsRoomy.fm).getD (2 + ((69999 : Int) / 512).toNat) 0 = 170 ∧
    ((122 < bytes_to_sectors 70000 ∧ bytes_to_sectors 70000 ≤ 250) ∧
    (inode_create fsRoomy 5 70000 false true).2 = true ∧
    (createRemoveClose fsRoomy 5 70000 1000).2.open_inodes = [] ∧
    (createRemoveClose fsRoomy 5 70000 1000).2.heap 1000 = none ∧
    (createRemoveClose fsRoomy 5 70000 1000).1.fm.used 5 = false ∧
    (∀ j, j < 122 →
      (createRemoveClose fsRoomy 5 70000 1000).1.fm.used
        ((freeList fsRoomy.fm).getD (2 + j) 0) = false) ∧
    (createRemoveClose fsRoomy 5 70000 1000).1.fm.used ((freeList fsRoomy.fm).getD 0 0) = true ∧
    (createRemoveClose fsRoomy 5 70000 1000).1.fm.used ((freeList fsRoomy.fm).getD 1 0) = true ∧
    (∀ pos, 62464 ≤ pos → pos < 70000 →
      (byte_to_sector (inode_create fsRoomy 5 70000 false true).1.cache ino5 pos).2
        = (freeList fsRoomy.fm).getD (2 + (pos / 512).toNat) 0 ∧
      fsRoomy.fm.used ((freeList fsRoomy.fm).getD (2 + (pos / 512).toNat) 0) = false ∧
      (createRemoveClose fsRoomy 5 70000 1000).1.fm.used
        ((freeList fsRoomy.fm).getD (2 + (pos / 512).toNat) 0) = true)) :=
  ⟨cache_init_inv dev250, rfl, by decide, by decide, by decide, by decide, by decide, by decide,
   by decide, by decide, by decide, by decide,
   close_keeps_indirect_sectors fsRoomy 5 70000 1000 ino5 (cache_init_inv dev250) rfl
     (by decide) (by decide) (by decide) (by decide) (by decide)⟩

/-! ## Growth when the allocator runs out: what a call asks for -/

theorem consumes_zero (fm : FreeMap) : Consumes fm fm true 0 := by
  refine ⟨fun _ => ⟨rfl, by simp⟩, fun h => absurd h (by omega)⟩

theorem consumes_seq (fm fm1 fm2 : FreeMap) (ok1 ok2 : Bool) (d1 d2 : Nat)
    (h1 : Consumes fm fm1 ok1 d1) (h2 : ok1 = true → Consumes fm1 fm2 ok2 d2) :
    Consumes fm (if ok1 = true then fm2 else fm1) (ok1 && ok2) (d1 + d2) := by
  constructor
  · intro hle
    obtain ⟨a1, a2⟩ := h1.1 (by omega)
    obtain ⟨b1, b2⟩ := (h2 a1).1 (by rw [a2, List.length_drop]; omega)
    rw [a1, b1, if_pos rfl, b2, a2, List.drop_drop]
    refine ⟨rfl, ?_⟩
    rw [Nat.add_comm]
  · intro hlt
    by_cases hd : (freeList fm).length < d1
    · obtain ⟨a1, a2⟩ := h1.2 hd
      rw [a1]
      exact ⟨rfl, a2⟩
    · obtain ⟨a1, a2⟩ := h1.1 (by omega)
      obtain ⟨b1, b2⟩ := (h2 a1).2 (by rw [a2, List.length_drop]; omega)
      rw [a1, b1, if_pos rfl]
      exact ⟨rfl, b2⟩

/-- The allocation loop asks for `n` sectors. -/
theorem alloc_loop_consumes (n : Nat) : ∀ (s : FsState) (ptrs : List Nat) (i : Int),
    Consumes s.fm (alloc_loop s ptrs i n).1.fm (alloc_loop s ptrs i n).2.2 n := by
  induction n with
  | zero =>
    intro s ptrs i
    rw [alloc_loop_zero]
    exact consumes_zero s.fm
  | succ n ih =>
    intro s ptrs i
    cases hl : freeList s.fm with
    | nil =>
      have hnone := free_map_allocate_none s.fm hl
      have e : alloc_loop s ptrs i (n + 1) = (s, ptrs, false) := by
        rw [alloc_loop]
        simp only [hnone]
      rw [e]
      refine ⟨fun h => ?_, fun _ => ⟨rfl, hl⟩⟩
      rw [hl] at h
      simp at h
    | cons a rest =>
      obtain ⟨fm1, ha, hrest, _, _⟩ := free_map_allocate_spec s.fm a rest hl
      have e : alloc_loop s ptrs i (n + 1)
          = alloc_loop (FsState.mk (cache_write s.cache a zeroSector) fm1)
              (if 0 ≤ i then ptrs.set i.toNat a else ptrs) (i + 1) n := by
        rw [alloc_loop]
        simp only [ha]
      rw [e]
      have h := ih (FsState.mk (cache_write s.cache a zeroSector) fm1)
        (if 0 ≤ i then ptrs.set i.toNat a else ptrs) (i + 1)
      change Consumes fm1 _ _ n at h
      unfold Consumes at h ⊢
      rw [hrest] at h
      rw [hl]
      constructor
      · intro hle
        obtain ⟨b1, b2⟩ := h.1 (by simpa using hle)
        exact ⟨b1, by rw [b2]; rfl⟩
      · intro hlt
        exact h.2 (by simpa using hlt)

/-- The direct block of `inode_extend` asks for `direct_demand` sectors and
leaves `cur = DIRECT_SIZE` when it runs. -/
theorem extend_direct_consumes (s : FsState) (data : inode_disk) (cur new : Nat) :
    Consumes s.fm (extend_direct s data cur new).st.fm (extend_direct s data cur new).ok
      (direct_demand cur new) ∧
    (extend_direct s data cur new).cur = (if cur < DIRECT_SIZE then DIRECT_SIZE else cur) := by
  by_cases h : cur < DIRECT_SIZE
  · have e := extend_direct_run s data cur new h _ rfl _ rfl
    rw [e]
    have hd : direct_demand cur new = (if new < DIRECT_SIZE then new else DIRECT_SIZE) - cur := by
      unfold direct_demand
      rw [if_pos h]
    rw [hd, if_pos h]
    exact ⟨alloc_loop_consumes _ s data.direct cur, rfl⟩
  · have e := extend_direct_skip s data cur new (by omega)
    rw [e]
    have hd : direct_demand cur new = 0 := by
      unfold direct_demand
      rw [if_neg h]
    rw [hd, if_neg h]
    exact ⟨consumes_zero s.fm, rfl⟩

/-- The single-indirect block of `inode_extend` asks for `indirect_demand`
sectors and leaves `cur = DIRECT_SIZE + 128` when it runs to its end. -/
theorem extend_indirect_consumes (s : FsState) (data : inode_disk) (cur new : Nat) :
    Consumes s.fm (extend_indirect s data cur new).st.fm (extend_indirect s data cur new).ok
      (indirect_demand cur new) ∧
    ((extend_indirect s data cur new).ok = true →
      (extend_indirect s data cur new).cur
        = (if cur < DIRECT_SIZE + 128 ∧ new > DIRECT_SIZE then DIRECT_SIZE + 128 else cur)) := by
  by_cases h : cur < DIRECT_SIZE + 128 ∧ new > DIRECT_SIZE
  · have hd : indirect_demand cur new
        = (if new ≥ DIRECT_SIZE + 128 then 128 else new - DIRECT_SIZE) - (cur - DIRECT_SIZE) := by
      unfold indirect_demand
      rw [if_pos h]
    have hc := alloc_loop_consumes
      ((if new ≥ DIRECT_SIZE + 128 then 128 else new - DIRECT_SIZE) - (cur - DIRECT_SIZE))
      { s with cache := (cache_read s.cache data.indirect).1 }
      (decode_indirect (cache_read s.cache data.indirect).2) ((cur - DIRECT_SIZE : Nat) : Int)
    change Consumes s.fm _ _ _ at hc
    rw [hd, if_pos h]
    unfold extend_indirect
    simp only [h, and_self, if_true]
    generalize alloc_loop { s with cache := (cache_read s.cache data.indirect).1 }
      (decode_indirect (cache_read s.cache data.indirect).2) ((cur - DIRECT_SIZE : Nat) : Int)
      ((if new ≥ DIRECT_SIZE + 128 then 128 else new - DIRECT_SIZE) - (cur - DIRECT_SIZE))
      = r at hc
    cases hok : r.2.2 with
    | true =>
      simp only [if_true]
      rw [hok] at hc
      exact ⟨hc, fun _ => trivial⟩
    | false =>
      simp only [Bool.false_eq_true, if_false]
      rw [hok] at hc
      exact ⟨hc, fun hx => absurd hx (by simp)⟩
  · have hd : indirect_demand cur new = 0 := by
      unfold indirect_demand
      rw [if_neg h]
    have e : extend_indirect s data cur new = { st := s, data := data, cur := cur, ok := true } := by
      unfold extend_indirect
      simp only [h, if_false]
    rw [e, hd, if_neg h]
    exact ⟨consumes_zero s.fm, fun _ => rfl⟩

/-- The child loop of `inode_extend` asks for `children_demand` sectors. -/
theorem extend_children_consumes (doubly : indirect_block) (cur new : Nat) (mini maxi : Int)
    (n : Nat) : ∀ (s : FsState) (i : Int),
    Consumes s.fm (extend_children doubly cur new mini maxi s i n).1.fm
      (extend_children doubly cur new mini maxi s i n).2
      (children_demand cur new mini maxi i n) := by
  induction n with
  | zero =>
    intro s i
    rw [extend_children_zero]
    exact consumes_zero s.fm
  | succ n ih =>
    intro s i
    rw [extend_children_succ]
    simp only [children_demand]
    generalize hmn : (if i = mini then (((cur - DIRECT_SIZE + 128) % 128 : Nat) : Int) else 0)
      = mn
    generalize hmx : (if i = maxi then (((new - DIRECT_SIZE + 128) % 128 : Nat) : Int) - 1
      else 128) = mx
    have hc := alloc_loop_consumes (mx + 1 - mn).toNat
      { s with cache := (cache_read s.cache (doubly.getD i.toNat 0)).1 }
      (decode_indirect (cache_read s.cache (doubly.getD i.toNat 0)).2) mn
    change Consumes s.fm _ _ _ at hc
    unfold indirect_blocker
    generalize alloc_loop { s with cache := (cache_read s.cache (doubly.getD i.toNat 0)).1 }
      (decode_indirect (cache_read s.cache (doubly.getD i.toNat 0)).2) mn (mx + 1 - mn).toNat
      = r at hc
    cases hok : r.2.2 with
    | true =>
      simp only [if_true]
      have h2 := ih (FsState.mk (cache_write r.1.cache (doubly.getD i.toNat 0)
        (encode_indirect r.2.1)) r.1.fm) (i + 1)
      change Consumes r.1.fm _ _ _ at h2
      have h3 := consumes_seq _ _ _ _ _ _ _ hc (fun _ => h2)
      rw [hok] at h3
      simpa using h3
    | false =>
      simp only [Bool.false_eq_true, if_false]
      rw [hok] at hc
      constructor
      · intro hle
        exact absurd (hc.1 (by omega)).1 (by simp)
      · intro hlt
        by_cases hd : (freeList s.fm).length < (mx + 1 - mn).toNat
        · exact hc.2 hd
        · exact absurd (hc.1 (by omega)).1 (by simp)

/-- The double-indirect block of `inode_extend` asks for `doubly_demand`
sectors. -/
theorem extend_doubly_consumes (s : FsState) (data : inode_disk) (cur new : Nat) :
    Consumes s.fm (extend_doubly s data cur new).st.fm (extend_doubly s data cur new).ok
      (doubly_demand cur new) := by
  by_cases h : cur < DIRECT_SIZE + 128 + 128 * 128 ∧ new > DIRECT_SIZE + 128
  · unfold doubly_demand extend_doubly
    simp only [h, and_self, if_true]
    generalize (((cur - DIRECT_SIZE + 128) / 128 : Nat) : Int) = mini
    generalize (((new - DIRECT_SIZE + 128) / 128 : Nat) : Int) - 1 = maxi
    have hc := alloc_loop_consumes (maxi + 1 - mini).toNat
      { s with cache := (cache_read s.cache data.doubly_indirect).1 }
      (decode_indirect (cache_read s.cache data.doubly_indirect).2) mini
    change Consumes s.fm _ _ _ at hc
    unfold indirect_blocker
    generalize alloc_loop { s with cache := (cache_read s.cache data.doubly_indirect).1 }
      (decode_indirect (cache_read s.cache data.doubly_indirect).2) mini (maxi + 1 - mini).toNat
      = r at hc
    have h2 := extend_children_consumes r.2.1 cur new mini maxi (maxi + 1 - mini).toNat r.1 mini
    have h3 := consumes_seq _ _ _ _ _ _ _ hc (fun _ => h2)
    generalize extend_children r.2.1 cur new mini maxi r.1 mini (maxi + 1 - mini).toNat
      = r2 at h2 h3
    cases hok : r.2.2 with
    | true =>
      rw [hok] at h3
      simp only [if_true]
      cases hok2 : r2.2 with
      | true =>
        rw [hok2] at h3
        simp only [if_true]
        simpa using h3
      | false =>
        rw [hok2] at h3
        simp only [Bool.false_eq_true, if_false]
        simpa using h3
    | false =>
      rw [hok] at h3
      simp only [Bool.false_eq_true, if_false]
      simpa using h3
  · have hd : doubly_demand cur new = 0 := by
      unfold doubly_demand
      rw [if_neg h]
    have e : extend_doubly s data cur new = { st := s, data := data, cur := cur, ok := true } := by
      unfold extend_doubly
      simp only [h, if_false]
    rw [e, hd]
    exact consumes_zero s.fm

/-- A call of `inode_extend` that passes the argument checks asks for
`extend_demand` sectors: with that many free it returns true and takes the
first of them in order; with fewer it returns false after taking every free
sector. -/
theorem inode_extend_consumes (s : FsState) (data : inode_disk) (length : Int)
    (hgrow : bytes_to_sectors data.length < bytes_to_sectors length)
    (hmax : length ≤ 8123392) (hge : data.length ≤ length) :
    Consumes s.fm (inode_extend s data length).1.fm (inode_extend s data length).2.2
      (extend_demand (bytes_to_sectors data.length) (bytes_to_sectors length)) := by
  have h1 : ¬ bytes_to_sectors length < bytes_to_sectors data.length := by omega
  have h2 : ¬ bytes_to_sectors length = bytes_to_sectors data.length := by omega
  have h3 : ¬ (length > (((DIRECT_SIZE + 128 + 128 * DIRECT_SIZE) * BLOCK_SECTOR_SIZE : Nat) : Int)
      ∨ length < data.length) := by
    simp only [DIRECT_SIZE, BLOCK_SECTOR_SIZE]
    push_cast
    omega
  obtain ⟨a1, a2⟩ := extend_direct_consumes s data (bytes_to_sectors data.length)
    (bytes_to_sectors length)
  generalize hr1 : extend_direct s data (bytes_to_sectors data.length) (bytes_to_sectors length)
    = r1 at a1 a2
  obtain ⟨b1, b2⟩ := extend_indirect_consumes r1.st r1.data r1.cur (bytes_to_sectors length)
  generalize hr2 : extend_indirect r1.st r1.data r1.cur (bytes_to_sectors length) = r2 at b1 b2
  have c1 := extend_doubly_consumes r2.st r2.data r2.cur (bytes_to_sectors length)
  generalize hr3 : extend_doubly r2.st r2.data r2.cur (bytes_to_sectors length) = r3 at c1
  have e : inode_extend s data length
      = if r1.ok = true then
          if r2.ok = true then
            if r3.ok = true then (r3.st, { r3.data with length := length }, true)
            else (r3.st, r3.data, false)
          else (r2.st, r2.data, false)
        else (r1.st, r1.data, false) := by
    unfold inode_extend
    simp only [h1, h2, h3, if_false, hr1, hr2, hr3]
  have hdem : extend_demand (bytes_to_sectors data.length) (bytes_to_sectors length)
      = direct_demand (bytes_to_sectors data.length) (bytes_to_sectors length)
        + (indirect_demand r1.cur (bytes_to_sectors length)
          + doubly_demand (if r1.cur < DIRECT_SIZE + 128 ∧ bytes_to_sectors length > DIRECT_SIZE
              then DIRECT_SIZE + 128 else r1.cur) (bytes_to_sectors length)) := by
    unfold extend_demand
    simp only []
    rw [a2, Nat.add_assoc]
  have s23 := consumes_seq _ _ _ _ _ _ _ b1 (fun ok2 => by rw [b2 ok2] at c1; exact c1)
  have s123 := consumes_seq _ _ _ _ _ _ _ a1 (fun _ => s23)
  rw [e, hdem]
  cases k1 : r1.ok with
  | false =>
    rw [k1] at s123
    simpa using s123
  | true =>
    cases k2 : r2.ok with
    | false =>
      rw [k1, k2] at s123
      simpa using s123
    | true =>
      cases k3 : r3.ok with
      | false =>
        rw [k1, k2, k3] at s123
        simpa using s123
      | true =>
        rw [k1, k2, k3] at s123
        simpa using s123

/-- C14. No rollback on allocation failure, in every tier. A call of
`inode_extend` that passes the argument checks makes `extend_demand` allocations
when none fails (with that many sectors free it returns true and has taken
exactly the first `extend_demand` free sectors). If fewer sectors are free,
`k` say, the allocator fails at allocation `k + 1` of the call, after `k`
allocations have succeeded; then `inode_extend` returns false, the length
field keeps its previous value, and nothing is released: each of the `k`
sectors that were free is in use, every sector in use before the call is
still in use, and no free sector is left. -/
theorem inode_extend_no_rollback (s : FsState) (data : inode_disk) (length : Int)
    (hgrow : bytes_to_sectors data.length < bytes_to_sectors length)
    (hmax : length ≤ 8123392) (hge : data.length ≤ length) :
    (extend_demand (bytes_to_sectors data.length) (bytes_to_sectors length)
        ≤ (freeList s.fm).length →
      (inode_extend s data length).2.2 = true ∧
      freeList (inode_extend s data length).1.fm
        = (freeList s.fm).drop
            (extend_demand (bytes_to_sectors data.length) (bytes_to_sectors length))) ∧
    ((freeList s.fm).length
        < extend_demand (bytes_to_sectors data.length) (bytes_to_sectors length) →
      (inode_extend s data length).2.2 = false ∧
      (inode_extend s data length).2.1.length = data.length ∧
      (∀ x, x ∈ freeList s.fm → (inode_extend s data length).1.fm.used x = true) ∧
      (∀ j, s.fm.used j = true → (inode_extend s data length).1.fm.used j = true) ∧
      (inode_extend s data length).1.fm.size = s.fm.size ∧
      freeList (inode_extend s data length).1.fm = [] ∧
      free_map_allocate (inode_extend s data length).1.fm = none) := by
  have hc := inode_extend_consumes s data length hgrow hmax hge
  obtain ⟨l1, l2, _⟩ := inode_extend_le s data length
  refine ⟨hc.1, fun hlt => ?_⟩
  obtain ⟨f1, f2⟩ := hc.2 hlt
  refine ⟨f1, l2 f1, ?_, l1.2, l1.1, f2, free_map_allocate_none _ f2⟩
  intro x hx
  have hxs : x < s.fm.size := ((freeList_mem s.fm x).1 hx).1
  cases hu : (inode_extend s data length).1.fm.used x with
  | true => rfl
  | false =>
    have hmem : x ∈ freeList (inode_extend s data length).1.fm :=
      (freeList_mem _ x).2 ⟨by rw [l1.1]; exact hxs, hu⟩
    rw [f2] at hmem
    exact absurd hmem (List.not_mem_nil x)

set_option maxRecDepth 100000 in
/-- Witness of C14, in the single-indirect tier: a file of 122 sectors is
grown to 127 sectors (65024 bytes), which asks for 5 allocations, with three
free sectors (61, 62, 63): the allocator fails at the fourth allocation, the call
returns false, the length stays 62464, and the three sectors stay in use. -/
theorem inode_extend_no_rollback_witness :
    (bytes_to_sectors rec122.length < bytes_to_sectors 65024 ∧ (65024 : Int) ≤ 8123392 ∧
      rec122.length ≤ 65024) ∧
    freeList tightFs.fm = [61, 62, 63] ∧
    extend_demand (bytes_to_sectors rec122.length) (bytes_to_sectors 65024) = 5 ∧
    (inode_extend tightFs rec122 65024).2.2 = false ∧
    (inode_extend tightFs rec122 65024).2.1.length = rec122.length ∧
    (∀ x, x ∈ freeList tightFs.fm → (inode_extend tightFs rec122 65024).1.fm.used x = true) ∧
    (∀ j, tightFs.fm.used j = true → (inode_extend tightFs rec122 65024).1.fm.used j = true) ∧
    (inode_extend tightFs rec122 65024).1.fm.size = tightFs.fm.size ∧
    freeList (inode_extend tightFs rec122 65024).1.fm = [] ∧
    free_map_allocate (inode_extend tightFs rec122 65024).1.fm = none :=
  ⟨⟨by decide, by decide, by decide⟩, by decide, by decide,
   (inode_extend_no_rollback tightFs rec122 65024 (by decide) (by decide) (by decide)).2
     (by decide)⟩

/-! ## Reading past the end of the device -/

theorem cache_read_below (c : Cache) (S B : Nat) (h : ResidentBelow c B) (hS : S < B) :
    ResidentBelow (cache_read c S).1 B := by
  unfold cache_read
  cases hl : cache_lookup c S with
  | some i => exact h
  | none =>
    by_cases hsz : c.size < CACHE_SIZE
    · simp only [hsz, if_true]
      intro i hi
      by_cases hic : i = c.size
      · subst hic
        simp [setBlock, hS]
      · have hi' : i < c.size := by
          have : i < c.size + 1 := hi
          omega
        simp only [setBlock, hic, if_false]
        exact h i hi'
    · simp only [hsz, if_false]
      intro i hi
      have hi' : i < c.size := hi
      by_cases hic : i = (clock_scan c.blocks c.clock_hand 0 CACHE_SIZE).2
      · simp [setBlock, hic, hS]
      · simp only [setBlock, hic, if_false]
        rw [(clock_scan_fields CACHE_SIZE c.blocks c.clock_hand 0 i).1]
        exact h i hi'

theorem inode_length_below (c : Cache) (ino : inode) (B : Nat) (h : ResidentBelow c B)
    (hS : ino.sector < B) : ResidentBelow (inode_length c ino).1 B := by
  unfold inode_length
  exact cache_read_below c ino.sector B h hS

/-- The reads of `byte_to_sector` keep the resident sectors below `B` when the
inode's sector, its two index sectors and the entries of its double-indirect
block are below `B`. -/
theorem byte_to_sector_below (c : Cache) (hc : CacheInv c) (ino : inode) (pos : Int) (B : Nat)
    (h : ResidentBelow c B) (h1 : ino.sector < B)
    (h2 : (decode_inode (cache_view c ino.sector)).indirect < B)
    (h3 : (decode_inode (cache_view c ino.sector)).doubly_indirect < B)
    (h4 : ∀ e, getWord (cache_view c (decode_inode (cache_view c ino.sector)).doubly_indirect) e
      < B) :
    ResidentBelow (byte_to_sector c ino pos).1 B := by
  obtain ⟨r0, rc0, rv0⟩ := cache_read_spec c hc ino.sector
  have b0 := cache_read_below c ino.sector B h h1
  unfold byte_to_sector
  simp only [r0]
  split
  · split
    · exact b0
    · split
      · exact cache_read_below _ _ B b0 h2
      · split
        · obtain ⟨r1, rc1, rv1⟩ := cache_read_spec _ rc0
            (decode_inode (cache_view c ino.sector)).doubly_indirect
          have b1 := cache_read_below _ _ B b0 h3
          refine cache_read_below _ _ B b1 ?_
          rw [r1, rv0]
          exact h4 _
        · exact b0
  · exact b0

/-- The direct block of `inode_extend` depends on `new` only through
`min (new, DIRECT_SIZE)`. -/
theorem extend_direct_congr (s : FsState) (data : inode_disk) (cur new new' : Nat)
    (h1 : DIRECT_SIZE ≤ new) (h2 : DIRECT_SIZE ≤ new') :
    extend_direct s data cur new = extend_direct s data cur new' := by
  have a1 : ¬ new < DIRECT_SIZE := by omega
  have a2 : ¬ new' < DIRECT_SIZE := by omega
  unfold extend_direct
  simp only [a1, a2, if_false]

/-- The single-indirect block of `inode_extend` is the same for every `new`
that reaches past it. -/
theorem extend_indirect_congr (s : FsState) (data : inode_disk) (cur new new' : Nat)
    (h1 : DIRECT_SIZE + 128 ≤ new) (h2 : DIRECT_SIZE + 128 ≤ new') :
    extend_indirect s data cur new = extend_indirect s data cur new' := by
  have a1 : new ≥ DIRECT_SIZE + 128 := h1
  have a2 : new' ≥ DIRECT_SIZE + 128 := h2
  have b1 : new > DIRECT_SIZE := by omega
  have b2 : new' > DIRECT_SIZE := by omega
  unfold extend_indirect
  simp only [a1, a2, b1, b2, if_true, and_true]

/-- Growth inside block indices 250 .. 377: the double-indirect block of
`inode_extend` reads the double-indirect index sector and writes it back as it
was read; it allocates nothing. -/
theorem extend_doubly_noalloc_eq (s : FsState) (data : inode_disk) (cur new : Nat)
    (hcur : 250 ≤ cur) (hlt : cur < new) (hnew : new ≤ 377) :
    extend_doubly s data cur new
      = { st := FsState.mk (cache_write (cache_read s.cache data.doubly_indirect).1
              data.doubly_indirect
              (encode_indirect (decode_indirect (cache_read s.cache data.doubly_indirect).2)))
            s.fm
          data := data, cur := cur, ok := true } := by
  have hc : cur < DIRECT_SIZE + 128 + 128 * 128 ∧ new > DIRECT_SIZE + 128 := by
    simp only [DIRECT_SIZE]; omega
  have hmini : (cur - DIRECT_SIZE + 128) / 128 = 2 := by
    simp only [DIRECT_SIZE]; omega
  have hmaxi : (new - DIRECT_SIZE + 128) / 128 = 2 := by
    simp only [DIRECT_SIZE]; omega
  unfold extend_doubly
  simp only [hc, and_self, if_true, hmini, hmaxi, indirect_blocker]
  norm_num [alloc_loop_zero, extend_children_zero]

/-- Growth of an empty record to `n` sectors, `251 <= n <= 377`, against growth
to 250 sectors: the same allocations, then the double-indirect index sector is
read and written back, and the length recorded is the one asked for. -/
theorem inode_extend_past_indirect (s : FsState) (data : inode_disk) (L : Int) (n : Nat)
    (hlen0 : data.length = 0) (hn1 : 251 ≤ n) (hn2 : n ≤ 377)
    (hL1 : 512 * (n : Int) - 512 < L) (hL2 : L ≤ 512 * (n : Int))
    (hE : (inode_extend s data 128000).2.2 = true) :
    inode_extend s data L
      = (FsState.mk
          (cache_write
            (cache_read (inode_extend s data 128000).1.cache
              (inode_extend s data 128000).2.1.doubly_indirect).1
            (inode_extend s data 128000).2.1.doubly_indirect
            (encode_indirect (decode_indirect
              (cache_read (inode_extend s data 128000).1.cache
                (inode_extend s data 128000).2.1.doubly_indirect).2)))
          (inode_extend s data 128000).1.fm,
         { (inode_extend s data 128000).2.1 with length := L }, true) := by
  have hcur : bytes_to_sectors data.length = 0 := by rw [hlen0]; rfl
  have hbts : bytes_to_sectors L = n :=
    bytes_to_sectors_of_range L n (by omega) hL1 hL2 (by omega)
  have h250 : bytes_to_sectors 128000 = 250 := by decide
  obtain ⟨_, a2⟩ := extend_direct_consumes s data 0 250
  generalize hr1 : extend_direct s data 0 250 = r1 at a2
  have a2' : r1.cur = DIRECT_SIZE := by
    rw [a2]
    simp [DIRECT_SIZE]
  obtain ⟨_, b2⟩ := extend_indirect_consumes r1.st r1.data r1.cur 250
  generalize hr2 : extend_indirect r1.st r1.data r1.cur 250 = r2 at b2
  have hskip : extend_doubly r2.st r2.data r2.cur 250
      = { st := r2.st, data := r2.data, cur := r2.cur, ok := true } :=
    extend_doubly_skip r2.st r2.data r2.cur 250 (by simp [DIRECT_SIZE])
  have eE : inode_extend s data 128000
      = if r1.ok = true then
          if r2.ok = true then (r2.st, { r2.data with length := 128000 }, true)
          else (r2.st, r2.data, false)
        else (r1.st, r1.data, false) := by
    have c1 : ¬ (250 : Nat) < 0 := by omega
    have c2 : ¬ (250 : Nat) = 0 := by omega
    have c3 : ¬ ((128000 : Int) > (((DIRECT_SIZE + 128 + 128 * DIRECT_SIZE) * BLOCK_SECTOR_SIZE
        : Nat) : Int) ∨ (128000 : Int) < data.length) := by
      rw [hlen0]
      norm_num [DIRECT_SIZE, BLOCK_SECTOR_SIZE]
    unfold inode_extend
    simp only [hcur, h250, c1, c2, c3, if_false, hr1, hr2, hskip, if_true]
  rw [eE] at hE ⊢
  have ok1 : r1.ok = true := by
    cases h : r1.ok with
    | true => rfl
    | false => rw [h] at hE; simp at hE
  rw [ok1] at hE ⊢
  simp only [if_true] at hE ⊢
  have ok2 : r2.ok = true := by
    cases h : r2.ok with
    | true => rfl
    | false => rw [h] at hE; simp at hE
  rw [ok2]
  simp only [if_true]
  have hcur2 : r2.cur = 250 := by
    rw [b2 ok2, a2']
    simp [DIRECT_SIZE]
  have h1 : ¬ bytes_to_sectors L < bytes_to_sectors data.length := by omega
  have h2 : ¬ bytes_to_sectors L = bytes_to_sectors data.length := by omega
  have h3 : ¬ (L > (((DIRECT_SIZE + 128 + 128 * DIRECT_SIZE) * BLOCK_SECTOR_SIZE : Nat) : Int)
      ∨ L < data.length) := by
    rw [hlen0]
    simp only [DIRECT_SIZE, BLOCK_SECTOR_SIZE]
    push_cast
    omega
  have e1 : extend_direct s data (bytes_to_sectors data.length) (bytes_to_sectors L) = r1 := by
    rw [hcur, hbts, ← hr1]
    exact extend_direct_congr s data 0 n 250 (by simp only [DIRECT_SIZE]; omega)
      (by simp only [DIRECT_SIZE]; omega)
  have e2 : extend_indirect r1.st r1.data r1.cur (bytes_to_sectors L) = r2 := by
    rw [hbts, ← hr2]
    exact extend_indirect_congr r1.st r1.data r1.cur n 250 (by simp only [DIRECT_SIZE]; omega)
      (by simp only [DIRECT_SIZE]; omega)
  have e3 := extend_doubly_noalloc_eq r2.st r2.data r2.cur n (by omega) (by omega) hn2
  rw [← hbts] at e3
  rw [inode_extend_run s data L h1 h2 h3 r1 e1 ok1 r2 e2 ok2 _ e3 rfl]

theorem length_flatMap_wordBytes (f : Nat → Nat) (n : Nat) :
    ((List.range n).flatMap (fun k => wordBytes (f k))).length = 4 * n := by
  induction n with
  | zero => simp
  | succ n ih =>
    rw [List.range_succ, List.flatMap_append, List.length_append, ih]
    simp [wordBytes]
    omega

/-- What `inode_create` leaves behind for a file of `n` sectors,
`251 <= n <= 377`, when 252 sectors are free and the inode's own sector is in
use: the call succeeds, the record has the length asked for, and the
double-indirect index sector is still all zero. -/
theorem inode_create_past_indirect (s : FsState) (sector : Nat) (L : Int) (isdir : Bool)
    (n : Nat) (hc : CacheInv s.cache) (hused : s.fm.used sector = true)
    (hn1 : 251 ≤ n) (hn2 : n ≤ 377)
    (hL1 : 512 * (n : Int) - 512 < L) (hL2 : L ≤ 512 * (n : Int))
    (hfree : 252 ≤ (freeList s.fm).length) :
    (inode_create s sector L isdir true).2 = true ∧
    CacheInv (inode_create s sector L isdir true).1.cache ∧
    (∃ D : inode_disk,
      cache_view (inode_create s sector L isdir true).1.cache sector = encode_inode D ∧
      D.length = L ∧ D.indirect = (freeList s.fm).getD 0 0 ∧
      D.doubly_indirect = (freeList s.fm).getD 1 0) ∧
    (∀ e, getWord (cache_view (inode_create s sector L isdir true).1.cache
      ((freeList s.fm).getD 1 0)) e = 0) := by
  obtain ⟨f1, f2, f3, f4, _, _, f7⟩ := fm_allo_spec s (fresh_inode_disk isdir) hc (by omega)
  generalize hr1 : fm_allo s (fresh_inode_disk isdir) = r1 at f1 f2 f3 f4 f7
  have hlen0 : r1.2.1.length = 0 := by rw [f2]; rfl
  have hdl : r1.2.1.direct.length = 122 := by rw [f2]; simp [fresh_inode_disk, DIRECT_SIZE]
  have hind : r1.2.1.indirect = (freeList s.fm).getD 0 0 := by rw [f2]
  have hdbl : r1.2.1.doubly_indirect = (freeList s.fm).getD 1 0 := by rw [f2]
  obtain ⟨g1, _, g3, g4, _, _, g7, _, _, _, g11, _⟩ :=
    inode_extend_small r1.1 r1.2.1 128000 250 f3 hlen0 hdl (by omega) (by omega) (by omega)
      (by omega) (by rw [f4, List.length_drop]; omega)
  have hrel := inode_extend_past_indirect r1.1 r1.2.1 L n hlen0 hn1 hn2 hL1 hL2 g1
  generalize hE : inode_extend r1.1 r1.2.1 128000 = E at g1 g3 g4 g7 g11 hrel
  have hnd := freeList_nodup s.fm
  have hsec : sector ∉ freeList s.fm := not_mem_freeList_of_used s.fm sector hused
  have h1ne : (freeList s.fm).getD 1 0 ≠ sector := getD_ne_of_not_mem _ _ 1 hsec (by omega)
  have h10 : (freeList s.fm).getD 1 0 ≠ (freeList s.fm).getD 0 0 := by
    intro heq
    have := getD_inj_of_nodup _ hnd _ _ (by omega) (by omega) heq
    omega
  have hnot : (freeList s.fm).getD 1 0 ∉ (freeList r1.1.fm).take 250 := by
    rw [f4]
    intro hmem
    have hmem2 := List.mem_of_mem_drop (List.mem_of_mem_take hmem)
    obtain ⟨t, ht, hte⟩ := List.getElem_of_mem (List.mem_of_mem_take hmem)
    rw [List.length_drop] at ht
    have h1 : (freeList s.fm).getD (2 + t) 0 = (freeList s.fm).getD 1 0 := by
      rw [← getD_drop_nat, List.getD_eq_getElem _ _ (by rw [List.length_drop]; exact ht)]
      exact hte
    have := getD_inj_of_nodup _ hnd _ _ (by omega) (by omega) h1
    omega
  have hzero : cache_view E.1.cache ((freeList s.fm).getD 1 0) = zeroSector := by
    rw [g11 _ (by rw [hind]; exact h10), if_neg hnot, f7]
    rw [if_pos (getD_mem_take _ 2 1 (by omega) (by omega))]
  have hEd : E.2.1.doubly_indirect = (freeList s.fm).getD 1 0 := by rw [g4, hdbl]
  obtain ⟨rd, rdc, rdv⟩ := cache_read_spec E.1.cache g7 ((freeList s.fm).getD 1 0)
  rw [hEd] at hrel
  obtain ⟨w1, w1v⟩ := cache_write_spec _ rdc ((freeList s.fm).getD 1 0)
    (encode_indirect (decode_indirect (cache_read E.1.cache ((freeList s.fm).getD 1 0)).2))
  obtain ⟨w2, w2v⟩ := cache_write_spec _ w1 sector (encode_inode { E.2.1 with length := L })
  have e : inode_create s sector L isdir true
      = (FsState.mk (cache_write (cache_write
            (cache_read E.1.cache ((freeList s.fm).getD 1 0)).1 ((freeList s.fm).getD 1 0)
            (encode_indirect (decode_indirect
              (cache_read E.1.cache ((freeList s.fm).getD 1 0)).2)))
          sector (encode_inode { E.2.1 with length := L })) E.1.fm, true) := by
    unfold inode_create
    simp only [if_true, hr1, f1, hrel]
  rw [e]
  refine ⟨rfl, w2, ⟨{ E.2.1 with length := L }, ?_, rfl, by rw [← hind, ← g3], hEd⟩, ?_⟩
  · show cache_view (cache_write _ sector _) sector = _
    rw [w2v, if_pos rfl]
  · intro e'
    show getWord (cache_view (cache_write _ sector _) ((freeList s.fm).getD 1 0)) e' = 0
    rw [w2v, if_neg h1ne, w1v, if_pos rfl, rd, hzero]
    by_cases he : e' < 128
    · rw [getWord_encode_indirect _ _ he]
      unfold decode_indirect
      rw [getD_map_range, if_pos he, getWord_zeroSector]
    · have hlen : (encode_indirect (decode_indirect zeroSector)).length = 512 := by
        unfold encode_indirect
        exact length_flatMap_wordBytes _ 128
      unfold getWord getByte
      rw [List.getD_eq_default _ _ (by omega), List.getD_eq_default _ _ (by omega),
        List.getD_eq_default _ _ (by omega), List.getD_eq_default _ _ (by omega)]

/-- The translation of an offset of the double-indirect tier. -/
theorem sector_of_doubly (v : Nat → SectorData) (isec : Nat) (D : inode_disk) (pos : Int)
    (hv : v isec = encode_inode D) (h0 : 0 ≤ pos) (hlt : pos < D.length)
    (hL : D.length < 2147483648) (h250 : 250 ≤ pos / 512) (hb : pos / 512 < 122 + 128 * 128) :
    sector_of v isec pos
      = getWord (v (getWord (v (D.doubly_indirect % 4294967296))
          (((pos / 512).toNat - 250) / 128))) (((pos / 512).toNat - 250) % 128) := by
  have hlen : (decode_inode (encode_inode D)).length = D.length :=
    decode_encode_length D (by omega) hL
  have e : Int.tdiv pos 512 = pos / 512 := Int.tdiv_eq_ediv h0 (by decide)
  have c1 : pos < D.length ∧ pos ≥ 0 := ⟨hlt, h0⟩
  have c2 : ¬ pos / 512 < 122 := by omega
  have c3 : ¬ pos / 512 < 122 + 128 := by omega
  have hnn : 0 ≤ pos / 512 - (122 + 128) := by omega
  have e1 : ((pos / 512 - (122 + 128)) / 128).toNat = ((pos / 512).toNat - 250) / 128 := by
    omega
  have e2 : ((pos / 512 - (122 + 128)) % 128).toNat = ((pos / 512).toNat - 250) % 128 := by
    omega
  have t1 : Int.tdiv (pos / 512 - (122 + 128)) 128 = (pos / 512 - (122 + 128)) / 128 :=
    Int.tdiv_eq_ediv hnn (by decide)
  have t2 : Int.tmod (pos / 512 - (122 + 128)) 128 = (pos / 512 - (122 + 128)) % 128 :=
    Int.tmod_eq_emod hnn (by decide)
  unfold sector_of
  rw [hv, hlen, e]
  simp only [c1, and_self, if_true, c2, if_false, c3, hb, decode_encode_doubly, t1, t2, e1, e2]

/-- C24, as the code behaves: a file of 377 sectors (`192512 < L <= 193024`)
is created in sector 0 with 252 sectors free, on a device of `dsize` sectors
that the free map covers (`dsize <= 192512`); the file system is shut down and
started again. `inode_create` succeeds and `inode_length` reports `L`, so a read
of `size > 0` bytes at offset 192512 should return `min (size, L - 192512) > 0`
bytes. But the offset lies in block 376, which `byte_to_sector` translates
through entry 0 of the double-indirect block; growth never filled that
entry, so the translation follows it to sector 0, the inode's own sector,
and returns its word 126, the length field `L`, as a sector number. That
number is past the end of the device, no slot holds it, and `inode_read_at`
does not return. -/
theorem read_past_device_aborts (s : FsState) (L size : Int) (dsize : Nat) (ino : inode)
    (hc : CacheInv s.cache) (hino : ino.sector = 0) (hused : s.fm.used 0 = true)
    (hL1 : 192512 < L) (hL2 : L ≤ 193024) (hfree : 252 ≤ (freeList s.fm).length)
    (hd1 : s.fm.size ≤ dsize) (hd2 : dsize ≤ 192512) (hsize : 0 < size) :
    (inode_create s 0 L false true).2 = true ∧
    (inode_length (cache_restart (inode_create s 0 L false true).1.cache) ino).2 = L ∧
    (byte_to_sector (cache_restart (inode_create s 0 L false true).1.cache) ino 192512).2
      = L.toNat ∧
    0 < min size (max 0 (L - 192512)) ∧
    inode_read_at dsize (cache_restart (inode_create s 0 L false true).1.cache) ino size 192512
      = none := by
  obtain ⟨c1, c2, ⟨D, d1, d2, d3, d4⟩, c4⟩ :=
    inode_create_past_indirect s 0 L false 377 hc hused (by omega) (by omega) (by omega)
      (by omega) hfree
  generalize (inode_create s 0 L false true).1.cache = cc at c2 d1 c4
  have hF0 : (freeList s.fm).getD 0 0 < dsize :=
    lt_of_lt_of_le (freeList_lt s.fm 0 (by omega)) hd1
  have hF1 : (freeList s.fm).getD 1 0 < dsize :=
    lt_of_lt_of_le (freeList_lt s.fm 1 (by omega)) hd1
  have hview : cache_view (cache_restart cc) = cache_view cc := by
    unfold cache_restart
    rw [cache_view_init]
    funext T
    exact (cache_flush_spec cc c2).2.2 T
  have hc0 : CacheInv (cache_restart cc) := cache_init_inv _
  have hb0 : ResidentBelow (cache_restart cc) dsize := by
    intro i hi
    simp [cache_restart, cache_init] at hi
  generalize cache_restart cc = c0 at hview hc0 hb0
  have hv0 : cache_view c0 ino.sector = encode_inode D := by rw [hview, hino, d1]
  have hlenD : (decode_inode (encode_inode D)).length = L := by
    rw [decode_encode_length D (by omega) (by omega), d2]
  have hind : (decode_inode (encode_inode D)).indirect = (freeList s.fm).getD 0 0 := by
    rw [decode_encode_indirect, d3]
    exact Nat.mod_eq_of_lt (by omega)
  have hdbl : (decode_inode (encode_inode D)).doubly_indirect = (freeList s.fm).getD 1 0 := by
    rw [decode_encode_doubly, d4]
    exact Nat.mod_eq_of_lt (by omega)
  have hword : getWord (encode_inode D) 126 = L.toNat := by
    rw [getWord_encode_inode, inode_words_tail D _ 4]
    have e : [D.indirect, D.doubly_indirect, if D.directory then 1 else 0, D.parent_node,
        ofInt32 D.length, D.magic].getD 4 0 = ofInt32 D.length := rfl
    rw [e, d2]
    unfold ofInt32
    omega
  have hX : sector_of (cache_view c0) ino.sector 192512 = L.toNat := by
    have e1 : ((192512 : Int) / 512).toNat = 376 := by decide
    rw [sector_of_doubly _ _ D 192512 hv0 (by omega) (by omega) (by omega) (by decide)
      (by decide), e1, d4, Nat.mod_eq_of_lt (by omega : (freeList s.fm).getD 1 0 < 4294967296),
      hview]
    have e2 : (376 - 250) / 128 = 0 := by decide
    have e3 : (376 - 250) % 128 = 126 := by decide
    rw [e2, e3, c4 0, d1, hword]
  obtain ⟨b1, bc1, bv1⟩ := byte_to_sector_view c0 hc0 ino 192512
  obtain ⟨l0, _, _⟩ := inode_length_view c0 hc0 ino
  obtain ⟨l1, lc1, lv1⟩ := inode_length_view (byte_to_sector c0 ino 192512).1 bc1 ino
  rw [bv1, hv0, hlenD] at l1
  have hbelow : ResidentBelow (inode_length (byte_to_sector c0 ino 192512).1 ino).1 dsize := by
    apply inode_length_below _ _ _ _ (by omega)
    apply byte_to_sector_below c0 hc0 ino 192512 dsize hb0 (by omega)
    · rw [hv0, hind]; exact hF0
    · rw [hv0, hdbl]; exact hF1
    · intro e
      rw [hv0, hdbl, hview, c4 e]
      omega
  have hmiss : cache_lookup (inode_length (byte_to_sector c0 ino 192512).1 ino).1 L.toNat
      = none := by
    rw [cache_lookup_none_iff]
    intro i hi
    have := hbelow i hi
    omega
  refine ⟨c1, by rw [l0, hv0, hlenD], by rw [b1, hX], by omega, ?_⟩
  obtain ⟨m, hm⟩ : ∃ m, size.toNat = m + 1 := ⟨size.toNat - 1, by omega⟩
  unfold inode_read_at
  rw [hm, read_loop_succ]
  have hs : size > 0 := hsize
  simp only [hs, if_true]
  have hsofs : Int.tmod 192512 512 = 0 := by decide
  simp only [b1, l1, hsofs, hX]
  have hchunk : ¬ (if size < (if L - 192512 < 512 - 0 then L - 192512 else 512 - 0) then size
      else if L - 192512 < 512 - 0 then L - 192512 else 512 - 0) ≤ 0 := by
    split_ifs <;> omega
  simp only [hchunk, if_false]
  rw [cache_read_dev_none dsize _ _ hmiss (by omega)]

set_option maxRecDepth 100000 in
/-- The failing input of C24: on a fresh device of 1024 sectors with only
sector 0 in use, a file of 193000 bytes is created in sector 0; after a
restart, reading one byte at offset 192512 does not return, although the
file is 193000 bytes long: the offset is translated to sector number 193000. -/
theorem read_past_device_aborts_witness :
    CacheInv fsZero.cache ∧ ino0.sector = 0 ∧ fsZero.fm.used 0 = true ∧
    (192512 : Int) < 193000 ∧ (193000 : Int) ≤ 193024 ∧
    252 ≤ (freeList fsZero.fm).length ∧ fsZero.fm.size ≤ 1024 ∧ 1024 ≤ 192512 ∧
    (0 : Int) < 1 ∧
    ((inode_create fsZero 0 193000 false true).2 = true ∧
    (inode_length (cache_restart (inode_create fsZero 0 193000 false true).1.cache) ino0).2
      = 193000 ∧
    (byte_to_sector (cache_restart (inode_create fsZero 0 193000 false true).1.cache) ino0
      192512).2 = (193000 : Int).toNat ∧
    0 < min (1 : Int) (max 0 (193000 - 192512)) ∧
    inode_read_at 1024 (cache_restart (inode_create fsZero 0 193000 false true).1.cache) ino0 1
      192512 = none) :=
  ⟨cache_init_inv _, rfl, by decide, by decide, by decide, by decide, by decide, by decide,
   by decide,
   read_past_device_aborts fsZero 193000 1 1024 ino0 (cache_init_inv _) rfl (by decide)
     (by decide) (by decide) (by decide) (by decide) (by decide) (by decide)⟩

end Pintos
